import Mathlib

/-! # VirtFS: a block-based filesystem emulator

Shallow embedding of `src/filesystem/*.cpp` (BlockManager, FileMeta, Directory,
Serializer, FileSystem) and the properties proved about it.

Modelling conventions
* `std::string` / `std::vector<char>` are `List Char`; the zero byte is `Char.ofNat 0`.
* C++ `int` is `Int` (no operation studied here relies on wrap-around).
* The disk image is kept as its sequence of blocks: entry `i` of `disk` is the
  `blockSize` bytes found at byte offset `i * blockSize`.
* `time(nullptr)` is an explicit argument `now`.
* A function returns `none` where the C++ has undefined behaviour (a
  `std::vector` index or iterator out of range, a `memcpy` past the end of
  its buffer).
* `Directory*` is a path of child positions from the root of the tree; the
  parent of a node is its path without the last step.
-/

namespace VirtFS

/-! ## Small helpers -/

/-- The zero byte. -/
def zeroByte : Char := Char.ofNat 0

/-- A buffer `std::vector<char>(n, 0)`. -/
def zeros (n : Nat) : List Char := List.replicate n zeroByte

/-- The value of `(int)ceil((double)a / b)` for a positive `b` (exact on 32-bit ints). -/
def ceilDiv (a : Int) (b : Nat) : Int := -((-a) / (b : Int))

/-- The test `(perm & (1 << k)) != 0` on a two's-complement int. -/
def testMask (perm : Int) (k : Nat) : Bool := decide ((perm / 2 ^ k) % 2 = 1)

/-- The result of `memcpy(buf.data() + off, src.data(), n)` on the destination buffer. -/
def memcpy (buf : List Char) (off : Nat) (src : List Char) (n : Nat) : List Char :=
  buf.take off ++ src.take n ++ buf.drop (off + n)

/-- Checked `std::vector<int>::operator[]` with an `int` index. -/
def vecGet (v : List Int) (i : Int) : Option Int :=
  if i < 0 then none else v[i.toNat]?

/-- Checked `v.erase(v.begin() + a, v.end())`. -/
def vecEraseFrom (v : List Int) (a : Int) : Option (List Int) :=
  if 0 ≤ a ∧ a ≤ (v.length : Int) then some (v.take a.toNat) else none

/-! ## BlockManager -/

/-- State of `BlockManager`: configuration, in-memory bitmap (`true` = free),
the disk image and the bitmap store file. -/
structure BlockManager where
  blockSize : Nat
  totalBlocks : Nat
  freeBlockBitmap : List Bool
  disk : List (List Char)
  metaFile : List Char
deriving DecidableEq, Repr

namespace BlockManager

/-- The constructor `BlockManager::BlockManager`, over a given disk image. -/
def new (blockSize totalBlocks : Nat) (disk : List (List Char)) : BlockManager :=
  { blockSize := blockSize
    totalBlocks := totalBlocks
    freeBlockBitmap := (List.replicate totalBlocks true).set 0 false
    disk := disk
    metaFile := [] }

/-- `BlockManager::saveMeta`: one byte per block, `'1'` = free, `'0'` = used. -/
def saveMeta (bm : BlockManager) : BlockManager :=
  { bm with metaFile := bm.freeBlockBitmap.map (fun bit => if bit then '1' else '0') }

/-- `BlockManager::readBlock`: the success flag and the buffer afterwards. -/
def readBlock (bm : BlockManager) (index : Int) (buffer : List Char) : Bool × List Char :=
  if index < 0 ∨ index ≥ (bm.totalBlocks : Int) then (false, buffer)
  else (true, bm.disk.getD index.toNat (zeros bm.blockSize))

/-- `BlockManager::writeBlock`: writes the first `blockSize` bytes of `buffer`
(every caller passes a buffer of exactly `blockSize` bytes). -/
def writeBlock (bm : BlockManager) (index : Int) (buffer : List Char) : Bool × BlockManager :=
  if index < 0 ∨ index ≥ (bm.totalBlocks : Int) then (false, bm)
  else (true, { bm with disk := bm.disk.set index.toNat (buffer.take bm.blockSize) })

/-- The scan `for (i = ...; i < totalBlocks; i++) if (freeBlockBitmap[i]) ...`
with `n` iterations left: the first free index met, if any. -/
def allocScan (bitmap : List Bool) : Nat → Nat → Option Nat
  | _, 0 => none
  | i, n + 1 => if bitmap.getD i false then some i else allocScan bitmap (i + 1) n

/-- `BlockManager::allocateBlock`: the returned index (`-1` when out of space)
and the manager afterwards. -/
def allocateBlock (bm : BlockManager) : Int × BlockManager :=
  match allocScan bm.freeBlockBitmap 1 (bm.totalBlocks - 1) with
  | some i => ((i : Int), saveMeta { bm with freeBlockBitmap := bm.freeBlockBitmap.set i false })
  | none => (-1, bm)

/-- `BlockManager::freeBlock`. -/
def freeBlock (bm : BlockManager) (index : Int) : BlockManager :=
  if index < 0 ∨ index ≥ (bm.totalBlocks : Int) then bm
  else saveMeta { bm with freeBlockBitmap := bm.freeBlockBitmap.set index.toNat true }

/-- `BlockManager::markBlockUsed`. -/
def markBlockUsed (bm : BlockManager) (index : Int) : BlockManager :=
  if index < 0 ∨ index ≥ (bm.totalBlocks : Int) then bm
  else saveMeta { bm with freeBlockBitmap := bm.freeBlockBitmap.set index.toNat false }

/-- `BlockManager::isBlockFree` (the C++ indexes the bitmap unchecked). -/
def isBlockFree (bm : BlockManager) (index : Int) : Option Bool :=
  if index < 0 then none else bm.freeBlockBitmap[index.toNat]?

/-- The loop `for (int blk : blocks) bm->freeBlock(blk);`. -/
def freeBlocks (bm : BlockManager) : List Int → BlockManager
  | [] => bm
  | blk :: rest => freeBlocks (bm.freeBlock blk) rest

end BlockManager

/-! ## FileMeta and Directory -/

/-- The record `struct FileMeta`. -/
structure FileMeta where
  filename : String
  fileSize : Int
  indexBlock : Int
  blocks : List Int
  createdAt : Int
  modifiedAt : Int
  permissions : Int
deriving DecidableEq, Repr

/-- The default constructor `FileMeta()` run at time `now`. -/
def FileMeta.new (now : Int) : FileMeta :=
  { filename := "", fileSize := 0, indexBlock := -1, blocks := [],
    createdAt := now, modifiedAt := now, permissions := 6 }

/-- A node of the tree of `class Directory`: `files` is the `std::map` as its
key-ordered entry list, `subdirs` the vector of owned children. -/
inductive Directory where
  | mk (name : String) (permissions : Int) (files : List (String × FileMeta))
      (subdirs : List Directory)
deriving Repr

namespace Directory

/-- Field `name`. -/
def name : Directory → String
  | .mk n _ _ _ => n

/-- Field `permissions`. -/
def permissions : Directory → Int
  | .mk _ p _ _ => p

/-- Field `files`. -/
def files : Directory → List (String × FileMeta)
  | .mk _ _ f _ => f

/-- Field `subdirs`. -/
def subdirs : Directory → List Directory
  | .mk _ _ _ s => s

/-- The constructor `Directory::Directory(name, parent, bm)`. -/
def new (name : String) : Directory := .mk name 7 [] []

/-- The node a path of child positions leads to. -/
def getDir : Directory → List Nat → Option Directory
  | d, [] => some d
  | .mk _ _ _ sds, i :: p =>
    match sds[i]? with
    | none => none
    | some c => getDir c p

/-- Replace the `files` map of the node at a path. -/
def setFiles : Directory → List Nat → List (String × FileMeta) → Directory
  | .mk n pm _ sds, [], fs => .mk n pm fs sds
  | .mk n pm f sds, i :: p, fs =>
    match sds[i]? with
    | none => .mk n pm f sds
    | some c => .mk n pm f (sds.set i (setFiles c p fs))

end Directory

/-! ### The `std::map<std::string, FileMeta>` operations -/

/-- The method `files.find(k)`. -/
def mapFind (m : List (String × FileMeta)) (k : String) : Option FileMeta :=
  match m with
  | [] => none
  | (k', v) :: rest => if k' = k then some v else mapFind rest k

/-- The assignment `files[k] = v` (insert in key order, or overwrite). -/
def mapInsert (m : List (String × FileMeta)) (k : String) (v : FileMeta) :
    List (String × FileMeta) :=
  match m with
  | [] => [(k, v)]
  | (k', v') :: rest =>
    if k' = k then (k, v) :: rest
    else if k.data < k'.data then (k, v) :: (k', v') :: rest
    else (k', v') :: mapInsert rest k v

/-- A store through the reference `FileMeta& fm = files[k]` of an existing key. -/
def mapAssign (m : List (String × FileMeta)) (k : String) (v : FileMeta) :
    List (String × FileMeta) :=
  match m with
  | [] => []
  | (k', v') :: rest => if k' = k then (k', v) :: rest else (k', v') :: mapAssign rest k v

/-- The method `files.erase(files.find(k))`. -/
def mapErase (m : List (String × FileMeta)) (k : String) : List (String × FileMeta) :=
  match m with
  | [] => []
  | (k', v') :: rest => if k' = k then rest else (k', v') :: mapErase rest k

/-! ### Traversal of the tree -/

mutual
/-- The file records met by `writeDir`, in the order it visits them:
children first, then the node's own files. -/
def Directory.allFiles : Directory → List FileMeta
  | .mk _ _ files subdirs => allFilesList subdirs ++ files.map (fun p => p.2)
/-- The records of a list of sibling directories, in order. -/
def allFilesList : List Directory → List FileMeta
  | [] => []
  | d :: ds => d.allFiles ++ allFilesList ds
end

/-- Every block a record references: its index block, then its data blocks. -/
def FileMeta.refs (fm : FileMeta) : List Int := fm.indexBlock :: fm.blocks

/-- Every block referenced from the tree, with multiplicity. -/
def Directory.refBlocks (d : Directory) : List Int := d.allFiles.flatMap FileMeta.refs

/-! ## Serializer -/

namespace Serializer

/-- Two-digit rendering used by `strftime` for `%d %m %H %M %S`. -/
def pad2 (n : Int) : List Char :=
  (if n < 10 then ['0'] else []) ++ (toString n).toList

/-- `formatTimestampToString`: `"Not-set"` for 0, else `%d-%m-%Y_%H:%M:%S`
(with `localtime` taken to be UTC). -/
def formatTimestampToString (timestamp : Int) : List Char :=
  if timestamp = 0 then "Not-set".toList
  else
    let days := timestamp / 86400
    let secs := timestamp % 86400
    let z := days + 719468
    let era := z / 146097
    let doe := z - era * 146097
    let yoe := (doe - doe / 1460 + doe / 36524 - doe / 146096) / 365
    let doy := doe - (365 * yoe + yoe / 4 - yoe / 100)
    let mp := (5 * doy + 2) / 153
    let d := doy - (153 * mp + 2) / 5 + 1
    let m := if mp < 10 then mp + 3 else mp - 9
    let y := yoe + era * 400 + (if m ≤ 2 then 1 else 0)
    pad2 d ++ ['-'] ++ pad2 m ++ ['-'] ++ (toString y).toList ++ ['_'] ++
      pad2 (secs / 3600) ++ [':'] ++ pad2 (secs % 3600 / 60) ++ [':'] ++ pad2 (secs % 60)

/-- The four bytes of a 32-bit `int` in memory (little-endian two's complement). -/
def int32Bytes (n : Int) : List Char :=
  let u := (n % 4294967296).toNat
  [Char.ofNat (u % 256), Char.ofNat (u / 256 % 256), Char.ofNat (u / 65536 % 256),
   Char.ofNat (u / 16777216 % 256)]

/-- `Serializer::writeIndexBlock`: `none` when the two `memcpy` calls do not
fit in the `blockSize`-byte buffer. A failed `writeBlock` is ignored. -/
def writeIndexBlock (bm : BlockManager) (fm : FileMeta) : Option BlockManager :=
  let count := fm.blocks.length
  if 4 + 4 * count ≤ bm.blockSize then
    let buffer := memcpy (zeros bm.blockSize) 0 (int32Bytes (count : Int)) 4
    let buffer := memcpy buffer 4 (fm.blocks.flatMap int32Bytes) (4 * count)
    some (bm.writeBlock fm.indexBlock buffer).2
  else none

/-- The calls of `writeIndexBlock` made while a list of records is visited. -/
def writeIndexBlocks (bm : BlockManager) : List FileMeta → Option BlockManager
  | [] => some bm
  | fm :: rest =>
    match writeIndexBlock bm fm with
    | none => none
    | some bm' => writeIndexBlocks bm' rest

/-- The text after the name on a `FILE` line (shared by both writers):
`<size> <indexBlock> <blk>... | <created> <modified> perm <p>\n`. -/
def fileFields (fm : FileMeta) : List Char :=
  [' '] ++ (toString fm.fileSize).toList ++ [' '] ++ (toString fm.indexBlock).toList ++ [' '] ++
    fm.blocks.flatMap (fun blk => (toString blk).toList ++ [' ']) ++
    "| ".toList ++ formatTimestampToString fm.createdAt ++ [' '] ++
    formatTimestampToString fm.modifiedAt ++ " perm ".toList ++
    (toString fm.permissions).toList ++ ['\n']

/-- One `FILE` line of the tree snapshot at the given indent. -/
def fileLine (fm : FileMeta) (indent : Nat) : List Char :=
  List.replicate indent ' ' ++ "FILE ".toList ++ fm.filename.toList ++ fileFields fm

mutual
/-- The text produced by the recursive lambda `writeDir` of `saveDirectory`. -/
def writeDir : Directory → Nat → List Char
  | .mk name perm files subdirs, indent =>
    List.replicate indent ' ' ++ "DIR ".toList ++ name.toList ++ " perm ".toList ++
      (toString perm).toList ++ ['\n'] ++
      writeDirs subdirs (indent + 2) ++
      files.flatMap (fun p => fileLine p.2 (indent + 2)) ++
      List.replicate indent ' ' ++ "END_DIR\n".toList
/-- The text of a list of sibling directories. -/
def writeDirs : List Directory → Nat → List Char
  | [], _ => []
  | d :: ds, indent => writeDir d indent ++ writeDirs ds indent
end

/-- The block image `vector<char> buffer(blockSize, 0)` filled with the first
`blockSize` bytes of `data`. -/
def blockOfText (blockSize : Nat) (data : List Char) : List Char :=
  data.take blockSize ++ zeros (blockSize - data.length)

/-- `Serializer::saveDirectory(BlockManager&, Directory*)`: every record's
index block is rewritten while the text is built, then block 0 is written. -/
def saveDirectory (bm : BlockManager) (dir : Directory) : Option BlockManager :=
  match writeIndexBlocks bm dir.allFiles with
  | none => none
  | some bm1 => some (bm1.writeBlock 0 (blockOfText bm1.blockSize (writeDir dir 0))).2

/-- `Serializer::saveDirectory(BlockManager&, map<string, FileMeta>&)`: the
flat legacy writer. -/
def saveDirectoryFlat (bm : BlockManager) (files : List (String × FileMeta)) : BlockManager :=
  let data := files.flatMap (fun p => p.2.filename.toList ++ fileFields p.2)
  (bm.writeBlock 0 (blockOfText bm.blockSize data)).2

end Serializer

/-! ## FileSystem state and the Directory operations -/

/-- State of `class FileSystem`: the block manager, the tree, and the current
directory as a path from the root. -/
structure FileSystem where
  bm : BlockManager
  root : Directory
  currentDir : List Nat

namespace Directory

/-- `Directory::saveDirectory`: climbs to the root and serializes the whole tree. -/
def saveDirectory (fs : FileSystem) : Option FileSystem :=
  match Serializer.saveDirectory fs.bm fs.root with
  | none => none
  | some bm' => some { fs with bm := bm' }

/-- The data-block loop of `createFile` with `n` iterations left; on
exhaustion it frees the blocks taken so far and the index block. -/
def createLoop (idxBlock : Int) : Nat → BlockManager → List Int → Option (List Int) × BlockManager
  | 0, bm, blocks => (some blocks, bm)
  | n + 1, bm, blocks =>
    let r := bm.allocateBlock
    if r.1 = -1 then (none, (r.2.freeBlocks blocks).freeBlock idxBlock)
    else createLoop idxBlock n r.2 (blocks ++ [r.1])

/-- `Directory::createFile` on the directory at path `self`. -/
def createFile (fs : FileSystem) (self : List Nat) (filename : String) (size : Int)
    (now : Int) : Option (Bool × FileSystem) :=
  match fs.root.getDir self with
  | none => none
  | some d =>
    if testMask d.permissions 1 = false then some (false, fs)
    else if (mapFind d.files filename).isSome then some (false, fs)
    else
      let numBlocks := ceilDiv size fs.bm.blockSize
      let r := fs.bm.allocateBlock
      if r.1 = -1 then some (false, { fs with bm := r.2 })
      else
        match createLoop r.1 numBlocks.toNat r.2 [] with
        | (none, bm2) => some (false, { fs with bm := bm2 })
        | (some blocks, bm2) =>
          let fm : FileMeta :=
            { FileMeta.new now with
              filename := filename, fileSize := size, indexBlock := r.1,
              permissions := 6, blocks := blocks }
          match Serializer.writeIndexBlock bm2 fm with
          | none => none
          | some bm3 =>
            match saveDirectory
                { fs with bm := bm3, root := fs.root.setFiles self (mapInsert d.files filename fm) } with
            | none => none
            | some fs' => some (true, fs')

/-- `Directory::deleteFile` on the directory at path `self`. -/
def deleteFile (fs : FileSystem) (self : List Nat) (filename : String) :
    Option (Bool × FileSystem) :=
  match fs.root.getDir self with
  | none => none
  | some d =>
    if testMask d.permissions 1 = false then some (false, fs)
    else
      match mapFind d.files filename with
      | none => some (false, fs)
      | some fm =>
        let bm1 := (fs.bm.freeBlocks fm.blocks).freeBlock fm.indexBlock
        match saveDirectory
            { fs with bm := bm1, root := fs.root.setFiles self (mapErase d.files filename) } with
        | none => none
        | some fs' => some (true, fs')

/-- `Directory::hasFile`. -/
def hasFile (d : Directory) (filename : String) : Bool := (mapFind d.files filename).isSome

/-- The block loop of `readFile`. -/
def readLoop (bm : BlockManager) : List Int → Int → List Char
  | [], _ => []
  | blk :: rest, bytesLeft =>
    let buffer := (bm.readBlock blk []).2
    let toRead := min bytesLeft (buffer.length : Int)
    let piece := if toRead > 0 then buffer.take toRead.toNat else []
    if bytesLeft - toRead ≤ 0 then piece else piece ++ readLoop bm rest (bytesLeft - toRead)

/-- `Directory::readFile` on the directory at path `self`. -/
def readFile (fs : FileSystem) (self : List Nat) (filename : String) : Option (List Char) :=
  match fs.root.getDir self with
  | none => none
  | some d =>
    match mapFind d.files filename with
    | none => some []
    | some fm =>
      if testMask fm.permissions 2 = false then some []
      else some (readLoop fs.bm fm.blocks fm.fileSize)

/-- The block loop of `writeFile`. -/
def writeLoop (content : List Char) : List Int → BlockManager → Int → Int → BlockManager
  | [], bm, _, _ => bm
  | blk :: rest, bm, bytesLeft, offset =>
    let toWrite := min bytesLeft (bm.blockSize : Int)
    let buffer :=
      if offset < (content.length : Int) then
        memcpy (zeros bm.blockSize) 0 (content.drop offset.toNat)
          (min toWrite ((content.length : Int) - offset)).toNat
      else zeros bm.blockSize
    let bm' := (bm.writeBlock blk buffer).2
    if bytesLeft - toWrite ≤ 0 then bm' else writeLoop content rest bm' (bytesLeft - toWrite) (offset + toWrite)

/-- `Directory::writeFile` on the directory at path `self`. -/
def writeFile (fs : FileSystem) (self : List Nat) (filename : String) (content : List Char)
    (now : Int) : Option (Bool × FileSystem) :=
  match fs.root.getDir self with
  | none => none
  | some d =>
    match mapFind d.files filename with
    | none => some (false, fs)
    | some fm =>
      if testMask fm.permissions 1 = false then some (false, fs)
      else
        let bm1 := writeLoop content fm.blocks fs.bm (content.length : Int) 0
        let fm' := { fm with fileSize := (content.length : Int), modifiedAt := now }
        match Serializer.writeIndexBlock bm1 fm' with
        | none => none
        | some bm2 =>
          match saveDirectory
              { fs with bm := bm2, root := fs.root.setFiles self (mapAssign d.files filename fm') } with
          | none => none
          | some fs' => some (true, fs')

/-- The allocation loop of `appendFile` with `n` iterations left: each new
block is pushed on `newBlocks` and on `fm.blocks`; on exhaustion only the
allocator is rolled back. Returns the success flag, the manager and `fm.blocks`. -/
def appendAlloc : Nat → BlockManager → List Int → List Int → Bool × BlockManager × List Int
  | 0, bm, _, blocks => (true, bm, blocks)
  | n + 1, bm, newBlocks, blocks =>
    let r := bm.allocateBlock
    if r.1 = -1 then (false, r.2.freeBlocks newBlocks, blocks)
    else appendAlloc n r.2 (newBlocks ++ [r.1]) (blocks ++ [r.1])

/-- The loop `while (dataOffset < data.size())` of `appendFile`; every pass
consumes at least one byte, so `data.size()` passes suffice as fuel. -/
def appendWrite (data : List Char) (blocks : List Int) (currentBlocks : Int) :
    Nat → BlockManager → Int → Int → Int → Option BlockManager
  | 0, bm, dataOffset, _, _ => if dataOffset < (data.length : Int) then none else some bm
  | fuel + 1, bm, dataOffset, blockIndex, offsetInLastBlock =>
    if dataOffset < (data.length : Int) then
      if offsetInLastBlock < 0 ∨ (bm.blockSize : Int) ≤ offsetInLastBlock then none
      else
        let buffer0 := zeros bm.blockSize
        let buffer1 : Option (List Char) :=
          if blockIndex < currentBlocks ∧ offsetInLastBlock > 0 then
            (vecGet blocks blockIndex).map (fun b => (bm.readBlock b buffer0).2)
          else some buffer0
        match buffer1, vecGet blocks blockIndex with
        | some buffer, some blk =>
          let bytesToWrite :=
            min ((data.length : Int) - dataOffset) ((bm.blockSize : Int) - offsetInLastBlock)
          let buffer2 :=
            memcpy buffer offsetInLastBlock.toNat (data.drop dataOffset.toNat) bytesToWrite.toNat
          appendWrite data blocks currentBlocks fuel (bm.writeBlock blk buffer2).2
            (dataOffset + bytesToWrite) (blockIndex + 1) 0
        | _, _ => none
    else some bm

/-- `Directory::appendFile` on the directory at path `self`. -/
def appendFile (fs : FileSystem) (self : List Nat) (filename : String) (data : List Char)
    (now : Int) : Option (Bool × FileSystem) :=
  match fs.root.getDir self with
  | none => none
  | some d =>
    match mapFind d.files filename with
    | none => some (false, fs)
    | some fm =>
      if data.isEmpty then some (false, fs)
      else if testMask fm.permissions 1 = false then some (false, fs)
      else
        let blockSize := fs.bm.blockSize
        let currentSize := fm.fileSize
        let newSize := currentSize + (data.length : Int)
        let currentBlocks := ceilDiv currentSize blockSize
        let requiredBlocks := ceilDiv newSize blockSize
        let additionalBlocks := requiredBlocks - currentBlocks
        match appendAlloc additionalBlocks.toNat fs.bm [] fm.blocks with
        | (false, bm1, blocks) =>
          some (false, { fs with
            bm := bm1
            root := fs.root.setFiles self (mapAssign d.files filename { fm with blocks := blocks }) })
        | (true, bm1, blocks) =>
          let offsetInLastBlock := Int.tmod currentSize (blockSize : Int)
          let blockIndex :=
            if offsetInLastBlock = 0 ∧ currentSize > 0 then currentBlocks - 1 + 1
            else currentBlocks - 1
          match appendWrite data blocks currentBlocks data.length bm1 0 blockIndex
              offsetInLastBlock with
          | none => none
          | some bm2 =>
            let fm' := { fm with blocks := blocks, fileSize := newSize, modifiedAt := now }
            match Serializer.writeIndexBlock bm2 fm' with
            | none => none
            | some bm3 =>
              match saveDirectory
                  { fs with bm := bm3, root := fs.root.setFiles self (mapAssign d.files filename fm') } with
              | none => none
              | some fs' => some (true, fs')

/-- The rollback loop `for (j = 0; j < blocksToFree; j++) freeBlock(fm.blocks[currentBlocks + j])`
with `n` iterations left. -/
def growRollback (blocks : List Int) (currentBlocks : Int) : Nat → Nat → BlockManager → Option BlockManager
  | 0, _, bm => some bm
  | n + 1, j, bm =>
    match vecGet blocks (currentBlocks + (j : Int)) with
    | none => none
    | some b => growRollback blocks currentBlocks n (j + 1) (bm.freeBlock b)

/-- The allocation loop of the expanding branch of `resizeFile`, at iteration
`i` with `n` iterations left. Returns the success flag, the manager and `fm.blocks`. -/
def growAlloc (currentBlocks : Int) : Nat → Nat → BlockManager → List Int →
    Option (Bool × BlockManager × List Int)
  | 0, _, bm, blocks => some (true, bm, blocks)
  | n + 1, i, bm, blocks =>
    let r := bm.allocateBlock
    if r.1 = -1 then
      match growRollback blocks currentBlocks i 0 r.2, vecEraseFrom blocks currentBlocks with
      | some bm', some blocks' => some (false, bm', blocks')
      | _, _ => none
    else growAlloc currentBlocks n (i + 1) r.2 (blocks ++ [r.1])

/-- The loop `for (i = requiredBlocks; i < currentBlocks; i++) freeBlock(fm.blocks[i])`
of the shrinking branch, with `n` iterations left. -/
def shrinkFree (blocks : List Int) : Nat → Int → BlockManager → Option BlockManager
  | 0, _, bm => some bm
  | n + 1, i, bm =>
    match vecGet blocks i with
    | none => none
    | some b => shrinkFree blocks n (i + 1) (bm.freeBlock b)

/-- The step "zero-fill the last block if necessary" of the expanding branch of
`resizeFile`, on the block list after allocation. -/
def growTail (blockSize : Nat) (bm1 : BlockManager) (blocks : List Int)
    (currentSize newSize : Int) : Option BlockManager :=
  let offsetInLastBlock := Int.tmod newSize (blockSize : Int)
  if offsetInLastBlock ≠ 0 then
    let lastBlockIdx := (blocks.length : Int) - 1
    match vecGet blocks lastBlockIdx with
    | none => none
    | some blk =>
      let buffer :=
        if Int.tmod currentSize (blockSize : Int) ≠ 0 ∧
            lastBlockIdx = ceilDiv currentSize blockSize - 1 then
          (bm1.readBlock blk (zeros blockSize)).2
        else zeros blockSize
      some (bm1.writeBlock blk buffer).2
  else some bm1

/-- The block handling of the shrinking branch of `resizeFile`: free the blocks
past the new count, erase them from the list, and zero the tail of the new
last block. Returns the manager and `fm.blocks`. -/
def shrinkBlocks (blockSize : Nat) (bm : BlockManager) (blocks : List Int)
    (currentSize newSize : Int) : Option (BlockManager × List Int) :=
  let currentBlocks := ceilDiv currentSize blockSize
  let requiredBlocks := ceilDiv newSize blockSize
  if newSize = 0 then some (bm.freeBlocks blocks, [])
  else
    match shrinkFree blocks (currentBlocks - requiredBlocks).toNat requiredBlocks bm,
        vecEraseFrom blocks requiredBlocks with
    | some bm1, some blocks' =>
      let offsetInLastBlock := Int.tmod newSize (blockSize : Int)
      if offsetInLastBlock ≠ 0 then
        match vecGet blocks' (requiredBlocks - 1) with
        | none => none
        | some blk =>
          let buffer := (bm1.readBlock blk (zeros blockSize)).2
          let buffer := buffer.take offsetInLastBlock.toNat ++
            zeros (blockSize - offsetInLastBlock.toNat)
          some ((bm1.writeBlock blk buffer).2, blocks')
      else some (bm1, blocks')
    | _, _ => none

/-- The record after `resizeFile` set the block list and the size. -/
def resizedMeta (fm : FileMeta) (blocks : List Int) (newSize now : Int) : FileMeta :=
  { fm with blocks := blocks, fileSize := newSize, modifiedAt := now }

/-- `Directory::resizeFile` on the directory at path `self`. -/
def resizeFile (fs : FileSystem) (self : List Nat) (filename : String) (newSize : Int)
    (now : Int) : Option (Bool × FileSystem) :=
  match fs.root.getDir self with
  | none => none
  | some d =>
    match mapFind d.files filename with
    | none => some (false, fs)
    | some fm =>
      if testMask fm.permissions 1 = false then some (false, fs)
      else if newSize < 0 then some (false, fs)
      else
        let blockSize := fs.bm.blockSize
        let currentSize := fm.fileSize
        if newSize = currentSize then some (true, fs)
        else if newSize > currentSize then
          let currentBlocks := ceilDiv currentSize blockSize
          let requiredBlocks := ceilDiv newSize blockSize
          let additionalBlocks := requiredBlocks - currentBlocks
          match growAlloc currentBlocks additionalBlocks.toNat 0 fs.bm fm.blocks with
          | none => none
          | some (false, bm1, blocks) =>
            some (false, { fs with
              bm := bm1
              root := fs.root.setFiles self (mapAssign d.files filename { fm with blocks := blocks }) })
          | some (true, bm1, blocks) =>
            match growTail blockSize bm1 blocks currentSize newSize with
            | none => none
            | some bm2 =>
              match Serializer.writeIndexBlock bm2 (resizedMeta fm blocks newSize now) with
              | none => none
              | some bm3 =>
                match saveDirectory
                    { fs with
                      bm := bm3
                      root := fs.root.setFiles self
                        (mapAssign d.files filename (resizedMeta fm blocks newSize now)) } with
                | none => none
                | some fs' => some (true, fs')
        else
          match shrinkBlocks blockSize fs.bm fm.blocks currentSize newSize with
          | none => none
          | some (bm1, blocks) =>
            match Serializer.writeIndexBlock bm1 (resizedMeta fm blocks newSize now) with
            | none => none
            | some bm2 =>
              some (true, { fs with
                bm := Serializer.saveDirectoryFlat bm2
                  (mapAssign d.files filename (resizedMeta fm blocks newSize now))
                root := fs.root.setFiles self
                  (mapAssign d.files filename (resizedMeta fm blocks newSize now)) })

end Directory

/-! ## FileSystem -/

namespace FileSystem

/-- A newly constructed `BlockManager` and `FileSystem` over an all-zero disk
image: only block 0 is used and the tree is the empty directory `root`. -/
def fresh (blockSize totalBlocks : Nat) : FileSystem :=
  { bm := BlockManager.new blockSize totalBlocks (List.replicate totalBlocks (zeros blockSize))
    root := Directory.new "root"
    currentDir := [] }

/-- `FileSystem::createFile`. -/
def createFile (fs : FileSystem) (filename : String) (size : Int) (now : Int) :
    Option (Bool × FileSystem) :=
  Directory.createFile fs fs.currentDir filename size now

/-- `FileSystem::deleteFile`. -/
def deleteFile (fs : FileSystem) (filename : String) : Option (Bool × FileSystem) :=
  Directory.deleteFile fs fs.currentDir filename

/-- `FileSystem::writeFile`. -/
def writeFile (fs : FileSystem) (filename : String) (content : List Char) (now : Int) :
    Option (Bool × FileSystem) :=
  Directory.writeFile fs fs.currentDir filename content now

/-- `FileSystem::readFile`. -/
def readFile (fs : FileSystem) (filename : String) : Option (List Char) :=
  Directory.readFile fs fs.currentDir filename

/-- `FileSystem::appendFile`. -/
def appendFile (fs : FileSystem) (filename : String) (data : List Char) (now : Int) :
    Option (Bool × FileSystem) :=
  Directory.appendFile fs fs.currentDir filename data now

/-- `FileSystem::resizeFile`. -/
def resizeFile (fs : FileSystem) (filename : String) (newSize : Int) (now : Int) :
    Option (Bool × FileSystem) :=
  Directory.resizeFile fs fs.currentDir filename newSize now

end FileSystem


/-! ## Directory: subdirectories and permissions -/

namespace Directory

/-- Replace the `subdirs` vector of the node at a path. -/
def setSubdirs : Directory → List Nat → List Directory → Directory
  | .mk n pm f _, [], sds' => .mk n pm f sds'
  | .mk n pm f sds, i :: p, sds' =>
    match sds[i]? with
    | none => .mk n pm f sds
    | some c => .mk n pm f (sds.set i (setSubdirs c p sds'))

/-- Assign the field `permissions` of a node. -/
def withPermissions : Directory → Int → Directory
  | .mk n _ f sds, pm => .mk n pm f sds

/-- The loop of `Directory::findSubdir` over the children from position `i` on:
the position of the first child called `name`. -/
def findSubdirFrom (name : String) : List Directory → Nat → Option Nat
  | [], _ => none
  | d :: ds, i => if d.name = name then some i else findSubdirFrom name ds (i + 1)

/-- `Directory::findSubdir`: the position of the first child called `name`. -/
def findSubdir (d : Directory) (name : String) : Option Nat :=
  findSubdirFrom name d.subdirs 0

/-- `Directory::addSubdir` on the directory at path `self`. -/
def addSubdir (fs : FileSystem) (self : List Nat) (name : String) : Option (Bool × FileSystem) :=
  match fs.root.getDir self with
  | none => none
  | some d =>
    if testMask d.permissions 1 = false then some (false, fs)
    else if (d.findSubdir name).isSome then some (false, fs)
    else
      match saveDirectory
          { fs with root := fs.root.setSubdirs self (d.subdirs ++ [Directory.new name]) } with
      | none => none
      | some fs' => some (true, fs')

/-- `Directory::removeSubdir` on the directory at path `self`: removes the first
child called `name` when it has neither files nor children. -/
def removeSubdir (fs : FileSystem) (self : List Nat) (name : String) :
    Option (Bool × FileSystem) :=
  match fs.root.getDir self with
  | none => none
  | some d =>
    if testMask d.permissions 1 = false then some (false, fs)
    else
      match d.findSubdir name with
      | none => some (false, fs)
      | some i =>
        match d.subdirs[i]? with
        | none => none
        | some c =>
          if ¬ c.files.isEmpty ∨ ¬ c.subdirs.isEmpty then some (false, fs)
          else
            match saveDirectory
                { fs with root := fs.root.setSubdirs self (d.subdirs.eraseIdx i) } with
            | none => none
            | some fs' => some (true, fs')

/-- The file loop of `removeDirectoryRecursive`: the data blocks of every record
are freed, and its index block unless it is `-1`. -/
def freeFiles : List (String × FileMeta) → BlockManager → BlockManager
  | [], bm => bm
  | (_, fm) :: rest, bm =>
    let bm1 := bm.freeBlocks fm.blocks
    freeFiles rest (if fm.indexBlock ≠ -1 then bm1.freeBlock fm.indexBlock else bm1)

mutual
/-- The static helper `removeDirectoryRecursive`: the manager after the blocks of
every file below `dir` were freed. -/
def removeDirectoryRecursive : Directory → BlockManager → BlockManager
  | .mk _ _ files subdirs, bm => removeDirectoriesRecursive subdirs (freeFiles files bm)
/-- The helper run over a list of sibling directories, in order. -/
def removeDirectoriesRecursive : List Directory → BlockManager → BlockManager
  | [], bm => bm
  | d :: ds, bm => removeDirectoriesRecursive ds (removeDirectoryRecursive d bm)
end

/-- `Directory::removeDirectory` on the directory at path `self`. -/
def removeDirectory (fs : FileSystem) (self : List Nat) (name : String) :
    Option (Bool × FileSystem) :=
  match fs.root.getDir self with
  | none => none
  | some d =>
    if testMask d.permissions 1 = false then some (false, fs)
    else
      match d.findSubdir name with
      | none => some (false, fs)
      | some i =>
        match d.subdirs[i]? with
        | none => none
        | some target =>
          match saveDirectory
              { fs with
                bm := removeDirectoryRecursive target fs.bm
                root := fs.root.setSubdirs self (d.subdirs.eraseIdx i) } with
          | none => none
          | some fs' => some (true, fs')

/-- `Directory::chmodEntry` on the directory at path `self`: a child directory
called `name` is looked for first, then a file. -/
def chmodEntry (fs : FileSystem) (self : List Nat) (name : String) (mode : Int) :
    Option (Bool × FileSystem) :=
  match fs.root.getDir self with
  | none => none
  | some d =>
    match d.findSubdir name, mapFind d.files name with
    | some i, _ =>
      match d.subdirs[i]? with
      | none => none
      | some sd =>
        match saveDirectory
            { fs with
              root := fs.root.setSubdirs self (d.subdirs.set i (sd.withPermissions (mode % 8))) } with
        | none => none
        | some fs' => some (true, fs')
    | none, some fm =>
      match saveDirectory
          { fs with
            root := fs.root.setFiles self
              (mapAssign d.files name { fm with permissions := mode % 8 }) } with
      | none => none
      | some fs' => some (true, fs')
    | none, none => some (false, fs)

end Directory

/-! ## Serializer: reading the snapshot back -/

namespace Serializer

/-- `std::isspace` in the "C" locale. -/
def isSpace (c : Char) : Bool :=
  c = ' ' || c = '\t' || c = '\n' || c = Char.ofNat 11 || c = Char.ofNat 12 || c = '\r'

/-- The lines `std::getline` delivers from a text, `cur` being the line read so far: each
piece up to a `'\n'`, and the piece after the last `'\n'` when it is not empty. -/
def getLines : List Char → List Char → List (List Char)
  | [], cur => if cur = [] then [] else [cur]
  | c :: rest, cur => if c = '\n' then cur :: getLines rest [] else getLines rest (cur ++ [c])

/-- `is >> std::string` on a good stream: the token and the rest of the stream, `none`
when only whitespace is left (the stream fails). -/
def readToken (s : List Char) : Option (List Char × List Char) :=
  let s1 := s.dropWhile isSpace
  if s1 = [] then none
  else some (s1.takeWhile (fun c => !isSpace c), s1.dropWhile (fun c => !isSpace c))

/-- The value of a string of decimal digits, continuing from `acc`. -/
def digitsValue (acc : Nat) (ds : List Char) : Nat :=
  ds.foldl (fun a c => 10 * a + (c.toNat - 48)) acc

/-- The integer at the start of a text, as `strtol`, `%d` and `num_get` read it: leading
whitespace, an optional sign, then at least one decimal digit. Returns the value and the
text after the last digit. -/
def parseIntPrefix (s : List Char) : Option (Int × List Char) :=
  let s1 := s.dropWhile isSpace
  let neg := s1.head? = some '-'
  let s2 := if s1.head? = some '-' ∨ s1.head? = some '+' then s1.tail else s1
  let ds := s2.takeWhile Char.isDigit
  if ds = [] then none
  else some (if neg then -((digitsValue 0 ds : Nat) : Int) else ((digitsValue 0 ds : Nat) : Int),
    s2.dropWhile Char.isDigit)

/-- `is >> int` on a stream (`none` = failed stream) into a variable holding `old`: a failed
stream is left alone; a failed conversion stores 0, an overflow the nearest `int`, and both
fail the stream. -/
def readInt (s : Option (List Char)) (old : Int) : Int × Option (List Char) :=
  match s with
  | none => (old, none)
  | some s =>
    match parseIntPrefix s with
    | none => (0, none)
    | some (v, rest) =>
      if v > 2147483647 then (2147483647, none)
      else if v < -2147483648 then (-2147483648, none)
      else (v, some rest)

/-- `std::stoi`: `none` when it throws (`invalid_argument`, `out_of_range`). -/
def stoi (tk : List Char) : Option Int :=
  match parseIntPrefix tk with
  | none => none
  | some (v, _) => if v > 2147483647 ∨ v < -2147483648 then none else some v

/-- One `%d` of `sscanf`, then the literal character `sep` when one is given. `none` when
the input does not match. -/
def scanField (s : List Char) (sep : Option Char) : Option (Int × List Char) :=
  match parseIntPrefix s with
  | none => none
  | some (v, rest) =>
    match sep with
    | none => some (v, rest)
    | some c => if rest.head? = some c then some (v, rest.tail) else none

/-- Days since 1970-01-01 of a proleptic Gregorian date (month `1..12`). -/
def daysFromCivil (y0 m d : Int) : Int :=
  let y := if m ≤ 2 then y0 - 1 else y0
  let era := y / 400
  let yoe := y - era * 400
  let doy := (153 * (if m > 2 then m - 3 else m + 9) + 2) / 5 + d - 1
  let doe := yoe * 365 + yoe / 4 - yoe / 100 + doy
  era * 146097 + doe - 719468

/-- `mktime` on the fields `parseTimestampFromString` fills in (`tm_mon = month - 1`,
`tm_year = year - 1900`), local time taken to be UTC; an out-of-range month is carried
into the year, the other fields enter linearly. -/
def mktime (day month year hour minute second : Int) : Int :=
  let mon0 := month - 1
  daysFromCivil (year + mon0 / 12) (mon0 % 12 + 1) day * 86400 +
    hour * 3600 + minute * 60 + second

/-- `parseTimestampFromString` run at time `now`. -/
def parseTimestampFromString (timestampStr : List Char) (now : Int) : Int :=
  if timestampStr = "Not-set".toList then 0
  else
    match scanField timestampStr (some '-') with
    | none => now
    | some (day, s1) =>
      match scanField s1 (some '-') with
      | none => now
      | some (month, s2) =>
        match scanField s2 (some '_') with
        | none => now
        | some (year, s3) =>
          match scanField s3 (some ':') with
          | none => now
          | some (hour, s4) =>
            match scanField s4 (some ':') with
            | none => now
            | some (minute, s5) =>
              match scanField s5 none with
              | none => now
              | some (second, _) => mktime day month year hour minute second

/-- The loop `while (ls >> tk) { if (tk == "|") break; fm.blocks.push_back(stoi(tk)); }`
with `fuel` passes left (every pass consumes a character): the blocks and the stream
afterwards (`none` = failed stream). The outer `none` is an exception of `stoi`. -/
def readBlocks : Nat → List Char → Option (List Int × Option (List Char))
  | 0, _ => some ([], none)
  | fuel + 1, s =>
    match readToken s with
    | none => some ([], none)
    | some (tk, rest) =>
      if tk = ['|'] then some ([], some rest)
      else
        match stoi tk, readBlocks fuel rest with
        | some v, some (blocks, st) => some (v :: blocks, st)
        | _, _ => none

/-- The record a `FILE` line describes, from the text after the token `FILE`. `none` is an
exception of `stoi`. -/
def parseFileLine (s : List Char) (now : Int) : Option FileMeta :=
  let (filename, st1) : List Char × Option (List Char) :=
    match readToken s with
    | none => ([], none)
    | some (tk, rest) => (tk, some rest)
  let (fileSize, st2) := readInt st1 0
  let (indexBlock, st3) := readInt st2 (-1)
  let blocksRes : Option (List Int × Option (List Char)) :=
    match st3 with
    | none => some ([], none)
    | some s3 => readBlocks (s3.length + 1) s3
  match blocksRes with
  | none => none
  | some (blocks, st4) =>
    let stamps : Int × Int × Option (List Char) :=
      match st4.bind readToken with
      | none => (now, now, none)
      | some (createdStr, s5) =>
        match readToken s5 with
        | none => (now, now, none)
        | some (modifiedStr, s6) =>
          (parseTimestampFromString createdStr now, parseTimestampFromString modifiedStr now,
            some s6)
    let permissions : Int :=
      match stamps.2.2.bind readToken with
      | none => 6
      | some (extra, s7) => if extra = "perm".toList then (readInt (some s7) 0).1 % 8 else 6
    some { filename := String.mk filename, fileSize := fileSize, indexBlock := indexBlock,
           blocks := blocks, createdAt := stamps.1, modifiedAt := stamps.2.1,
           permissions := permissions }

/-- The name and the permissions a `DIR` line describes, from the text after the token. -/
def parseDirLine (s : List Char) : List Char × Int :=
  match readToken s with
  | none => ([], 7)
  | some (name, s1) =>
    match readToken s1 with
    | none => (name, 7)
    | some (maybe, s2) =>
      if maybe = "perm".toList then (name, (readInt (some s2) 7).1) else (name, 7)

/-- The variables of the parser loop of `loadDirectory`: the manager, `root` and `stack`
(pointers into the tree under `root` are paths). -/
structure LoadState where
  bm : BlockManager
  root : Option Directory
  stack : List (List Nat)

/-- The body of the loop `while (getline(ss, line))` of `loadDirectory` for one line.
`none` is an exception of `stoi` or undefined behaviour in `writeIndexBlock`. -/
def loadLine (st : LoadState) (line : List Char) (now : Int) : Option LoadState :=
  if line = [] then some st
  else
    match readToken (line.dropWhile (fun c => c = ' ')) with
    | none => some st
    | some (token, rest) =>
      if token = "DIR".toList then
        let (name, perm) := parseDirLine rest
        let dir := (Directory.new (String.mk name)).withPermissions perm
        match st.stack.getLast?, st.root with
        | some p, some root =>
          match root.getDir p with
          | none => none
          | some parent =>
            some { st with
              root := some (root.setSubdirs p (parent.subdirs ++ [dir]))
              stack := st.stack ++ [p ++ [parent.subdirs.length]] }
        | some _, none => none
        | none, _ => some { st with root := some dir, stack := st.stack ++ [[]] }
      else if token = "END_DIR".toList then some { st with stack := st.stack.dropLast }
      else if token = "FILE".toList then
        match parseFileLine rest now with
        | none => none
        | some fm =>
          match st.stack.getLast?, st.root with
          | some p, some root =>
            match root.getDir p with
            | none => none
            | some cur =>
              match writeIndexBlock st.bm fm with
              | none => none
              | some bm1 =>
                some { st with
                  bm := bm1
                  root := some (root.setFiles p (mapInsert cur.files fm.filename fm)) }
          | some _, none => none
          | none, _ => some st
      else some st

/-- The parser loop of `loadDirectory` over the lines of the text. -/
def loadLines (now : Int) : List (List Char) → LoadState → Option LoadState
  | [], st => some st
  | line :: rest, st =>
    match loadLine st line now with
    | none => none
    | some st1 => loadLines now rest st1

/-- The position after the last byte of a buffer that is not zero (`dataEnd`). -/
def dataEnd (buffer : List Char) : Nat :=
  (buffer.reverse.dropWhile (fun c => c = zeroByte)).length

/-- `Serializer::loadDirectory(BlockManager&)` run at time `now`: the manager afterwards and
the tree read (`none` for `nullptr`). The outer `none` is an exception or undefined
behaviour. -/
def loadDirectory (bm : BlockManager) (now : Int) : Option (BlockManager × Option Directory) :=
  let r := bm.readBlock 0 []
  if r.1 = false then some (bm, none)
  else if r.2.all (fun c => c = zeroByte) then some (bm, none)
  else
    let data := r.2.take (dataEnd r.2)
    match loadLines now (getLines data []) { bm := bm, root := none, stack := [] } with
    | none => none
    | some st => some (st.bm, st.root)

end Serializer

/-! ## FileSystem: directory commands and the consistency check -/

namespace FileSystem

/-- `FileSystem::load` run at time `now`: a tree read from block 0 replaces the root. -/
def load (fs : FileSystem) (now : Int) : Option FileSystem :=
  match Serializer.loadDirectory fs.bm now with
  | none => none
  | some (bm1, some loaded) => some { bm := bm1, root := loaded, currentDir := [] }
  | some (bm1, none) => some { fs with bm := bm1 }

/-- `FileSystem::mkdir`. -/
def mkdir (fs : FileSystem) (name : String) : Option (Bool × FileSystem) :=
  Directory.addSubdir fs fs.currentDir name

/-- The paths of a node and its ancestors, as followed by `tmp = tmp->parent`. -/
def ancestors (p : List Nat) : List (List Nat) :=
  (List.range (p.length + 1)).map (fun k => p.take (p.length - k))

/-- `FileSystem::removeDirectory`. -/
def removeDirectory (fs : FileSystem) (name : String) : Option (Bool × FileSystem) :=
  if name.isEmpty then some (false, fs)
  else if name = fs.root.name then some (false, fs)
  else
    match fs.root.getDir fs.currentDir with
    | none => none
    | some cur =>
      match cur.findSubdir name with
      | none => some (false, fs)
      | some i =>
        if (fs.currentDir ++ [i]) ∈ ancestors fs.currentDir then some (false, fs)
        else Directory.removeDirectory fs fs.currentDir name

/-- `FileSystem::chmodEntry`. -/
def chmodEntry (fs : FileSystem) (mode : Int) (name : String) : Option (Bool × FileSystem) :=
  Directory.chmodEntry fs fs.currentDir name mode

/-- `FileSystem::cd`. -/
def cd (fs : FileSystem) (name : String) : Option (Bool × FileSystem) :=
  if name = ".." then
    if fs.currentDir ≠ [] then some (true, { fs with currentDir := fs.currentDir.dropLast })
    else some (false, fs)
  else
    match fs.root.getDir fs.currentDir with
    | none => none
    | some cur =>
      match cur.findSubdir name with
      | none => some (false, fs)
      | some i =>
        match cur.subdirs[i]? with
        | none => none
        | some d =>
          if testMask d.permissions 0 = false then some (false, fs)
          else some (true, { fs with currentDir := fs.currentDir ++ [i] })

/-- The statement `referenced.insert(b)` on the `std::set<int>`, kept as its ascending list. -/
def setInsert : List Int → Int → List Int
  | [], b => [b]
  | a :: rest, b =>
    if b < a then b :: a :: rest
    else if b = a then a :: rest
    else a :: setInsert rest b

/-- The file loop of the lambda `walk` of `checkMeta`: the index block of a record is
inserted when it is not negative, every data block always. -/
def walkFiles : List (String × FileMeta) → List Int → List Int
  | [], referenced => referenced
  | (_, fm) :: rest, referenced =>
    let r := if fm.indexBlock ≥ 0 then setInsert referenced fm.indexBlock else referenced
    walkFiles rest (fm.blocks.foldl setInsert r)

mutual
/-- The lambda `walk` of `checkMeta`: the files of the node, then its children. -/
def walk : Directory → List Int → List Int
  | .mk _ _ files subdirs, referenced => walks subdirs (walkFiles files referenced)
/-- The lambda `walk` over a list of sibling directories. -/
def walks : List Directory → List Int → List Int
  | [], referenced => referenced
  | d :: ds, referenced => walks ds (walk d referenced)
end

/-- The loop `for (int i = 0; i < total; ++i)` of `checkMeta` from index `i` with `n`
iterations left: the vectors `used` and `orphan`. `none` when `isBlockFree`
indexes past the bitmap. -/
def scanUsed (bm : BlockManager) (referenced : List Int) : Nat → Nat → Option (List Int × List Int)
  | _, 0 => some ([], [])
  | i, n + 1 =>
    match bm.isBlockFree (i : Int), scanUsed bm referenced (i + 1) n with
    | some free, some (used, orphan) =>
      if free then some (used, orphan)
      else if i = 0 then some ((i : Int) :: used, orphan)
      else if (i : Int) ∈ referenced then some ((i : Int) :: used, orphan)
      else some ((i : Int) :: used, (i : Int) :: orphan)
    | _, _ => none

/-- The loop `for (int r : referenced)` of `checkMeta`: the vector `missing`. -/
def scanMissing (bm : BlockManager) : List Int → Option (List Int)
  | [] => some []
  | r :: rest =>
    if r < 0 ∨ r ≥ (bm.totalBlocks : Int) then scanMissing bm rest
    else
      match bm.isBlockFree r, scanMissing bm rest with
      | some free, some missing => some (if free then r :: missing else missing)
      | _, _ => none

/-- The classification part of `checkMeta`: the vectors `used`, `orphan` and `missing`. -/
def checkScan (fs : FileSystem) : Option (List Int × List Int × List Int) :=
  let referenced := walk fs.root []
  match scanUsed fs.bm referenced 0 fs.bm.totalBlocks, scanMissing fs.bm referenced with
  | some (used, orphan), some missing => some (used, orphan, missing)
  | _, _ => none

/-- The value `memcpy` leaves in an `int` from four bytes (little-endian two's complement). -/
def int32OfBytes (b : List Char) : Int :=
  let u := (b.getD 0 zeroByte).toNat % 256 + 256 * ((b.getD 1 zeroByte).toNat % 256) +
    65536 * ((b.getD 2 zeroByte).toNat % 256) + 16777216 * ((b.getD 3 zeroByte).toNat % 256)
  if u < 2147483648 then (u : Int) else (u : Int) - 4294967296

/-- The ints `memcpy` leaves in a vector of `n` ints from the bytes of `b`. -/
def int32sOfBytes : Nat → List Char → List Int
  | 0, _ => []
  | n + 1, b => int32OfBytes b :: int32sOfBytes n (b.drop 4)

/-- The value of `(int)x` for an `x` computed without overflow in a wider type. -/
def wrap32 (x : Int) : Int := (x + 2147483648) % 4294967296 - 2147483648

/-- The decoding of an index block in `checkMeta`: the count `cnt`, then the vector
`iblocks(cnt)`, filled from the buffer when `cnt > 0` and the buffer is long enough. `none`
for a negative `cnt` (the vector constructor throws) and when `memcpy` would read past
the buffer. Requires `ibuf.size() >= sizeof(int)`. -/
def decodeIndex (ibuf : List Char) : Option (List Int) :=
  let cnt := int32OfBytes ibuf
  if cnt < 0 then none
  else if cnt > 0 ∧ (ibuf.length : Int) ≥ wrap32 (4 + cnt * 4) then
    if 4 + cnt * 4 ≤ (ibuf.length : Int) then some (int32sOfBytes cnt.toNat (ibuf.drop 4))
    else none
  else some (List.replicate cnt.toNat 0)

/-- The loop `for (i = 0; i < need; ++i)` of the lambda `repairWalk` with `n` iterations
left: the manager, `fm.blocks` and `fm.fileSize`. -/
def repairAlloc (blockSize : Nat) : Nat → BlockManager → List Int → Int →
    BlockManager × List Int × Int
  | 0, bm, blocks, size => (bm, blocks, size)
  | n + 1, bm, blocks, size =>
    let r := bm.allocateBlock
    if r.1 = -1 then (r.2, blocks, (blocks.length : Int) * (blockSize : Int))
    else repairAlloc blockSize n r.2 (blocks ++ [r.1]) size

/-- The first half of the body of the file loop of the lambda `repairWalk`: the valid
blocks of a record are cut or extended to `requiredBlocks` entries. Returns the manager,
`fm.blocks` and `fm.fileSize`. -/
def repairBlocks (blockSize : Nat) (bm : BlockManager) (validBlocks : List Int)
    (fileSize : Int) : Option (BlockManager × List Int × Int) :=
  let requiredBlocks := if fileSize = 0 then 0 else ceilDiv fileSize blockSize
  if (validBlocks.length : Int) > requiredBlocks then
    match Directory.shrinkFree validBlocks ((validBlocks.length : Int) - requiredBlocks).toNat
        requiredBlocks bm, vecEraseFrom validBlocks requiredBlocks with
    | some bm1, some blocks => some (bm1, blocks, fileSize)
    | _, _ => none
  else if (validBlocks.length : Int) < requiredBlocks then
    some (repairAlloc blockSize (requiredBlocks - (validBlocks.length : Int)).toNat bm
      validBlocks fileSize)
  else some (bm, validBlocks, fileSize)

/-- The second half of the body: the index block is compared with `fm.blocks` and rewritten
on a mismatch; a record without index block that has content is given one. -/
def repairIndex (bm1 : BlockManager) (fm1 : FileMeta) : Option (BlockManager × FileMeta) :=
  if fm1.indexBlock ≥ 0 then
    let r := bm1.readBlock fm1.indexBlock []
    if r.1 then
      if (r.2.length : Int) ≥ 4 then
        match decodeIndex r.2 with
        | none => none
        | some iblocks =>
          if iblocks ≠ fm1.blocks then
            match Serializer.writeIndexBlock bm1 fm1 with
            | none => none
            | some bm2 => some (bm2, fm1)
          else some (bm1, fm1)
      else some (bm1, fm1)
    else some (bm1, fm1)
  else if fm1.fileSize > 0 ∧ fm1.blocks.length > 0 then
    let a := bm1.allocateBlock
    if a.1 ≠ -1 then
      match Serializer.writeIndexBlock a.2 { fm1 with indexBlock := a.1 } with
      | none => none
      | some bm2 => some (bm2, { fm1 with indexBlock := a.1 })
    else some (a.2, fm1)
  else some (bm1, fm1)

/-- The body of the file loop of the lambda `repairWalk` for one record. -/
def repairFile (total blockSize : Nat) (bm : BlockManager) (fm : FileMeta) :
    Option (BlockManager × FileMeta) :=
  let validBlocks := fm.blocks.filter (fun b => 0 ≤ b ∧ b < (total : Int))
  match repairBlocks blockSize bm validBlocks fm.fileSize with
  | none => none
  | some (bm1, blocks, size) => repairIndex bm1 { fm with blocks := blocks, fileSize := size }

/-- The file loop of the lambda `repairWalk`, in map order. -/
def repairFiles (total blockSize : Nat) : BlockManager → List (String × FileMeta) →
    Option (BlockManager × List (String × FileMeta))
  | bm, [] => some (bm, [])
  | bm, (k, fm) :: rest =>
    match repairFile total blockSize bm fm with
    | none => none
    | some (bm1, fm1) =>
      match repairFiles total blockSize bm1 rest with
      | none => none
      | some (bm2, rest1) => some (bm2, (k, fm1) :: rest1)

mutual
/-- The lambda `repairWalk` of `checkMeta`: the files of the node, then its children. -/
def repairWalk (total blockSize : Nat) : BlockManager → Directory →
    Option (BlockManager × Directory)
  | bm, .mk n pm files subdirs =>
    match repairFiles total blockSize bm files with
    | none => none
    | some (bm1, files1) =>
      match repairWalks total blockSize bm1 subdirs with
      | none => none
      | some (bm2, subdirs1) => some (bm2, .mk n pm files1 subdirs1)
/-- The lambda `repairWalk` over a list of sibling directories. -/
def repairWalks (total blockSize : Nat) : BlockManager → List Directory →
    Option (BlockManager × List Directory)
  | bm, [] => some (bm, [])
  | bm, d :: ds =>
    match repairWalk total blockSize bm d with
    | none => none
    | some (bm1, d1) =>
      match repairWalks total blockSize bm1 ds with
      | none => none
      | some (bm2, ds1) => some (bm2, d1 :: ds1)
end

/-- `FileSystem::checkMeta`: the vectors `orphan` and `missing` it reports and the state
afterwards (the printed text is not modelled). -/
def checkMeta (fs : FileSystem) (repair : Bool) : Option (List Int × List Int × FileSystem) :=
  match checkScan fs with
  | none => none
  | some (_, orphan, missing) =>
    let bm1 := if repair ∧ orphan ≠ [] then fs.bm.freeBlocks orphan else fs.bm
    let bm2 :=
      if repair ∧ missing ≠ [] then missing.foldl BlockManager.markBlockUsed bm1 else bm1
    match repairWalk fs.bm.totalBlocks fs.bm.blockSize bm2 fs.root with
    | none => none
    | some (bm3, root1) =>
      if repair then
        match Directory.saveDirectory { fs with bm := bm3, root := root1 } with
        | none => none
        | some fs1 => some (orphan, missing, fs1)
      else some (orphan, missing, { fs with bm := bm3, root := root1 })

end FileSystem

/-! ## Vocabulary of the properties -/

/-- The free block indices an allocation scan can return, in scan order:
the `i` with `1 ≤ i < totalBlocks` whose bit is `true`. -/
def BlockManager.freeList (bm : BlockManager) : List Nat :=
  (List.range' 1 (bm.totalBlocks - 1)).filter (fun i => bm.freeBlockBitmap.getD i false)

/-- The allocator marks block `b` used: `b` is a block of the disk and `isBlockFree(b)` is false. -/
def BlockManager.isUsed (bm : BlockManager) (b : Int) : Prop :=
  b < (bm.totalBlocks : Int) ∧ bm.isBlockFree b = some false

/-- Block ownership in a state: the bitmap covers the disk, no block is
referenced twice in the tree, and every referenced block lies in
`[1, totalBlocks)` and is marked used. -/
structure RefsOk (fs : FileSystem) : Prop where
  bitmap_len : fs.bm.freeBlockBitmap.length = fs.bm.totalBlocks
  refs_nodup : fs.root.refBlocks.Nodup
  refs_used : ∀ b ∈ fs.root.refBlocks, 1 ≤ b ∧ fs.bm.isUsed b

/-- The disk image has `totalBlocks` blocks of `blockSize > 0` bytes each. -/
structure DiskOk (bm : BlockManager) : Prop where
  blockSize_pos : 0 < bm.blockSize
  disk_len : bm.disk.length = bm.totalBlocks
  block_len : ∀ blk ∈ bm.disk, blk.length = bm.blockSize

/-- A call of `createFile` or `deleteFile` on the current directory. -/
inductive FileOp where
  | create (filename : String) (size : Int) (now : Int)
  | delete (filename : String)
deriving DecidableEq, Repr

/-- Run a sequence of calls, ignoring each call's success flag; `none` when a
call has undefined behaviour. -/
def runOps : List FileOp → FileSystem → Option FileSystem
  | [], fs => some fs
  | .create filename size now :: rest, fs =>
    match fs.createFile filename size now with
    | none => none
    | some r => runOps rest r.2
  | .delete filename :: rest, fs =>
    match fs.deleteFile filename with
    | none => none
    | some r => runOps rest r.2

/-- The bytes held by the blocks of a list, in order (a block outside the disk holds none). -/
def blocksContent (bm : BlockManager) (blocks : List Int) : List Char :=
  blocks.flatMap (fun b => (bm.readBlock b []).2)

/-- The record of file `filename` in the directory at path `self`. -/
def getFile (fs : FileSystem) (self : List Nat) (filename : String) : Option FileMeta :=
  (fs.root.getDir self).bind (fun d => mapFind d.files filename)

/-- A bitmap with the bits at the positions of `L` set to `v`. -/
def markList (bitmap : List Bool) (L : List Nat) (v : Bool) : List Bool :=
  L.foldl (fun b i => b.set i v) bitmap

/-- The manager `bm'` differs from `bm` at most in the contents of the disk
blocks whose position satisfies `W`; a well-formed disk stays well-formed. -/
structure DiskFrame (W : Nat → Prop) (bm bm' : BlockManager) : Prop where
  bitmap_eq : bm'.freeBlockBitmap = bm.freeBlockBitmap
  blockSize_eq : bm'.blockSize = bm.blockSize
  totalBlocks_eq : bm'.totalBlocks = bm.totalBlocks
  disk_len : bm'.disk.length = bm.disk.length
  disk_eq : ∀ j, ¬ W j → bm'.disk[j]? = bm.disk[j]?
  block_len : (∀ blk ∈ bm.disk, blk.length = bm.blockSize) →
    ∀ blk ∈ bm'.disk, blk.length = bm.blockSize

/-- Two states that agree on the tree, the current directory, the bitmap, the
disk and the configuration (they may differ in the bitmap store file). -/
structure SameState (fs fs' : FileSystem) : Prop where
  root_eq : fs'.root = fs.root
  currentDir_eq : fs'.currentDir = fs.currentDir
  bitmap_eq : fs'.bm.freeBlockBitmap = fs.bm.freeBlockBitmap
  disk_eq : fs'.bm.disk = fs.bm.disk
  blockSize_eq : fs'.bm.blockSize = fs.bm.blockSize
  totalBlocks_eq : fs'.bm.totalBlocks = fs.bm.totalBlocks

/-- The record `createFile` stores for a file with the given index and data blocks. -/
def newFileMeta (filename : String) (size now idx : Int) (blocks : List Int) : FileMeta :=
  { filename := filename, fileSize := size, indexBlock := idx, blocks := blocks,
    createdAt := now, modifiedAt := now, permissions := 6 }

/-- The manager once the free blocks of `L` have been handed out (`mf` is the
bitmap store file at that point). -/
def BlockManager.taken (bm : BlockManager) (L : List Nat) (mf : List Char) : BlockManager :=
  { bm with freeBlockBitmap := markList bm.freeBlockBitmap L false, metaFile := mf }

/-- The allocator and the tree agree: ownership is sound (`RefsOk`), block 0
is marked used, and every block marked used is block 0 or referenced. -/
structure AllocInv (fs : FileSystem) : Prop where
  refs : RefsOk fs
  zero_used : fs.bm.isUsed 0
  no_orphan : ∀ i : Nat, fs.bm.isUsed (i : Int) → i = 0 ∨ (i : Int) ∈ fs.root.refBlocks

/-- Every block of the list is a block of the disk. -/
def validBlocks (bm : BlockManager) (blocks : List Int) : Prop :=
  ∀ b ∈ blocks, 0 ≤ b ∧ b < (bm.totalBlocks : Int)

/-- The bytes of a file as `readFile` delivers them: the first `fileSize`
bytes held by its data blocks. -/
def fileBytes (bm : BlockManager) (fm : FileMeta) : List Char :=
  (blocksContent bm fm.blocks).take fm.fileSize.toNat

/-- The record after a successful `appendFile` of `d` bytes that took the free blocks `N`. -/
def appendedMeta (fm : FileMeta) (N : List Nat) (d : Nat) (now : Int) : FileMeta :=
  { fm with
    blocks := fm.blocks ++ N.map Nat.cast
    fileSize := fm.fileSize + (d : Int)
    modifiedAt := now }

/-- The state of the worked examples of `appendFile` and `resizeFile`: on a fresh disk of
8 blocks of 16 bytes, `createFile("f", 10)` followed by `writeFile("f", "hello")`. -/
def exampleState : FileSystem :=
  match Directory.createFile (FileSystem.fresh 16 8) [] "f" 10 0 with
  | none => FileSystem.fresh 16 8
  | some (_, fs) =>
    match Directory.writeFile fs [] "f" "hello".toList 1 with
    | none => fs
    | some (_, fs') => fs'

/-- A call of `allocateBlock`, `freeBlock(i)` or `markBlockUsed(i)` on the allocator. -/
inductive AllocOp where
  | alloc
  | free (i : Int)
  | markUsed (i : Int)
deriving DecidableEq, Repr

/-- Run a sequence of allocator calls (the index `allocateBlock` returns is dropped). -/
def runAllocOps : List AllocOp → BlockManager → BlockManager
  | [], bm => bm
  | .alloc :: rest, bm => runAllocOps rest bm.allocateBlock.2
  | .free i :: rest, bm => runAllocOps rest (bm.freeBlock i)
  | .markUsed i :: rest, bm => runAllocOps rest (bm.markBlockUsed i)

/-- The bitmap and a list `R` of referenced blocks agree: the bitmap has `totalBlocks` bits,
`R` has no repetition and lies in `[1, totalBlocks)`, and a block other than block 0 is
marked used exactly when it is in `R`. -/
structure BlocksInv (bm : BlockManager) (R : List Int) : Prop where
  bitmap_len : bm.freeBlockBitmap.length = bm.totalBlocks
  nodup : R.Nodup
  range : ∀ b ∈ R, 1 ≤ b ∧ b < (bm.totalBlocks : Int)
  used_iff : ∀ i : Nat, 1 ≤ i → i < bm.totalBlocks →
    (bm.freeBlockBitmap[i]? = some false ↔ (i : Int) ∈ R)

/-- The state of the worked example of `checkMeta`: on a fresh disk of 8 blocks of 128
bytes, `createFile("a.txt", 100)` (index block 1, sole data block 2), after which bit 2 of
the bitmap is flipped to free without touching the tree. -/
def tamperedState : FileSystem :=
  match Directory.createFile (FileSystem.fresh 128 8) [] "a.txt" 100 1 with
  | none => FileSystem.fresh 128 8
  | some (_, fs) =>
    { fs with bm := { fs.bm with freeBlockBitmap := fs.bm.freeBlockBitmap.set 2 true } }

/-- A name the snapshot text can carry: not empty and free of whitespace. -/
def validName (s : String) : Prop :=
  s.toList ≠ [] ∧ ∀ c ∈ s.toList, Serializer.isSpace c = false

/-- The values of an `int`. -/
def isInt32 (x : Int) : Prop := -2147483648 ≤ x ∧ x ≤ 2147483647

/-- A timestamp `time(nullptr)` can deliver up to the year 9999, or 0 for "not set". -/
def isTimestamp (t : Int) : Prop := 0 ≤ t ∧ t < 253402300800

/-- An entry of a `files` map that a snapshot can carry: it is stored under its own name,
the name is valid, size, index block and data blocks are `int` values, the permissions lie
in `0..7` and the timestamps are times. -/
def FileOk (p : String × FileMeta) : Prop :=
  p.1 = p.2.filename ∧ validName p.2.filename ∧ isInt32 p.2.fileSize ∧
    isInt32 p.2.indexBlock ∧ (∀ b ∈ p.2.blocks, isInt32 b) ∧
    (0 ≤ p.2.permissions ∧ p.2.permissions ≤ 7) ∧
    isTimestamp p.2.createdAt ∧ isTimestamp p.2.modifiedAt

/-- The entry list of a `std::map`: the keys are strictly ascending. -/
def keysAscending (m : List (String × FileMeta)) : Prop :=
  m.Pairwise (fun a b => a.1.data < b.1.data)

mutual
/-- A tree the snapshot can carry: every directory has a valid name and permissions in
`0..7`, and every `files` map is a key-ordered list of entries satisfying `FileOk`. -/
def Directory.SnapshotOk : Directory → Prop
  | .mk name perm files subdirs =>
    validName name ∧ (0 ≤ perm ∧ perm ≤ 7) ∧ (∀ p ∈ files, FileOk p) ∧ keysAscending files ∧
      snapshotsOk subdirs
/-- Every directory of a list satisfies `Directory.SnapshotOk`. -/
def snapshotsOk : List Directory → Prop
  | [] => True
  | d :: ds => d.SnapshotOk ∧ snapshotsOk ds
end

/-- The tree of the worked example of the snapshot round trip: the root holds `a.txt` and
the directory `docs`, which holds `b.txt` and the empty directory `old`. -/
def exampleTree : Directory :=
  .mk "root" 7
    [("a.txt", { filename := "a.txt", fileSize := 700, indexBlock := 1, blocks := [2, 3],
                 createdAt := 1700000000, modifiedAt := 1700000060, permissions := 6 })]
    [.mk "docs" 5
      [("b.txt", { filename := "b.txt", fileSize := 0, indexBlock := 4, blocks := [],
                   createdAt := 86399, modifiedAt := 0, permissions := 4 })]
      [.mk "old" 0 [] []]]

/-! ## The `[ERROR]` lines written to `cout` -/

/-- The `[ERROR]` line a call of `Directory::createFile` on the directory at path `self`
prints, if it prints one. -/
def Directory.createFileError (fs : FileSystem) (self : List Nat) (filename : String)
    (size : Int) : Option String :=
  match fs.root.getDir self with
  | none => none
  | some d =>
    if testMask d.permissions 1 = false then
      some "[ERROR] Permission denied: cannot create file in this directory"
    else if (mapFind d.files filename).isSome then some "[ERROR] File already exists!"
    else
      let numBlocks := ceilDiv size fs.bm.blockSize
      let r := fs.bm.allocateBlock
      if r.1 = -1 then some "[ERROR] No free blocks for index block."
      else
        match Directory.createLoop r.1 numBlocks.toNat r.2 [] with
        | (none, _) => some "[ERROR] Not enough free blocks, rolling back..."
        | (some _, _) => none

/-- The `[ERROR]` lines a call of `FileSystem::removeDirectory` prints, in order (the last
two come from `Directory::removeDirectory` refusing and the caller reporting it). -/
def FileSystem.removeDirectoryErrors (fs : FileSystem) (name : String) : List String :=
  if name.isEmpty then []
  else if name = fs.root.name then ["[ERROR] Cannot remove root directory"]
  else
    match fs.root.getDir fs.currentDir with
    | none => []
    | some cur =>
      match cur.findSubdir name with
      | none => ["[ERROR] Directory not found: " ++ name]
      | some i =>
        if (fs.currentDir ++ [i]) ∈ FileSystem.ancestors fs.currentDir then
          ["[ERROR] Cannot remove current or parent directory"]
        else if testMask cur.permissions 1 = false then
          ["[ERROR] Permission denied: cannot remove directory",
            "[ERROR] Failed to remove directory: " ++ name]
        else []

/-! ## Vocabulary of the directory properties -/

/-- Every record of the tree has a block list that fits an index block of `blockSize` bytes
(the condition under which `writeIndexBlock` stays inside its buffer). -/
def indexBlocksFit (blockSize : Nat) (root : Directory) : Prop :=
  ∀ fm ∈ root.allFiles, 4 + 4 * fm.blocks.length ≤ blockSize

/-- The name, the permissions and the `files` map of the node at a path. -/
def Directory.nodeAt (root : Directory) (p : List Nat) :
    Option (String × Int × List (String × FileMeta)) :=
  (root.getDir p).map (fun d => (d.name, d.permissions, d.files))

mutual
/-- No directory of the tree has two children with the same name. -/
def Directory.UniqueNames : Directory → Prop
  | .mk _ _ _ subdirs => (subdirs.map Directory.name).Nodup ∧ uniqueNamesList subdirs
/-- Every directory of a list satisfies `Directory.UniqueNames`. -/
def uniqueNamesList : List Directory → Prop
  | [] => True
  | d :: ds => d.UniqueNames ∧ uniqueNamesList ds
end

/-- A call of `addSubdir`, `removeSubdir` or `removeDirectory` on the directory at a path. -/
inductive DirOp where
  | addSubdir (self : List Nat) (name : String)
  | removeSubdir (self : List Nat) (name : String)
  | removeDirectory (self : List Nat) (name : String)
deriving DecidableEq, Repr

/-- Run a sequence of directory calls, ignoring each call's success flag; `none` when a call
has undefined behaviour. -/
def runDirOps : List DirOp → FileSystem → Option FileSystem
  | [], fs => some fs
  | .addSubdir self name :: rest, fs =>
    match Directory.addSubdir fs self name with
    | none => none
    | some r => runDirOps rest r.2
  | .removeSubdir self name :: rest, fs =>
    match Directory.removeSubdir fs self name with
    | none => none
    | some r => runDirOps rest r.2
  | .removeDirectory self name :: rest, fs =>
    match Directory.removeDirectory fs self name with
    | none => none
    | some r => runDirOps rest r.2

/-- The state of the worked examples of the directory commands: 10 blocks of 128 bytes, of
which only block 9 is free. The root holds `a.txt` (index block 1, data block 2) and the
directories `ro` (permissions 4, empty), `bin` (permissions 5, holding the read-only `b.txt`
with index block 3 and data blocks 4 and 5, and the writable `w.txt` with index block 6 and
data blocks 7 and 8) and `tmp` (permissions 7, empty); the current directory is the root. -/
def permState : FileSystem :=
  { bm :=
      { blockSize := 128
        totalBlocks := 10
        freeBlockBitmap := [false, false, false, false, false, false, false, false, false, true]
        disk := List.replicate 10 (zeros 128)
        metaFile := [] }
    root :=
      .mk "root" 7
        [("a.txt", { filename := "a.txt", fileSize := 100, indexBlock := 1, blocks := [2],
                     createdAt := 1700000000, modifiedAt := 1700000000, permissions := 6 })]
        [.mk "ro" 4 [] [],
         .mk "bin" 5
           [("b.txt", { filename := "b.txt", fileSize := 200, indexBlock := 3, blocks := [4, 5],
                        createdAt := 1700000000, modifiedAt := 1700000000, permissions := 4 }),
            ("w.txt", { filename := "w.txt", fileSize := 200, indexBlock := 6, blocks := [7, 8],
                        createdAt := 1700000000, modifiedAt := 1700000000, permissions := 6 })]
           [],
         .mk "tmp" 7 [] []]
    currentDir := [] }

/-- The manager `bm1` is `bm` after the blocks of `L` were freed: the configuration is the
same, the bits of the blocks of `L` inside the bitmap are free, and every other bit is as
before. -/
structure Freed (L : List Int) (bm bm1 : BlockManager) : Prop where
  totalBlocks_eq : bm1.totalBlocks = bm.totalBlocks
  blockSize_eq : bm1.blockSize = bm.blockSize
  length_eq : bm1.freeBlockBitmap.length = bm.freeBlockBitmap.length
  bit : ∀ j : Nat, bm1.freeBlockBitmap[j]? =
    if (j : Int) ∈ L ∧ j < bm.totalBlocks ∧ j < bm.freeBlockBitmap.length then some true
    else bm.freeBlockBitmap[j]?

/-- The record `fm1` comes from the record `fm` by the block step of the repair pass of
`checkMeta`, run on the valid blocks of `fm` and a manager `bm` with `total` blocks; `bm1`
is the manager after the step. -/
def RepairedFrom (total blockSize : Nat) (fm fm1 : FileMeta) : Prop :=
  ∃ bm bm1 : BlockManager, bm.totalBlocks = total ∧
    FileSystem.repairBlocks blockSize bm
      (fm.blocks.filter (fun b => 0 ≤ b ∧ b < (total : Int))) fm.fileSize =
      some (bm1, fm1.blocks, fm1.fileSize)

/-- The state of the worked example of the repair pass: 7 blocks of 16 bytes, all marked
used. The record `a` (10 bytes) lists the blocks 2 and 3 and the invalid index 9, one valid
block too many; `b` (48 bytes) has the single block 5, two too few; `c` (16 bytes) has
none. -/
def repairState : FileSystem :=
  { bm :=
      { blockSize := 16
        totalBlocks := 7
        freeBlockBitmap := [false, false, false, false, false, false, false]
        disk := List.replicate 7 (zeros 16)
        metaFile := [] }
    root :=
      .mk "root" 7
        [("a", { filename := "a", fileSize := 10, indexBlock := 1, blocks := [2, 3, 9],
                 createdAt := 0, modifiedAt := 0, permissions := 6 }),
         ("b", { filename := "b", fileSize := 48, indexBlock := 4, blocks := [5],
                 createdAt := 0, modifiedAt := 0, permissions := 6 }),
         ("c", { filename := "c", fileSize := 16, indexBlock := 6, blocks := [],
                 createdAt := 0, modifiedAt := 0, permissions := 6 })]
        []
    currentDir := [] }

/-- The repair pass of `checkMeta` can handle the record `fm` on the manager `bm`: the record
has an index block and a size that is not negative, `ceil(size / blockSize)` block numbers
fit an index block, and the index block holds a count the pass can decode. -/
def Repairable (bm : BlockManager) (blockSize : Nat) (fm : FileMeta) : Prop :=
  0 ≤ fm.indexBlock ∧ 0 ≤ fm.fileSize ∧
    4 + 4 * (ceilDiv fm.fileSize blockSize).toNat ≤ blockSize ∧
    (FileSystem.decodeIndex (bm.readBlock fm.indexBlock []).2).isSome = true

/-! # Theorems -/

namespace BlockManager

theorem getD_false_eq_true_iff (l : List Bool) (i : Nat) :
    l.getD i false = true ↔ l[i]? = some true := by
  rw [List.getD_eq_getElem?_getD]
  cases h : l[i]? <;> simp

theorem allocScan_some {bitmap : List Bool} {s n i : Nat} (h : allocScan bitmap s n = some i) :
    s ≤ i ∧ i < s + n ∧ bitmap[i]? = some true ∧
      ∀ j, s ≤ j → j < i → bitmap[j]? ≠ some true := by
  induction n generalizing s with
  | zero => simp [allocScan] at h
  | succ n ih =>
    rw [allocScan] at h
    split at h
    · rename_i hfree
      cases h
      refine ⟨le_refl _, by omega, (getD_false_eq_true_iff _ _).1 hfree, ?_⟩
      intro j h1 h2; omega
    · rename_i hused
      obtain ⟨h1, h2, h3, h4⟩ := ih h
      refine ⟨by omega, by omega, h3, ?_⟩
      intro j hj1 hj2
      by_cases hjs : j = s
      · subst hjs
        exact fun hc => hused ((getD_false_eq_true_iff _ _).2 hc)
      · exact h4 j (by omega) hj2

theorem allocScan_none {bitmap : List Bool} {s n : Nat} :
    allocScan bitmap s n = none ↔ ∀ j, s ≤ j → j < s + n → bitmap[j]? ≠ some true := by
  induction n generalizing s with
  | zero => simp [allocScan]; intro j h1 h2; omega
  | succ n ih =>
    rw [allocScan]
    constructor
    · intro h
      split at h
      · cases h
      · rename_i hused
        intro j h1 h2
        by_cases hjs : j = s
        · subst hjs
          exact fun hc => hused ((getD_false_eq_true_iff _ _).2 hc)
        · exact (ih.1 h) j (by omega) (by omega)
    · intro h
      have hs : ¬ bitmap.getD s false = true := by
        rw [getD_false_eq_true_iff]; exact h s (le_refl _) (by omega)
      rw [if_neg hs]
      exact ih.2 (fun j h1 h2 => h j (by omega) (by omega))

/-- C1. `allocateBlock` returns `-1` exactly when no index in `[1, totalBlocks)` is free, and
then leaves the bitmap alone; otherwise it returns the smallest free index `i` of that range,
marks exactly bit `i` used and keeps every other bit. The result is never `0`. -/
theorem allocateBlock_first_fit (bm : BlockManager) :
    ((bm.allocateBlock).1 = -1 ↔
        ∀ i : Nat, 1 ≤ i → i < bm.totalBlocks → bm.freeBlockBitmap[i]? ≠ some true) ∧
    ((bm.allocateBlock).1 = -1 → (bm.allocateBlock).2.freeBlockBitmap = bm.freeBlockBitmap) ∧
    ((bm.allocateBlock).1 ≠ -1 →
        ∃ i : Nat, (bm.allocateBlock).1 = (i : Int) ∧ 1 ≤ i ∧ i < bm.totalBlocks ∧
          bm.freeBlockBitmap[i]? = some true ∧
          (∀ j : Nat, 1 ≤ j → j < i → bm.freeBlockBitmap[j]? ≠ some true) ∧
          (bm.allocateBlock).2.freeBlockBitmap.length = bm.freeBlockBitmap.length ∧
          (bm.allocateBlock).2.freeBlockBitmap[i]? = some false ∧
          (∀ j : Nat, j ≠ i →
            (bm.allocateBlock).2.freeBlockBitmap[j]? = bm.freeBlockBitmap[j]?)) ∧
    (bm.allocateBlock).1 ≠ 0 := by
  unfold allocateBlock
  cases h : allocScan bm.freeBlockBitmap 1 (bm.totalBlocks - 1) with
  | none =>
    have hn := allocScan_none.1 h
    refine ⟨?_, ?_, ?_, ?_⟩
    · simp only [true_iff]
      intro i h1 h2; exact hn i h1 (by omega)
    · intro _; rfl
    · intro hne; exact absurd rfl hne
    · simp
  | some i =>
    obtain ⟨h1, h2, h3, h4⟩ := allocScan_some h
    have hlt : i < bm.freeBlockBitmap.length := by
      rcases List.getElem?_eq_some_iff.1 h3 with ⟨hlt, _⟩
      exact hlt
    refine ⟨?_, ?_, ?_, ?_⟩
    · constructor
      · intro hneg; simp at hneg
      · intro hall; exact absurd h3 (hall i h1 (by omega))
    · intro hneg; simp at hneg
    · intro _
      refine ⟨i, rfl, h1, by omega, h3, h4, ?_, ?_, ?_⟩
      · simp [saveMeta]
      · simp [saveMeta, List.getElem?_set, hlt]
      · intro j hj
        simp [saveMeta, List.getElem?_set, Ne.symm hj]
    · simp; omega

end BlockManager

namespace BlockManager

/-! ### Field-level facts about the allocator operations -/

@[simp] theorem saveMeta_freeBlockBitmap (bm : BlockManager) :
    bm.saveMeta.freeBlockBitmap = bm.freeBlockBitmap := rfl
@[simp] theorem saveMeta_disk (bm : BlockManager) : bm.saveMeta.disk = bm.disk := rfl
@[simp] theorem saveMeta_blockSize (bm : BlockManager) : bm.saveMeta.blockSize = bm.blockSize := rfl
@[simp] theorem saveMeta_totalBlocks (bm : BlockManager) :
    bm.saveMeta.totalBlocks = bm.totalBlocks := rfl

theorem freeBlock_eq (bm : BlockManager) (i : Int) :
    ∃ mf, bm.freeBlock i =
      { bm with
        freeBlockBitmap :=
          if 0 ≤ i ∧ i < (bm.totalBlocks : Int) then bm.freeBlockBitmap.set i.toNat true
          else bm.freeBlockBitmap
        metaFile := mf } := by
  unfold freeBlock
  by_cases h : i < 0 ∨ i ≥ (bm.totalBlocks : Int)
  · refine ⟨bm.metaFile, ?_⟩
    have h' : ¬ (0 ≤ i ∧ i < (bm.totalBlocks : Int)) := by omega
    simp [h, h']
  · have h' : (0 ≤ i ∧ i < (bm.totalBlocks : Int)) := by omega
    simp only [if_neg h, if_pos h']
    exact ⟨_, rfl⟩

@[simp] theorem freeBlock_disk (bm : BlockManager) (i : Int) : (bm.freeBlock i).disk = bm.disk := by
  obtain ⟨mf, h⟩ := freeBlock_eq bm i; rw [h]
@[simp] theorem freeBlock_blockSize (bm : BlockManager) (i : Int) :
    (bm.freeBlock i).blockSize = bm.blockSize := by
  obtain ⟨mf, h⟩ := freeBlock_eq bm i; rw [h]
@[simp] theorem freeBlock_totalBlocks (bm : BlockManager) (i : Int) :
    (bm.freeBlock i).totalBlocks = bm.totalBlocks := by
  obtain ⟨mf, h⟩ := freeBlock_eq bm i; rw [h]
@[simp] theorem freeBlock_length (bm : BlockManager) (i : Int) :
    (bm.freeBlock i).freeBlockBitmap.length = bm.freeBlockBitmap.length := by
  obtain ⟨mf, h⟩ := freeBlock_eq bm i; rw [h]; dsimp only; split <;> simp

theorem freeBlock_getElem? (bm : BlockManager) (i : Int) (j : Nat) :
    (bm.freeBlock i).freeBlockBitmap[j]? =
      if 0 ≤ i ∧ i < (bm.totalBlocks : Int) ∧ i.toNat = j ∧ j < bm.freeBlockBitmap.length
      then some true else bm.freeBlockBitmap[j]? := by
  obtain ⟨mf, h⟩ := freeBlock_eq bm i
  rw [h]; dsimp only
  by_cases h1 : 0 ≤ i ∧ i < (bm.totalBlocks : Int)
  · rw [if_pos h1, List.getElem?_set]
    by_cases h2 : i.toNat = j
    · by_cases h3 : j < bm.freeBlockBitmap.length
      · simp [h1, h2, h3]
      · simp [h2, h3]; omega
    · simp [h2]
  · rw [if_neg h1]
    have : ¬ (0 ≤ i ∧ i < (bm.totalBlocks : Int) ∧ i.toNat = j ∧ j < bm.freeBlockBitmap.length) :=
      fun hc => h1 ⟨hc.1, hc.2.1⟩
    rw [if_neg this]

@[simp] theorem freeBlocks_disk (bm : BlockManager) (l : List Int) :
    (bm.freeBlocks l).disk = bm.disk := by
  induction l generalizing bm with
  | nil => rfl
  | cons a l ih => simp [freeBlocks, ih]
@[simp] theorem freeBlocks_blockSize (bm : BlockManager) (l : List Int) :
    (bm.freeBlocks l).blockSize = bm.blockSize := by
  induction l generalizing bm with
  | nil => rfl
  | cons a l ih => simp [freeBlocks, ih]
@[simp] theorem freeBlocks_totalBlocks (bm : BlockManager) (l : List Int) :
    (bm.freeBlocks l).totalBlocks = bm.totalBlocks := by
  induction l generalizing bm with
  | nil => rfl
  | cons a l ih => simp [freeBlocks, ih]
@[simp] theorem freeBlocks_length (bm : BlockManager) (l : List Int) :
    (bm.freeBlocks l).freeBlockBitmap.length = bm.freeBlockBitmap.length := by
  induction l generalizing bm with
  | nil => rfl
  | cons a l ih => simp [freeBlocks, ih]

theorem freeBlocks_append (bm : BlockManager) (l1 l2 : List Int) :
    bm.freeBlocks (l1 ++ l2) = (bm.freeBlocks l1).freeBlocks l2 := by
  induction l1 generalizing bm with
  | nil => rfl
  | cons a l ih => simp [freeBlocks, ih]

/-- Bit `j` after freeing a list of blocks. -/
theorem freeBlocks_getElem? (bm : BlockManager) (l : List Int) (j : Nat) :
    (bm.freeBlocks l).freeBlockBitmap[j]? =
      if (j : Int) ∈ l ∧ j < bm.totalBlocks ∧ j < bm.freeBlockBitmap.length
      then some true else bm.freeBlockBitmap[j]? := by
  induction l generalizing bm with
  | nil => simp [freeBlocks]
  | cons a l ih =>
    rw [freeBlocks, ih, freeBlock_getElem?]
    simp only [freeBlock_totalBlocks, freeBlock_length, List.mem_cons]
    by_cases hj : j < bm.totalBlocks ∧ j < bm.freeBlockBitmap.length
    · by_cases hl : (j : Int) ∈ l
      · simp [hl, hj]
      · by_cases ha : (j : Int) = a
        · subst ha; simp [hj]
        · have : ¬ (a.toNat = j ∧ 0 ≤ a) := by omega
          have h2 : ¬ (0 ≤ a ∧ a < (bm.totalBlocks : Int) ∧ a.toNat = j ∧
              j < bm.freeBlockBitmap.length) := fun hc => this ⟨hc.2.2.1, hc.1⟩
          simp [hl, ha, h2]
    · have h1 : ¬ ((j : Int) ∈ l ∧ j < bm.totalBlocks ∧ j < bm.freeBlockBitmap.length) :=
        fun hc => hj hc.2
      have h2 : ¬ (0 ≤ a ∧ a < (bm.totalBlocks : Int) ∧ a.toNat = j ∧
          j < bm.freeBlockBitmap.length) := fun hc => hj ⟨by omega, hc.2.2.2⟩
      have h3 : ¬ (((j : Int) = a ∨ (j : Int) ∈ l) ∧ j < bm.totalBlocks ∧
          j < bm.freeBlockBitmap.length) := fun hc => hj hc.2
      rw [if_neg h1, if_neg h2, if_neg h3]

/-! ### The free list and `allocateBlock` -/

theorem mem_freeList (bm : BlockManager) (i : Nat) :
    i ∈ bm.freeList ↔ 1 ≤ i ∧ i < bm.totalBlocks ∧ bm.freeBlockBitmap[i]? = some true := by
  unfold freeList
  rw [List.mem_filter, List.mem_range'_1, getD_false_eq_true_iff]
  constructor
  · rintro ⟨⟨h1, h2⟩, h3⟩; exact ⟨h1, by omega, h3⟩
  · rintro ⟨h1, h2, h3⟩; exact ⟨⟨h1, by omega⟩, h3⟩

theorem freeList_sorted (bm : BlockManager) : bm.freeList.Sorted (· < ·) := by
  unfold freeList
  exact List.Pairwise.filter _ (List.pairwise_lt_range' 1 _)

theorem freeList_nodup (bm : BlockManager) : bm.freeList.Nodup :=
  (freeList_sorted bm).imp (fun h => Nat.ne_of_lt h)

theorem allocScan_eq_head? (bitmap : List Bool) (s n : Nat) :
    allocScan bitmap s n = ((List.range' s n).filter (fun i => bitmap.getD i false)).head? := by
  induction n generalizing s with
  | zero => simp [allocScan]
  | succ n ih =>
    rw [allocScan, List.range'_succ, List.filter_cons]
    by_cases h : bitmap.getD s false = true
    · rw [if_pos h, if_pos h, List.head?_cons]
    · rw [if_neg h, if_neg h]
      exact ih (s + 1)

theorem allocateBlock_of_freeList_nil {bm : BlockManager} (h : bm.freeList = []) :
    bm.allocateBlock = (-1, bm) := by
  unfold allocateBlock
  rw [allocScan_eq_head?]
  unfold freeList at h
  rw [h]; rfl

theorem freeList_set_false {bm : BlockManager} {i : Nat} {rest : List Nat} (mf : List Char)
    (h : bm.freeList = i :: rest) :
    freeList { bm with freeBlockBitmap := bm.freeBlockBitmap.set i false, metaFile := mf } = rest := by
  have hnd := freeList_nodup bm
  rw [h] at hnd
  have hi : i ∉ rest := (List.nodup_cons.1 hnd).1
  unfold freeList at h ⊢
  dsimp only
  have hp : ∀ j, (bm.freeBlockBitmap.set i false).getD j false =
      (decide (j ≠ i) && bm.freeBlockBitmap.getD j false) := by
    intro j
    rw [List.getD_eq_getElem?_getD, List.getD_eq_getElem?_getD, List.getElem?_set]
    by_cases hji : i = j
    · subst hji
      by_cases hl : i < bm.freeBlockBitmap.length <;> simp [hl]
    · have : j ≠ i := fun hc => hji hc.symm
      simp [hji, this]
  simp only [hp]
  rw [← List.filter_filter, h, List.filter_cons]
  simp only [ne_eq, not_true_eq_false, decide_False, if_false, Bool.false_eq_true]
  rw [List.filter_eq_self]
  intro a ha
  simp only [decide_eq_true_eq]
  exact fun hc => hi (hc ▸ ha)

theorem allocateBlock_of_freeList_cons {bm : BlockManager} {i : Nat} {rest : List Nat}
    (h : bm.freeList = i :: rest) :
    ∃ mf, bm.allocateBlock =
      ((i : Int), { bm with freeBlockBitmap := bm.freeBlockBitmap.set i false, metaFile := mf }) := by
  unfold allocateBlock
  rw [allocScan_eq_head?]
  unfold freeList at h
  rw [h]
  exact ⟨_, rfl⟩

end BlockManager

/-! ### Marking lists of bits -/

@[simp] theorem markList_nil (b : List Bool) (v : Bool) : markList b [] v = b := rfl

@[simp] theorem markList_cons (b : List Bool) (i : Nat) (L : List Nat) (v : Bool) :
    markList b (i :: L) v = markList (b.set i v) L v := rfl

@[simp] theorem length_markList (b : List Bool) (L : List Nat) (v : Bool) :
    (markList b L v).length = b.length := by
  induction L generalizing b with
  | nil => rfl
  | cons i L ih => simp [ih]

theorem getElem?_markList (b : List Bool) (L : List Nat) (v : Bool) (j : Nat) :
    (markList b L v)[j]? = if j ∈ L ∧ j < b.length then some v else b[j]? := by
  induction L generalizing b with
  | nil => simp
  | cons i L ih =>
    rw [markList_cons, ih, List.length_set, List.getElem?_set]
    by_cases hj : j < b.length
    · by_cases hL : j ∈ L
      · simp [hL, hj]
      · by_cases hi : i = j
        · subst hi; simp [hj]
        · have : ¬ j = i := fun hc => hi hc.symm
          simp [hL, hi, this]
    · have h1 : ¬ (j ∈ L ∧ j < b.length) := fun hc => hj hc.2
      have h2 : ¬ (j ∈ i :: L ∧ j < b.length) := fun hc => hj hc.2
      rw [if_neg h1, if_neg h2]
      by_cases hi : i = j
      · subst hi; simp [hj]; omega
      · simp [hi]

theorem markList_append (b : List Bool) (L1 L2 : List Nat) (v : Bool) :
    markList b (L1 ++ L2) v = markList (markList b L1 v) L2 v := by
  simp [markList, List.foldl_append]

namespace BlockManager

/-- Freeing exactly the blocks that were taken from the free list restores the bitmap. -/
theorem freeBlocks_markList_false (bm : BlockManager) (L : List Nat) (L' : List Int)
    (mf : List Char)
    (hL : ∀ i ∈ L, i < bm.totalBlocks ∧ bm.freeBlockBitmap[i]? = some true)
    (hmem : ∀ j : Nat, (j : Int) ∈ L' ↔ j ∈ L) :
    (freeBlocks { bm with freeBlockBitmap := markList bm.freeBlockBitmap L false, metaFile := mf }
      L').freeBlockBitmap = bm.freeBlockBitmap := by
  apply List.ext_getElem?
  intro j
  rw [freeBlocks_getElem?]
  simp only [length_markList, getElem?_markList, hmem]
  by_cases hj : j ∈ L
  · obtain ⟨h1, h2⟩ := hL j hj
    have h3 : j < bm.freeBlockBitmap.length := (List.getElem?_eq_some_iff.1 h2).1
    simp [hj, h1, h2, h3]
  · simp [hj]

theorem freeList_take_free (bm : BlockManager) (n : Nat) :
    ∀ i ∈ bm.freeList.take n, i < bm.totalBlocks ∧ bm.freeBlockBitmap[i]? = some true := by
  intro i hi
  have := (mem_freeList bm i).1 (List.mem_of_mem_take hi)
  exact ⟨this.2.1, this.2.2⟩

end BlockManager

namespace Directory
open BlockManager

/-! ### The allocation loop of `createFile` -/

theorem createLoop_success (idx : Int) :
    ∀ (n : Nat) (bm : BlockManager) (acc : List Int), n ≤ bm.freeList.length →
      ∃ mf, createLoop idx n bm acc =
        (some (acc ++ (bm.freeList.take n).map Nat.cast),
          { bm with
            freeBlockBitmap := markList bm.freeBlockBitmap (bm.freeList.take n) false
            metaFile := mf }) := by
  intro n
  induction n with
  | zero => intro bm acc _; exact ⟨bm.metaFile, by simp [createLoop]⟩
  | succ n ih =>
    intro bm acc hn
    cases hF : bm.freeList with
    | nil => rw [hF] at hn; simp at hn
    | cons i rest =>
      obtain ⟨mf1, h1⟩ := allocateBlock_of_freeList_cons hF
      have hrest := freeList_set_false mf1 hF
      rw [hF] at hn
      obtain ⟨mf, h2⟩ := ih _ (acc ++ [(i : Int)]) (by rw [hrest]; simpa using hn)
      refine ⟨mf, ?_⟩
      rw [createLoop, h1]
      have hne : ¬ ((i : Int) = -1) := by omega
      simp only [hne, if_false]
      rw [h2, hrest]
      simp

theorem createLoop_failure (idx : Int) :
    ∀ (n : Nat) (bm : BlockManager) (acc : List Int), bm.freeList.length < n →
      ∃ mf, createLoop idx n bm acc =
        (none,
          (freeBlocks { bm with
            freeBlockBitmap := markList bm.freeBlockBitmap bm.freeList false
            metaFile := mf } (acc ++ bm.freeList.map Nat.cast)).freeBlock idx) := by
  intro n
  induction n with
  | zero => intro bm acc h; simp at h
  | succ n ih =>
    intro bm acc hn
    cases hF : bm.freeList with
    | nil =>
      refine ⟨bm.metaFile, ?_⟩
      rw [createLoop, allocateBlock_of_freeList_nil hF]
      simp
    | cons i rest =>
      obtain ⟨mf1, h1⟩ := allocateBlock_of_freeList_cons hF
      have hrest := freeList_set_false mf1 hF
      rw [hF] at hn
      obtain ⟨mf, h2⟩ := ih _ (acc ++ [(i : Int)]) (by rw [hrest]; simpa using hn)
      refine ⟨mf, ?_⟩
      rw [createLoop, h1]
      have hne : ¬ ((i : Int) = -1) := by omega
      simp only [hne, if_false]
      rw [h2, hrest]
      simp

end Directory

namespace Directory
open BlockManager

theorem freeBlock_freeBlocks (bm : BlockManager) (l : List Int) (i : Int) :
    (bm.freeBlocks l).freeBlock i = bm.freeBlocks (l ++ [i]) := by
  rw [freeBlocks_append]; rfl

theorem createFile_fail_space {fs : FileSystem} {self : List Nat} {filename : String}
    {size : Int} (now : Int) {d : Directory}
    (hd : fs.root.getDir self = some d) (hw : testMask d.permissions 1 = true)
    (hnew : mapFind d.files filename = none)
    (hspace : fs.bm.freeList.length < 1 + (ceilDiv size fs.bm.blockSize).toNat) :
    ∃ fs', createFile fs self filename size now = some (false, fs') ∧ SameState fs fs' := by
  unfold createFile
  simp only [hd, hw, hnew, Option.isSome_none, Bool.true_eq_false, if_false, Bool.false_eq_true]
  cases hF : fs.bm.freeList with
  | nil =>
    rw [allocateBlock_of_freeList_nil hF]
    exact ⟨_, by simp, ⟨rfl, rfl, rfl, rfl, rfl, rfl⟩⟩
  | cons i rest =>
    obtain ⟨mf1, h1⟩ := allocateBlock_of_freeList_cons hF
    have hrest := freeList_set_false mf1 hF
    rw [hF] at hspace
    rw [h1]
    have hne : ¬ ((i : Int) = -1) := by omega
    simp only [hne, if_false]
    obtain ⟨mf, h2⟩ := createLoop_failure (i : Int) (ceilDiv size fs.bm.blockSize).toNat
      { fs.bm with freeBlockBitmap := fs.bm.freeBlockBitmap.set i false, metaFile := mf1 } []
      (by rw [hrest]; simp at hspace; omega)
    rw [h2, hrest]
    refine ⟨_, rfl, ⟨rfl, rfl, ?_, by simp, by simp, by simp⟩⟩
    dsimp only
    rw [freeBlock_freeBlocks]
    have := freeBlocks_markList_false fs.bm (i :: rest) ([] ++ rest.map Nat.cast ++ [(i : Int)]) mf
      (by
        intro j hj
        have := (mem_freeList fs.bm j).1 (hF ▸ hj)
        exact ⟨this.2.1, this.2.2⟩)
      (by
        intro j
        simp only [List.nil_append, List.mem_append, List.mem_map, List.mem_singleton,
          List.mem_cons, Nat.cast_inj, exists_eq_right]
        tauto)
    exact this

theorem createFile_enough_space {fs : FileSystem} {self : List Nat} {filename : String}
    {size : Int} (now : Int) {d : Directory} {i0 : Nat} {rest : List Nat}
    (hd : fs.root.getDir self = some d) (hw : testMask d.permissions 1 = true)
    (hnew : mapFind d.files filename = none)
    (hF : fs.bm.freeList = i0 :: rest)
    (hn : (ceilDiv size fs.bm.blockSize).toNat ≤ rest.length) :
    ∃ mf, createFile fs self filename size now =
      match Serializer.writeIndexBlock
          (fs.bm.taken (i0 :: rest.take (ceilDiv size fs.bm.blockSize).toNat) mf)
          (newFileMeta filename size now i0
            ((rest.take (ceilDiv size fs.bm.blockSize).toNat).map Nat.cast)) with
      | none => none
      | some bm3 =>
        match Serializer.saveDirectory bm3 (fs.root.setFiles self (mapInsert d.files filename
            (newFileMeta filename size now i0
              ((rest.take (ceilDiv size fs.bm.blockSize).toNat).map Nat.cast)))) with
        | none => none
        | some bm4 => some (true, { fs with
            bm := bm4
            root := fs.root.setFiles self (mapInsert d.files filename
              (newFileMeta filename size now i0
                ((rest.take (ceilDiv size fs.bm.blockSize).toNat).map Nat.cast))) }) := by
  unfold createFile
  simp only [hd, hw, hnew, Option.isSome_none, Bool.true_eq_false, if_false, Bool.false_eq_true]
  obtain ⟨mf1, h1⟩ := allocateBlock_of_freeList_cons hF
  have hrest := freeList_set_false mf1 hF
  rw [h1]
  have hne : ¬ ((i0 : Int) = -1) := by omega
  simp only [hne, if_false]
  obtain ⟨mf, h2⟩ := createLoop_success (i0 : Int) (ceilDiv size fs.bm.blockSize).toNat
    { fs.bm with freeBlockBitmap := fs.bm.freeBlockBitmap.set i0 false, metaFile := mf1 } []
    (by rw [hrest]; exact hn)
  rw [h2, hrest]
  refine ⟨mf, ?_⟩
  simp only [List.nil_append, saveDirectory]
  have e : ∀ (o : Option BlockManager) (r : Directory),
      (match o with
        | none => none
        | some bm3 =>
          match
            (match Serializer.saveDirectory bm3 r with
              | none => none
              | some bm' => some ({ bm := bm', root := r, currentDir := fs.currentDir } : FileSystem)) with
          | none => none
          | some fs' => some (true, fs')) =
      (match o with
        | none => none
        | some bm3 =>
          match Serializer.saveDirectory bm3 r with
          | none => none
          | some bm4 => some (true, ({ bm := bm4, root := r, currentDir := fs.currentDir } : FileSystem))) := by
    intro o r
    cases o with
    | none => rfl
    | some bm3 => dsimp only; cases Serializer.saveDirectory bm3 r <;> rfl
  exact e _ _

/-- What a successful `createFile` did. -/
theorem createFile_true {fs fs' : FileSystem} {self : List Nat} {filename : String}
    {size now : Int} {d : Directory}
    (hd : fs.root.getDir self = some d)
    (h : createFile fs self filename size now = some (true, fs')) :
    ∃ (i0 : Nat) (rest : List Nat) (mf : List Char) (bm3 : BlockManager),
      testMask d.permissions 1 = true ∧ mapFind d.files filename = none ∧
      fs.bm.freeList = i0 :: rest ∧ (ceilDiv size fs.bm.blockSize).toNat ≤ rest.length ∧
      Serializer.writeIndexBlock
          (fs.bm.taken (i0 :: rest.take (ceilDiv size fs.bm.blockSize).toNat) mf)
          (newFileMeta filename size now i0
            ((rest.take (ceilDiv size fs.bm.blockSize).toNat).map Nat.cast)) = some bm3 ∧
      Serializer.saveDirectory bm3 fs'.root = some fs'.bm ∧
      fs'.root = fs.root.setFiles self (mapInsert d.files filename
        (newFileMeta filename size now i0
          ((rest.take (ceilDiv size fs.bm.blockSize).toNat).map Nat.cast))) ∧
      fs'.currentDir = fs.currentDir := by
  by_cases hw : testMask d.permissions 1 = true
  swap
  · simp [createFile, hd, hw] at h
  cases hnew : mapFind d.files filename with
  | some v => simp [createFile, hd, hw, hnew] at h
  | none =>
    by_cases hspace : fs.bm.freeList.length < 1 + (ceilDiv size fs.bm.blockSize).toNat
    · obtain ⟨fs1, h1, _⟩ := createFile_fail_space now hd hw hnew hspace
      rw [h1] at h; simp at h
    · cases hF : fs.bm.freeList with
      | nil => rw [hF] at hspace; simp at hspace
      | cons i0 rest =>
        rw [hF] at hspace
        have hn : (ceilDiv size fs.bm.blockSize).toNat ≤ rest.length := by
          simp at hspace; omega
        obtain ⟨mf, h1⟩ := createFile_enough_space now hd hw hnew hF hn
        rw [h1] at h
        refine ⟨i0, rest, mf, ?_⟩
        split at h
        · cases h
        · rename_i bm3 h3
          split at h
          · cases h
          · rename_i bm4 h4
            simp only [Option.some.injEq, Prod.mk.injEq, true_and] at h
            subst h
            exact ⟨bm3, hw, rfl, rfl, hn, h3, h4, rfl, rfl⟩

/-- C4. If the directory is writable, the name is new, and fewer free blocks exist than the
`1 + ceil(size/blockSize)` blocks the call needs, `createFile` fails and leaves the allocator
bitmap, the tree (hence the directory's file map) and the disk exactly as they were. -/
theorem createFile_out_of_space_rollback (fs : FileSystem) (self : List Nat) (filename : String)
    (size now : Int) (d : Directory)
    (hd : fs.root.getDir self = some d) (hw : testMask d.permissions 1 = true)
    (hnew : mapFind d.files filename = none)
    (hspace : fs.bm.freeList.length < 1 + (ceilDiv size fs.bm.blockSize).toNat) :
    ∃ fs', createFile fs self filename size now = some (false, fs') ∧
      fs'.bm.freeBlockBitmap = fs.bm.freeBlockBitmap ∧ fs'.root = fs.root ∧
      fs'.bm.disk = fs.bm.disk := by
  obtain ⟨fs', h1, h2⟩ := createFile_fail_space now hd hw hnew hspace
  exact ⟨fs', h1, h2.bitmap_eq, h2.root_eq, h2.disk_eq⟩

end Directory

/-! ### The tree: paths, maps and the traversal order -/

theorem allFilesList_eq_flatMap (ds : List Directory) :
    allFilesList ds = ds.flatMap Directory.allFiles := by
  induction ds with
  | nil => simp [allFilesList]
  | cons d ds ih => simp [allFilesList, ih]

theorem allFiles_mk (n : String) (pm : Int) (f : List (String × FileMeta)) (sds : List Directory) :
    (Directory.mk n pm f sds).allFiles = sds.flatMap Directory.allFiles ++ f.map (fun p => p.2) := by
  rw [Directory.allFiles, allFilesList_eq_flatMap]

theorem mapFind_some_split {m : List (String × FileMeta)} {k : String} {v : FileMeta}
    (h : mapFind m k = some v) :
    ∃ l1 l2, m = l1 ++ (k, v) :: l2 ∧ (∀ v', mapAssign m k v' = l1 ++ (k, v') :: l2) ∧
      mapErase m k = l1 ++ l2 := by
  induction m with
  | nil => simp [mapFind] at h
  | cons a m ih =>
    obtain ⟨k', v0⟩ := a
    by_cases hk : k' = k
    · subst hk
      simp only [mapFind, if_true] at h
      cases h
      exact ⟨[], m, rfl, fun v' => by simp [mapAssign], by simp [mapErase]⟩
    · simp only [mapFind, hk, if_false] at h
      obtain ⟨l1, l2, h1, h2, h3⟩ := ih h
      refine ⟨(k', v0) :: l1, l2, by rw [h1]; rfl, fun v' => ?_, ?_⟩
      · simp [mapAssign, hk, h2 v']
      · simp [mapErase, hk, h3]

theorem mapFind_none_split {m : List (String × FileMeta)} {k : String}
    (h : mapFind m k = none) :
    ∃ l1 l2, m = l1 ++ l2 ∧ ∀ v, mapInsert m k v = l1 ++ (k, v) :: l2 := by
  induction m with
  | nil => exact ⟨[], [], rfl, fun v => rfl⟩
  | cons a m ih =>
    obtain ⟨k', v0⟩ := a
    by_cases hk : k' = k
    · subst hk; simp [mapFind] at h
    · simp only [mapFind, hk, if_false] at h
      by_cases hlt : k.data < k'.data
      · exact ⟨[], (k', v0) :: m, rfl, fun v => by simp [mapInsert, hk, hlt]⟩
      · obtain ⟨l1, l2, h1, h2⟩ := ih h
        exact ⟨(k', v0) :: l1, l2, by rw [h1]; rfl, fun v => by simp [mapInsert, hk, hlt, h2 v]⟩

theorem mapFind_append_cons {l1 l2 : List (String × FileMeta)} {k : String} {v : FileMeta}
    (h : ∀ x ∈ l1, x.1 ≠ k) : mapFind (l1 ++ (k, v) :: l2) k = some v := by
  induction l1 with
  | nil => simp [mapFind]
  | cons a l1 ih =>
    obtain ⟨k', v0⟩ := a
    have hk : k' ≠ k := h (k', v0) (List.mem_cons_self _ _)
    simp only [List.cons_append, mapFind, hk, if_false]
    exact ih (fun x hx => h x (List.mem_cons_of_mem _ hx))

theorem mapFind_mapAssign {m : List (String × FileMeta)} {k : String} {v : FileMeta}
    (v' : FileMeta) (h : mapFind m k = some v) : mapFind (mapAssign m k v') k = some v' := by
  induction m with
  | nil => simp [mapFind] at h
  | cons a m ih =>
    obtain ⟨k', v0⟩ := a
    by_cases hk : k' = k
    · simp [mapAssign, mapFind, hk]
    · simp only [mapFind, hk, if_false] at h
      simp [mapAssign, mapFind, hk, ih h]

theorem mapFind_mapInsert (m : List (String × FileMeta)) (k : String) (v : FileMeta) :
    mapFind (mapInsert m k v) k = some v := by
  induction m with
  | nil => simp [mapInsert, mapFind]
  | cons a m ih =>
    obtain ⟨k', v0⟩ := a
    by_cases hk : k' = k
    · simp [mapInsert, mapFind, hk]
    · by_cases hlt : k.data < k'.data
      · simp [mapInsert, mapFind, hk, hlt]
      · simp [mapInsert, mapFind, hk, hlt, ih]

namespace Directory

theorem getDir_setFiles_ctx :
    ∀ (p : List Nat) (root d : Directory), root.getDir p = some d →
      ∃ X Y, root.allFiles = X ++ d.files.map (fun q => q.2) ++ Y ∧
        ∀ fs', (root.setFiles p fs').allFiles = X ++ fs'.map (fun q => q.2) ++ Y := by
  intro p
  induction p with
  | nil =>
    intro root d h
    obtain ⟨n, pm, f, sds⟩ := root
    simp only [getDir, Option.some.injEq] at h
    subst h
    exact ⟨sds.flatMap Directory.allFiles, [], by simp [allFiles_mk, files],
      fun fs' => by simp [setFiles, allFiles_mk]⟩
  | cons i p ih =>
    intro root d h
    obtain ⟨n, pm, f, sds⟩ := root
    rw [getDir] at h
    cases hc : sds[i]? with
    | none => rw [hc] at h; cases h
    | some c =>
      rw [hc] at h
      obtain ⟨X, Y, h1, h2⟩ := ih c d h
      obtain ⟨hlt, hget⟩ := List.getElem?_eq_some_iff.1 hc
      have hsplit : sds = sds.take i ++ c :: sds.drop (i + 1) := by
        rw [← hget]; simp
      refine ⟨(sds.take i).flatMap Directory.allFiles ++ X,
        Y ++ (sds.drop (i + 1)).flatMap Directory.allFiles ++ f.map (fun q => q.2), ?_, ?_⟩
      · rw [allFiles_mk]
        conv_lhs => rw [hsplit]
        simp [h1]
      · intro fs'
        simp only [setFiles, hc, allFiles_mk]
        rw [List.set_eq_take_append_cons_drop, if_pos hlt]
        simp [h2 fs']

theorem getDir_setFiles :
    ∀ (p : List Nat) (root d : Directory) (fs' : List (String × FileMeta)),
      root.getDir p = some d →
      (root.setFiles p fs').getDir p = some (.mk d.name d.permissions fs' d.subdirs) := by
  intro p
  induction p with
  | nil =>
    intro root d fs' h
    obtain ⟨n, pm, f, sds⟩ := root
    simp only [getDir, Option.some.injEq] at h
    subst h
    simp [setFiles, getDir, name, permissions, subdirs]
  | cons i p ih =>
    intro root d fs' h
    obtain ⟨n, pm, f, sds⟩ := root
    rw [getDir] at h
    cases hc : sds[i]? with
    | none => rw [hc] at h; cases h
    | some c =>
      rw [hc] at h
      obtain ⟨hlt, hget⟩ := List.getElem?_eq_some_iff.1 hc
      simp only [setFiles, hc, getDir]
      rw [List.getElem?_set_eq_of_lt _ hlt]
      exact ih c d fs' h

/-- The records of the tree around the record of one file. -/
theorem file_ctx {root d : Directory} {p : List Nat} {k : String} {fm : FileMeta}
    (hd : root.getDir p = some d) (hf : mapFind d.files k = some fm) :
    ∃ X Y, root.allFiles = X ++ fm :: Y ∧
      (∀ v, (root.setFiles p (mapAssign d.files k v)).allFiles = X ++ v :: Y) ∧
      (root.setFiles p (mapErase d.files k)).allFiles = X ++ Y := by
  obtain ⟨X, Y, h1, h2⟩ := getDir_setFiles_ctx p root d hd
  obtain ⟨l1, l2, h3, h4, h5⟩ := mapFind_some_split hf
  refine ⟨X ++ l1.map (fun q => q.2), l2.map (fun q => q.2) ++ Y, ?_, ?_, ?_⟩
  · rw [h1, h3]; simp
  · intro v; rw [h2, h4]; simp
  · rw [h2, h5]; simp

/-- The records of the tree around the place where a new record is inserted. -/
theorem insert_ctx {root d : Directory} {p : List Nat} {k : String}
    (hd : root.getDir p = some d) (hf : mapFind d.files k = none) :
    ∃ X Y, root.allFiles = X ++ Y ∧
      ∀ v, (root.setFiles p (mapInsert d.files k v)).allFiles = X ++ v :: Y := by
  obtain ⟨X, Y, h1, h2⟩ := getDir_setFiles_ctx p root d hd
  obtain ⟨l1, l2, h3, h4⟩ := mapFind_none_split hf
  refine ⟨X ++ l1.map (fun q => q.2), l2.map (fun q => q.2) ++ Y, ?_, ?_⟩
  · rw [h1, h3]; simp
  · intro v; rw [h2, h4]; simp

end Directory

/-! ### Disk writes change only the blocks they name -/

namespace DiskFrame

theorem refl (W : Nat → Prop) (bm : BlockManager) : DiskFrame W bm bm :=
  ⟨rfl, rfl, rfl, rfl, fun _ _ => rfl, fun h => h⟩

theorem mono {W : Nat → Prop} {bm bm' : BlockManager} (h : DiskFrame W bm bm')
    (W' : Nat → Prop) (hW : ∀ j, W j → W' j) : DiskFrame W' bm bm' :=
  ⟨h.bitmap_eq, h.blockSize_eq, h.totalBlocks_eq, h.disk_len,
    fun j hj => h.disk_eq j (fun hc => hj (hW j hc)), h.block_len⟩

theorem trans {W : Nat → Prop} {a b c : BlockManager} (h1 : DiskFrame W a b)
    (h2 : DiskFrame W b c) : DiskFrame W a c :=
  ⟨h2.bitmap_eq.trans h1.bitmap_eq, h2.blockSize_eq.trans h1.blockSize_eq,
    h2.totalBlocks_eq.trans h1.totalBlocks_eq, h2.disk_len.trans h1.disk_len,
    fun j hj => (h2.disk_eq j hj).trans (h1.disk_eq j hj),
    fun h blk hb => by
      have := h2.block_len (fun blk hb => by rw [h1.blockSize_eq]; exact h1.block_len h blk hb) blk hb
      rw [this, h1.blockSize_eq]⟩

theorem diskOk {W : Nat → Prop} {a b : BlockManager} (h : DiskFrame W a b) (hd : DiskOk a) :
    DiskOk b :=
  ⟨by rw [h.blockSize_eq]; exact hd.blockSize_pos,
    by rw [h.disk_len, h.totalBlocks_eq]; exact hd.disk_len,
    fun blk hb => by rw [h.blockSize_eq]; exact h.block_len hd.block_len blk hb⟩

end DiskFrame

namespace BlockManager

theorem writeBlock_eq (bm : BlockManager) (i : Int) (buf : List Char) :
    (bm.writeBlock i buf).2 =
      { bm with
        disk := if 0 ≤ i ∧ i < (bm.totalBlocks : Int)
          then bm.disk.set i.toNat (buf.take bm.blockSize) else bm.disk } := by
  unfold writeBlock
  by_cases h : i < 0 ∨ i ≥ (bm.totalBlocks : Int)
  · have h' : ¬ (0 ≤ i ∧ i < (bm.totalBlocks : Int)) := by omega
    simp [h, h']
  · have h' : (0 ≤ i ∧ i < (bm.totalBlocks : Int)) := by omega
    simp [h, h']

theorem writeBlock_frame (bm : BlockManager) (i : Int) (buf : List Char)
    (hlen : bm.blockSize ≤ buf.length) :
    DiskFrame (fun j => (j : Int) = i) bm (bm.writeBlock i buf).2 := by
  rw [writeBlock_eq]
  refine ⟨rfl, rfl, rfl, ?_, ?_, ?_⟩
  · dsimp only; split <;> simp
  · intro j hj
    dsimp only
    split
    · rw [List.getElem?_set_ne]
      intro hc; apply hj; omega
    · rfl
  · intro h blk hb
    dsimp only at hb
    split at hb
    · rcases List.mem_or_eq_of_mem_set hb with h1 | h1
      · exact h blk h1
      · rw [h1, List.length_take]; omega
    · exact h blk hb

theorem writeBlock_getElem? (bm : BlockManager) (i : Int) (buf : List Char)
    (h0 : 0 ≤ i) (h1 : i < (bm.totalBlocks : Int)) (h2 : i.toNat < bm.disk.length) :
    (bm.writeBlock i buf).2.disk[i.toNat]? = some (buf.take bm.blockSize) := by
  rw [writeBlock_eq]
  simp [h0, h1, h2]

theorem readBlock_eq (bm : BlockManager) (i : Int) (buf : List Char)
    (h0 : 0 ≤ i) (h1 : i < (bm.totalBlocks : Int)) (h2 : i.toNat < bm.disk.length) :
    (bm.readBlock i buf).2 = bm.disk[i.toNat] := by
  unfold readBlock
  have : ¬ (i < 0 ∨ i ≥ (bm.totalBlocks : Int)) := by omega
  simp [this, List.getD_eq_getElem?_getD, h2]

end BlockManager

namespace Serializer
open BlockManager

theorem length_int32Bytes (n : Int) : (int32Bytes n).length = 4 := rfl

theorem length_flatMap_int32Bytes (l : List Int) : (l.flatMap int32Bytes).length = 4 * l.length := by
  induction l with
  | nil => rfl
  | cons a l ih => simp [List.flatMap_cons, length_int32Bytes, ih]; omega

theorem length_memcpy (buf : List Char) (off : Nat) (src : List Char) (n : Nat)
    (h1 : off + n ≤ buf.length) (h2 : n ≤ src.length) : (memcpy buf off src n).length = buf.length := by
  simp [memcpy]; omega

theorem length_zeros (n : Nat) : (zeros n).length = n := by simp [zeros]

theorem length_blockOfText (bs : Nat) (data : List Char) : (blockOfText bs data).length = bs := by
  simp [blockOfText, length_zeros]; omega

theorem writeIndexBlock_frame {bm bm' : BlockManager} {fm : FileMeta}
    (h : writeIndexBlock bm fm = some bm') :
    DiskFrame (fun j => (j : Int) = fm.indexBlock) bm bm' := by
  unfold writeIndexBlock at h
  dsimp only at h
  split at h
  · rename_i hcap
    simp only [Option.some.injEq] at h
    rw [← h]
    apply writeBlock_frame
    have e1 : (memcpy (zeros bm.blockSize) 0 (int32Bytes (fm.blocks.length : Int)) 4).length =
        bm.blockSize := by
      rw [length_memcpy, length_zeros]
      · rw [length_zeros]; omega
      · rw [length_int32Bytes]
    rw [length_memcpy, e1]
    · rw [e1]; omega
    · rw [length_flatMap_int32Bytes]
  · cases h

theorem writeIndexBlock_isSome (bm : BlockManager) (fm : FileMeta) :
    (writeIndexBlock bm fm).isSome = decide (4 + 4 * fm.blocks.length ≤ bm.blockSize) := by
  unfold writeIndexBlock
  by_cases h : 4 + 4 * fm.blocks.length ≤ bm.blockSize <;> simp [h]

theorem writeIndexBlocks_frame {l : List FileMeta} :
    ∀ {bm bm' : BlockManager}, writeIndexBlocks bm l = some bm' →
      DiskFrame (fun j => ∃ fm ∈ l, (j : Int) = fm.indexBlock) bm bm' := by
  induction l with
  | nil =>
    intro bm bm' h
    simp only [writeIndexBlocks, Option.some.injEq] at h
    rw [← h]; exact DiskFrame.refl _ _
  | cons fm l ih =>
    intro bm bm' h
    rw [writeIndexBlocks] at h
    cases h1 : writeIndexBlock bm fm with
    | none => rw [h1] at h; cases h
    | some bm1 =>
      rw [h1] at h
      have f1 := (writeIndexBlock_frame h1).mono (fun j => ∃ g ∈ fm :: l, (j : Int) = g.indexBlock)
        (fun j hj => ⟨fm, List.mem_cons_self _ _, hj⟩)
      have f2 := (ih h).mono (fun j => ∃ g ∈ fm :: l, (j : Int) = g.indexBlock)
        (fun j ⟨g, hg, hj⟩ => ⟨g, List.mem_cons_of_mem _ hg, hj⟩)
      exact f1.trans f2

theorem saveDirectory_frame {bm bm' : BlockManager} {root : Directory}
    (h : saveDirectory bm root = some bm') :
    DiskFrame (fun j => j = 0 ∨ ∃ fm ∈ root.allFiles, (j : Int) = fm.indexBlock) bm bm' := by
  unfold saveDirectory at h
  cases h1 : writeIndexBlocks bm root.allFiles with
  | none => rw [h1] at h; cases h
  | some bm1 =>
    rw [h1] at h
    simp only [Option.some.injEq] at h
    rw [← h]
    have f1 := (writeIndexBlocks_frame h1).mono (fun j => j = 0 ∨ ∃ fm ∈ root.allFiles, (j : Int) = fm.indexBlock)
      (fun j hj => Or.inr hj)
    have f2 := (writeBlock_frame bm1 0 (blockOfText bm1.blockSize (writeDir root 0))
      (by rw [length_blockOfText])).mono (fun j => j = 0 ∨ ∃ fm ∈ root.allFiles, (j : Int) = fm.indexBlock)
      (fun j hj => Or.inl (by exact_mod_cast hj))
    exact f1.trans f2

theorem saveDirectoryFlat_frame (bm : BlockManager) (files : List (String × FileMeta)) :
    DiskFrame (fun j => j = 0) bm (saveDirectoryFlat bm files) := by
  unfold saveDirectoryFlat
  exact (writeBlock_frame bm 0 _ (by rw [length_blockOfText])).mono _
    (fun j hj => by exact_mod_cast hj)

end Serializer

/-! ### `deleteFile`, and the outcome of a failed `createFile` -/

namespace Directory
open BlockManager

theorem createFile_false {fs fs' : FileSystem} {self : List Nat} {filename : String}
    {size now : Int} (h : createFile fs self filename size now = some (false, fs')) :
    SameState fs fs' := by
  cases hd : fs.root.getDir self with
  | none => simp [createFile, hd] at h
  | some d =>
    by_cases hw : testMask d.permissions 1 = true
    swap
    · simp [createFile, hd, hw] at h
      subst h; exact ⟨rfl, rfl, rfl, rfl, rfl, rfl⟩
    cases hnew : mapFind d.files filename with
    | some v =>
      simp [createFile, hd, hw, hnew] at h
      subst h; exact ⟨rfl, rfl, rfl, rfl, rfl, rfl⟩
    | none =>
      by_cases hspace : fs.bm.freeList.length < 1 + (ceilDiv size fs.bm.blockSize).toNat
      · obtain ⟨fs1, h1, h2⟩ := createFile_fail_space now hd hw hnew hspace
        rw [h1] at h
        simp only [Option.some.injEq, Prod.mk.injEq, true_and] at h
        exact h ▸ h2
      · cases hF : fs.bm.freeList with
        | nil => rw [hF] at hspace; simp at hspace
        | cons i0 rest =>
          rw [hF] at hspace
          have hn : (ceilDiv size fs.bm.blockSize).toNat ≤ rest.length := by
            simp at hspace; omega
          obtain ⟨mf, h1⟩ := createFile_enough_space now hd hw hnew hF hn
          rw [h1] at h
          split at h
          · cases h
          · split at h
            · cases h
            · simp at h

theorem deleteFile_false {fs fs' : FileSystem} {self : List Nat} {filename : String}
    (h : deleteFile fs self filename = some (false, fs')) : fs' = fs := by
  unfold deleteFile at h
  split at h
  · cases h
  · split at h
    · simp only [Option.some.injEq, Prod.mk.injEq, true_and] at h; exact h.symm
    · split at h
      · simp only [Option.some.injEq, Prod.mk.injEq, true_and] at h; exact h.symm
      · dsimp only at h
        split at h
        · cases h
        · simp at h

/-- What a successful `deleteFile` did. -/
theorem deleteFile_true {fs fs' : FileSystem} {self : List Nat} {filename : String}
    {d : Directory} (hd : fs.root.getDir self = some d)
    (h : deleteFile fs self filename = some (true, fs')) :
    ∃ fm, testMask d.permissions 1 = true ∧ mapFind d.files filename = some fm ∧
      fs'.root = fs.root.setFiles self (mapErase d.files filename) ∧
      Serializer.saveDirectory (fs.bm.freeBlocks (fm.blocks ++ [fm.indexBlock])) fs'.root =
        some fs'.bm ∧
      fs'.currentDir = fs.currentDir := by
  unfold deleteFile at h
  rw [hd] at h
  dsimp only at h
  split at h
  · simp at h
  · rename_i hw
    split at h
    · simp at h
    · rename_i fm hf
      simp only [saveDirectory] at h
      split at h
      · cases h
      · rename_i fs1 h1
        split at h1
        · cases h1
        · rename_i bm' hs
          simp only [Option.some.injEq, Prod.mk.injEq, true_and] at h h1
          subst h; subst h1
          refine ⟨fm, by simpa using hw, hf, rfl, ?_, rfl⟩
          rw [← freeBlock_freeBlocks]
          exact hs

end Directory

/-! ### Referenced blocks around one record -/

theorem mem_refs_middle (X Y : List FileMeta) (fm : FileMeta) (b : Int) :
    b ∈ (X ++ fm :: Y).flatMap FileMeta.refs ↔
      b ∈ fm.refs ∨ b ∈ (X ++ Y).flatMap FileMeta.refs := by
  simp only [List.flatMap_append, List.flatMap_cons, List.mem_append]
  tauto

theorem nodup_refs_middle (X Y : List FileMeta) (fm : FileMeta) :
    ((X ++ fm :: Y).flatMap FileMeta.refs).Nodup ↔
      fm.refs.Nodup ∧ ((X ++ Y).flatMap FileMeta.refs).Nodup ∧
        ∀ b ∈ fm.refs, b ∉ (X ++ Y).flatMap FileMeta.refs := by
  have hp : List.Perm ((X ++ fm :: Y).flatMap FileMeta.refs)
      ((fm :: (X ++ Y)).flatMap FileMeta.refs) :=
    List.Perm.flatMap_right _ List.perm_middle
  rw [hp.nodup_iff, List.flatMap_cons, List.nodup_append]
  constructor
  · rintro ⟨h1, h2, h3⟩
    exact ⟨h1, h2, fun b hb hc => h3 hb hc⟩
  · rintro ⟨h1, h2, h3⟩
    exact ⟨h1, h2, fun b hb hc => h3 b hb hc⟩

namespace BlockManager

theorem isUsed_natCast (bm : BlockManager) (j : Nat) :
    bm.isUsed (j : Int) ↔ j < bm.totalBlocks ∧ bm.freeBlockBitmap[j]? = some false := by
  unfold isUsed isBlockFree
  have : ¬ ((j : Int) < 0) := by omega
  simp [this]

theorem isUsed_iff (bm : BlockManager) (b : Int) :
    bm.isUsed b ↔ 0 ≤ b ∧ b < (bm.totalBlocks : Int) ∧ bm.freeBlockBitmap[b.toNat]? = some false := by
  unfold isUsed isBlockFree
  by_cases h : b < 0
  · have h' : ¬ (0 ≤ b) := by omega
    simp [h, h']
  · have h' : 0 ≤ b := by omega
    simp [h, h']

end BlockManager

/-! ### Ownership is preserved when blocks are taken from or returned to the free list -/

theorem perm_refs_middle (X Y : List FileMeta) (fm : FileMeta) :
    List.Perm ((X ++ fm :: Y).flatMap FileMeta.refs)
      (fm.refs ++ (X ++ Y).flatMap FileMeta.refs) := by
  have := List.Perm.flatMap_right FileMeta.refs (@List.perm_middle _ fm X Y)
  simpa [List.flatMap_cons] using this

theorem RefsOk.grow {fs fs' : FileSystem} {L : List Nat} (hinv : RefsOk fs)
    (hperm : List.Perm fs'.root.refBlocks (L.map Nat.cast ++ fs.root.refBlocks))
    (hL : ∀ j ∈ L, j ∈ fs.bm.freeList) (hnd : L.Nodup)
    (hb : fs'.bm.freeBlockBitmap = markList fs.bm.freeBlockBitmap L false)
    (ht : fs'.bm.totalBlocks = fs.bm.totalBlocks) : RefsOk fs' := by
  have hfree : ∀ j ∈ L, 1 ≤ j ∧ j < fs.bm.totalBlocks ∧ fs.bm.freeBlockBitmap[j]? = some true :=
    fun j hj => (BlockManager.mem_freeList fs.bm j).1 (hL j hj)
  refine ⟨?_, ?_, ?_⟩
  · rw [hb, length_markList, ht]; exact hinv.bitmap_len
  · rw [hperm.nodup_iff, List.nodup_append]
    refine ⟨hnd.map (fun a b h => by exact_mod_cast h), hinv.refs_nodup, ?_⟩
    intro b hb1 hb2
    obtain ⟨j, hj, rfl⟩ := List.mem_map.1 hb1
    have h1 := (hfree j hj).2.2
    have h2 := ((BlockManager.isUsed_natCast _ _).1 (hinv.refs_used _ hb2).2).2
    rw [h1] at h2; cases h2
  · intro b hb1
    rcases List.mem_append.1 (hperm.mem_iff.1 hb1) with h | h
    · obtain ⟨j, hj, rfl⟩ := List.mem_map.1 h
      obtain ⟨h1, h2, h3⟩ := hfree j hj
      refine ⟨by exact_mod_cast h1, (BlockManager.isUsed_natCast _ _).2 ⟨by rw [ht]; exact h2, ?_⟩⟩
      rw [hb, getElem?_markList]
      have : j < fs.bm.freeBlockBitmap.length := (List.getElem?_eq_some_iff.1 h3).1
      simp [hj, this]
    · obtain ⟨h1, h2⟩ := hinv.refs_used b h
      refine ⟨h1, ?_⟩
      rw [BlockManager.isUsed_iff] at h2 ⊢
      refine ⟨h2.1, by rw [ht]; exact h2.2.1, ?_⟩
      rw [hb, getElem?_markList]
      split
      · rfl
      · exact h2.2.2

theorem AllocInv.growInv {fs fs' : FileSystem} {L : List Nat} (hinv : AllocInv fs)
    (hperm : List.Perm fs'.root.refBlocks (L.map Nat.cast ++ fs.root.refBlocks))
    (hL : ∀ j ∈ L, j ∈ fs.bm.freeList) (hnd : L.Nodup)
    (hb : fs'.bm.freeBlockBitmap = markList fs.bm.freeBlockBitmap L false)
    (ht : fs'.bm.totalBlocks = fs.bm.totalBlocks) : AllocInv fs' := by
  refine ⟨hinv.refs.grow hperm hL hnd hb ht, ?_, ?_⟩
  · have h2 := hinv.zero_used
    rw [BlockManager.isUsed_iff] at h2 ⊢
    refine ⟨h2.1, by rw [ht]; exact h2.2.1, ?_⟩
    rw [hb, getElem?_markList]
    split
    · rfl
    · exact h2.2.2
  · intro i hi
    rw [BlockManager.isUsed_natCast, hb, getElem?_markList, ht] at hi
    by_cases hc : i ∈ L ∧ i < fs.bm.freeBlockBitmap.length
    · right
      exact hperm.mem_iff.2 (List.mem_append_left _ (List.mem_map.2 ⟨i, hc.1, rfl⟩))
    · rw [if_neg hc] at hi
      rcases hinv.no_orphan i ((BlockManager.isUsed_natCast _ _).2 hi) with h | h
      · exact Or.inl h
      · exact Or.inr (hperm.mem_iff.2 (List.mem_append_right _ h))

theorem RefsOk.shrink {fs fs' : FileSystem} {R : List Int} (hinv : RefsOk fs)
    (hperm : List.Perm fs.root.refBlocks (R ++ fs'.root.refBlocks))
    (hb : ∀ j : Nat, fs'.bm.freeBlockBitmap[j]? =
      if (j : Int) ∈ R ∧ j < fs.bm.totalBlocks ∧ j < fs.bm.freeBlockBitmap.length
      then some true else fs.bm.freeBlockBitmap[j]?)
    (hlen : fs'.bm.freeBlockBitmap.length = fs.bm.freeBlockBitmap.length)
    (ht : fs'.bm.totalBlocks = fs.bm.totalBlocks) : RefsOk fs' := by
  have hnd := hperm.nodup_iff.1 hinv.refs_nodup
  rw [List.nodup_append] at hnd
  refine ⟨?_, hnd.2.1, ?_⟩
  · rw [hlen, ht]; exact hinv.bitmap_len
  · intro b hb1
    obtain ⟨h1, h2⟩ := hinv.refs_used b (hperm.mem_iff.2 (List.mem_append_right _ hb1))
    refine ⟨h1, ?_⟩
    rw [BlockManager.isUsed_iff] at h2 ⊢
    refine ⟨h2.1, by rw [ht]; exact h2.2.1, ?_⟩
    rw [hb]
    have hnot : ¬ (((b.toNat : Nat) : Int) ∈ R) := by
      have : ((b.toNat : Nat) : Int) = b := Int.toNat_of_nonneg h2.1
      rw [this]
      exact fun hc => hnd.2.2 hc hb1
    simp only [hnot, false_and, if_false]
    exact h2.2.2

theorem AllocInv.shrinkInv {fs fs' : FileSystem} {R : List Int} (hinv : AllocInv fs)
    (hperm : List.Perm fs.root.refBlocks (R ++ fs'.root.refBlocks))
    (hb : ∀ j : Nat, fs'.bm.freeBlockBitmap[j]? =
      if (j : Int) ∈ R ∧ j < fs.bm.totalBlocks ∧ j < fs.bm.freeBlockBitmap.length
      then some true else fs.bm.freeBlockBitmap[j]?)
    (hlen : fs'.bm.freeBlockBitmap.length = fs.bm.freeBlockBitmap.length)
    (ht : fs'.bm.totalBlocks = fs.bm.totalBlocks) : AllocInv fs' := by
  refine ⟨hinv.refs.shrink hperm hb hlen ht, ?_, ?_⟩
  · have h2 := hinv.zero_used
    rw [BlockManager.isUsed_iff] at h2 ⊢
    refine ⟨h2.1, by rw [ht]; exact h2.2.1, ?_⟩
    rw [hb]
    have hnot : ¬ ((((0 : Int).toNat : Nat) : Int) ∈ R) := by
      intro hc
      have := (hinv.refs.refs_used _ (hperm.mem_iff.2 (List.mem_append_left _ hc))).1
      simp at this
    simp only [hnot, false_and, if_false]
    exact h2.2.2
  · intro i hi
    rw [BlockManager.isUsed_natCast, hb, ht] at hi
    by_cases hc : (i : Int) ∈ R ∧ i < fs.bm.totalBlocks ∧ i < fs.bm.freeBlockBitmap.length
    · rw [if_pos hc] at hi; simp at hi
    · rw [if_neg hc] at hi
      rcases hinv.no_orphan i ((BlockManager.isUsed_natCast _ _).2 hi) with h | h
      · exact Or.inl h
      · rcases List.mem_append.1 (hperm.mem_iff.1 h) with h' | h'
        · exfalso
          exact hc ⟨h', hi.1, (List.getElem?_eq_some_iff.1 hi.2).1⟩
        · exact Or.inr h'


theorem AllocInv.congrInv {fs fs' : FileSystem} (hinv : AllocInv fs) (hr : fs'.root = fs.root)
    (hb : fs'.bm.freeBlockBitmap = fs.bm.freeBlockBitmap)
    (ht : fs'.bm.totalBlocks = fs.bm.totalBlocks) : AllocInv fs' :=
  hinv.growInv (L := []) (by rw [hr]; exact List.Perm.refl _) (by simp) List.nodup_nil
    (by rw [hb]; rfl) ht

theorem RefsOk.congr {fs fs' : FileSystem} (hinv : RefsOk fs) (hr : fs'.root = fs.root)
    (hb : fs'.bm.freeBlockBitmap = fs.bm.freeBlockBitmap)
    (ht : fs'.bm.totalBlocks = fs.bm.totalBlocks) : RefsOk fs' :=
  hinv.grow (L := []) (by rw [hr]; exact List.Perm.refl _) (by simp) List.nodup_nil
    (by rw [hb]; rfl) ht

namespace Directory
open BlockManager

theorem getDir_isSome_of_createFile {fs : FileSystem} {self : List Nat} {filename : String}
    {size now : Int} {r : Bool × FileSystem}
    (h : createFile fs self filename size now = some r) : ∃ d, fs.root.getDir self = some d := by
  cases hd : fs.root.getDir self with
  | none => simp [createFile, hd] at h
  | some d => exact ⟨d, rfl⟩

theorem getDir_isSome_of_deleteFile {fs : FileSystem} {self : List Nat} {filename : String}
    {r : Bool × FileSystem}
    (h : deleteFile fs self filename = some r) : ∃ d, fs.root.getDir self = some d := by
  cases hd : fs.root.getDir self with
  | none => simp [deleteFile, hd] at h
  | some d => exact ⟨d, rfl⟩

/-- The allocator-level effect of a successful `createFile`: the blocks `L` taken from the
front of the free list become the references of one new record. -/
theorem createFile_true_refs {fs fs' : FileSystem} {self : List Nat} {filename : String}
    {size now : Int} (h : createFile fs self filename size now = some (true, fs')) :
    ∃ L : List Nat, L = fs.bm.freeList.take ((ceilDiv size fs.bm.blockSize).toNat + 1) ∧
      L.length = (ceilDiv size fs.bm.blockSize).toNat + 1 ∧
      List.Perm fs'.root.refBlocks (L.map Nat.cast ++ fs.root.refBlocks) ∧
      fs'.bm.freeBlockBitmap = markList fs.bm.freeBlockBitmap L false ∧
      fs'.bm.totalBlocks = fs.bm.totalBlocks ∧ fs'.bm.blockSize = fs.bm.blockSize := by
  obtain ⟨d, hd⟩ := getDir_isSome_of_createFile h
  obtain ⟨i0, rest, mf, bm3, hw, hnew, hF, hn, h3, h4, hroot, _⟩ := createFile_true hd h
  have f3 := Serializer.writeIndexBlock_frame h3
  have f4 := Serializer.saveDirectory_frame h4
  obtain ⟨X, Y, hX, hX'⟩ := insert_ctx hd hnew
  refine ⟨i0 :: rest.take (ceilDiv size fs.bm.blockSize).toNat, by rw [hF]; rfl, ?_, ?_, ?_, ?_, ?_⟩
  · simp [List.length_take, hn]
  · unfold Directory.refBlocks
    rw [hroot, hX', hX]
    exact perm_refs_middle X Y _
  · rw [f4.bitmap_eq, f3.bitmap_eq]; rfl
  · rw [f4.totalBlocks_eq, f3.totalBlocks_eq]; rfl
  · rw [f4.blockSize_eq, f3.blockSize_eq]; rfl

theorem take_freeList_mem (bm : BlockManager) (n : Nat) :
    ∀ j ∈ bm.freeList.take n, j ∈ bm.freeList := fun _ hj => List.mem_of_mem_take hj

theorem take_freeList_nodup (bm : BlockManager) (n : Nat) : (bm.freeList.take n).Nodup :=
  (List.take_sublist _ _).nodup (freeList_nodup bm)

theorem createFile_allocInv {fs : FileSystem} {self : List Nat} {filename : String}
    {size now : Int} {r : Bool × FileSystem}
    (h : createFile fs self filename size now = some r) (hinv : AllocInv fs) : AllocInv r.2 := by
  obtain ⟨b, fs'⟩ := r
  cases b with
  | false =>
    have hs := createFile_false h
    exact hinv.congrInv hs.root_eq hs.bitmap_eq hs.totalBlocks_eq
  | true =>
    obtain ⟨L, hL, _, hperm, hb, ht, _⟩ := createFile_true_refs h
    exact hinv.growInv hperm (hL ▸ take_freeList_mem _ _) (hL ▸ take_freeList_nodup _ _) hb ht

/-- The allocator-level effect of a successful `deleteFile`. -/
theorem deleteFile_true_refs {fs fs' : FileSystem} {self : List Nat} {filename : String}
    (h : deleteFile fs self filename = some (true, fs')) :
    ∃ fm, getFile fs self filename = some fm ∧
      List.Perm fs.root.refBlocks (fm.refs ++ fs'.root.refBlocks) ∧
      (∀ j : Nat, fs'.bm.freeBlockBitmap[j]? =
        if (j : Int) ∈ fm.refs ∧ j < fs.bm.totalBlocks ∧ j < fs.bm.freeBlockBitmap.length
        then some true else fs.bm.freeBlockBitmap[j]?) ∧
      fs'.bm.freeBlockBitmap.length = fs.bm.freeBlockBitmap.length ∧
      fs'.bm.totalBlocks = fs.bm.totalBlocks := by
  obtain ⟨d, hd⟩ := getDir_isSome_of_deleteFile h
  obtain ⟨fm, hw, hf, hroot, hs, _⟩ := deleteFile_true hd h
  have f := Serializer.saveDirectory_frame hs
  obtain ⟨X, Y, hX, _, hX'⟩ := file_ctx hd hf
  refine ⟨fm, by simp [getFile, hd, hf], ?_, ?_, ?_, ?_⟩
  · unfold Directory.refBlocks
    rw [hroot, hX', hX]
    exact perm_refs_middle X Y _
  · intro j
    rw [f.bitmap_eq, freeBlocks_getElem?]
    have : (j : Int) ∈ fm.blocks ++ [fm.indexBlock] ↔ (j : Int) ∈ fm.refs := by
      simp [FileMeta.refs]; tauto
    simp only [this]
  · rw [f.bitmap_eq]; simp
  · rw [f.totalBlocks_eq]; simp

theorem deleteFile_allocInv {fs : FileSystem} {self : List Nat} {filename : String}
    {r : Bool × FileSystem}
    (h : deleteFile fs self filename = some r) (hinv : AllocInv fs) : AllocInv r.2 := by
  obtain ⟨b, fs'⟩ := r
  cases b with
  | false => rw [deleteFile_false h]; exact hinv
  | true =>
    obtain ⟨fm, _, hperm, hb, hlen, ht⟩ := deleteFile_true_refs h
    exact hinv.shrinkInv hperm hb hlen ht

end Directory

theorem fresh_allocInv (blockSize totalBlocks : Nat) (h : 0 < totalBlocks) :
    AllocInv (FileSystem.fresh blockSize totalBlocks) := by
  have hrefs : (FileSystem.fresh blockSize totalBlocks).root.refBlocks = [] := rfl
  have hbit : ∀ j : Nat, (FileSystem.fresh blockSize totalBlocks).bm.freeBlockBitmap[j]? =
      if j < totalBlocks then (if j = 0 then some false else some true) else none := by
    intro j
    show ((List.replicate totalBlocks true).set 0 false)[j]? = _
    rw [List.getElem?_set]
    by_cases hj : j < totalBlocks
    · by_cases h0 : j = 0
      · subst h0; simp [h]
      · have : ¬ 0 = j := fun hc => h0 hc.symm
        simp [hj, h0, this, List.getElem?_replicate]
    · have : ¬ 0 = j := by omega
      simp [hj, this, List.getElem?_replicate]
  refine ⟨⟨?_, ?_, ?_⟩, ?_, ?_⟩
  · show ((List.replicate totalBlocks true).set 0 false).length = totalBlocks
    simp
  · rw [hrefs]; exact List.nodup_nil
  · rw [hrefs]; intro b hb; cases hb
  · have := (BlockManager.isUsed_natCast (FileSystem.fresh blockSize totalBlocks).bm 0).2
      ⟨h, by rw [hbit]; simp [h]⟩
    exact_mod_cast this
  · intro i hi
    rw [BlockManager.isUsed_natCast, hbit] at hi
    left
    by_contra hne
    have hi2 := hi.2
    have hlt : i < totalBlocks := hi.1
    simp [hlt, hne] at hi2

theorem runOps_allocInv : ∀ (ops : List FileOp) (fs fs' : FileSystem),
    runOps ops fs = some fs' → AllocInv fs → AllocInv fs' := by
  intro ops
  induction ops with
  | nil =>
    intro fs fs' h hinv
    simp only [runOps, Option.some.injEq] at h
    exact h ▸ hinv
  | cons op ops ih =>
    intro fs fs' h hinv
    cases op with
    | create filename size now =>
      rw [runOps] at h
      cases hc : fs.createFile filename size now with
      | none => rw [hc] at h; cases h
      | some r =>
        rw [hc] at h
        exact ih r.2 fs' h (Directory.createFile_allocInv hc hinv)
    | delete filename =>
      rw [runOps] at h
      cases hc : fs.deleteFile filename with
      | none => rw [hc] at h; cases h
      | some r =>
        rw [hc] at h
        exact ih r.2 fs' h (Directory.deleteFile_allocInv hc hinv)

/-- C2. From a fresh filesystem (at least one block; only block 0 used, empty root), after any
sequence of `createFile` and `deleteFile` calls (whatever their sizes and whether they succeed
or fail), a block is marked used by the allocator exactly if it is block 0 or the index block
or a data block of a file record of the tree. -/
theorem used_blocks_eq_referenced (blockSize totalBlocks : Nat) (htotal : 0 < totalBlocks)
    (ops : List FileOp) (fs' : FileSystem)
    (h : runOps ops (FileSystem.fresh blockSize totalBlocks) = some fs') :
    ∀ b : Int, fs'.bm.isUsed b ↔ (b = 0 ∨ b ∈ fs'.root.refBlocks) := by
  have hinv := runOps_allocInv ops _ fs' h (fresh_allocInv blockSize totalBlocks htotal)
  intro b
  constructor
  · intro hb
    have h0 : 0 ≤ b := ((BlockManager.isUsed_iff _ _).1 hb).1
    have hcast : ((b.toNat : Nat) : Int) = b := Int.toNat_of_nonneg h0
    rcases hinv.no_orphan b.toNat (by rw [hcast]; exact hb) with h1 | h1
    · left; omega
    · right; rw [hcast] at h1; exact h1
  · rintro (h1 | h1)
    · rw [h1]; exact hinv.zero_used
    · exact (hinv.refs.refs_used b h1).2

/-- `ceilDiv` is the ceiling of the exact quotient. -/
theorem ceilDiv_eq_ceil (a : Int) (b : Nat) :
    ceilDiv a b = ⌈(a : ℚ) / (b : ℚ)⌉ := by
  unfold ceilDiv
  have e : (a : ℚ) / (b : ℚ) = -(((-a : Int) : ℚ) / (b : ℚ)) := by
    push_cast; ring
  rw [e, Int.ceil_neg, Rat.floor_intCast_div_natCast]

theorem ceilDiv_spec (a : Int) {b : Nat} (hb : 0 < b) :
    (ceilDiv a b - 1) * (b : Int) < a ∧ a ≤ ceilDiv a b * (b : Int) := by
  unfold ceilDiv
  have hb' : (0 : Int) < (b : Int) := by exact_mod_cast hb
  have h1 := Int.ediv_mul_le (-a) (ne_of_gt hb')
  have h2 := Int.lt_ediv_add_one_mul_self (-a) hb'
  constructor
  · have : (- (-a / (b : Int)) - 1) * (b : Int) = - ((-a / (b : Int) + 1) * (b : Int)) := by ring
    rw [this]; omega
  · have : - (-a / (b : Int)) * (b : Int) = - (-a / (b : Int) * (b : Int)) := by ring
    rw [this]; omega

theorem ceilDiv_nonneg {a : Int} (b : Nat) (ha : 0 ≤ a) : 0 ≤ ceilDiv a b := by
  rcases Nat.eq_zero_or_pos b with h | h
  · subst h; simp [ceilDiv]
  · have h1 := (ceilDiv_spec a h).1
    by_contra hc
    have hb' : (0 : Int) < (b : Int) := by exact_mod_cast h
    have : (ceilDiv a b - 1) * (b : Int) < 0 := by
      apply mul_neg_of_neg_of_pos <;> omega
    have h2 := (ceilDiv_spec a h).2
    have : ceilDiv a b * (b : Int) < 0 := by
      apply mul_neg_of_neg_of_pos <;> omega
    omega

namespace Directory
open BlockManager

/-- C3. A successful `createFile(name, size)` with `size ≥ 0` stores under `name` a record with
`fileSize = size`, `permissions = 6`, and `ceil(size/blockSize)` data blocks; its index block
followed by its data blocks are the first `1 + ceil(size/blockSize)` entries of the free list
at call time, which lists the free indices of `[1, totalBlocks)` in ascending order. -/
theorem createFile_lowest_free (fs fs' : FileSystem) (self : List Nat) (filename : String)
    (size now : Int) (hsize : 0 ≤ size)
    (h : createFile fs self filename size now = some (true, fs')) :
    (∃ fm, getFile fs' self filename = some fm ∧ fm.fileSize = size ∧ fm.permissions = 6 ∧
      (fm.blocks.length : Int) = ceilDiv size fs.bm.blockSize ∧
      fm.indexBlock :: fm.blocks =
        (fs.bm.freeList.take (fm.blocks.length + 1)).map Nat.cast) ∧
    (fs.bm.freeList.Sorted (· < ·) ∧
      ∀ i : Nat, i ∈ fs.bm.freeList ↔
        1 ≤ i ∧ i < fs.bm.totalBlocks ∧ fs.bm.freeBlockBitmap[i]? = some true) := by
  refine ⟨?_, freeList_sorted _, mem_freeList _⟩
  obtain ⟨d, hd⟩ := getDir_isSome_of_createFile h
  obtain ⟨i0, rest, mf, bm3, hw, hnew, hF, hn, h3, h4, hroot, _⟩ := createFile_true hd h
  refine ⟨newFileMeta filename size now i0
    ((rest.take (ceilDiv size fs.bm.blockSize).toNat).map Nat.cast), ?_, rfl, rfl, ?_, ?_⟩
  · unfold getFile
    rw [hroot, getDir_setFiles self fs.root d _ hd]
    simp only [Option.bind_some, files]
    exact mapFind_mapInsert _ _ _
  · have := ceilDiv_nonneg fs.bm.blockSize hsize
    simp only [newFileMeta, List.length_map, List.length_take]
    omega
  · simp only [newFileMeta, List.length_map, List.length_take, hF]
    rw [min_eq_left hn]
    simp

end Directory

theorem exists_of_map_fst {α : Type} {o : Option (Bool × α)} {b : Bool}
    (h : o.map Prod.fst = some b) : ∃ x, o = some (b, x) := by
  cases o with
  | none => cases h
  | some r =>
    obtain ⟨b', x⟩ := r
    simp only [Option.map_some', Option.some.injEq] at h
    exact ⟨x, by rw [← h]⟩

theorem createFile_out_of_space_rollback_witness :
    ∃ fs', Directory.createFile (FileSystem.fresh 16 3) [] "a" 40 0 = some (false, fs') ∧
      fs'.bm.freeBlockBitmap = (FileSystem.fresh 16 3).bm.freeBlockBitmap ∧
      fs'.root = (FileSystem.fresh 16 3).root ∧
      fs'.bm.disk = (FileSystem.fresh 16 3).bm.disk :=
  Directory.createFile_out_of_space_rollback (FileSystem.fresh 16 3) [] "a" 40 0
    (Directory.new "root") rfl (by decide) rfl (by decide)

theorem used_blocks_eq_referenced_witness :
    ∃ fs', runOps [.create "a" 20 1, .create "b" 200 2, .delete "a", .create "c" 5 3, .delete "zz"]
        (FileSystem.fresh 16 8) = some fs' ∧
      ∀ b : Int, fs'.bm.isUsed b ↔ (b = 0 ∨ b ∈ fs'.root.refBlocks) :=
  have h : (runOps [.create "a" 20 1, .create "b" 200 2, .delete "a", .create "c" 5 3, .delete "zz"]
      (FileSystem.fresh 16 8)).isSome = true := by decide
  ⟨Option.get _ h, (Option.some_get h).symm,
    used_blocks_eq_referenced 16 8 (by decide) _ _ (Option.some_get h).symm⟩

theorem createFile_lowest_free_witness :
    ∃ fs' fm, Directory.createFile (FileSystem.fresh 512 100) [] "a.txt" 1000 0 = some (true, fs') ∧
      getFile fs' [] "a.txt" = some fm ∧ fm.indexBlock = 1 ∧ fm.blocks = [2, 3] ∧
      fm.fileSize = 1000 := by
  obtain ⟨fs', h2⟩ := exists_of_map_fst
    (o := Directory.createFile (FileSystem.fresh 512 100) [] "a.txt" 1000 0) (b := true)
    (by decide)
  obtain ⟨⟨fm, hf1, hf2, hf3, hf4, hf5⟩, _⟩ :=
    Directory.createFile_lowest_free (FileSystem.fresh 512 100) fs' [] "a.txt" 1000 0
      (by decide) h2
  have hlen : fm.blocks.length = 2 := by
    have : ceilDiv 1000 (FileSystem.fresh 512 100).bm.blockSize = 2 := by decide
    rw [this] at hf4; exact_mod_cast hf4
  rw [hlen] at hf5
  have hfl : ((FileSystem.fresh 512 100).bm.freeList.take (2 + 1)).map Nat.cast = [(1 : Int), 2, 3] := by
    decide
  rw [hfl] at hf5
  simp only [List.cons.injEq] at hf5
  exact ⟨fs', fm, h2, hf1, hf5.1, hf5.2, hf2⟩

namespace Directory

set_option synthInstance.maxSize 4096 in
/-- C5 (failing input). Block size 16, 4 blocks: `createFile("f", 16)` gives data blocks `[2]`
and leaves only block 3 free; `appendFile("f", 32 bytes)` needs two more blocks, takes block 3,
runs out, frees block 3 again and fails. The bitmap is back to its value before the call, but
the record now lists the data blocks `[2, 3]`: it still references the freed block 3. -/
theorem appendFile_failure_keeps_freed_block :
    (createFile (FileSystem.fresh 16 4) [] "f" 16 0).bind (fun r1 =>
      (appendFile r1.2 [] "f" (List.replicate 32 'x') 1).map (fun r2 =>
        (r1.1, (getFile r1.2 [] "f").map (fun fm => (fm.fileSize, fm.blocks)),
         r2.1, (getFile r2.2 [] "f").map (fun fm => (fm.fileSize, fm.blocks)),
         decide (r2.2.bm.freeBlockBitmap = r1.2.bm.freeBlockBitmap),
         r2.2.bm.isBlockFree 3))) =
    some (true, some (16, [2]), false, some (16, [2, 3]), true, some true) := by
  decide

set_option synthInstance.maxSize 4096 in
/-- C6 (failing input). Block size 16, 5 blocks: `createFile("f", 32)` gives data blocks
`[2, 3]`, `writeFile("f", "ab")` sets the size to 2 and keeps both blocks, so only block 4 is
free. `resizeFile("f", 64)` takes block 4, runs out and fails; its rollback frees
`fm.blocks[1]`, which is the old block 3, and truncates the list to `[2]`. Afterwards the
record has lost block 3, block 3 is free although it was in use, and the newly taken block 4
stays marked used. -/
theorem resizeFile_failure_after_short_write :
    (createFile (FileSystem.fresh 16 5) [] "f" 32 0).bind (fun r1 =>
      (writeFile r1.2 [] "f" ['a', 'b'] 1).bind (fun r2 =>
        (resizeFile r2.2 [] "f" 64 2).map (fun r3 =>
          (r1.1, r2.1, (getFile r2.2 [] "f").map (fun fm => (fm.fileSize, fm.blocks)),
           r2.2.bm.freeBlockBitmap,
           r3.1, (getFile r3.2 [] "f").map (fun fm => (fm.fileSize, fm.blocks)),
           r3.2.bm.freeBlockBitmap)))) =
    some (true, true, some (2, [2, 3]), [false, false, false, false, true],
      false, some (2, [2]), [false, false, false, true, false]) := by
  decide

set_option synthInstance.maxSize 4096 in
/-- C8 (failing input). On a file of size 0 with no data blocks, `appendFile` with one byte
allocates one block and then indexes `fm.blocks[-1]`: the call has undefined behaviour. The
same happens after `createFile("g", 16)` and `resizeFile("g", 0)`. -/
theorem appendFile_empty_file_out_of_range :
    (createFile (FileSystem.fresh 16 8) [] "f" 0 0).map (fun r1 =>
        (r1.1, (getFile r1.2 [] "f").map (fun fm => (fm.fileSize, fm.blocks, fm.permissions)),
         appendFile r1.2 [] "f" ['x'] 1 |>.isNone)) =
      some (true, some (0, [], 6), true) ∧
    (createFile (FileSystem.fresh 16 8) [] "g" 16 0).bind (fun r1 =>
      (resizeFile r1.2 [] "g" 0 1).map (fun r2 =>
        (r1.1, r2.1, (getFile r2.2 [] "g").map (fun fm => (fm.fileSize, fm.blocks)),
         appendFile r2.2 [] "g" ['x'] 2 |>.isNone))) =
      some (true, true, some (0, []), true) ∧
    vecGet [] (ceilDiv 0 16 - 1) = none := by
  decide

end Directory

/-! ### Reading the bytes of a file -/

namespace BlockManager

theorem readBlock_congr {W : Nat → Prop} {bm bm' : BlockManager} (h : DiskFrame W bm bm')
    (b : Int) (hb : 0 ≤ b → ¬ W b.toNat) (buf : List Char) :
    (bm'.readBlock b buf).2 = (bm.readBlock b buf).2 := by
  unfold readBlock
  rw [h.totalBlocks_eq, h.blockSize_eq]
  by_cases hc : b < 0 ∨ b ≥ (bm.totalBlocks : Int)
  · simp [hc]
  · simp only [hc, if_false]
    rw [List.getD_eq_getElem?_getD, List.getD_eq_getElem?_getD, h.disk_eq _ (hb (by omega))]

theorem length_readBlock {bm : BlockManager} (hd : DiskOk bm) {b : Int}
    (hb : 0 ≤ b ∧ b < (bm.totalBlocks : Int)) (buf : List Char) :
    ((bm.readBlock b buf).2).length = bm.blockSize := by
  have hlt : b.toNat < bm.disk.length := by rw [hd.disk_len]; omega
  rw [readBlock_eq bm b buf hb.1 hb.2 hlt]
  exact hd.block_len _ (List.getElem_mem _)

end BlockManager

theorem blocksContent_nil (bm : BlockManager) : blocksContent bm [] = [] := rfl

theorem blocksContent_cons (bm : BlockManager) (b : Int) (l : List Int) :
    blocksContent bm (b :: l) = (bm.readBlock b []).2 ++ blocksContent bm l := by
  simp [blocksContent, List.flatMap_cons]

theorem blocksContent_append (bm : BlockManager) (l1 l2 : List Int) :
    blocksContent bm (l1 ++ l2) = blocksContent bm l1 ++ blocksContent bm l2 := by
  simp [blocksContent, List.flatMap_append]

theorem blocksContent_congr {W : Nat → Prop} {bm bm' : BlockManager} (h : DiskFrame W bm bm')
    (l : List Int) (hl : ∀ b ∈ l, 0 ≤ b → ¬ W b.toNat) :
    blocksContent bm' l = blocksContent bm l := by
  induction l with
  | nil => rfl
  | cons b l ih =>
    rw [blocksContent_cons, blocksContent_cons,
      BlockManager.readBlock_congr h b (hl b (List.mem_cons_self _ _)),
      ih (fun c hc => hl c (List.mem_cons_of_mem _ hc))]

theorem length_blocksContent {bm : BlockManager} (hd : DiskOk bm) (l : List Int)
    (hv : validBlocks bm l) : (blocksContent bm l).length = l.length * bm.blockSize := by
  induction l with
  | nil => simp [blocksContent]
  | cons b l ih =>
    rw [blocksContent_cons, List.length_append,
      BlockManager.length_readBlock hd (hv b (List.mem_cons_self _ _)),
      ih (fun c hc => hv c (List.mem_cons_of_mem _ hc)), List.length_cons]
    ring

namespace Directory

/-- The loop of `readFile` returns the first `size` bytes held by the blocks. -/
theorem readLoop_eq_take {bm : BlockManager} (hd : DiskOk bm) :
    ∀ (l : List Int) (s : Int), validBlocks bm l → 0 ≤ s →
      readLoop bm l s = (blocksContent bm l).take s.toNat := by
  intro l
  induction l with
  | nil => intro s _ _; simp [readLoop, blocksContent]
  | cons b l ih =>
    intro s hv hs
    have hlen := BlockManager.length_readBlock hd (hv b (List.mem_cons_self _ _)) []
    have hpos := hd.blockSize_pos
    rw [readLoop, blocksContent_cons]
    simp only [hlen]
    by_cases hle : s ≤ (bm.blockSize : Int)
    · have hmin : min s (bm.blockSize : Int) = s := min_eq_left hle
      rw [hmin]
      simp only [sub_self, le_refl, if_true]
      rw [List.take_append_of_le_length (by rw [hlen]; omega)]
      by_cases h0 : s > 0
      · simp [h0]
      · have : s = 0 := by omega
        subst this; simp
    · have hmin : min s (bm.blockSize : Int) = (bm.blockSize : Int) := min_eq_right (by omega)
      rw [hmin]
      have h1 : ¬ (s - (bm.blockSize : Int) ≤ 0) := by omega
      have h2 : (bm.blockSize : Int) > 0 := by omega
      simp only [h1, if_false, h2, if_true, Int.toNat_ofNat]
      rw [ih (s - bm.blockSize) (fun c hc => hv c (List.mem_cons_of_mem _ hc)) (by omega)]
      rw [List.take_of_length_le (le_of_eq hlen)]
      have e : s.toNat = ((bm.readBlock b []).2).length + (s - (bm.blockSize : Int)).toNat := by
        rw [hlen]; omega
      rw [e, List.take_append]

end Directory

theorem mem_refBlocks_of_mem {root : Directory} {g : FileMeta} {b : Int}
    (hg : g ∈ root.allFiles) (hb : b ∈ g.refs) : b ∈ root.refBlocks :=
  List.mem_flatMap.2 ⟨g, hg, hb⟩

theorem diskOk_taken {bm : BlockManager} (hd : DiskOk bm) (L : List Nat) (mf : List Char) :
    DiskOk (bm.taken L mf) := ⟨hd.blockSize_pos, hd.disk_len, hd.block_len⟩

namespace Directory
open BlockManager

theorem getFile_setFiles_mapInsert {fs fs' : FileSystem} {self : List Nat} {d : Directory}
    (filename : String) (fm : FileMeta) (hd : fs.root.getDir self = some d)
    (hroot : fs'.root = fs.root.setFiles self (mapInsert d.files filename fm)) :
    getFile fs' self filename = some fm := by
  unfold getFile
  rw [hroot, getDir_setFiles self fs.root d _ hd]
  simp only [Option.bind_some, files]
  exact mapFind_mapInsert _ _ _

theorem getFile_setFiles_mapAssign {fs fs' : FileSystem} {self : List Nat} {d : Directory}
    {filename : String} {fm0 : FileMeta} (fm : FileMeta) (hd : fs.root.getDir self = some d)
    (hf : mapFind d.files filename = some fm0)
    (hroot : fs'.root = fs.root.setFiles self (mapAssign d.files filename fm)) :
    getFile fs' self filename = some fm := by
  unfold getFile
  rw [hroot, getDir_setFiles self fs.root d _ hd]
  simp only [Option.bind_some, files]
  exact mapFind_mapAssign _ hf

theorem readFile_of_getFile {fs : FileSystem} {self : List Nat} {filename : String}
    {fm : FileMeta} (h : getFile fs self filename = some fm) :
    readFile fs self filename =
      some (if testMask fm.permissions 2 = false then [] else readLoop fs.bm fm.blocks fm.fileSize) := by
  unfold getFile at h
  unfold readFile
  cases hd : fs.root.getDir self with
  | none => rw [hd] at h; cases h
  | some d =>
    rw [hd] at h
    have h' : mapFind d.files filename = some fm := h
    simp only [h']
    split <;> rfl

set_option synthInstance.maxSize 4096 in
/-- C7 (counterexample). Block size 16, 8 blocks: after `createFile("a", 16)`,
`writeFile("a", "secret")` and `deleteFile("a")`, the freed block 2 still holds the bytes of
`a`. `createFile("b", 16)` succeeds and takes block 2 as its data block, and `readFile("b")`
returns 16 bytes that begin with `secret`: they are not all zero. -/
theorem createFile_readFile_stale_bytes :
    (createFile (FileSystem.fresh 16 8) [] "a" 16 0).bind (fun r1 =>
      (writeFile r1.2 [] "a" "secret".toList 1).bind (fun r2 =>
        (deleteFile r2.2 [] "a").bind (fun r3 =>
          (createFile r3.2 [] "b" 16 2).bind (fun r4 =>
            (readFile r4.2 [] "b").map (fun out =>
              (r1.1, r2.1, r3.1, r4.1, (getFile r4.2 [] "b").map (fun fm => fm.blocks),
               out, decide (∀ c ∈ out, c = zeroByte))))))) =
    some (true, true, true, true, some [2], "secret".toList ++ zeros 10, false) := by
  decide

/-- C7 (amended). In a well-formed state (disk of `totalBlocks` blocks of `blockSize` bytes;
referenced blocks distinct, in range and marked used), if `createFile(name, size)` with
`size ≥ 0` succeeds then `readFile(name)` returns exactly `size` bytes: the first `size`
bytes that the data blocks given to the file held on disk before the call. They are all
zero when those blocks held only zero bytes. -/
theorem createFile_then_readFile (fs fs' : FileSystem) (self : List Nat) (filename : String)
    (size now : Int) (hsize : 0 ≤ size) (hrefs : RefsOk fs) (hdisk : DiskOk fs.bm)
    (h : createFile fs self filename size now = some (true, fs')) :
    ∃ fm out, getFile fs' self filename = some fm ∧ readFile fs' self filename = some out ∧
      (out.length : Int) = size ∧ out = (blocksContent fs.bm fm.blocks).take size.toNat ∧
      ((∀ c ∈ blocksContent fs.bm fm.blocks, c = zeroByte) → ∀ c ∈ out, c = zeroByte) := by
  obtain ⟨d, hd⟩ := getDir_isSome_of_createFile h
  obtain ⟨i0, rest, mf, bm3, hw, hnew, hF, hn, h3, h4, hroot, _⟩ := createFile_true hd h
  have f3 := Serializer.writeIndexBlock_frame h3
  have f4 := Serializer.saveDirectory_frame h4
  obtain ⟨X, Y, hX, hX'⟩ := insert_ctx hd hnew
  have hpos := hdisk.blockSize_pos
  set n := (ceilDiv size fs.bm.blockSize).toNat with hn_def
  set fm := newFileMeta filename size now i0 ((rest.take n).map Nat.cast) with hfm
  have hgf : getFile fs' self filename = some fm := getFile_setFiles_mapInsert filename fm hd hroot
  -- the frame of all the writes of the call
  have F : DiskFrame (fun j => (j : Int) = (i0 : Int) ∨ j = 0 ∨
      ∃ g ∈ fs'.root.allFiles, (j : Int) = g.indexBlock) (fs.bm.taken (i0 :: rest.take n) mf) fs'.bm :=
    (f3.mono _ (fun j hj => Or.inl hj)).trans (f4.mono _ (fun j hj => Or.inr hj))
  have hdisk' : DiskOk fs'.bm := F.diskOk (diskOk_taken hdisk _ _)
  have hfreeN : ∀ j ∈ rest.take n, 1 ≤ j ∧ j < fs.bm.totalBlocks ∧
      fs.bm.freeBlockBitmap[j]? = some true ∧ j ≠ i0 := by
    intro j hj
    have hjr : j ∈ rest := List.mem_of_mem_take hj
    have hmem := (mem_freeList fs.bm j).1 (by rw [hF]; exact List.mem_cons_of_mem _ hjr)
    have hnd := freeList_nodup fs.bm
    rw [hF] at hnd
    exact ⟨hmem.1, hmem.2.1, hmem.2.2, fun hc => (List.nodup_cons.1 hnd).1 (hc ▸ hjr)⟩
  have hvalid : validBlocks fs'.bm fm.blocks := by
    intro b hb
    obtain ⟨j, hj, rfl⟩ := List.mem_map.1 hb
    have := hfreeN j hj
    rw [F.totalBlocks_eq]
    exact ⟨by omega, by simp [BlockManager.taken]; omega⟩
  have hread : readFile fs' self filename = some (readLoop fs'.bm fm.blocks size) := by
    rw [readFile_of_getFile hgf]
    have h6 : testMask 6 2 = true := by decide
    have : testMask fm.permissions 2 = true := h6
    have hsz : fm.fileSize = size := rfl
    simp [this, hsz]
  have hcontent : blocksContent fs'.bm fm.blocks = blocksContent fs.bm fm.blocks := by
    have e1 : blocksContent fs'.bm fm.blocks =
        blocksContent (fs.bm.taken (i0 :: rest.take n) mf) fm.blocks := by
      apply blocksContent_congr F
      intro b hb _
      obtain ⟨j, hj, rfl⟩ := List.mem_map.1 hb
      obtain ⟨hj1, hj2, hj3, hj4⟩ := hfreeN j hj
      simp only [Int.toNat_ofNat, Nat.cast_inj]
      rintro (hc | hc | ⟨g, hg, hc⟩)
      · exact hj4 hc
      · omega
      · rw [hroot, hX'] at hg
        rcases List.mem_append.1 hg with hg | hg
        · have hin : g ∈ fs.root.allFiles := by rw [hX]; exact List.mem_append_left _ hg
          have hu := (hrefs.refs_used _ (mem_refBlocks_of_mem hin (List.mem_cons_self _ _))).2
          rw [← hc, isUsed_natCast, hj3] at hu
          cases hu.2
        · rcases List.mem_cons.1 hg with hg | hg
          · rw [hg] at hc
            have hc' : (j : Int) = (i0 : Int) := hc
            exact hj4 (by exact_mod_cast hc')
          · have hin : g ∈ fs.root.allFiles := by rw [hX]; exact List.mem_append_right _ hg
            have hu := (hrefs.refs_used _ (mem_refBlocks_of_mem hin (List.mem_cons_self _ _))).2
            rw [← hc, isUsed_natCast, hj3] at hu
            cases hu.2
    rw [e1]; rfl
  have hlen : (blocksContent fs'.bm fm.blocks).length = n * fs.bm.blockSize := by
    rw [length_blocksContent hdisk' _ hvalid, F.blockSize_eq]
    simp [hfm, newFileMeta, List.length_take, hn, BlockManager.taken]
  have hcd := ceilDiv_spec size hpos
  have hcn := ceilDiv_nonneg fs.bm.blockSize hsize
  have hncast : (n : Int) = ceilDiv size fs.bm.blockSize := by rw [hn_def]; omega
  refine ⟨fm, _, hgf, hread, ?_, ?_, ?_⟩
  · rw [readLoop_eq_take hdisk' _ _ hvalid hsize, List.length_take, hlen]
    have : size ≤ ((n * fs.bm.blockSize : Nat) : Int) := by
      push_cast; rw [hncast]; exact hcd.2
    omega
  · rw [readLoop_eq_take hdisk' _ _ hvalid hsize, hcontent]
  · intro hz c hc
    rw [readLoop_eq_take hdisk' _ _ hvalid hsize, hcontent] at hc
    exact hz c (List.mem_of_mem_take hc)

end Directory

/-! ### `appendFile`: allocation and the write loop -/

theorem take_overlay (pre mid tail C' : List Char) (bs off n : Nat)
    (hpre : pre.length = off) (hn : n = min mid.length (bs - off))
    (htail : tail.length = bs - off - n)
    (hC : C'.take (mid.length - n) = mid.drop n) :
    (pre ++ mid.take n ++ tail ++ C').take (off + mid.length) = pre ++ mid := by
  by_cases hcase : mid.length ≤ bs - off
  · have hn' : n = mid.length := by rw [hn]; exact min_eq_left hcase
    have e1 : mid.take n = mid := by rw [hn']; exact List.take_length mid
    rw [e1, List.append_assoc, List.append_assoc, ← List.append_assoc pre mid]
    rw [List.take_append_of_le_length (by simp [hpre])]
    rw [List.take_of_length_le (by simp [hpre])]
  · have hn' : n = bs - off := by rw [hn]; exact min_eq_right (by omega)
    have ht : tail = [] := List.length_eq_zero.1 (by rw [htail, hn']; omega)
    rw [ht, List.append_nil]
    have hl : (pre ++ mid.take n).length = off + n := by
      simp [hpre, List.length_take]; omega
    have e : off + mid.length = (pre ++ mid.take n).length + (mid.length - n) := by
      rw [hl]; omega
    rw [e, List.take_append, hC, List.append_assoc, List.take_append_drop]

namespace Directory
open BlockManager

theorem appendAlloc_success :
    ∀ (n : Nat) (bm : BlockManager) (newBlocks blocks : List Int), n ≤ bm.freeList.length →
      ∃ mf, appendAlloc n bm newBlocks blocks =
        (true, bm.taken (bm.freeList.take n) mf, blocks ++ (bm.freeList.take n).map Nat.cast) := by
  intro n
  induction n with
  | zero => intro bm nb acc _; exact ⟨bm.metaFile, by simp [appendAlloc, BlockManager.taken]⟩
  | succ n ih =>
    intro bm nb acc hn
    cases hF : bm.freeList with
    | nil => rw [hF] at hn; simp at hn
    | cons i rest =>
      obtain ⟨mf1, h1⟩ := allocateBlock_of_freeList_cons hF
      have hrest := freeList_set_false mf1 hF
      rw [hF] at hn
      obtain ⟨mf, h2⟩ := ih _ (nb ++ [(i : Int)]) (acc ++ [(i : Int)])
        (by rw [hrest]; simpa using hn)
      refine ⟨mf, ?_⟩
      rw [appendAlloc, h1]
      have hne : ¬ ((i : Int) = -1) := by omega
      simp only [hne, if_false]
      rw [h2, hrest]
      simp [BlockManager.taken]

theorem appendAlloc_failure :
    ∀ (n : Nat) (bm : BlockManager) (newBlocks blocks : List Int), bm.freeList.length < n →
      (appendAlloc n bm newBlocks blocks).1 = false := by
  intro n
  induction n with
  | zero => intro bm nb acc h; simp at h
  | succ n ih =>
    intro bm nb acc hn
    cases hF : bm.freeList with
    | nil =>
      rw [appendAlloc, allocateBlock_of_freeList_nil hF]
      simp
    | cons i rest =>
      obtain ⟨mf1, h1⟩ := allocateBlock_of_freeList_cons hF
      have hrest := freeList_set_false mf1 hF
      rw [hF] at hn
      rw [appendAlloc, h1]
      have hne : ¬ ((i : Int) = -1) := by omega
      simp only [hne, if_false]
      exact ih _ _ _ (by rw [hrest]; simpa using hn)

theorem vecGet_append_cons (P Rest : List Int) (b : Int) :
    vecGet (P ++ b :: Rest) (P.length : Int) = some b := by
  unfold vecGet
  have : ¬ ((P.length : Int) < 0) := by omega
  simp only [this, if_false, Int.toNat_ofNat]
  rw [List.getElem?_append_right (le_refl _)]
  simp

theorem readBlock_buffer_irrelevant (bm : BlockManager) {b : Int}
    (hb : 0 ≤ b ∧ b < (bm.totalBlocks : Int)) (buf buf' : List Char) :
    (bm.readBlock b buf).2 = (bm.readBlock b buf').2 := by
  unfold readBlock
  have : ¬ (b < 0 ∨ b ≥ (bm.totalBlocks : Int)) := by omega
  simp [this]

theorem readBlock_writeBlock {bm : BlockManager} (hd : DiskOk bm) {b : Int}
    (hb : 0 ≤ b ∧ b < (bm.totalBlocks : Int)) (buf : List Char) (hlen : buf.length = bm.blockSize) :
    ((bm.writeBlock b buf).2.readBlock b []).2 = buf := by
  have hlt : b.toNat < bm.disk.length := by rw [hd.disk_len]; omega
  have f := writeBlock_frame bm b buf (le_of_eq hlen.symm)
  have hlt' : b.toNat < (bm.writeBlock b buf).2.disk.length := by rw [f.disk_len]; exact hlt
  rw [readBlock_eq _ b [] hb.1 (by rw [f.totalBlocks_eq]; exact hb.2) hlt']
  have := writeBlock_getElem? bm b buf hb.1 hb.2 hlt
  rw [List.getElem?_eq_getElem hlt'] at this
  simp only [Option.some.injEq] at this
  rw [this, List.take_of_length_le (le_of_eq hlen)]

end Directory

namespace Directory
open BlockManager

theorem validBlocks_congr {bm bm' : BlockManager} (h : bm'.totalBlocks = bm.totalBlocks)
    {l : List Int} (hv : validBlocks bm l) : validBlocks bm' l := by
  intro b hb; rw [h]; exact hv b hb

theorem length_memcpy_buf (buf : List Char) (off n bs : Nat) (src : List Char)
    (hbuf : buf.length = bs) (h1 : off + n ≤ bs) (h2 : n ≤ src.length) :
    (memcpy buf off src n).length = bs := by
  rw [Serializer.length_memcpy buf off src n (by omega) h2, hbuf]

theorem appendWrite_step (data : List Char) (B' : List Int) (cur : Int) (fuel : Nat)
    (bm : BlockManager) (o k off b : Int)
    (c1 : o < (data.length : Int))
    (c2 : ¬ (off < 0 ∨ (bm.blockSize : Int) ≤ off))
    (hvg : vecGet B' k = some b) :
    appendWrite data B' cur (fuel + 1) bm o k off =
      appendWrite data B' cur fuel
        (bm.writeBlock b
          (memcpy
            (if k < cur ∧ off > 0 then (bm.readBlock b (zeros bm.blockSize)).2
              else zeros bm.blockSize)
            off.toNat (data.drop o.toNat)
            (min ((data.length : Int) - o) ((bm.blockSize : Int) - off)).toNat)).2
        (o + min ((data.length : Int) - o) ((bm.blockSize : Int) - off)) (k + 1) 0 := by
  rw [appendWrite, if_pos c1, if_neg c2, hvg]
  by_cases hc : k < cur ∧ off > 0
  · simp only [hc, and_self, if_true, Option.map_some']
  · simp only [hc, if_false]

/-- The write loop of `appendFile`, started at block position `P.length` with in-block
offset `off` and `o` bytes of `data` already written: it succeeds when the remaining blocks
`Rest` have room, changes only blocks of `Rest`, and lays the rest of `data` right after the
first `off` bytes of `Rest`. -/
theorem appendWrite_spec (data : List Char) (B' : List Int) (cur : Int) :
    ∀ (fuel : Nat) (bm : BlockManager) (o off : Nat) (P Rest : List Int),
      B' = P ++ Rest → B'.Nodup → validBlocks bm B' → DiskOk bm →
      o ≤ data.length → off < bm.blockSize → data.length - o ≤ fuel →
      (data.length - o) + off ≤ Rest.length * bm.blockSize →
      (0 < off → (P.length : Int) < cur) →
      ∃ bm', appendWrite data B' cur fuel bm (o : Int) (P.length : Int) (off : Int) = some bm' ∧
        DiskFrame (fun j => (j : Int) ∈ Rest) bm bm' ∧
        (blocksContent bm' Rest).take (off + (data.length - o)) =
          (blocksContent bm Rest).take off ++ data.drop o := by
  intro fuel
  induction fuel with
  | zero =>
    intro bm o off P Rest _ _ _ _ ho _ hfuel _ _
    have hoe : o = data.length := by omega
    refine ⟨bm, ?_, DiskFrame.refl _ _, ?_⟩
    · rw [appendWrite]
      have : ¬ ((o : Int) < (data.length : Int)) := by omega
      simp [this]
    · subst hoe; simp
  | succ fuel ih =>
    intro bm o off P Rest hB hnd hv hd ho hoff hfuel hroom hcur
    by_cases hlt : o < data.length
    swap
    · have hoe : o = data.length := by omega
      refine ⟨bm, ?_, DiskFrame.refl _ _, ?_⟩
      · rw [appendWrite]
        have : ¬ ((o : Int) < (data.length : Int)) := by omega
        simp [this]
      · subst hoe; simp
    -- one more pass of the loop
    cases hR : Rest with
    | nil => rw [hR] at hroom; simp at hroom; omega
    | cons b Rest' =>
      subst hR
      have hbmem : b ∈ B' := by rw [hB]; simp
      have hbv := hv b hbmem
      have hbnot : b ∉ Rest' := by
        rw [hB] at hnd
        exact (List.nodup_cons.1 (List.Nodup.of_append_right hnd)).1
      have hn1 : 1 ≤ min (data.length - o) (bm.blockSize - off) := by omega
      have hbuflen : (if (P.length : Int) < cur ∧ (off : Int) > 0 then
          (bm.readBlock b (zeros bm.blockSize)).2 else zeros bm.blockSize).length =
          bm.blockSize := by
        split
        · exact length_readBlock hd hbv _
        · exact Serializer.length_zeros _
      have hbuftake : (if (P.length : Int) < cur ∧ (off : Int) > 0 then
          (bm.readBlock b (zeros bm.blockSize)).2 else zeros bm.blockSize).take off =
          ((bm.readBlock b []).2).take off := by
        by_cases h0 : 0 < off
        · have hc : (P.length : Int) < cur ∧ (off : Int) > 0 := ⟨hcur h0, by omega⟩
          rw [if_pos hc, readBlock_buffer_irrelevant bm hbv (zeros bm.blockSize) []]
        · have : off = 0 := by omega
          subst this; simp
      generalize hbuf : (if (P.length : Int) < cur ∧ (off : Int) > 0 then
          (bm.readBlock b (zeros bm.blockSize)).2 else zeros bm.blockSize) = buf
        at hbuflen hbuftake
      generalize hn : min (data.length - o) (bm.blockSize - off) = n at hn1
      have hb2len : (memcpy buf off (data.drop o) n).length = bm.blockSize :=
        length_memcpy_buf buf off n bm.blockSize _ hbuflen (by omega)
          (by rw [List.length_drop]; omega)
      have f1 : DiskFrame (fun j => (j : Int) = b) bm
          (bm.writeBlock b (memcpy buf off (data.drop o) n)).2 :=
        writeBlock_frame bm b _ (le_of_eq hb2len.symm)
      have hd1 := f1.diskOk hd
      -- the recursive call
      obtain ⟨bm', hrec, frec, hcont⟩ := ih _ (o + n) 0 (P ++ [b]) Rest'
        (by rw [hB]; simp) hnd (validBlocks_congr f1.totalBlocks_eq hv) hd1
        (by omega) (by rw [f1.blockSize_eq]; omega) (by omega)
        (by
          rw [f1.blockSize_eq]
          simp only [List.length_cons, Nat.add_mul, one_mul] at hroom
          omega)
        (by intro h; omega)
      refine ⟨bm', ?_, ?_, ?_⟩
      · have c1 : (o : Int) < (data.length : Int) := by omega
        have c2 : ¬ ((off : Int) < 0 ∨ (bm.blockSize : Int) ≤ (off : Int)) := by omega
        have hvg : vecGet B' (P.length : Int) = some b := by
          rw [hB]; exact vecGet_append_cons P Rest' b
        rw [appendWrite_step data B' cur fuel bm _ _ _ b c1 c2 hvg, hbuf]
        have e1 : min ((data.length : Int) - (o : Int)) ((bm.blockSize : Int) - (off : Int)) =
            (n : Int) := by
          rw [← hn]; omega
        rw [e1]
        simp only [Int.toNat_ofNat]
        have e2 : (o : Int) + (n : Int) = ((o + n : Nat) : Int) := by push_cast; rfl
        have e3 : (P.length : Int) + 1 = ((P ++ [b]).length : Int) := by simp
        rw [e2, e3]
        rw [Nat.cast_zero] at hrec
        exact hrec
      · exact (f1.mono _ (fun j hj => by rw [hj]; exact List.mem_cons_self _ _)).trans
          (frec.mono _ (fun j hj => List.mem_cons_of_mem _ hj))
      · have hblk : (bm'.readBlock b []).2 = memcpy buf off (data.drop o) n := by
          rw [readBlock_congr frec b (fun _ hc => hbnot (by
            have : ((b.toNat : Nat) : Int) = b := Int.toNat_of_nonneg hbv.1
            rw [this] at hc; exact hc))]
          exact readBlock_writeBlock hd hbv _ hb2len
        have hblen : ((bm.readBlock b []).2).length = bm.blockSize := length_readBlock hd hbv _
        have hRHS : (blocksContent bm (b :: Rest')).take off = buf.take off := by
          rw [blocksContent_cons, List.take_append_of_le_length (by rw [hblen]; omega), hbuftake]
        have hC : (blocksContent bm' Rest').take ((data.drop o).length - n) =
            (data.drop o).drop n := by
          have := hcont
          simp only [Nat.zero_add, List.take_zero, List.nil_append] at this
          rw [List.length_drop, List.drop_drop]
          have e : data.length - o - n = data.length - (o + n) := by omega
          rw [e, this]
        have := take_overlay (buf.take off) (data.drop o) (buf.drop (off + n))
          (blocksContent bm' Rest') bm.blockSize off n (by simp [hbuflen]; omega)
          (by rw [List.length_drop]; exact hn.symm)
          (by rw [List.length_drop, hbuflen]; omega) hC
        rw [List.length_drop] at this
        rw [hRHS, blocksContent_cons, hblk]
        unfold memcpy
        exact this

end Directory

/-! ### Arithmetic of block counts -/

theorem ceilDiv_unique {a c : Int} {b : Nat} (hb : 0 < b) (h1 : (c - 1) * (b : Int) < a)
    (h2 : a ≤ c * (b : Int)) : ceilDiv a b = c := by
  obtain ⟨k1, k2⟩ := ceilDiv_spec a hb
  have hb' : (0 : Int) ≤ (b : Int) := by omega
  have e1 : ceilDiv a b - 1 < c :=
    lt_of_mul_lt_mul_right (lt_of_lt_of_le k1 h2) hb'
  have e2 : c - 1 < ceilDiv a b :=
    lt_of_mul_lt_mul_right (lt_of_lt_of_le h1 k2) hb'
  omega

theorem ceilDiv_mono {a a' : Int} {b : Nat} (hb : 0 < b) (h : a ≤ a') :
    ceilDiv a b ≤ ceilDiv a' b := by
  obtain ⟨k1, _⟩ := ceilDiv_spec a hb
  obtain ⟨_, k2'⟩ := ceilDiv_spec a' hb
  have hb' : (0 : Int) ≤ (b : Int) := by omega
  have : ceilDiv a b - 1 < ceilDiv a' b :=
    lt_of_mul_lt_mul_right (lt_of_lt_of_le k1 (le_trans h k2')) hb'
  omega

theorem ceilDiv_natCast (m b : Nat) (hb : 0 < b) :
    ceilDiv (m : Int) b = ((if m % b = 0 then m / b else m / b + 1 : Nat) : Int) := by
  have hdm := Nat.div_add_mod m b
  have hlt := Nat.mod_lt m hb
  apply ceilDiv_unique hb
  · split
    · rename_i h0
      have : m = b * (m / b) := by omega
      have hm : (m : Int) = (b : Int) * ((m / b : Nat) : Int) := by exact_mod_cast this
      have hb' : (0 : Int) < (b : Int) := by omega
      nlinarith
    · rename_i h0
      have hm : (m : Int) = (b : Int) * ((m / b : Nat) : Int) + ((m % b : Nat) : Int) := by
        exact_mod_cast hdm.symm
      have hr : (0 : Int) < ((m % b : Nat) : Int) := by omega
      simp only [Nat.cast_add, Nat.cast_one]
      nlinarith
  · split
    · rename_i h0
      have : m = b * (m / b) := by omega
      have hm : (m : Int) = (b : Int) * ((m / b : Nat) : Int) := by exact_mod_cast this
      nlinarith
    · rename_i h0
      have hm : (m : Int) = (b : Int) * ((m / b : Nat) : Int) + ((m % b : Nat) : Int) := by
        exact_mod_cast hdm.symm
      have hr : ((m % b : Nat) : Int) < (b : Int) := by omega
      simp only [Nat.cast_add, Nat.cast_one]
      nlinarith

/-- Where `appendFile` starts writing in a file of size `s > 0`: block position
`s / blockSize` at offset `s % blockSize`. -/
theorem append_layout (s : Int) (b : Nat) (hs : 0 < s) (hb : 0 < b) :
    Int.tmod s (b : Int) = ((s.toNat % b : Nat) : Int) ∧
    (if Int.tmod s (b : Int) = 0 ∧ s > 0 then ceilDiv s b - 1 + 1 else ceilDiv s b - 1) =
      ((s.toNat / b : Nat) : Int) ∧
    s.toNat % b < b ∧
    (0 < s.toNat % b → ((s.toNat / b : Nat) : Int) < ceilDiv s b) ∧
    ((s.toNat / b : Nat) : Int) ≤ ceilDiv s b ∧
    s.toNat = (s.toNat / b) * b + s.toNat % b := by
  have hsn : s = (s.toNat : Int) := (Int.toNat_of_nonneg (le_of_lt hs)).symm
  have hcd := ceilDiv_natCast s.toNat b hb
  rw [← hsn] at hcd
  have htm : Int.tmod s (b : Int) = ((s.toNat % b : Nat) : Int) := by
    rw [Int.tmod_eq_emod (le_of_lt hs) (by omega)]
    conv_lhs => rw [hsn]
    norm_cast
  have hdm := Nat.div_add_mod s.toNat b
  refine ⟨htm, ?_, Nat.mod_lt _ hb, ?_, ?_, ?_⟩
  · rw [htm, hcd]
    by_cases h0 : s.toNat % b = 0
    · have : (((s.toNat % b : Nat) : Int) = 0 ∧ s > 0) := ⟨by omega, hs⟩
      rw [if_pos this, if_pos h0]; ring
    · have : ¬ (((s.toNat % b : Nat) : Int) = 0 ∧ s > 0) := by omega
      rw [if_neg this, if_neg h0]
      simp only [Nat.cast_add, Nat.cast_one]; ring
  · intro h0
    rw [hcd]
    have : ¬ (s.toNat % b = 0) := by omega
    simp [this]
  · rw [hcd]
    split <;> simp
  · rw [Nat.mul_comm]; omega

theorem append_room (s : Int) (b d L : Nat) (hs : 0 < s) (hb : 0 < b)
    (hL : ceilDiv (s + (d : Int)) b ≤ (L : Int)) :
    d + s.toNat % b ≤ (L - s.toNat / b) * b := by
  obtain ⟨k1, k2⟩ := ceilDiv_spec (s + (d : Int)) hb
  have hdm := Nat.div_add_mod s.toNat b
  have hsn : s = (s.toNat : Int) := (Int.toNat_of_nonneg (le_of_lt hs)).symm
  have h1 : s + (d : Int) ≤ (L : Int) * (b : Int) :=
    le_trans k2 (mul_le_mul_of_nonneg_right hL (by omega))
  have h2 : (s.toNat + d : Nat) ≤ L * b := by
    have : ((s.toNat + d : Nat) : Int) ≤ ((L * b : Nat) : Int) := by
      push_cast; rw [← hsn]; exact h1
    exact_mod_cast this
  have h3 : s.toNat / b ≤ L := by
    by_contra hc
    have : L + 1 ≤ s.toNat / b := by omega
    have : (L + 1) * b ≤ (s.toNat / b) * b := Nat.mul_le_mul_right b this
    have h4 : (s.toNat / b) * b ≤ s.toNat := Nat.div_mul_le_self _ _
    have : (L + 1) * b = L * b + b := by ring
    omega
  have h5 : (L - s.toNat / b) * b = L * b - (s.toNat / b) * b := Nat.sub_mul _ _ _
  rw [h5]
  have h6 : b * (s.toNat / b) = (s.toNat / b) * b := Nat.mul_comm _ _
  omega

/-! ### Blocks of a record in a well-formed state -/

theorem RefsOk.free_not_ref {fs : FileSystem} (hrefs : RefsOk fs) {j : Nat}
    (hj : j ∈ fs.bm.freeList) :
    1 ≤ j ∧ j < fs.bm.totalBlocks ∧ (j : Int) ∉ fs.root.refBlocks := by
  obtain ⟨h1, h2, h3⟩ := (BlockManager.mem_freeList fs.bm j).1 hj
  refine ⟨h1, h2, fun hc => ?_⟩
  have := ((BlockManager.isUsed_natCast _ _).1 (hrefs.refs_used _ hc).2).2
  rw [h3] at this; cases this

theorem RefsOk.data_blocks {fs : FileSystem} (hrefs : RefsOk fs) {fm : FileMeta}
    (hfm : fm ∈ fs.root.allFiles) :
    fm.blocks.Nodup ∧ validBlocks fs.bm fm.blocks ∧
      ∀ b ∈ fm.blocks, 1 ≤ b ∧ b ∈ fs.root.refBlocks ∧
        ∀ g ∈ fs.root.allFiles, b ≠ g.indexBlock := by
  obtain ⟨X, Y, hXY⟩ := List.append_of_mem hfm
  have hnd := hrefs.refs_nodup
  unfold Directory.refBlocks at hnd
  rw [hXY, nodup_refs_middle] at hnd
  obtain ⟨h1, h2, h3⟩ := hnd
  have hmem : ∀ b ∈ fm.blocks, b ∈ fs.root.refBlocks := fun b hb =>
    mem_refBlocks_of_mem hfm (List.mem_cons_of_mem _ hb)
  refine ⟨(List.nodup_cons.1 h1).2, ?_, ?_⟩
  · intro b hb
    have := hrefs.refs_used b (hmem b hb)
    rw [BlockManager.isUsed_iff] at this
    exact ⟨this.2.1, this.2.2.1⟩
  · intro b hb
    refine ⟨(hrefs.refs_used b (hmem b hb)).1, hmem b hb, ?_⟩
    intro g hg hc
    rw [hXY] at hg
    rcases List.mem_append.1 hg with hg | hg
    · exact h3 b (List.mem_cons_of_mem _ hb)
        (List.mem_flatMap.2 ⟨g, List.mem_append_left _ hg, hc ▸ List.mem_cons_self _ _⟩)
    · rcases List.mem_cons.1 hg with hg | hg
      · subst hg
        exact (List.nodup_cons.1 h1).1 (hc ▸ hb)
      · exact h3 b (List.mem_cons_of_mem _ hb)
          (List.mem_flatMap.2 ⟨g, List.mem_append_right _ hg, hc ▸ List.mem_cons_self _ _⟩)

/-- The data blocks of a record together with blocks taken from the free list: distinct,
inside the disk, not block 0 and not the index block of any record. -/
theorem RefsOk.extended_blocks {fs : FileSystem} (hrefs : RefsOk fs) {fm : FileMeta}
    (hfm : fm ∈ fs.root.allFiles) {N : List Nat} (hN : ∀ j ∈ N, j ∈ fs.bm.freeList)
    (hnd : N.Nodup) :
    (fm.blocks ++ N.map Nat.cast).Nodup ∧ validBlocks fs.bm (fm.blocks ++ N.map Nat.cast) ∧
      ∀ b ∈ fm.blocks ++ N.map Nat.cast, 1 ≤ b ∧ ∀ g ∈ fs.root.allFiles, b ≠ g.indexBlock := by
  obtain ⟨h1, h2, h3⟩ := hrefs.data_blocks hfm
  refine ⟨?_, ?_, ?_⟩
  · rw [List.nodup_append]
    refine ⟨h1, hnd.map (fun a b h => by exact_mod_cast h), ?_⟩
    intro b hb1 hb2
    obtain ⟨j, hj, rfl⟩ := List.mem_map.1 hb2
    exact (hrefs.free_not_ref (hN j hj)).2.2 (h3 _ hb1).2.1
  · intro b hb
    rcases List.mem_append.1 hb with hb | hb
    · exact h2 b hb
    · obtain ⟨j, hj, rfl⟩ := List.mem_map.1 hb
      have := hrefs.free_not_ref (hN j hj)
      exact ⟨by omega, by omega⟩
  · intro b hb
    rcases List.mem_append.1 hb with hb | hb
    · exact ⟨(h3 b hb).1, (h3 b hb).2.2⟩
    · obtain ⟨j, hj, rfl⟩ := List.mem_map.1 hb
      have := hrefs.free_not_ref (hN j hj)
      refine ⟨by omega, fun g hg hc => this.2.2 ?_⟩
      rw [hc]
      exact mem_refBlocks_of_mem hg (List.mem_cons_self _ _)

theorem perm_refs_extend (X Y : List FileMeta) (fm fm' : FileMeta) (Nc : List Int)
    (hidx : fm'.indexBlock = fm.indexBlock) (hblocks : fm'.blocks = fm.blocks ++ Nc) :
    List.Perm ((X ++ fm' :: Y).flatMap FileMeta.refs)
      (Nc ++ (X ++ fm :: Y).flatMap FileMeta.refs) := by
  refine (perm_refs_middle X Y fm').trans ?_
  refine List.Perm.trans ?_ (List.Perm.append_left Nc (perm_refs_middle X Y fm).symm)
  rw [← List.append_assoc]
  apply List.Perm.append_right
  unfold FileMeta.refs
  rw [hidx, hblocks]
  have : fm.indexBlock :: (fm.blocks ++ Nc) = (fm.indexBlock :: fm.blocks) ++ Nc := rfl
  rw [this]
  exact List.perm_append_comm

namespace Directory
open BlockManager

/-- Conditions a successful `appendFile` must have met. -/
theorem appendFile_true_pre {fs fs' : FileSystem} {self : List Nat} {filename : String}
    {data : List Char} {now : Int} {d : Directory} {fm : FileMeta}
    (hd : fs.root.getDir self = some d) (hf : mapFind d.files filename = some fm)
    (h : appendFile fs self filename data now = some (true, fs')) :
    data ≠ [] ∧ testMask fm.permissions 1 = true ∧
      (ceilDiv (fm.fileSize + (data.length : Int)) fs.bm.blockSize -
        ceilDiv fm.fileSize fs.bm.blockSize).toNat ≤ fs.bm.freeList.length := by
  unfold appendFile at h
  simp only [hd, hf] at h
  by_cases hne : data = []
  · subst hne; simp at h
  have hie : data.isEmpty = false := by
    cases data with
    | nil => exact absurd rfl hne
    | cons a l => rfl
  simp only [hie, Bool.false_eq_true, if_false] at h
  by_cases hw : testMask fm.permissions 1 = true
  swap
  · simp [hw] at h
  refine ⟨hne, hw, ?_⟩
  by_contra hsp
  have hfail := appendAlloc_failure
    (ceilDiv (fm.fileSize + (data.length : Int)) fs.bm.blockSize -
      ceilDiv fm.fileSize fs.bm.blockSize).toNat fs.bm [] fm.blocks (by omega)
  simp only [hw, Bool.true_eq_false, if_false] at h
  generalize appendAlloc _ fs.bm [] fm.blocks = r at h hfail
  obtain ⟨b, bm1, blocks⟩ := r
  simp only at hfail
  subst hfail
  simp at h

theorem appendFile_unfold {fs : FileSystem} {self : List Nat} {filename : String}
    {data : List Char} (now : Int) {d : Directory} {fm : FileMeta}
    (hd : fs.root.getDir self = some d) (hf : mapFind d.files filename = some fm)
    (hne : data ≠ []) (hw : testMask fm.permissions 1 = true)
    (hsp : (ceilDiv (fm.fileSize + (data.length : Int)) fs.bm.blockSize -
        ceilDiv fm.fileSize fs.bm.blockSize).toNat ≤ fs.bm.freeList.length) :
    ∃ mf, appendFile fs self filename data now =
      match appendWrite data
          (fm.blocks ++ (fs.bm.freeList.take
            (ceilDiv (fm.fileSize + (data.length : Int)) fs.bm.blockSize -
              ceilDiv fm.fileSize fs.bm.blockSize).toNat).map Nat.cast)
          (ceilDiv fm.fileSize fs.bm.blockSize) data.length
          (fs.bm.taken (fs.bm.freeList.take
            (ceilDiv (fm.fileSize + (data.length : Int)) fs.bm.blockSize -
              ceilDiv fm.fileSize fs.bm.blockSize).toNat) mf) 0
          (if Int.tmod fm.fileSize (fs.bm.blockSize : Int) = 0 ∧ fm.fileSize > 0
            then ceilDiv fm.fileSize fs.bm.blockSize - 1 + 1
            else ceilDiv fm.fileSize fs.bm.blockSize - 1)
          (Int.tmod fm.fileSize (fs.bm.blockSize : Int)) with
      | none => none
      | some bm2 =>
        match Serializer.writeIndexBlock bm2
            (appendedMeta fm (fs.bm.freeList.take
              (ceilDiv (fm.fileSize + (data.length : Int)) fs.bm.blockSize -
                ceilDiv fm.fileSize fs.bm.blockSize).toNat) data.length now) with
        | none => none
        | some bm3 =>
          match Serializer.saveDirectory bm3 (fs.root.setFiles self (mapAssign d.files filename
              (appendedMeta fm (fs.bm.freeList.take
                (ceilDiv (fm.fileSize + (data.length : Int)) fs.bm.blockSize -
                  ceilDiv fm.fileSize fs.bm.blockSize).toNat) data.length now))) with
          | none => none
          | some bm4 => some (true, { fs with
              bm := bm4
              root := fs.root.setFiles self (mapAssign d.files filename
                (appendedMeta fm (fs.bm.freeList.take
                  (ceilDiv (fm.fileSize + (data.length : Int)) fs.bm.blockSize -
                    ceilDiv fm.fileSize fs.bm.blockSize).toNat) data.length now)) }) := by
  obtain ⟨mf, hA⟩ := appendAlloc_success _ fs.bm [] fm.blocks hsp
  refine ⟨mf, ?_⟩
  unfold appendFile
  have hie : data.isEmpty = false := by
    cases data with
    | nil => exact absurd rfl hne
    | cons a l => rfl
  simp only [hd, hf, hie, hw, Bool.false_eq_true, Bool.true_eq_false, if_false, hA, saveDirectory,
    appendedMeta]
  cases appendWrite data _ _ data.length _ 0 _ _ with
  | none => rfl
  | some bm2 =>
    dsimp only
    cases Serializer.writeIndexBlock bm2 _ with
    | none => rfl
    | some bm3 =>
      dsimp only
      cases Serializer.saveDirectory bm3 _ with
      | none => rfl
      | some bm4 => rfl

end Directory

theorem blocksContent_taken (bm : BlockManager) (L : List Nat) (mf : List Char) (l : List Int) :
    blocksContent (bm.taken L mf) l = blocksContent bm l := rfl

theorem validBlocks_taken {bm : BlockManager} {l : List Int} (h : validBlocks bm l)
    (L : List Nat) (mf : List Char) : validBlocks (bm.taken L mf) l := h

namespace Directory
open BlockManager

/-- What a successful `appendFile` did, in a well-formed state, to a file of positive size
that holds at least `ceil(size/blockSize)` data blocks. -/
theorem appendFile_true_spec {fs fs' : FileSystem} {self : List Nat} {filename : String}
    {data : List Char} {now : Int} {d : Directory} {fm : FileMeta}
    (hd : fs.root.getDir self = some d) (hf : mapFind d.files filename = some fm)
    (hrefs : RefsOk fs) (hdisk : DiskOk fs.bm) (hs : 0 < fm.fileSize)
    (hcur : ceilDiv fm.fileSize fs.bm.blockSize ≤ (fm.blocks.length : Int))
    (h : appendFile fs self filename data now = some (true, fs')) :
    ∃ N : List Nat,
      N = fs.bm.freeList.take (ceilDiv (fm.fileSize + (data.length : Int)) fs.bm.blockSize -
        ceilDiv fm.fileSize fs.bm.blockSize).toNat ∧
      fs'.root = fs.root.setFiles self
        (mapAssign d.files filename (appendedMeta fm N data.length now)) ∧
      fs'.bm.freeBlockBitmap = markList fs.bm.freeBlockBitmap N false ∧
      fs'.bm.totalBlocks = fs.bm.totalBlocks ∧ fs'.bm.blockSize = fs.bm.blockSize ∧
      DiskOk fs'.bm ∧ RefsOk fs' ∧
      fileBytes fs'.bm (appendedMeta fm N data.length now) = fileBytes fs.bm fm ++ data ∧
      ceilDiv (fm.fileSize + (data.length : Int)) fs.bm.blockSize ≤
        ((appendedMeta fm N data.length now).blocks.length : Int) := by
  obtain ⟨hne, hw, hsp⟩ := appendFile_true_pre hd hf h
  obtain ⟨mf, hU⟩ := appendFile_unfold now hd hf hne hw hsp
  rw [hU] at h
  clear hU
  have hpos := hdisk.blockSize_pos
  obtain ⟨X, Y, hX, hX', _⟩ := file_ctx hd hf
  have hfmmem : fm ∈ fs.root.allFiles := by rw [hX]; simp
  generalize hadd : (ceilDiv (fm.fileSize + (data.length : Int)) fs.bm.blockSize -
        ceilDiv fm.fileSize fs.bm.blockSize).toNat = add at h hsp
  generalize hNdef : fs.bm.freeList.take add = N at h
  have hN : ∀ j ∈ N, j ∈ fs.bm.freeList := by rw [← hNdef]; exact take_freeList_mem _ _
  have hNnd : N.Nodup := by rw [← hNdef]; exact take_freeList_nodup _ _
  have hNlen : N.length = add := by rw [← hNdef, List.length_take]; omega
  obtain ⟨hBnd, hBv, hBp⟩ := hrefs.extended_blocks hfmmem hN hNnd
  obtain ⟨e_off, e_k, hr_lt, hr_cur, hq_cur, hs_eq⟩ := append_layout fm.fileSize fs.bm.blockSize hs hpos
  rw [e_k, e_off] at h
  generalize hq : fm.fileSize.toNat / fs.bm.blockSize = q at h hr_cur hq_cur hs_eq
  generalize hr : fm.fileSize.toNat % fs.bm.blockSize = r at h hr_cur hr_lt hs_eq
  generalize hB' : fm.blocks ++ N.map Nat.cast = B' at h hBnd hBv hBp
  have hB'len : B'.length = fm.blocks.length + add := by rw [← hB']; simp [hNlen]
  have hreq : ceilDiv (fm.fileSize + (data.length : Int)) fs.bm.blockSize ≤ (B'.length : Int) := by
    rw [hB'len]; push_cast; omega
  have hqle : q ≤ B'.length := by omega
  have hPlen : (B'.take q).length = q := by rw [List.length_take]; omega
  have hroom := append_room fm.fileSize fs.bm.blockSize data.length B'.length hs hpos hreq
  rw [hq, hr] at hroom
  obtain ⟨bm2, hW, f2, hcont⟩ := appendWrite_spec data B' (ceilDiv fm.fileSize fs.bm.blockSize)
    data.length (fs.bm.taken N mf) 0 r (B'.take q) (B'.drop q) (List.take_append_drop q B').symm
    hBnd (validBlocks_taken hBv N mf) (diskOk_taken hdisk N mf) (Nat.zero_le _) hr_lt (le_refl _)
    (by rw [List.length_drop]; exact hroom)
    (by intro h0; rw [hPlen]; exact hr_cur h0)
  rw [hPlen, Nat.cast_zero] at hW
  rw [hW] at h
  dsimp only at h
  split at h
  · cases h
  rename_i bm3 h3
  split at h
  · cases h
  rename_i bm4 h4
  simp only [Option.some.injEq, Prod.mk.injEq, true_and] at h
  subst h
  have f3 := Serializer.writeIndexBlock_frame h3
  have f4 := Serializer.saveDirectory_frame h4
  have hbit : bm4.freeBlockBitmap = markList fs.bm.freeBlockBitmap N false := by
    rw [f4.bitmap_eq, f3.bitmap_eq, f2.bitmap_eq]; rfl
  have htot : bm4.totalBlocks = fs.bm.totalBlocks := by
    rw [f4.totalBlocks_eq, f3.totalBlocks_eq, f2.totalBlocks_eq]; rfl
  have hbsz : bm4.blockSize = fs.bm.blockSize := by
    rw [f4.blockSize_eq, f3.blockSize_eq, f2.blockSize_eq]; rfl
  have hdisk2 : DiskOk bm2 := f2.diskOk (diskOk_taken hdisk N mf)
  have hdisk4 : DiskOk bm4 := f4.diskOk (f3.diskOk hdisk2)
  have hblocks : (appendedMeta fm N data.length now).blocks = B' := hB'
  refine ⟨N, rfl, rfl, hbit, htot, hbsz, hdisk4, ?_, ?_, ?_⟩
  · -- ownership
    refine hrefs.grow (L := N) ?_ hN hNnd hbit htot
    show List.Perm (Directory.refBlocks _) _
    unfold Directory.refBlocks
    rw [hX', hX]
    exact perm_refs_extend X Y fm _ (N.map Nat.cast) rfl rfl
  · -- contents
    unfold fileBytes
    rw [hblocks]
    have F34 : DiskFrame (fun j => (j : Int) = fm.indexBlock ∨ j = 0 ∨
        ∃ g ∈ (fs.root.setFiles self (mapAssign d.files filename
          (appendedMeta fm N data.length now))).allFiles, (j : Int) = g.indexBlock) bm2 bm4 :=
      (f3.mono _ (fun j hj => Or.inl hj)).trans (f4.mono _ (fun j hj => Or.inr hj))
    have e1 : blocksContent bm4 B' = blocksContent bm2 B' := by
      apply blocksContent_congr F34
      intro b hb hb0
      have hcast : ((b.toNat : Nat) : Int) = b := Int.toNat_of_nonneg hb0
      obtain ⟨hb1, hb2⟩ := hBp b hb
      rw [hcast]
      rintro (hc | hc | ⟨g, hg, hc⟩)
      · exact hb2 fm hfmmem hc
      · omega
      · rw [hX'] at hg
        rcases List.mem_append.1 hg with hg | hg
        · exact hb2 g (by rw [hX]; exact List.mem_append_left _ hg) hc
        · rcases List.mem_cons.1 hg with hg | hg
          · rw [hg] at hc; exact hb2 fm hfmmem hc
          · exact hb2 g (by rw [hX]; exact List.mem_append_right _ (List.mem_cons_of_mem _ hg)) hc
    have hsplit : B' = B'.take q ++ B'.drop q := (List.take_append_drop q B').symm
    have hdisj : ∀ b ∈ B'.take q, b ∉ B'.drop q := by
      have := hBnd
      rw [hsplit, List.nodup_append] at this
      exact fun b hb hc => this.2.2 hb hc
    have e2 : blocksContent bm2 (B'.take q) = blocksContent fs.bm (B'.take q) := by
      rw [blocksContent_congr f2 (B'.take q) (fun b hb hb0 => by
        have hcast : ((b.toNat : Nat) : Int) = b := Int.toNat_of_nonneg hb0
        rw [hcast]; exact hdisj b hb)]
      rfl
    have hPv : validBlocks fs.bm (B'.take q) := fun b hb => hBv b (List.mem_of_mem_take hb)
    have hCP : (blocksContent fs.bm (B'.take q)).length = q * fs.bm.blockSize := by
      rw [length_blocksContent hdisk _ hPv, hPlen]
    have hsz : (appendedMeta fm N data.length now).fileSize.toNat =
        (blocksContent fs.bm (B'.take q)).length + (r + data.length) := by
      rw [hCP]
      show (fm.fileSize + (data.length : Int)).toNat = _
      omega
    have e12 : blocksContent bm4 B' =
        blocksContent fs.bm (B'.take q) ++ blocksContent bm2 (B'.drop q) := by
      rw [e1, ← e2, ← blocksContent_append, List.take_append_drop]
    have eold : blocksContent fs.bm B' =
        blocksContent fs.bm (B'.take q) ++ blocksContent fs.bm (B'.drop q) := by
      rw [← blocksContent_append, List.take_append_drop]
    have hcont' : (blocksContent bm2 (B'.drop q)).take (r + data.length) =
        (blocksContent fs.bm (B'.drop q)).take r ++ data := by
      simpa [blocksContent_taken] using hcont
    rw [hsz, e12, List.take_append, hcont', ← List.append_assoc]
    congr 1
    -- the old bytes
    have hBvold : validBlocks fs.bm fm.blocks := (hrefs.data_blocks hfmmem).2.1
    have hlenB : (blocksContent fs.bm fm.blocks).length = fm.blocks.length * fs.bm.blockSize :=
      length_blocksContent hdisk _ hBvold
    have hsle : fm.fileSize.toNat ≤ (blocksContent fs.bm fm.blocks).length := by
      rw [hlenB]
      have h1 := (ceilDiv_spec fm.fileSize hpos).2
      have h2 : ceilDiv fm.fileSize fs.bm.blockSize * (fs.bm.blockSize : Int) ≤
          (fm.blocks.length : Int) * (fs.bm.blockSize : Int) :=
        mul_le_mul_of_nonneg_right hcur (by omega)
      have h3 : ((fm.fileSize.toNat : Nat) : Int) ≤ ((fm.blocks.length * fs.bm.blockSize : Nat) : Int) := by
        push_cast
        rw [Int.toNat_of_nonneg (le_of_lt hs)]
        exact le_trans h1 h2
      exact_mod_cast h3
    have e3 : (blocksContent fs.bm fm.blocks).take fm.fileSize.toNat =
        (blocksContent fs.bm B').take fm.fileSize.toNat := by
      rw [← hB', blocksContent_append, List.take_append_of_le_length hsle]
    rw [e3, eold]
    have : fm.fileSize.toNat = (blocksContent fs.bm (B'.take q)).length + r := by
      rw [hCP]; exact hs_eq
    rw [this, List.take_append]
  · rw [hblocks]; exact hreq

end Directory

theorem ceilDiv_le_of_le_mul {a : Int} {b : Nat} {L : Int} (hb : 0 < b)
    (h : a ≤ L * (b : Int)) : ceilDiv a b ≤ L := by
  obtain ⟨k1, _⟩ := ceilDiv_spec a hb
  have hb' : (0 : Int) ≤ (b : Int) := by omega
  have : ceilDiv a b - 1 < L := lt_of_mul_lt_mul_right (lt_of_lt_of_le k1 h) hb'
  omega

theorem ceilDiv_nonpos {a : Int} {b : Nat} (hb : 0 < b) (ha : a ≤ 0) : ceilDiv a b ≤ 0 :=
  ceilDiv_le_of_le_mul hb (by simpa using ha)

namespace Directory
open BlockManager

theorem appendWrite_none_of_vecGet (data : List Char) (B' : List Int) (cur : Int) (fuel : Nat)
    (bm : BlockManager) (o k off : Int) (c1 : o < (data.length : Int))
    (hvg : vecGet B' k = none) :
    appendWrite data B' cur (fuel + 1) bm o k off = none := by
  rw [appendWrite, if_pos c1]
  split
  · rfl
  · rw [hvg]
    split <;> simp_all

theorem appendWrite_none_of_offset (data : List Char) (B' : List Int) (cur : Int) (fuel : Nat)
    (bm : BlockManager) (o k off : Int) (c1 : o < (data.length : Int))
    (c2 : off < 0 ∨ (bm.blockSize : Int) ≤ off) :
    appendWrite data B' cur (fuel + 1) bm o k off = none := by
  rw [appendWrite, if_pos c1, if_pos c2]

theorem vecGet_some_bounds {v : List Int} {i b : Int} (h : vecGet v i = some b) :
    0 ≤ i ∧ i < (v.length : Int) := by
  unfold vecGet at h
  split at h
  · cases h
  · rename_i hi
    obtain ⟨hlt, _⟩ := List.getElem?_eq_some_iff.1 h
    omega

theorem blockSize_writeBlock (bm : BlockManager) (b : Int) (buf : List Char) :
    (bm.writeBlock b buf).2.blockSize = bm.blockSize := by
  rw [writeBlock_eq]

/-- If the write loop of `appendFile` finishes, the blocks from its start position on had
room for the bytes still to be written. -/
theorem appendWrite_some_room (data : List Char) (B' : List Int) (cur : Int) :
    ∀ (fuel : Nat) (bm bm' : BlockManager) (o k off : Int),
      0 ≤ o → o < (data.length : Int) → 0 < bm.blockSize →
      appendWrite data B' cur fuel bm o k off = some bm' →
      0 ≤ k ∧ 0 ≤ off ∧
        ((data.length : Int) - o) + off ≤ ((B'.length : Int) - k) * (bm.blockSize : Int) := by
  intro fuel
  induction fuel with
  | zero =>
    intro bm bm' o k off _ ho _ h
    rw [appendWrite, if_pos ho] at h
    cases h
  | succ fuel ih =>
    intro bm bm' o k off ho0 ho hpos h
    by_cases c2 : off < 0 ∨ (bm.blockSize : Int) ≤ off
    · rw [appendWrite_none_of_offset data B' cur fuel bm o k off ho c2] at h; cases h
    cases hvg : vecGet B' k with
    | none => rw [appendWrite_none_of_vecGet data B' cur fuel bm o k off ho hvg] at h; cases h
    | some b =>
      obtain ⟨hk0, hklt⟩ := vecGet_some_bounds hvg
      rw [appendWrite_step data B' cur fuel bm o k off b ho c2 hvg] at h
      refine ⟨hk0, by omega, ?_⟩
      by_cases hdone : o + min ((data.length : Int) - o) ((bm.blockSize : Int) - off) <
          (data.length : Int)
      · have := ih _ bm' _ _ _ (by omega) hdone (by rw [blockSize_writeBlock]; exact hpos) h
        rw [blockSize_writeBlock] at this
        have hmin : min ((data.length : Int) - o) ((bm.blockSize : Int) - off) =
            (bm.blockSize : Int) - off := by omega
        rw [hmin] at this
        have e : ((B'.length : Int) - k) * (bm.blockSize : Int) =
            ((B'.length : Int) - (k + 1)) * (bm.blockSize : Int) + (bm.blockSize : Int) := by ring
        rw [e]; omega
      · have h1 : ((data.length : Int) - o) + off ≤ (bm.blockSize : Int) := by omega
        have h2 : (1 : Int) * (bm.blockSize : Int) ≤
            ((B'.length : Int) - k) * (bm.blockSize : Int) :=
          mul_le_mul_of_nonneg_right (by omega) (by omega)
        omega

/-- A successful `appendFile` was applied to a file of positive size that holds at least
`ceil(size/blockSize)` data blocks (otherwise the call indexes outside `fm.blocks`). -/
theorem appendFile_true_wf {fs fs' : FileSystem} {self : List Nat} {filename : String}
    {data : List Char} {now : Int} {d : Directory} {fm : FileMeta}
    (hd : fs.root.getDir self = some d) (hf : mapFind d.files filename = some fm)
    (hpos : 0 < fs.bm.blockSize)
    (h : appendFile fs self filename data now = some (true, fs')) :
    0 < fm.fileSize ∧ ceilDiv fm.fileSize fs.bm.blockSize ≤ (fm.blocks.length : Int) := by
  obtain ⟨hne, hw, hsp⟩ := appendFile_true_pre hd hf h
  obtain ⟨mf, hU⟩ := appendFile_unfold now hd hf hne hw hsp
  rw [hU] at h
  clear hU
  have hlen : 0 < data.length := List.length_pos.2 hne
  cases hW : appendWrite data
      (fm.blocks ++ (fs.bm.freeList.take
        (ceilDiv (fm.fileSize + (data.length : Int)) fs.bm.blockSize -
          ceilDiv fm.fileSize fs.bm.blockSize).toNat).map Nat.cast)
      (ceilDiv fm.fileSize fs.bm.blockSize) data.length
      (fs.bm.taken (fs.bm.freeList.take
        (ceilDiv (fm.fileSize + (data.length : Int)) fs.bm.blockSize -
          ceilDiv fm.fileSize fs.bm.blockSize).toNat) mf) 0
      (if Int.tmod fm.fileSize (fs.bm.blockSize : Int) = 0 ∧ fm.fileSize > 0
        then ceilDiv fm.fileSize fs.bm.blockSize - 1 + 1
        else ceilDiv fm.fileSize fs.bm.blockSize - 1)
      (Int.tmod fm.fileSize (fs.bm.blockSize : Int)) with
  | none => rw [hW] at h; cases h
  | some bm2 =>
    clear h
    obtain ⟨hk0, hoff0, hroom⟩ := appendWrite_some_room data _ _ data.length _ bm2 0 _ _
      (le_refl _) (by omega) (by exact hpos) hW
    have hs : 0 < fm.fileSize := by
      by_contra hc
      have hcd := ceilDiv_nonpos hpos (not_lt.1 hc)
      have : ¬ (Int.tmod fm.fileSize (fs.bm.blockSize : Int) = 0 ∧ fm.fileSize > 0) :=
        fun hh => hc hh.2
      rw [if_neg this] at hk0
      omega
    refine ⟨hs, ?_⟩
    obtain ⟨e_off, e_k, hr_lt, hr_cur, hq_cur, hs_eq⟩ :=
      append_layout fm.fileSize fs.bm.blockSize hs hpos
    rw [e_k, e_off] at hroom
    generalize fm.fileSize.toNat / fs.bm.blockSize = q at hroom hs_eq hq_cur hr_cur
    generalize fm.fileSize.toNat % fs.bm.blockSize = r at hroom hs_eq hr_lt hr_cur
    have hsz : fm.fileSize = (q : Int) * (fs.bm.blockSize : Int) + (r : Int) := by
      have h1 : ((fm.fileSize.toNat : Nat) : Int) = ((q * fs.bm.blockSize + r : Nat) : Int) := by
        rw [hs_eq]
      rw [Int.toNat_of_nonneg (le_of_lt hs)] at h1
      rw [h1]; push_cast; ring
    have hmono : ceilDiv fm.fileSize fs.bm.blockSize ≤
        ceilDiv (fm.fileSize + (data.length : Int)) fs.bm.blockSize :=
      ceilDiv_mono hpos (by omega)
    generalize hreq : ceilDiv (fm.fileSize + (data.length : Int)) fs.bm.blockSize = req
      at hroom hsp hmono
    generalize hcur : ceilDiv fm.fileSize fs.bm.blockSize = cur at hroom hsp hmono hq_cur hr_cur
    have hlenB : ((fm.blocks ++ (fs.bm.freeList.take (req - cur).toNat).map Nat.cast).length : Int) =
        (fm.blocks.length : Int) + (req - cur) := by
      simp only [List.length_append, List.length_map, List.length_take]
      rw [min_eq_left hsp]
      push_cast
      omega
    rw [hlenB] at hroom
    have hbs : (fs.bm.taken (fs.bm.freeList.take (req - cur).toNat) mf).blockSize =
        fs.bm.blockSize := rfl
    rw [hbs] at hroom
    -- the whole new size fits in the extended list
    have hfit : fm.fileSize + (data.length : Int) ≤
        ((fm.blocks.length : Int) + (req - cur)) * (fs.bm.blockSize : Int) := by
      have e : ∀ (L q : Int), (L - q) * (fs.bm.blockSize : Int) =
          L * (fs.bm.blockSize : Int) - q * (fs.bm.blockSize : Int) := fun L q => by ring
      rw [e] at hroom
      rw [Int.sub_zero] at hroom
      omega
    have := ceilDiv_le_of_le_mul hpos hfit
    rw [hreq] at this
    omega

end Directory

namespace BlockManager

theorem freeList_congr {bm bm' : BlockManager}
    (hb : bm'.freeBlockBitmap = bm.freeBlockBitmap) (ht : bm'.totalBlocks = bm.totalBlocks) :
    bm'.freeList = bm.freeList := by
  unfold freeList; rw [hb, ht]

/-- After the first `n` free blocks have been taken, the free list is what is left of it. -/
theorem freeList_after_take :
    ∀ (n : Nat) (bm bm' : BlockManager),
      bm'.freeBlockBitmap = markList bm.freeBlockBitmap (bm.freeList.take n) false →
      bm'.totalBlocks = bm.totalBlocks → bm'.freeList = bm.freeList.drop n := by
  intro n
  induction n with
  | zero =>
    intro bm bm' hb ht
    exact freeList_congr (by simpa using hb) ht
  | succ n ih =>
    intro bm bm' hb ht
    cases hF : bm.freeList with
    | nil =>
      rw [hF] at hb
      rw [freeList_congr (by simpa using hb) ht, hF]; rfl
    | cons i rest =>
      rw [hF] at hb
      have hrest := freeList_set_false bm.metaFile hF
      have := ih { bm with freeBlockBitmap := bm.freeBlockBitmap.set i false, metaFile := bm.metaFile }
        bm' (by rw [hrest]; simpa using hb) ht
      rw [this, hrest]; rfl

end BlockManager

namespace Directory
open BlockManager

theorem appendFile_target {fs : FileSystem} {self : List Nat} {filename : String}
    {data : List Char} {now : Int} {fs' : FileSystem}
    (h : appendFile fs self filename data now = some (true, fs')) :
    ∃ d fm, fs.root.getDir self = some d ∧ mapFind d.files filename = some fm := by
  unfold appendFile at h
  cases hd : fs.root.getDir self with
  | none => rw [hd] at h; cases h
  | some d =>
    cases hf : mapFind d.files filename with
    | none => simp [hd, hf] at h
    | some fm => exact ⟨d, fm, rfl, hf⟩

/-- In a well-formed state `readFile` returns the bytes of the record (nothing when the file
is not readable). -/
theorem readFile_eq_fileBytes {fs : FileSystem} {self : List Nat} {filename : String}
    {fm : FileMeta} (hrefs : RefsOk fs) (hdisk : DiskOk fs.bm)
    (hg : getFile fs self filename = some fm) (hs : 0 ≤ fm.fileSize) :
    readFile fs self filename =
      some (if testMask fm.permissions 2 = false then [] else fileBytes fs.bm fm) := by
  rw [readFile_of_getFile hg]
  have hmem : fm ∈ fs.root.allFiles := by
    unfold getFile at hg
    cases hd : fs.root.getDir self with
    | none => rw [hd] at hg; cases hg
    | some d =>
      rw [hd] at hg
      obtain ⟨X, Y, hX, _⟩ := file_ctx hd (show mapFind d.files filename = some fm from hg)
      rw [hX]; simp
  rw [readLoop_eq_take hdisk _ _ (hrefs.data_blocks hmem).2.1 hs]
  rfl

end Directory

namespace Directory
open BlockManager

/-- Everything a successful `appendFile` does in a well-formed state. -/
theorem appendFile_outcome {fs fs' : FileSystem} {self : List Nat} {filename : String}
    {data : List Char} {now : Int} (hrefs : RefsOk fs) (hdisk : DiskOk fs.bm)
    (h : appendFile fs self filename data now = some (true, fs')) :
    ∃ (fm : FileMeta) (N : List Nat),
      getFile fs self filename = some fm ∧ 0 < fm.fileSize ∧
      ceilDiv fm.fileSize fs.bm.blockSize ≤ (fm.blocks.length : Int) ∧
      N = fs.bm.freeList.take (ceilDiv (fm.fileSize + (data.length : Int)) fs.bm.blockSize -
        ceilDiv fm.fileSize fs.bm.blockSize).toNat ∧
      getFile fs' self filename = some (appendedMeta fm N data.length now) ∧
      fs'.bm.freeBlockBitmap = markList fs.bm.freeBlockBitmap N false ∧
      fs'.bm.totalBlocks = fs.bm.totalBlocks ∧ fs'.bm.blockSize = fs.bm.blockSize ∧
      DiskOk fs'.bm ∧ RefsOk fs' ∧
      fileBytes fs'.bm (appendedMeta fm N data.length now) = fileBytes fs.bm fm ++ data ∧
      ceilDiv (fm.fileSize + (data.length : Int)) fs.bm.blockSize ≤
        ((appendedMeta fm N data.length now).blocks.length : Int) := by
  obtain ⟨d, fm, hd, hf⟩ := appendFile_target h
  obtain ⟨hs, hcur⟩ := appendFile_true_wf hd hf hdisk.blockSize_pos h
  obtain ⟨N, hN, hroot, hbit, htot, hbs, hdisk', hrefs', hbytes, hceil⟩ :=
    appendFile_true_spec hd hf hrefs hdisk hs hcur h
  refine ⟨fm, N, ?_, hs, hcur, hN, ?_, hbit, htot, hbs, hdisk', hrefs', hbytes, hceil⟩
  · simp [getFile, hd, hf]
  · exact getFile_setFiles_mapAssign _ hd hf hroot

/-- C9. In a well-formed base state (disk of `totalBlocks` blocks of `blockSize` bytes;
referenced blocks distinct, in range and marked used), if `appendFile(f, a)` followed by
`appendFile(f, b)` both succeed and `appendFile(f, a ++ b)` from the same base state succeeds,
then the two final states give the same `readFile(f)` result and the record of `f` has the
same size and the same data-block list in both. -/
theorem appendFile_assoc (fs fs1 fs2 fs3 : FileSystem) (self : List Nat) (filename : String)
    (a b : List Char) (t1 t2 t3 : Int) (hrefs : RefsOk fs) (hdisk : DiskOk fs.bm)
    (h1 : appendFile fs self filename a t1 = some (true, fs1))
    (h2 : appendFile fs1 self filename b t2 = some (true, fs2))
    (h3 : appendFile fs self filename (a ++ b) t3 = some (true, fs3)) :
    readFile fs2 self filename = readFile fs3 self filename ∧
    ∃ fm2 fm3, getFile fs2 self filename = some fm2 ∧ getFile fs3 self filename = some fm3 ∧
      fm2.fileSize = fm3.fileSize ∧ fm2.blocks = fm3.blocks := by
  have hpos := hdisk.blockSize_pos
  obtain ⟨fm, N1, hg, hs, hcur, hN1, hg1, hbit1, htot1, hbs1, hdisk1, hrefs1, hbytes1, hceil1⟩ :=
    appendFile_outcome hrefs hdisk h1
  obtain ⟨fm1, N2, hg1', hs1, hcur1, hN2, hg2, hbit2, htot2, hbs2, hdisk2, hrefs2, hbytes2, hceil2⟩ :=
    appendFile_outcome hrefs1 hdisk1 h2
  obtain ⟨fm', N3, hg', hs', hcur', hN3, hg3, hbit3, htot3, hbs3, hdisk3, hrefs3, hbytes3, hceil3⟩ :=
    appendFile_outcome hrefs hdisk h3
  have efm1 : fm1 = appendedMeta fm N1 a.length t1 := by
    rw [hg1] at hg1'; exact (Option.some.inj hg1').symm
  have efm' : fm' = fm := by
    rw [hg] at hg'; exact (Option.some.inj hg').symm
  subst efm1
  subst efm'
  -- the three block counts
  have hsz1 : (appendedMeta fm' N1 a.length t1).fileSize = fm'.fileSize + (a.length : Int) := rfl
  have hlen : ((a ++ b).length : Int) = (a.length : Int) + (b.length : Int) := by simp
  rw [hsz1, hbs1] at hN2
  rw [hlen] at hN3
  have hm1 : ceilDiv fm'.fileSize fs.bm.blockSize ≤
      ceilDiv (fm'.fileSize + (a.length : Int)) fs.bm.blockSize := ceilDiv_mono hpos (by omega)
  have hm2 : ceilDiv (fm'.fileSize + (a.length : Int)) fs.bm.blockSize ≤
      ceilDiv (fm'.fileSize + (a.length : Int) + (b.length : Int)) fs.bm.blockSize :=
    ceilDiv_mono hpos (by omega)
  have hfl1 : fs1.bm.freeList = fs.bm.freeList.drop
      (ceilDiv (fm'.fileSize + (a.length : Int)) fs.bm.blockSize -
        ceilDiv fm'.fileSize fs.bm.blockSize).toNat :=
    freeList_after_take _ fs.bm fs1.bm (by rw [hbit1, hN1]) htot1
  have hN12 : N1 ++ N2 = N3 := by
    rw [hN1, hN2, hN3, hfl1, ← List.take_add]
    congr 1
    rw [← add_assoc]
    omega
  have hblocks : (appendedMeta (appendedMeta fm' N1 a.length t1) N2 b.length t2).blocks =
      (appendedMeta fm' N3 (a ++ b).length t3).blocks := by
    simp only [appendedMeta, List.append_assoc, ← List.map_append, hN12]
  have hsize : (appendedMeta (appendedMeta fm' N1 a.length t1) N2 b.length t2).fileSize =
      (appendedMeta fm' N3 (a ++ b).length t3).fileSize := by
    simp only [appendedMeta, hlen]; ring
  refine ⟨?_, _, _, hg2, hg3, hsize, hblocks⟩
  rw [readFile_eq_fileBytes hrefs2 hdisk2 hg2 (by rw [hsize]; show 0 ≤ fm'.fileSize + _; omega),
    readFile_eq_fileBytes hrefs3 hdisk3 hg3 (by show 0 ≤ fm'.fileSize + _; omega),
    hbytes2, hbytes1, hbytes3, List.append_assoc]
  rfl

end Directory

/-! ### `resizeFile`: allocation, rollback loops and the tail writes -/

namespace BlockManager

/-- Freeing the blocks `L` again after they were taken restores the bitmap. -/
theorem freeBlocks_after_take {bm bm1 : BlockManager} {L : List Nat} {L' : List Int}
    (hb : bm1.freeBlockBitmap = markList bm.freeBlockBitmap L false)
    (ht : bm1.totalBlocks = bm.totalBlocks)
    (hL : ∀ i ∈ L, i < bm.totalBlocks ∧ bm.freeBlockBitmap[i]? = some true)
    (hmem : ∀ j : Nat, (j : Int) ∈ L' ↔ j ∈ L) :
    (bm1.freeBlocks L').freeBlockBitmap = bm.freeBlockBitmap := by
  apply List.ext_getElem?
  intro j
  rw [freeBlocks_getElem?, hb, ht]
  simp only [length_markList, getElem?_markList, hmem]
  by_cases hj : j ∈ L
  · obtain ⟨h1, h2⟩ := hL j hj
    have h3 : j < bm.freeBlockBitmap.length := (List.getElem?_eq_some_iff.1 h2).1
    simp [hj, h1, h2, h3]
  · simp [hj]

/-- Writing back the block just read changes nothing. -/
theorem writeBlock_readBlock_self {bm : BlockManager} (hd : DiskOk bm) {b : Int}
    (hb : 0 ≤ b ∧ b < (bm.totalBlocks : Int)) (buf : List Char) :
    (bm.writeBlock b (bm.readBlock b buf).2).2 = bm := by
  have hlt : b.toNat < bm.disk.length := by rw [hd.disk_len]; omega
  rw [writeBlock_eq, readBlock_eq bm b buf hb.1 hb.2 hlt]
  have hlen : bm.disk[b.toNat].length = bm.blockSize := hd.block_len _ (List.getElem_mem _)
  have : (0 ≤ b ∧ b < (bm.totalBlocks : Int)) := hb
  simp only [this, and_self, if_true]
  rw [List.take_of_length_le (le_of_eq hlen)]
  have hset : bm.disk.set b.toNat bm.disk[b.toNat] = bm.disk := by
    apply List.ext_getElem?
    intro j
    rw [List.getElem?_set]
    by_cases hj : b.toNat = j
    · subst hj; simp [hlt]
    · simp [hj]
  rw [hset]

end BlockManager

namespace Directory
open BlockManager

theorem growAlloc_success (cur : Int) :
    ∀ (n i : Nat) (bm : BlockManager) (blocks : List Int), n ≤ bm.freeList.length →
      ∃ mf, growAlloc cur n i bm blocks =
        some (true, bm.taken (bm.freeList.take n) mf,
          blocks ++ (bm.freeList.take n).map Nat.cast) := by
  intro n
  induction n with
  | zero => intro i bm acc _; exact ⟨bm.metaFile, by simp [growAlloc, BlockManager.taken]⟩
  | succ n ih =>
    intro i bm acc hn
    cases hF : bm.freeList with
    | nil => rw [hF] at hn; simp at hn
    | cons j rest =>
      obtain ⟨mf1, h1⟩ := allocateBlock_of_freeList_cons hF
      have hrest := freeList_set_false mf1 hF
      rw [hF] at hn
      obtain ⟨mf, h2⟩ := ih (i + 1) _ (acc ++ [(j : Int)]) (by rw [hrest]; simpa using hn)
      refine ⟨mf, ?_⟩
      rw [growAlloc, h1]
      have hne : ¬ ((j : Int) = -1) := by omega
      simp only [hne, if_false]
      rw [h2, hrest]
      simp [BlockManager.taken]

theorem growAlloc_failure (cur : Int) :
    ∀ (n i : Nat) (bm : BlockManager) (blocks : List Int), bm.freeList.length < n →
      ∀ r, growAlloc cur n i bm blocks = some r → r.1 = false := by
  intro n
  induction n with
  | zero => intro i bm acc h; simp at h
  | succ n ih =>
    intro i bm acc hn r hr
    cases hF : bm.freeList with
    | nil =>
      rw [growAlloc, allocateBlock_of_freeList_nil hF] at hr
      simp only [if_true] at hr
      split at hr
      · simp only [Option.some.injEq] at hr; rw [← hr]
      · cases hr
    | cons j rest =>
      obtain ⟨mf1, h1⟩ := allocateBlock_of_freeList_cons hF
      have hrest := freeList_set_false mf1 hF
      rw [hF] at hn
      rw [growAlloc, h1] at hr
      have hne : ¬ ((j : Int) = -1) := by omega
      simp only [hne, if_false] at hr
      exact ih _ _ _ (by rw [hrest]; simpa using hn) r hr

/-- The freeing loop of the shrinking branch walks the tail `R` of the block list. -/
theorem shrinkFree_eq (P : List Int) :
    ∀ (R P' : List Int) (bm : BlockManager),
      shrinkFree (P ++ P' ++ R) R.length ((P ++ P').length : Int) bm = some (bm.freeBlocks R) := by
  intro R
  induction R with
  | nil => intro P' bm; rfl
  | cons b R ih =>
    intro P' bm
    rw [List.length_cons, shrinkFree]
    have hv : vecGet (P ++ P' ++ b :: R) ((P ++ P').length : Int) = some b :=
      vecGet_append_cons (P ++ P') R b
    rw [hv]
    have := ih (P' ++ [b]) (bm.freeBlock b)
    simp only [List.append_assoc, List.singleton_append, List.length_append, List.length_cons,
      List.length_nil, Nat.cast_add, Nat.cast_one, zero_add] at this ⊢
    rw [add_assoc]
    exact this

end Directory

theorem getFile_eq_some {fs : FileSystem} {self : List Nat} {filename : String} {fm : FileMeta}
    (h : getFile fs self filename = some fm) :
    ∃ d, fs.root.getDir self = some d ∧ mapFind d.files filename = some fm := by
  unfold getFile at h
  cases hd : fs.root.getDir self with
  | none => rw [hd] at h; cases h
  | some d => rw [hd] at h; exact ⟨d, rfl, h⟩

namespace Directory
open BlockManager

/-- What a successful expanding `resizeFile` did. -/
theorem resizeFile_grow_true {fs fs' : FileSystem} {self : List Nat} {filename : String}
    {newSize now : Int} {d : Directory} {fm : FileMeta}
    (hd : fs.root.getDir self = some d) (hf : mapFind d.files filename = some fm)
    (hgt : fm.fileSize < newSize)
    (h : resizeFile fs self filename newSize now = some (true, fs')) :
    ∃ (mf : List Char) (bm2 bm3 : BlockManager),
      testMask fm.permissions 1 = true ∧
      (ceilDiv newSize fs.bm.blockSize - ceilDiv fm.fileSize fs.bm.blockSize).toNat ≤
        fs.bm.freeList.length ∧
      growTail fs.bm.blockSize
        (fs.bm.taken (fs.bm.freeList.take
          (ceilDiv newSize fs.bm.blockSize - ceilDiv fm.fileSize fs.bm.blockSize).toNat) mf)
        (fm.blocks ++ (fs.bm.freeList.take
          (ceilDiv newSize fs.bm.blockSize - ceilDiv fm.fileSize fs.bm.blockSize).toNat).map Nat.cast)
        fm.fileSize newSize = some bm2 ∧
      Serializer.writeIndexBlock bm2 (resizedMeta fm
        (fm.blocks ++ (fs.bm.freeList.take
          (ceilDiv newSize fs.bm.blockSize - ceilDiv fm.fileSize fs.bm.blockSize).toNat).map Nat.cast)
        newSize now) = some bm3 ∧
      Serializer.saveDirectory bm3 fs'.root = some fs'.bm ∧
      fs'.root = fs.root.setFiles self (mapAssign d.files filename (resizedMeta fm
        (fm.blocks ++ (fs.bm.freeList.take
          (ceilDiv newSize fs.bm.blockSize - ceilDiv fm.fileSize fs.bm.blockSize).toNat).map Nat.cast)
        newSize now)) ∧
      fs'.currentDir = fs.currentDir := by
  unfold resizeFile at h
  simp only [hd, hf] at h
  by_cases hw : testMask fm.permissions 1 = true
  swap
  · simp [hw] at h
  have h1 : ¬ newSize < 0 := by
    intro hc; simp [hw, hc] at h
  have h2 : ¬ newSize = fm.fileSize := by omega
  have h3 : newSize > fm.fileSize := hgt
  simp only [hw, Bool.true_eq_false, if_false, h1, h2, h3, if_true] at h
  by_cases hsp : (ceilDiv newSize fs.bm.blockSize - ceilDiv fm.fileSize fs.bm.blockSize).toNat ≤
      fs.bm.freeList.length
  · obtain ⟨mf, hA⟩ := growAlloc_success (ceilDiv fm.fileSize fs.bm.blockSize) _ 0 fs.bm fm.blocks hsp
    rw [hA] at h
    dsimp only at h
    refine ⟨mf, ?_⟩
    split at h
    · cases h
    rename_i bm2 h2'
    split at h
    · cases h
    rename_i bm3 h3'
    simp only [saveDirectory] at h
    split at h
    · cases h
    rename_i fs1 h4'
    split at h4'
    · cases h4'
    rename_i bm4 h5'
    simp only [Option.some.injEq, Prod.mk.injEq, true_and] at h h4'
    subst h; subst h4'
    exact ⟨bm2, bm3, hw, hsp, h2', h3', h5', rfl, rfl⟩
  · exfalso
    cases hG : growAlloc (ceilDiv fm.fileSize fs.bm.blockSize)
        (ceilDiv newSize fs.bm.blockSize - ceilDiv fm.fileSize fs.bm.blockSize).toNat 0 fs.bm
        fm.blocks with
    | none => rw [hG] at h; cases h
    | some r =>
      have := growAlloc_failure _ _ 0 fs.bm fm.blocks (by omega) r hG
      obtain ⟨b, bm1, blocks⟩ := r
      simp only at this
      subst this
      rw [hG] at h
      simp at h

end Directory

namespace Directory
open BlockManager

theorem vecGet_mem {v : List Int} {i b : Int} (h : vecGet v i = some b) : b ∈ v := by
  unfold vecGet at h
  split at h
  · cases h
  · exact List.getElem?_mem h

theorem vecGet_append_right_mem {B Nc : List Int} {i b : Int}
    (hi : (B.length : Int) ≤ i) (h : vecGet (B ++ Nc) i = some b) : b ∈ Nc := by
  unfold vecGet at h
  split at h
  · cases h
  · rw [List.getElem?_append_right (by omega)] at h
    exact List.getElem?_mem h

/-- The zero-fill step of an expanding `resizeFile` leaves the old blocks of the file
untouched: it only writes into a newly taken block, or writes back what it read. -/
theorem growTail_frame {bm1 bm2 : BlockManager} (hd : DiskOk bm1) {B Nc : List Int}
    {s newSize : Int} (hs : 0 ≤ s) (hlt : s < newSize)
    (hB : (B.length : Int) = ceilDiv s bm1.blockSize)
    (hN : (Nc.length : Int) = ceilDiv newSize bm1.blockSize - ceilDiv s bm1.blockSize)
    (hv : validBlocks bm1 (B ++ Nc))
    (h : growTail bm1.blockSize bm1 (B ++ Nc) s newSize = some bm2) :
    DiskFrame (fun j => (j : Int) ∈ Nc) bm1 bm2 := by
  have hpos := hd.blockSize_pos
  unfold growTail at h
  dsimp only at h
  split at h
  swap
  · simp only [Option.some.injEq] at h
    rw [← h]; exact DiskFrame.refl _ _
  cases hvg : vecGet (B ++ Nc) (((B ++ Nc).length : Int) - 1) with
  | none => rw [hvg] at h; cases h
  | some blk =>
    rw [hvg] at h
    simp only [Option.some.injEq] at h
    have hblk : 0 ≤ blk ∧ blk < (bm1.totalBlocks : Int) := hv blk (vecGet_mem hvg)
    by_cases hNc : Nc = []
    · subst hNc
      simp only [List.append_nil, List.length_nil, Nat.cast_zero] at hvg hN h
      -- no new block: the old last block is partly filled and is read before it is written
      have hcond : Int.tmod s (bm1.blockSize : Int) ≠ 0 ∧
          (B.length : Int) - 1 = ceilDiv s bm1.blockSize - 1 := by
        refine ⟨?_, by omega⟩
        intro hc
        have hbnd := vecGet_some_bounds hvg
        have hs0 : 0 < s := by
          by_contra hcs
          have : s = 0 := by omega
          subst this
          have : ceilDiv 0 bm1.blockSize = 0 := by simp [ceilDiv]
          omega
        obtain ⟨e_off, _, _, _, _, hs_eq⟩ := append_layout s bm1.blockSize hs0 hpos
        have hcd := ceilDiv_natCast s.toNat bm1.blockSize hpos
        rw [Int.toNat_of_nonneg hs] at hcd
        rw [e_off] at hc
        have hr0 : s.toNat % bm1.blockSize = 0 := by exact_mod_cast hc
        rw [if_pos hr0] at hcd
        rw [hr0, Nat.add_zero] at hs_eq
        have h1 := (ceilDiv_spec newSize hpos).2
        have h2 : ceilDiv newSize bm1.blockSize = ceilDiv s bm1.blockSize := by omega
        rw [h2, hcd] at h1
        have h3 : ((s.toNat : Nat) : Int) =
            ((s.toNat / bm1.blockSize : Nat) : Int) * (bm1.blockSize : Int) := by
          exact_mod_cast hs_eq
        rw [Int.toNat_of_nonneg hs] at h3
        omega
      rw [if_pos hcond, writeBlock_readBlock_self hd hblk] at h
      rw [← h]; exact DiskFrame.refl _ _
    · have hNpos : 0 < Nc.length := List.length_pos.2 hNc
      have hmem : blk ∈ Nc := vecGet_append_right_mem (by simp; omega) hvg
      have hcond : ¬ (Int.tmod s (bm1.blockSize : Int) ≠ 0 ∧
          ((B ++ Nc).length : Int) - 1 = ceilDiv s bm1.blockSize - 1) := by
        intro hc
        have := hc.2
        simp only [List.length_append, Nat.cast_add] at this
        omega
      rw [if_neg hcond] at h
      rw [← h]
      exact (writeBlock_frame bm1 blk _ (by rw [Serializer.length_zeros])).mono _
        (fun j hj => by rw [hj]; exact hmem)

end Directory

namespace Directory
open BlockManager

/-- No record of the tree after an in-place update of one record has an index block among
blocks that avoided every index block before. -/
theorem not_index_after_assign {X Y : List FileMeta} {fm fm' : FileMeta} {b : Int}
    (hidx : fm'.indexBlock = fm.indexBlock)
    (hb : ∀ g ∈ X ++ fm :: Y, b ≠ g.indexBlock) :
    ∀ g ∈ X ++ fm' :: Y, b ≠ g.indexBlock := by
  intro g hg
  rcases List.mem_append.1 hg with hg | hg
  · exact hb g (List.mem_append_left _ hg)
  · rcases List.mem_cons.1 hg with hg | hg
    · rw [hg, hidx]; exact hb fm (by simp)
    · exact hb g (List.mem_append_right _ (List.mem_cons_of_mem _ hg))

/-- Everything a successful expanding `resizeFile` does in a well-formed state to a file
that holds exactly `ceil(size/blockSize)` data blocks. -/
theorem resizeFile_grow_outcome {fs fs1 : FileSystem} {self : List Nat} {filename : String}
    {newSize now : Int} {fm : FileMeta} (hrefs : RefsOk fs) (hdisk : DiskOk fs.bm)
    (hg : getFile fs self filename = some fm) (hs : 0 ≤ fm.fileSize)
    (hB : (fm.blocks.length : Int) = ceilDiv fm.fileSize fs.bm.blockSize)
    (hgt : fm.fileSize < newSize)
    (h : resizeFile fs self filename newSize now = some (true, fs1)) :
    ∃ N : List Nat,
      N = fs.bm.freeList.take
        (ceilDiv newSize fs.bm.blockSize - ceilDiv fm.fileSize fs.bm.blockSize).toNat ∧
      (N.length : Int) = ceilDiv newSize fs.bm.blockSize - ceilDiv fm.fileSize fs.bm.blockSize ∧
      getFile fs1 self filename =
        some (resizedMeta fm (fm.blocks ++ N.map Nat.cast) newSize now) ∧
      fs1.bm.freeBlockBitmap = markList fs.bm.freeBlockBitmap N false ∧
      fs1.bm.totalBlocks = fs.bm.totalBlocks ∧ fs1.bm.blockSize = fs.bm.blockSize ∧
      DiskOk fs1.bm ∧ RefsOk fs1 ∧
      blocksContent fs1.bm fm.blocks = blocksContent fs.bm fm.blocks ∧
      4 + 4 * (fm.blocks ++ N.map Nat.cast).length ≤ fs.bm.blockSize ∧
      testMask fm.permissions 1 = true := by
  have hpos := hdisk.blockSize_pos
  obtain ⟨d, hd, hf⟩ := getFile_eq_some hg
  obtain ⟨mf, bm2, bm3, hw, hsp, hT, h3, h4, hroot, _⟩ := resizeFile_grow_true hd hf hgt h
  obtain ⟨X, Y, hX, hX', _⟩ := file_ctx hd hf
  have hfmmem : fm ∈ fs.root.allFiles := by rw [hX]; simp
  have hmono : ceilDiv fm.fileSize fs.bm.blockSize ≤ ceilDiv newSize fs.bm.blockSize :=
    ceilDiv_mono hpos (le_of_lt hgt)
  generalize hNdef : fs.bm.freeList.take
    (ceilDiv newSize fs.bm.blockSize - ceilDiv fm.fileSize fs.bm.blockSize).toNat = N
    at hT h3 hroot
  have hN : ∀ j ∈ N, j ∈ fs.bm.freeList := by rw [← hNdef]; exact take_freeList_mem _ _
  have hNnd : N.Nodup := by rw [← hNdef]; exact take_freeList_nodup _ _
  have hNlen : (N.length : Int) =
      ceilDiv newSize fs.bm.blockSize - ceilDiv fm.fileSize fs.bm.blockSize := by
    rw [← hNdef, List.length_take, min_eq_left hsp]; omega
  obtain ⟨hBnd, hBv, hBp⟩ := hrefs.extended_blocks hfmmem hN hNnd
  have fT : DiskFrame (fun j => (j : Int) ∈ N.map Nat.cast) (fs.bm.taken N mf) bm2 :=
    growTail_frame (diskOk_taken hdisk N mf) hs hgt hB (by rw [List.length_map]; exact hNlen)
      (validBlocks_taken hBv N mf) hT
  have f3 := Serializer.writeIndexBlock_frame h3
  have f4 := Serializer.saveDirectory_frame h4
  have hbit : fs1.bm.freeBlockBitmap = markList fs.bm.freeBlockBitmap N false := by
    rw [f4.bitmap_eq, f3.bitmap_eq, fT.bitmap_eq]; rfl
  have htot : fs1.bm.totalBlocks = fs.bm.totalBlocks := by
    rw [f4.totalBlocks_eq, f3.totalBlocks_eq, fT.totalBlocks_eq]; rfl
  have hbsz : fs1.bm.blockSize = fs.bm.blockSize := by
    rw [f4.blockSize_eq, f3.blockSize_eq, fT.blockSize_eq]; rfl
  have hdisk1 : DiskOk fs1.bm := f4.diskOk (f3.diskOk (fT.diskOk (diskOk_taken hdisk N mf)))
  refine ⟨N, rfl, hNlen, getFile_setFiles_mapAssign _ hd hf hroot, hbit, htot, hbsz, hdisk1,
    ?_, ?_, ?_, hw⟩
  · refine hrefs.grow (L := N) ?_ hN hNnd hbit htot
    unfold Directory.refBlocks
    rw [hroot, hX', hX]
    exact perm_refs_extend X Y fm _ (N.map Nat.cast) rfl rfl
  · have F : DiskFrame (fun j => (j : Int) ∈ N.map Nat.cast ∨
        (j : Int) = fm.indexBlock ∨ j = 0 ∨
        ∃ g ∈ fs1.root.allFiles, (j : Int) = g.indexBlock) (fs.bm.taken N mf) fs1.bm :=
      ((fT.mono _ (fun j hj => Or.inl hj)).trans
        (f3.mono _ (fun j hj => Or.inr (Or.inl hj)))).trans
        (f4.mono _ (fun j hj => Or.inr (Or.inr hj)))
    rw [blocksContent_congr F fm.blocks, blocksContent_taken]
    intro b hb hb0
    have hcast : ((b.toNat : Nat) : Int) = b := Int.toNat_of_nonneg hb0
    obtain ⟨hb1, hb2⟩ := hBp b (List.mem_append_left _ hb)
    rw [hcast]
    have hdisj := (List.nodup_append.1 hBnd).2.2
    rintro (hc | hc | hc | ⟨g, hg, hc⟩)
    · exact hdisj hb hc
    · exact hb2 fm hfmmem hc
    · omega
    · rw [hroot, hX'] at hg
      exact not_index_after_assign
        (show (resizedMeta fm (fm.blocks ++ N.map Nat.cast) newSize now).indexBlock =
          fm.indexBlock from rfl) (by rw [← hX]; exact hb2) g hg hc
  · have := Serializer.writeIndexBlock_isSome bm2 (resizedMeta fm (fm.blocks ++ N.map Nat.cast) newSize now)
    rw [h3] at this
    simp only [Option.isSome_some, true_eq_decide_iff] at this
    rw [fT.blockSize_eq] at this
    exact this

end Directory

theorem blocksContent_freeBlocks (bm : BlockManager) (L l : List Int) :
    blocksContent (bm.freeBlocks L) l = blocksContent bm l := by
  unfold blocksContent BlockManager.readBlock
  simp only [BlockManager.freeBlocks_disk, BlockManager.freeBlocks_blockSize,
    BlockManager.freeBlocks_totalBlocks]

theorem diskOk_freeBlocks {bm : BlockManager} (hd : DiskOk bm) (L : List Int) :
    DiskOk (bm.freeBlocks L) :=
  ⟨by simpa using hd.blockSize_pos, by simpa using hd.disk_len, by simpa using hd.block_len⟩

theorem vecEraseFrom_append (B Nc : List Int) :
    vecEraseFrom (B ++ Nc) (B.length : Int) = some B := by
  unfold vecEraseFrom
  have : 0 ≤ (B.length : Int) ∧ (B.length : Int) ≤ ((B ++ Nc).length : Int) := by
    rw [List.length_append]; omega
  rw [if_pos this, Int.toNat_ofNat, List.take_left]

namespace Directory
open BlockManager

/-- Shrinking back to the old size a file that an expanding `resizeFile` extended by the
blocks `Nc`: the blocks `Nc` are freed, the block list is the old one again and the first
`s` bytes of the old blocks are kept. -/
theorem shrinkBlocks_back {bm : BlockManager} (hd : DiskOk bm) {B : List Int}
    (Nc : List Int) {s newSize : Int} (hs : 0 ≤ s) (hlt : s < newSize)
    (hB : (B.length : Int) = ceilDiv s bm.blockSize)
    (hN : (Nc.length : Int) = ceilDiv newSize bm.blockSize - ceilDiv s bm.blockSize)
    (hv : validBlocks bm B) (hnd : B.Nodup) :
    ∃ bmS, shrinkBlocks bm.blockSize bm (B ++ Nc) newSize s = some (bmS, B) ∧
      DiskFrame (fun j => (j : Int) ∈ B) (bm.freeBlocks Nc) bmS ∧
      (blocksContent bmS B).take s.toNat = (blocksContent bm B).take s.toNat := by
  have hpos := hd.blockSize_pos
  unfold shrinkBlocks
  dsimp only
  by_cases h0 : s = 0
  · subst h0
    have hc : ceilDiv 0 bm.blockSize = 0 := ceilDiv_unique hpos (by simp; omega) (by simp)
    rw [hc] at hB
    have hBnil : B = [] := List.length_eq_zero.1 (by exact_mod_cast hB)
    subst hBnil
    rw [if_pos rfl]
    exact ⟨_, rfl, DiskFrame.refl _ _, rfl⟩
  · rw [if_neg h0]
    have e1 : shrinkFree (B ++ Nc)
        (ceilDiv newSize bm.blockSize - ceilDiv s bm.blockSize).toNat
        (ceilDiv s bm.blockSize) bm = some (bm.freeBlocks Nc) := by
      have := shrinkFree_eq [] Nc B bm
      simp only [List.nil_append] at this
      rw [← hN, ← hB, Int.toNat_ofNat]
      exact this
    have e2 : vecEraseFrom (B ++ Nc) (ceilDiv s bm.blockSize) = some B := by
      rw [← hB]; exact vecEraseFrom_append B Nc
    rw [e1, e2]
    dsimp only
    by_cases hoff : Int.tmod s (bm.blockSize : Int) = 0
    · rw [if_neg (not_not.2 hoff)]
      exact ⟨_, rfl, DiskFrame.refl _ _, by rw [blocksContent_freeBlocks]⟩
    · rw [if_pos hoff]
      have hs' : 0 < s := by omega
      obtain ⟨htm, _, hrlt, _, _, hsplit⟩ := append_layout s bm.blockSize hs' hpos
      have hsn : s = (s.toNat : Int) := (Int.toNat_of_nonneg hs).symm
      have hcd := ceilDiv_natCast s.toNat bm.blockSize hpos
      rw [← hsn] at hcd
      have hr : s.toNat % bm.blockSize ≠ 0 := by
        intro hc; apply hoff; rw [htm, hc]; rfl
      rw [if_neg hr] at hcd
      rw [hcd] at hB ⊢
      have hBn : B.length = s.toNat / bm.blockSize + 1 := by exact_mod_cast hB
      rcases List.eq_nil_or_concat B with hnil | ⟨B0, blk, hcat⟩
      · subst hnil
        simp at hBn
      · rw [List.concat_eq_append] at hcat
        subst hcat
        have hB0 : B0.length = s.toNat / bm.blockSize := by
          rw [List.length_append, List.length_singleton] at hBn
          omega
        have hvg : vecGet (B0 ++ [blk]) (((s.toNat / bm.blockSize + 1 : Nat) : Int) - 1) = some blk := by
          have e : ((s.toNat / bm.blockSize + 1 : Nat) : Int) - 1 = (B0.length : Int) := by
            rw [hB0]; simp only [Nat.cast_add, Nat.cast_one]; omega
          rw [e]
          exact vecGet_append_cons B0 [] blk
        rw [hvg]
        dsimp only
        have hblk : 0 ≤ blk ∧ blk < (bm.totalBlocks : Int) := hv blk (by simp)
        have hblkF : 0 ≤ blk ∧ blk < ((bm.freeBlocks Nc).totalBlocks : Int) := by
          rw [freeBlocks_totalBlocks]; exact hblk
        have hdF := diskOk_freeBlocks hd Nc
        have hRlen := length_readBlock hdF hblkF (zeros bm.blockSize)
        rw [freeBlocks_blockSize] at hRlen
        have htn : (Int.tmod s (bm.blockSize : Int)).toNat = s.toNat % bm.blockSize := by
          rw [htm, Int.toNat_ofNat]
        rw [htn]
        have hlen : (List.take (s.toNat % bm.blockSize)
            ((bm.freeBlocks Nc).readBlock blk (zeros bm.blockSize)).2 ++
            zeros (bm.blockSize - s.toNat % bm.blockSize)).length = bm.blockSize := by
          rw [List.length_append, List.length_take, hRlen]
          simp only [zeros, List.length_replicate]
          omega
        refine ⟨_, rfl, ?_, ?_⟩
        · exact (writeBlock_frame _ blk _ (le_of_eq (by rw [hlen]; simp))).mono _
            (fun j hj => by rw [hj]; simp)
        · have f := writeBlock_frame (bm.freeBlocks Nc) blk
            (List.take (s.toNat % bm.blockSize)
              ((bm.freeBlocks Nc).readBlock blk (zeros bm.blockSize)).2 ++
              zeros (bm.blockSize - s.toNat % bm.blockSize)) (le_of_eq (by rw [hlen]; simp))
          have hnot : blk ∉ B0 := by
            intro hc
            have := (List.nodup_append.1 hnd).2.2 hc (List.mem_singleton_self blk)
            exact this
          have hC0 : blocksContent ((bm.freeBlocks Nc).writeBlock blk
              (List.take (s.toNat % bm.blockSize)
                ((bm.freeBlocks Nc).readBlock blk (zeros bm.blockSize)).2 ++
                zeros (bm.blockSize - s.toNat % bm.blockSize))).2 B0 = blocksContent bm B0 := by
            rw [blocksContent_congr f B0, blocksContent_freeBlocks]
            intro b hb hb0 hc
            apply hnot
            rw [← hc, Int.toNat_of_nonneg hb0]; exact hb
          have hC0len : (blocksContent bm B0).length = s.toNat / bm.blockSize * bm.blockSize := by
            rw [length_blocksContent hd B0 (fun c hc => hv c (List.mem_append_left _ hc)), hB0]
          have hR : ((bm.freeBlocks Nc).readBlock blk (zeros bm.blockSize)).2 =
              (bm.readBlock blk []).2 := by
            rw [readBlock_buffer_irrelevant _ hblkF (zeros bm.blockSize) []]
            have := blocksContent_freeBlocks bm Nc [blk]
            simpa [blocksContent] using this
          rw [blocksContent_append, blocksContent_append, hC0]
          rw [blocksContent_cons, blocksContent_nil, List.append_nil,
            readBlock_writeBlock hdF hblkF _ (by rw [hlen]; simp)]
          rw [blocksContent_cons, blocksContent_nil, List.append_nil, hR]
          have hn : s.toNat - (blocksContent bm B0).length = s.toNat % bm.blockSize := by
            rw [hC0len]; omega
          rw [hR] at hRlen
          simp only [List.take_append_eq_append_take, hn]
          congr 1
          rw [List.take_take, min_self]
          have hz : s.toNat % bm.blockSize -
              (List.take (s.toNat % bm.blockSize) (bm.readBlock blk []).2).length = 0 := by
            rw [List.length_take, hRlen]; omega
          rw [hz, List.take_zero, List.append_nil]

end Directory

namespace Directory
open BlockManager

/-- The shrinking branch of `resizeFile`, once its block handling and the index-block
write are known to succeed. -/
theorem resizeFile_shrink_eq {fs : FileSystem} {self : List Nat} {filename : String}
    {newSize : Int} (now : Int) {d : Directory} {fm : FileMeta} {bm1 bm2 : BlockManager}
    {blocks : List Int}
    (hd : fs.root.getDir self = some d) (hf : mapFind d.files filename = some fm)
    (hw : testMask fm.permissions 1 = true) (h0 : 0 ≤ newSize) (hlt : newSize < fm.fileSize)
    (hsh : shrinkBlocks fs.bm.blockSize fs.bm fm.blocks fm.fileSize newSize = some (bm1, blocks))
    (hwi : Serializer.writeIndexBlock bm1 (resizedMeta fm blocks newSize now) = some bm2) :
    resizeFile fs self filename newSize now =
      some (true, { fs with
        bm := Serializer.saveDirectoryFlat bm2
          (mapAssign d.files filename (resizedMeta fm blocks newSize now))
        root := fs.root.setFiles self
          (mapAssign d.files filename (resizedMeta fm blocks newSize now)) }) := by
  unfold resizeFile
  rw [hd]
  dsimp only
  rw [hf]
  dsimp only
  rw [if_neg (by rw [hw]; decide), if_neg (not_lt.2 h0), if_neg (ne_of_lt hlt),
    if_neg (not_lt.2 (le_of_lt hlt)), hsh]
  dsimp only
  rw [hwi]

/-- Growing a file and shrinking it back to its old size: the second call succeeds, and the
bytes read, the block list and the bitmap are the original ones. -/
theorem resizeFile_grow_shrink_aux {fs fs1 : FileSystem} {self : List Nat} {filename : String}
    {newSize t1 : Int} (t2 : Int) {fm : FileMeta} (hrefs : RefsOk fs) (hdisk : DiskOk fs.bm)
    (hg : getFile fs self filename = some fm) (hs : 0 ≤ fm.fileSize)
    (hB : (fm.blocks.length : Int) = ceilDiv fm.fileSize fs.bm.blockSize)
    (hgt : fm.fileSize < newSize)
    (h1 : resizeFile fs self filename newSize t1 = some (true, fs1)) :
    ∃ fs2, resizeFile fs1 self filename fm.fileSize t2 = some (true, fs2) ∧
      readFile fs2 self filename = readFile fs self filename ∧
      (∃ fm2, getFile fs2 self filename = some fm2 ∧ fm2.blocks = fm.blocks ∧
        fm2.fileSize = fm.fileSize) ∧
      fs2.bm.freeBlockBitmap = fs.bm.freeBlockBitmap := by
  have hpos := hdisk.blockSize_pos
  obtain ⟨N, hNdef, hNlen, hg1, hbit1, htot1, hbs1, hdisk1, hrefs1, hC1, hcap, hw⟩ :=
    resizeFile_grow_outcome hrefs hdisk hg hs hB hgt h1
  obtain ⟨d0, hd0, hf0⟩ := getFile_eq_some hg
  obtain ⟨X, Y, hX, _, _⟩ := file_ctx hd0 hf0
  have hfmmem : fm ∈ fs.root.allFiles := by rw [hX]; simp
  obtain ⟨hBnd, hBv, hBp⟩ := hrefs.data_blocks hfmmem
  have hN : ∀ j ∈ N, j ∈ fs.bm.freeList := by rw [hNdef]; exact take_freeList_mem _ _
  obtain ⟨d1, hd1, hf1⟩ := getFile_eq_some hg1
  have hBv1 : validBlocks fs1.bm fm.blocks := fun b hb => by rw [htot1]; exact hBv b hb
  obtain ⟨bmS, hsh, fS, hCS⟩ := shrinkBlocks_back hdisk1 (N.map Nat.cast) hs hgt
    (by rw [hbs1]; exact hB) (by rw [hbs1, List.length_map]; exact hNlen) hBv1 hBnd
  have hsome := Serializer.writeIndexBlock_isSome bmS
    (resizedMeta (resizedMeta fm (fm.blocks ++ N.map Nat.cast) newSize t1) fm.blocks fm.fileSize t2)
  have hcapS : 4 + 4 * fm.blocks.length ≤ bmS.blockSize := by
    rw [fS.blockSize_eq, freeBlocks_blockSize, hbs1]
    rw [List.length_append] at hcap
    omega
  rw [show (resizedMeta (resizedMeta fm (fm.blocks ++ N.map Nat.cast) newSize t1) fm.blocks
    fm.fileSize t2).blocks = fm.blocks from rfl, decide_eq_true hcapS] at hsome
  obtain ⟨bm2, hwi⟩ := Option.isSome_iff_exists.1 hsome
  have hres := resizeFile_shrink_eq t2 hd1 hf1 hw hs hgt hsh hwi
  have f2 := Serializer.writeIndexBlock_frame hwi
  have f3 := Serializer.saveDirectoryFlat_frame bm2 (mapAssign d1.files filename
    (resizedMeta (resizedMeta fm (fm.blocks ++ N.map Nat.cast) newSize t1) fm.blocks fm.fileSize t2))
  refine ⟨_, hres, ?_, ⟨_, getFile_setFiles_mapAssign _ hd1 hf1 rfl, rfl, rfl⟩, ?_⟩
  · have hg2 : getFile ({ fs1 with
        bm := Serializer.saveDirectoryFlat bm2 (mapAssign d1.files filename
          (resizedMeta (resizedMeta fm (fm.blocks ++ N.map Nat.cast) newSize t1) fm.blocks
            fm.fileSize t2))
        root := fs1.root.setFiles self (mapAssign d1.files filename
          (resizedMeta (resizedMeta fm (fm.blocks ++ N.map Nat.cast) newSize t1) fm.blocks
            fm.fileSize t2)) } : FileSystem) self filename =
        some (resizedMeta (resizedMeta fm (fm.blocks ++ N.map Nat.cast) newSize t1) fm.blocks
          fm.fileSize t2) := getFile_setFiles_mapAssign _ hd1 hf1 rfl
    rw [readFile_of_getFile hg2, readFile_of_getFile hg]
    have F : DiskFrame (fun j => (j : Int) = fm.indexBlock ∨ j = 0) bmS
        (Serializer.saveDirectoryFlat bm2 (mapAssign d1.files filename
          (resizedMeta (resizedMeta fm (fm.blocks ++ N.map Nat.cast) newSize t1) fm.blocks
            fm.fileSize t2))) :=
      (f2.mono _ (fun j hj => Or.inl hj)).trans (f3.mono _ (fun j hj => Or.inr hj))
    have hdS : DiskOk bmS := fS.diskOk (diskOk_freeBlocks hdisk1 _)
    have hd2 := F.diskOk hdS
    have hv2 : validBlocks (Serializer.saveDirectoryFlat bm2 (mapAssign d1.files filename
          (resizedMeta (resizedMeta fm (fm.blocks ++ N.map Nat.cast) newSize t1) fm.blocks
            fm.fileSize t2))) fm.blocks := fun b hb => by
      rw [F.totalBlocks_eq, fS.totalBlocks_eq, freeBlocks_totalBlocks]; exact hBv1 b hb
    have hcont : blocksContent (Serializer.saveDirectoryFlat bm2 (mapAssign d1.files filename
          (resizedMeta (resizedMeta fm (fm.blocks ++ N.map Nat.cast) newSize t1) fm.blocks
            fm.fileSize t2))) fm.blocks = blocksContent bmS fm.blocks := by
      apply blocksContent_congr F
      intro b hb hb0
      obtain ⟨hb1, _, hb3⟩ := hBp b hb
      rw [Int.toNat_of_nonneg hb0]
      rintro (hc | hc)
      · exact hb3 fm hfmmem hc
      · omega
    show some (if testMask fm.permissions 2 = false then [] else
      readLoop _ fm.blocks fm.fileSize) = _
    rw [readLoop_eq_take hd2 _ _ hv2 hs, readLoop_eq_take hdisk _ _ hBv hs, hcont, hCS, hC1]
  · rw [f3.bitmap_eq, f2.bitmap_eq, fS.bitmap_eq]
    refine freeBlocks_after_take hbit1 htot1 (fun i hi => ?_) (fun j => ?_)
    · exact ((mem_freeList fs.bm i).1 (hN i hi)).2
    · simp

end Directory

theorem length_fileBytes {bm : BlockManager} (hd : DiskOk bm) {fm : FileMeta}
    (hv : validBlocks bm fm.blocks) (hs : 0 ≤ fm.fileSize)
    (hB : ceilDiv fm.fileSize bm.blockSize ≤ (fm.blocks.length : Int)) :
    ((fileBytes bm fm).length : Int) = fm.fileSize := by
  have hpos := hd.blockSize_pos
  unfold fileBytes
  rw [List.length_take, length_blocksContent hd _ hv]
  have h2 := (ceilDiv_spec fm.fileSize hpos).2
  have h3 : ceilDiv fm.fileSize bm.blockSize * (bm.blockSize : Int) ≤
      (fm.blocks.length : Int) * (bm.blockSize : Int) :=
    mul_le_mul_of_nonneg_right hB (by omega)
  have hle : fm.fileSize.toNat ≤ fm.blocks.length * bm.blockSize := by
    zify
    rw [Int.toNat_of_nonneg hs]
    omega
  rw [min_eq_left hle]
  exact Int.toNat_of_nonneg hs

theorem fresh_diskOk (blockSize totalBlocks : Nat) (h : 0 < blockSize) :
    DiskOk (FileSystem.fresh blockSize totalBlocks).bm := by
  refine ⟨h, ?_, ?_⟩
  · show (List.replicate totalBlocks (zeros blockSize)).length = totalBlocks
    simp
  · intro blk hb
    have hb' : blk ∈ List.replicate totalBlocks (zeros blockSize) := hb
    rw [List.eq_of_mem_replicate hb']
    show (zeros blockSize).length = blockSize
    simp [zeros]

/-- Every block of a fresh disk holds only zero bytes. -/
theorem blocksContent_fresh_zero (blockSize totalBlocks : Nat) (l : List Int) :
    ∀ c ∈ blocksContent (FileSystem.fresh blockSize totalBlocks).bm l, c = zeroByte := by
  intro c hc
  unfold blocksContent at hc
  rw [List.mem_flatMap] at hc
  obtain ⟨b, _, hcb⟩ := hc
  unfold BlockManager.readBlock at hcb
  split at hcb
  · cases hcb
  · have hd : (FileSystem.fresh blockSize totalBlocks).bm.disk =
        List.replicate totalBlocks (zeros blockSize) := rfl
    have hbs : (FileSystem.fresh blockSize totalBlocks).bm.blockSize = blockSize := rfl
    rw [hd, hbs, List.getD_eq_getElem?_getD] at hcb
    have hz : ∀ x ∈ zeros blockSize, x = zeroByte := fun x hx => List.eq_of_mem_replicate hx
    cases hget : (List.replicate totalBlocks (zeros blockSize))[b.toNat]? with
    | none => rw [hget] at hcb; exact hz c hcb
    | some blk =>
      rw [hget] at hcb
      have := List.eq_of_mem_replicate (List.getElem?_mem hget)
      rw [this] at hcb
      exact hz c hcb

namespace Directory
open BlockManager

/-- C10. In a well-formed state, for a file of size `s ≥ 0` whose data-block count equals
`ceil(s/blockSize)` and every `newSize > s`: if `resizeFile(f, newSize)` succeeds then the
following `resizeFile(f, s)` succeeds too, and afterwards `readFile(f)` returns the same
bytes as before the two calls (`s` bytes when the file is readable), and the data-block
list, the size and the allocator bitmap equal their original values. -/
theorem resizeFile_grow_then_shrink (fs fs1 : FileSystem) (self : List Nat) (filename : String)
    (fm : FileMeta) (newSize t1 t2 : Int) (hrefs : RefsOk fs) (hdisk : DiskOk fs.bm)
    (hg : getFile fs self filename = some fm) (hs : 0 ≤ fm.fileSize)
    (hB : (fm.blocks.length : Int) = ceilDiv fm.fileSize fs.bm.blockSize)
    (hgt : fm.fileSize < newSize)
    (h1 : resizeFile fs self filename newSize t1 = some (true, fs1)) :
    ∃ fs2 out, resizeFile fs1 self filename fm.fileSize t2 = some (true, fs2) ∧
      readFile fs self filename = some out ∧ readFile fs2 self filename = some out ∧
      (testMask fm.permissions 2 = true → (out.length : Int) = fm.fileSize) ∧
      (∃ fm2, getFile fs2 self filename = some fm2 ∧ fm2.blocks = fm.blocks ∧
        fm2.fileSize = fm.fileSize) ∧
      fs2.bm.freeBlockBitmap = fs.bm.freeBlockBitmap := by
  obtain ⟨fs2, h2, hread, hmeta, hbit⟩ :=
    resizeFile_grow_shrink_aux t2 hrefs hdisk hg hs hB hgt h1
  have hr := readFile_eq_fileBytes hrefs hdisk hg hs
  obtain ⟨d0, hd0, hf0⟩ := getFile_eq_some hg
  obtain ⟨X, Y, hX, _, _⟩ := file_ctx hd0 hf0
  have hfmmem : fm ∈ fs.root.allFiles := by rw [hX]; simp
  obtain ⟨_, hBv, _⟩ := hrefs.data_blocks hfmmem
  refine ⟨fs2, _, h2, hr, by rw [hread, hr], ?_, hmeta, hbit⟩
  intro hperm
  rw [if_neg (by rw [hperm]; decide)]
  exact length_fileBytes hdisk hBv hs (le_of_eq hB.symm)

end Directory

/-- A call whose success flag evaluates to `b` returned `b` and the state it computed. -/
theorem eq_some_of_map_fst {o : Option (Bool × FileSystem)} {b : Bool} (dflt : FileSystem)
    (h : o.map Prod.fst = some b) : o = some (b, (o.map Prod.snd).getD dflt) := by
  obtain ⟨x, hx⟩ := exists_of_map_fst h
  rw [hx]; rfl

namespace Directory

theorem createFile_then_readFile_witness :
    ∃ fs' fm out, createFile (FileSystem.fresh 16 8) [] "a" 20 0 = some (true, fs') ∧
      getFile fs' [] "a" = some fm ∧ readFile fs' [] "a" = some out ∧
      (out.length : Int) = 20 ∧ ∀ c ∈ out, c = zeroByte := by
  obtain ⟨fs', h⟩ := exists_of_map_fst
    (o := createFile (FileSystem.fresh 16 8) [] "a" 20 0) (b := true) (by decide)
  obtain ⟨fm, out, h1, h2, h3, _, h5⟩ :=
    createFile_then_readFile (FileSystem.fresh 16 8) fs' [] "a" 20 0 (by decide)
      (fresh_allocInv 16 8 (by decide)).refs (fresh_diskOk 16 8 (by decide)) h
  exact ⟨fs', fm, out, h, h1, h2, h3, h5 (blocksContent_fresh_zero 16 8 _)⟩

end Directory

set_option synthInstance.maxSize 4096 in
theorem exampleState_refsOk : RefsOk exampleState :=
  ⟨by decide, by decide, by unfold BlockManager.isUsed; decide⟩

theorem exampleState_diskOk : DiskOk exampleState.bm :=
  ⟨by decide, by decide, by decide⟩

theorem exampleState_file : getFile exampleState [] "f" =
    some { filename := "f", fileSize := 5, indexBlock := 1, blocks := [2],
           createdAt := 0, modifiedAt := 1, permissions := 6 } := by
  decide

theorem exampleState_read : Directory.readFile exampleState [] "f" = some "hello".toList := by
  decide

namespace Directory

theorem appendFile_assoc_witness :
    ∃ fs1 fs2 fs3 : FileSystem,
      appendFile exampleState [] "f" "abcdefgh".toList 2 = some (true, fs1) ∧
      appendFile fs1 [] "f" "ijklmnopqr".toList 3 = some (true, fs2) ∧
      appendFile exampleState [] "f" ("abcdefgh".toList ++ "ijklmnopqr".toList) 4 =
        some (true, fs3) ∧
      readFile fs2 [] "f" = readFile fs3 [] "f" ∧
      ∃ fm2 fm3, getFile fs2 [] "f" = some fm2 ∧ getFile fs3 [] "f" = some fm3 ∧
        fm2.fileSize = fm3.fileSize ∧ fm2.blocks = fm3.blocks := by
  have h1 := eq_some_of_map_fst
    (o := appendFile exampleState [] "f" "abcdefgh".toList 2) (b := true) exampleState
    (by decide)
  have h2 := eq_some_of_map_fst
    (o := appendFile (((appendFile exampleState [] "f" "abcdefgh".toList 2).map Prod.snd).getD
      exampleState) [] "f" "ijklmnopqr".toList 3) (b := true) exampleState (by decide)
  have h3 := eq_some_of_map_fst
    (o := appendFile exampleState [] "f" ("abcdefgh".toList ++ "ijklmnopqr".toList) 4)
    (b := true) exampleState (by decide)
  exact ⟨_, _, _, h1, h2, h3,
    appendFile_assoc exampleState _ _ _ [] "f" "abcdefgh".toList "ijklmnopqr".toList 2 3 4
      exampleState_refsOk exampleState_diskOk h1 h2 h3⟩

theorem resizeFile_grow_then_shrink_witness :
    ∃ fs1 fs2 out,
      resizeFile exampleState [] "f" 40 2 = some (true, fs1) ∧
      resizeFile fs1 [] "f" 5 3 = some (true, fs2) ∧
      readFile exampleState [] "f" = some out ∧ readFile fs2 [] "f" = some out ∧
      (out.length : Int) = 5 ∧
      (∃ fm2, getFile fs2 [] "f" = some fm2 ∧ fm2.blocks = [2] ∧ fm2.fileSize = 5) ∧
      fs2.bm.freeBlockBitmap = exampleState.bm.freeBlockBitmap := by
  have h1 := eq_some_of_map_fst
    (o := resizeFile exampleState [] "f" 40 2) (b := true) exampleState (by decide)
  obtain ⟨fs2, out, k1, k2, k3, k4, k5, k6⟩ :=
    resizeFile_grow_then_shrink exampleState _ [] "f" _ 40 2 3
      exampleState_refsOk exampleState_diskOk exampleState_file (by decide) (by decide)
      (by decide) h1
  exact ⟨_, fs2, out, h1, k1, k2, k3, k4 (by decide), k5, k6⟩

end Directory

/-! ### The reserved block, `freeBlock`, and raw block I/O -/

namespace BlockManager

theorem markBlockUsed_getElem? (bm : BlockManager) (i : Int) (j : Nat) :
    (bm.markBlockUsed i).freeBlockBitmap[j]? =
      if 0 ≤ i ∧ i < (bm.totalBlocks : Int) ∧ i.toNat = j ∧ j < bm.freeBlockBitmap.length
      then some false else bm.freeBlockBitmap[j]? := by
  unfold markBlockUsed
  by_cases h1 : 0 ≤ i ∧ i < (bm.totalBlocks : Int)
  · have h : ¬ (i < 0 ∨ i ≥ (bm.totalBlocks : Int)) := by omega
    rw [if_neg h, saveMeta_freeBlockBitmap]
    dsimp only
    rw [List.getElem?_set]
    by_cases h2 : i.toNat = j
    · by_cases h3 : j < bm.freeBlockBitmap.length
      · simp [h1, h2, h3]
      · simp [h2, h3]; omega
    · simp [h2]
  · have h : i < 0 ∨ i ≥ (bm.totalBlocks : Int) := by omega
    rw [if_pos h]
    have : ¬ (0 ≤ i ∧ i < (bm.totalBlocks : Int) ∧ i.toNat = j ∧ j < bm.freeBlockBitmap.length) :=
      fun hc => h1 ⟨hc.1, hc.2.1⟩
    rw [if_neg this]

@[simp] theorem markBlockUsed_totalBlocks (bm : BlockManager) (i : Int) :
    (bm.markBlockUsed i).totalBlocks = bm.totalBlocks := by
  unfold markBlockUsed; split <;> rfl
@[simp] theorem markBlockUsed_blockSize (bm : BlockManager) (i : Int) :
    (bm.markBlockUsed i).blockSize = bm.blockSize := by
  unfold markBlockUsed; split <;> rfl
@[simp] theorem markBlockUsed_disk (bm : BlockManager) (i : Int) :
    (bm.markBlockUsed i).disk = bm.disk := by
  unfold markBlockUsed; split <;> rfl
@[simp] theorem markBlockUsed_length (bm : BlockManager) (i : Int) :
    (bm.markBlockUsed i).freeBlockBitmap.length = bm.freeBlockBitmap.length := by
  unfold markBlockUsed; split <;> simp

theorem allocateBlock_getElem?_zero (bm : BlockManager) :
    bm.allocateBlock.2.freeBlockBitmap[0]? = bm.freeBlockBitmap[0]? := by
  unfold allocateBlock
  cases h : allocScan bm.freeBlockBitmap 1 (bm.totalBlocks - 1) with
  | none => rfl
  | some i =>
    obtain ⟨h1, _⟩ := allocScan_some h
    simp only [saveMeta_freeBlockBitmap]
    rw [List.getElem?_set_ne (show i ≠ 0 by omega)]

@[simp] theorem allocateBlock_totalBlocks (bm : BlockManager) :
    bm.allocateBlock.2.totalBlocks = bm.totalBlocks := by
  unfold allocateBlock; split <;> rfl

end BlockManager

/-- As long as no call is `freeBlock(0)`, bit 0 of the bitmap stays marked used through any
sequence of allocator calls. -/
theorem runAllocOps_bit_zero (ops : List AllocOp) (hops : AllocOp.free 0 ∉ ops) :
    ∀ bm : BlockManager, bm.freeBlockBitmap[0]? = some false →
      (runAllocOps ops bm).freeBlockBitmap[0]? = some false := by
  induction ops with
  | nil => intro bm h; exact h
  | cons op rest ih =>
    intro bm h0
    have hrest : AllocOp.free 0 ∉ rest := fun h => hops (List.mem_cons_of_mem _ h)
    cases op with
    | alloc =>
      rw [runAllocOps]
      exact ih hrest _ (by rw [BlockManager.allocateBlock_getElem?_zero]; exact h0)
    | free i =>
      have hi : i ≠ 0 := fun h => hops (by rw [h]; exact List.mem_cons_self _ _)
      rw [runAllocOps]
      apply ih hrest
      rw [BlockManager.freeBlock_getElem?]
      have : ¬ (0 ≤ i ∧ i < (bm.totalBlocks : Int) ∧ i.toNat = 0 ∧
          0 < bm.freeBlockBitmap.length) := by omega
      rw [if_neg this]; exact h0
    | markUsed i =>
      rw [runAllocOps]
      apply ih hrest
      rw [BlockManager.markBlockUsed_getElem?]
      split
      · rfl
      · exact h0

/-- C14 (failing input). On a newly constructed allocator of 4 blocks bit 0 is marked used.
The single call `freeBlock(0)` passes the range guard of `freeBlock` and marks bit 0 free;
so does `freeBlock(0)` after other calls. -/
theorem freeBlock_zero_frees_reserved_block :
    (BlockManager.new 16 4 (List.replicate 4 (zeros 16))).isBlockFree 0 = some false ∧
    (runAllocOps [.free 0] (BlockManager.new 16 4 (List.replicate 4 (zeros 16)))).isBlockFree 0 =
      some true ∧
    (runAllocOps [.alloc, .markUsed 3, .free 0, .alloc]
      (BlockManager.new 16 4 (List.replicate 4 (zeros 16)))).freeBlockBitmap =
      [true, false, false, false] := by
  decide

/-- C15. On a bitmap of `totalBlocks` bits: `freeBlock(index)` with `index` outside
`[0, totalBlocks)` leaves the bitmap unchanged; with `index` inside the range it makes bit
`index` free and leaves every other bit unchanged; and `freeBlock(index)` twice gives the same
bitmap as once. -/
theorem freeBlock_spec (bm : BlockManager) (index : Int)
    (hlen : bm.freeBlockBitmap.length = bm.totalBlocks) :
    ((index < 0 ∨ index ≥ (bm.totalBlocks : Int)) →
      (bm.freeBlock index).freeBlockBitmap = bm.freeBlockBitmap) ∧
    ((0 ≤ index ∧ index < (bm.totalBlocks : Int)) →
      (bm.freeBlock index).freeBlockBitmap[index.toNat]? = some true ∧
      (bm.freeBlock index).freeBlockBitmap.length = bm.freeBlockBitmap.length ∧
      ∀ j : Nat, j ≠ index.toNat →
        (bm.freeBlock index).freeBlockBitmap[j]? = bm.freeBlockBitmap[j]?) ∧
    ((bm.freeBlock index).freeBlock index).freeBlockBitmap =
      (bm.freeBlock index).freeBlockBitmap := by
  refine ⟨?_, ?_, ?_⟩
  · intro h
    unfold BlockManager.freeBlock
    rw [if_pos h]
  · intro h
    refine ⟨?_, BlockManager.freeBlock_length bm index, ?_⟩
    · rw [BlockManager.freeBlock_getElem?, if_pos ⟨h.1, h.2, rfl, by omega⟩]
    · intro j hj
      rw [BlockManager.freeBlock_getElem?, if_neg (fun hc => hj hc.2.2.1.symm)]
  · apply List.ext_getElem?
    intro j
    rw [BlockManager.freeBlock_getElem?, BlockManager.freeBlock_totalBlocks,
      BlockManager.freeBlock_length]
    split
    · rename_i h
      rw [BlockManager.freeBlock_getElem?, if_pos h]
    · rfl

theorem freeBlock_spec_witness :
    (BlockManager.new 16 4 []).freeBlockBitmap = [false, true, true, true] ∧
    ((BlockManager.new 16 4 []).markBlockUsed 2).freeBlockBitmap = [false, true, false, true] ∧
    (((BlockManager.new 16 4 []).markBlockUsed 2).freeBlock 2).freeBlockBitmap[(2 : Int).toNat]? =
      some true ∧
    ((((BlockManager.new 16 4 []).markBlockUsed 2).freeBlock 2).freeBlock 2).freeBlockBitmap =
      (((BlockManager.new 16 4 []).markBlockUsed 2).freeBlock 2).freeBlockBitmap :=
  ⟨by decide, by decide,
    ((freeBlock_spec ((BlockManager.new 16 4 []).markBlockUsed 2) 2 (by decide)).2.1
      (by decide)).1,
    (freeBlock_spec ((BlockManager.new 16 4 []).markBlockUsed 2) 2 (by decide)).2.2⟩

/-- C16. On a disk image of `totalBlocks` blocks: for an index outside `[0, totalBlocks)`
`readBlock` and `writeBlock` report failure, `readBlock` leaves the caller's buffer alone and
`writeBlock` leaves the whole manager (disk and bitmap) unchanged. For an index inside the
range and a buffer of exactly `blockSize` bytes `writeBlock` succeeds, keeps the bitmap and
every other block, and a following `readBlock(index)` succeeds and returns that buffer. -/
theorem readBlock_writeBlock_bounds (bm : BlockManager) (index : Int) (buffer : List Char)
    (hdisk : bm.disk.length = bm.totalBlocks) :
    ((index < 0 ∨ index ≥ (bm.totalBlocks : Int)) →
      bm.readBlock index buffer = (false, buffer) ∧ bm.writeBlock index buffer = (false, bm)) ∧
    ((0 ≤ index ∧ index < (bm.totalBlocks : Int)) → buffer.length = bm.blockSize →
      (bm.writeBlock index buffer).1 = true ∧
      (bm.writeBlock index buffer).2.freeBlockBitmap = bm.freeBlockBitmap ∧
      (bm.writeBlock index buffer).2.disk.length = bm.disk.length ∧
      (∀ j : Nat, j ≠ index.toNat → (bm.writeBlock index buffer).2.disk[j]? = bm.disk[j]?) ∧
      ∀ buffer' : List Char,
        (bm.writeBlock index buffer).2.readBlock index buffer' = (true, buffer)) := by
  refine ⟨?_, ?_⟩
  · intro h
    unfold BlockManager.readBlock BlockManager.writeBlock
    rw [if_pos h, if_pos h]
    exact ⟨rfl, rfl⟩
  · intro h hbuf
    have hn : ¬ (index < 0 ∨ index ≥ (bm.totalBlocks : Int)) := by omega
    have hlt : index.toNat < bm.disk.length := by omega
    have hw : bm.writeBlock index buffer =
        (true, { bm with disk := bm.disk.set index.toNat (buffer.take bm.blockSize) }) := by
      unfold BlockManager.writeBlock
      rw [if_neg hn]
    rw [hw]
    refine ⟨rfl, rfl, by simp, ?_, ?_⟩
    · intro j hj
      exact List.getElem?_set_ne (Ne.symm hj)
    · intro buffer'
      unfold BlockManager.readBlock
      rw [if_neg hn]
      dsimp only
      rw [List.getD_eq_getElem?_getD, List.getElem?_set_eq_of_lt _ hlt,
        List.take_of_length_le (le_of_eq hbuf)]
      rfl

theorem readBlock_writeBlock_bounds_witness :
    (BlockManager.new 4 3 (List.replicate 3 (zeros 4))).writeBlock 5 "abcd".toList =
      (false, BlockManager.new 4 3 (List.replicate 3 (zeros 4))) ∧
    ((BlockManager.new 4 3 (List.replicate 3 (zeros 4))).writeBlock 2 "abcd".toList).2.readBlock
      2 [] = (true, "abcd".toList) :=
  ⟨((readBlock_writeBlock_bounds (BlockManager.new 4 3 (List.replicate 3 (zeros 4))) 5
      "abcd".toList (by decide)).1 (by decide)).2,
   ((readBlock_writeBlock_bounds (BlockManager.new 4 3 (List.replicate 3 (zeros 4))) 2
      "abcd".toList (by decide)).2 (by decide) (by decide)).2.2.2.2 []⟩

/-! ### The index block: encoding and decoding -/

theorem toNat_ofNat_byte (k : Nat) (h : k < 256) : (Char.ofNat k).toNat = k := by
  have hv : k.isValidChar := Or.inl (by omega)
  unfold Char.ofNat
  rw [dif_pos hv]
  rfl

namespace FileSystem

theorem int32OfBytes_int32Bytes (n : Int) (h1 : -2147483648 ≤ n) (h2 : n < 2147483648)
    (rest : List Char) : int32OfBytes (Serializer.int32Bytes n ++ rest) = n := by
  unfold int32OfBytes Serializer.int32Bytes
  simp only [List.cons_append, List.getD_cons_zero, List.getD_cons_succ]
  have hu : ((n % 4294967296).toNat : Int) = n % 4294967296 :=
    Int.toNat_of_nonneg (Int.emod_nonneg _ (by decide))
  generalize (n % 4294967296).toNat = u at hu
  rw [toNat_ofNat_byte _ (Nat.mod_lt _ (by decide)), toNat_ofNat_byte _ (Nat.mod_lt _ (by decide)),
    toNat_ofNat_byte _ (Nat.mod_lt _ (by decide)), toNat_ofNat_byte _ (Nat.mod_lt _ (by decide))]
  have hsum : u % 256 % 256 + 256 * (u / 256 % 256 % 256) + 65536 * (u / 65536 % 256 % 256) +
      16777216 * (u / 16777216 % 256 % 256) = u % 4294967296 := by omega
  rw [hsum]
  split <;> omega

theorem int32sOfBytes_flatMap (l : List Int)
    (hl : ∀ b ∈ l, -2147483648 ≤ b ∧ b < 2147483648) (rest : List Char) :
    int32sOfBytes l.length (l.flatMap Serializer.int32Bytes ++ rest) = l := by
  induction l with
  | nil => rfl
  | cons a l ih =>
    rw [List.length_cons, int32sOfBytes, List.flatMap_cons, List.append_assoc,
      int32OfBytes_int32Bytes a (hl a (List.mem_cons_self _ _)).1 (hl a (List.mem_cons_self _ _)).2]
    have hd : (Serializer.int32Bytes a ++ (l.flatMap Serializer.int32Bytes ++ rest)).drop 4 =
        l.flatMap Serializer.int32Bytes ++ rest :=
      List.drop_left' (Serializer.length_int32Bytes a)
    rw [hd, ih (fun b hb => hl b (List.mem_cons_of_mem _ hb))]

end FileSystem

namespace Serializer

/-- The buffer `writeIndexBlock` builds: the count, the block indices, then zeros. -/
theorem indexBuffer_eq (bs : Nat) (blocks : List Int) (h : 4 + 4 * blocks.length ≤ bs) :
    memcpy (memcpy (zeros bs) 0 (int32Bytes (blocks.length : Int)) 4) 4
        (blocks.flatMap int32Bytes) (4 * blocks.length) =
      int32Bytes (blocks.length : Int) ++ blocks.flatMap int32Bytes ++
        zeros (bs - (4 + 4 * blocks.length)) := by
  have hc : (int32Bytes (blocks.length : Int)).length = 4 := length_int32Bytes _
  have hf := length_flatMap_int32Bytes blocks
  generalize int32Bytes (blocks.length : Int) = cb at hc
  generalize blocks.flatMap int32Bytes = flat at hf
  unfold memcpy
  simp only [List.take_zero, List.nil_append, Nat.zero_add]
  rw [List.take_of_length_le (le_of_eq hc), List.take_left' hc,
    List.take_of_length_le (le_of_eq hf)]
  congr 1
  rw [List.drop_append_eq_append_drop, List.drop_of_length_le (by omega), List.nil_append, hc]
  simp only [zeros, List.drop_replicate]
  congr 1
  omega

end Serializer

namespace BlockManager

/-- A block written with a buffer of `blockSize` bytes is read back unchanged. -/
theorem writeBlock_then_readBlock (bm : BlockManager) (index : Int) (buffer : List Char)
    (hdisk : bm.disk.length = bm.totalBlocks)
    (h : 0 ≤ index ∧ index < (bm.totalBlocks : Int)) (hbuf : buffer.length = bm.blockSize)
    (buffer' : List Char) :
    (bm.writeBlock index buffer).2.readBlock index buffer' = (true, buffer) := by
  have hn : ¬ (index < 0 ∨ index ≥ (bm.totalBlocks : Int)) := by omega
  have hlt : index.toNat < bm.disk.length := by omega
  have hw : bm.writeBlock index buffer =
      (true, { bm with disk := bm.disk.set index.toNat (buffer.take bm.blockSize) }) := by
    unfold writeBlock
    rw [if_neg hn]
  rw [hw]
  unfold readBlock
  rw [if_neg hn]
  dsimp only
  rw [List.getD_eq_getElem?_getD, List.getElem?_set_eq_of_lt _ hlt,
    List.take_of_length_le (le_of_eq hbuf)]
  rfl

end BlockManager

namespace FileSystem

/-- Decoding the buffer `writeIndexBlock` builds gives back the block list. -/
theorem decodeIndex_indexBuffer (bs : Nat) (blocks : List Int)
    (hcap : 4 + 4 * blocks.length ≤ bs) (hbs : bs < 2147483648)
    (hint : ∀ b ∈ blocks, -2147483648 ≤ b ∧ b < 2147483648) :
    decodeIndex (Serializer.int32Bytes (blocks.length : Int) ++
      blocks.flatMap Serializer.int32Bytes ++ zeros (bs - (4 + 4 * blocks.length))) =
        some blocks := by
  have hcnt : int32OfBytes (Serializer.int32Bytes (blocks.length : Int) ++
      blocks.flatMap Serializer.int32Bytes ++ zeros (bs - (4 + 4 * blocks.length))) =
        (blocks.length : Int) := by
    rw [List.append_assoc]
    exact int32OfBytes_int32Bytes _ (by omega) (by omega) _
  have hlen : (Serializer.int32Bytes (blocks.length : Int) ++
      blocks.flatMap Serializer.int32Bytes ++ zeros (bs - (4 + 4 * blocks.length))).length =
        bs := by
    simp only [List.length_append, Serializer.length_int32Bytes,
      Serializer.length_flatMap_int32Bytes, Serializer.length_zeros]
    omega
  unfold decodeIndex
  simp only [hcnt, hlen]
  rw [if_neg (by omega)]
  by_cases h0 : blocks.length = 0
  · have hnil : blocks = [] := List.length_eq_zero.1 h0
    subst hnil
    rw [if_neg (by simp)]
    rfl
  · have hw : wrap32 (4 + (blocks.length : Int) * 4) = 4 + (blocks.length : Int) * 4 := by
      unfold wrap32; omega
    rw [hw, if_pos ⟨by omega, by omega⟩, if_pos (by omega), Int.toNat_ofNat]
    have hd : (Serializer.int32Bytes (blocks.length : Int) ++
        blocks.flatMap Serializer.int32Bytes ++ zeros (bs - (4 + 4 * blocks.length))).drop 4 =
        blocks.flatMap Serializer.int32Bytes ++ zeros (bs - (4 + 4 * blocks.length)) := by
      rw [List.append_assoc]
      exact List.drop_left' (Serializer.length_int32Bytes _)
    rw [hd, int32sOfBytes_flatMap blocks hint]

end FileSystem

/-- C11. For a record whose index block is a block of the disk and whose data-block list
fits (`4 + 4 * count ≤ blockSize`, entries and `blockSize` being 32-bit ints),
`writeIndexBlock` succeeds, and reading that block back and decoding it the way `checkMeta`
does (an int32 count, then that many int32 indices) gives exactly the same ordered list; the
block has `blockSize` bytes and all its bytes from offset `4 + 4 * count` on are zero. -/
theorem writeIndexBlock_decode_roundtrip (bm : BlockManager) (fm : FileMeta)
    (hdisk : bm.disk.length = bm.totalBlocks)
    (hidx : 0 ≤ fm.indexBlock ∧ fm.indexBlock < (bm.totalBlocks : Int))
    (hcap : 4 + 4 * fm.blocks.length ≤ bm.blockSize) (hbs : bm.blockSize < 2147483648)
    (hint : ∀ b ∈ fm.blocks, -2147483648 ≤ b ∧ b < 2147483648) :
    ∃ bm', Serializer.writeIndexBlock bm fm = some bm' ∧
      (bm'.readBlock fm.indexBlock []).1 = true ∧
      FileSystem.decodeIndex (bm'.readBlock fm.indexBlock []).2 = some fm.blocks ∧
      (bm'.readBlock fm.indexBlock []).2.length = bm.blockSize ∧
      ∀ c ∈ ((bm'.readBlock fm.indexBlock []).2).drop (4 + 4 * fm.blocks.length),
        c = zeroByte := by
  have hbuf := Serializer.indexBuffer_eq bm.blockSize fm.blocks hcap
  have hlen : (Serializer.int32Bytes (fm.blocks.length : Int) ++
      fm.blocks.flatMap Serializer.int32Bytes ++
      zeros (bm.blockSize - (4 + 4 * fm.blocks.length))).length = bm.blockSize := by
    simp only [List.length_append, Serializer.length_int32Bytes,
      Serializer.length_flatMap_int32Bytes, Serializer.length_zeros]
    omega
  refine ⟨_, by unfold Serializer.writeIndexBlock; rw [if_pos hcap], ?_⟩
  dsimp only
  rw [hbuf, BlockManager.writeBlock_then_readBlock bm fm.indexBlock _ hdisk hidx hlen []]
  refine ⟨rfl, FileSystem.decodeIndex_indexBuffer bm.blockSize fm.blocks hcap hbs hint, hlen, ?_⟩
  intro c hc
  dsimp only at hc
  rw [List.drop_append_eq_append_drop, List.drop_of_length_le (by
    simp only [List.length_append, Serializer.length_int32Bytes,
      Serializer.length_flatMap_int32Bytes]; omega), List.nil_append] at hc
  exact List.eq_of_mem_replicate (List.mem_of_mem_drop hc)

set_option synthInstance.maxSize 4096 in
theorem writeIndexBlock_decode_roundtrip_witness :
    ∃ bm', Serializer.writeIndexBlock (FileSystem.fresh 16 8).bm
        { FileMeta.new 0 with indexBlock := 1, blocks := [2, 5, 3] } = some bm' ∧
      FileSystem.decodeIndex (bm'.readBlock 1 []).2 = some [2, 5, 3] := by
  obtain ⟨bm', h1, _, h3, _⟩ := writeIndexBlock_decode_roundtrip (FileSystem.fresh 16 8).bm
    { FileMeta.new 0 with indexBlock := 1, blocks := [2, 5, 3] }
    (by decide) (by decide) (by decide) (by decide) (by decide)
  exact ⟨bm', h1, h3⟩

/-! ### The classification of `checkMeta` -/

namespace FileSystem

theorem mem_setInsert (s : List Int) (b x : Int) : x ∈ setInsert s b ↔ x = b ∨ x ∈ s := by
  induction s with
  | nil => simp [setInsert]
  | cons a rest ih =>
    rw [setInsert]
    split
    · simp
    · split
      · rename_i h; subst h; simp
      · simp only [List.mem_cons, ih]; tauto

theorem sorted_setInsert (s : List Int) (b : Int) (hs : s.Sorted (· < ·)) :
    (setInsert s b).Sorted (· < ·) := by
  induction s with
  | nil => simp [setInsert]
  | cons a rest ih =>
    rw [setInsert]
    have hs' := List.sorted_cons.1 hs
    split
    · rename_i hlt
      refine List.sorted_cons.2 ⟨?_, hs⟩
      intro y hy
      rcases List.mem_cons.1 hy with rfl | hy
      · exact hlt
      · exact lt_trans hlt (hs'.1 y hy)
    · split
      · exact hs
      · rename_i h1 h2
        refine List.sorted_cons.2 ⟨?_, ih hs'.2⟩
        intro y hy
        rcases (mem_setInsert rest b y).1 hy with rfl | hy
        · omega
        · exact hs'.1 y hy

theorem mem_foldl_setInsert (l : List Int) :
    ∀ (s : List Int) (x : Int), x ∈ l.foldl setInsert s ↔ x ∈ s ∨ x ∈ l := by
  induction l with
  | nil => intro s x; simp
  | cons a l ih =>
    intro s x
    rw [List.foldl_cons, ih, mem_setInsert, List.mem_cons]
    tauto

theorem sorted_foldl_setInsert (l : List Int) :
    ∀ s : List Int, s.Sorted (· < ·) → (l.foldl setInsert s).Sorted (· < ·) := by
  induction l with
  | nil => intro s hs; exact hs
  | cons a l ih => intro s hs; exact ih _ (sorted_setInsert s a hs)

/-- What `walk` inserts for a record: its index block when not negative, and its data blocks. -/
theorem mem_walkFiles (files : List (String × FileMeta)) :
    ∀ (r : List Int) (x : Int), x ∈ walkFiles files r ↔
      x ∈ r ∨ ∃ p ∈ files, (x = p.2.indexBlock ∧ 0 ≤ x) ∨ x ∈ p.2.blocks := by
  induction files with
  | nil => intro r x; simp [walkFiles]
  | cons p rest ih =>
    intro r x
    obtain ⟨k, fm⟩ := p
    rw [walkFiles, ih, mem_foldl_setInsert]
    simp only [List.mem_cons, exists_eq_or_imp]
    by_cases hidx : fm.indexBlock ≥ 0
    · simp only [hidx, if_true, mem_setInsert]
      constructor
      · rintro ((((h | h) | h)) | h)
        · exact Or.inr (Or.inl (Or.inl ⟨h, by omega⟩))
        · exact Or.inl h
        · exact Or.inr (Or.inl (Or.inr h))
        · exact Or.inr (Or.inr h)
      · rintro (h | (h | h) | h)
        · exact Or.inl (Or.inl (Or.inr h))
        · exact Or.inl (Or.inl (Or.inl h.1))
        · exact Or.inl (Or.inr h)
        · exact Or.inr h
    · simp only [hidx, if_false]
      constructor
      · rintro ((h | h) | h)
        · exact Or.inl h
        · exact Or.inr (Or.inl (Or.inr h))
        · exact Or.inr (Or.inr h)
      · rintro (h | (h | h) | h)
        · exact Or.inl (Or.inl h)
        · exact absurd (h.1 ▸ h.2) hidx
        · exact Or.inl (Or.inr h)
        · exact Or.inr h

theorem sorted_walkFiles (files : List (String × FileMeta)) :
    ∀ r : List Int, r.Sorted (· < ·) → (walkFiles files r).Sorted (· < ·) := by
  induction files with
  | nil => intro r hr; exact hr
  | cons p rest ih =>
    intro r hr
    obtain ⟨k, fm⟩ := p
    rw [walkFiles]
    apply ih
    apply sorted_foldl_setInsert
    dsimp only
    split
    · exact sorted_setInsert _ _ hr
    · exact hr

mutual
theorem mem_walk : ∀ (d : Directory) (r : List Int) (x : Int), x ∈ walk d r ↔
    x ∈ r ∨ ∃ fm ∈ d.allFiles, (x = fm.indexBlock ∧ 0 ≤ x) ∨ x ∈ fm.blocks
  | .mk n pm files subdirs, r, x => by
    rw [walk, mem_walks subdirs, mem_walkFiles, Directory.allFiles]
    simp only [List.mem_append, List.mem_map]
    constructor
    · rintro ((h | ⟨p, hp, h⟩) | ⟨fm, hfm, h⟩)
      · exact Or.inl h
      · exact Or.inr ⟨p.2, Or.inr ⟨p, hp, rfl⟩, h⟩
      · exact Or.inr ⟨fm, Or.inl hfm, h⟩
    · rintro (h | ⟨fm, (hfm | ⟨p, hp, rfl⟩), h⟩)
      · exact Or.inl (Or.inl h)
      · exact Or.inr ⟨fm, hfm, h⟩
      · exact Or.inl (Or.inr ⟨p, hp, h⟩)
theorem mem_walks : ∀ (ds : List Directory) (r : List Int) (x : Int), x ∈ walks ds r ↔
    x ∈ r ∨ ∃ fm ∈ allFilesList ds, (x = fm.indexBlock ∧ 0 ≤ x) ∨ x ∈ fm.blocks
  | [], r, x => by simp [walks, allFilesList]
  | d :: ds, r, x => by
    rw [walks, mem_walks ds, mem_walk d, allFilesList]
    simp only [List.mem_append]
    constructor
    · rintro ((h | ⟨fm, hfm, h⟩) | ⟨fm, hfm, h⟩)
      · exact Or.inl h
      · exact Or.inr ⟨fm, Or.inl hfm, h⟩
      · exact Or.inr ⟨fm, Or.inr hfm, h⟩
    · rintro (h | ⟨fm, (hfm | hfm), h⟩)
      · exact Or.inl (Or.inl h)
      · exact Or.inl (Or.inr ⟨fm, hfm, h⟩)
      · exact Or.inr ⟨fm, hfm, h⟩
end

mutual
theorem sorted_walk : ∀ (d : Directory) (r : List Int), r.Sorted (· < ·) →
    (walk d r).Sorted (· < ·)
  | .mk n pm files subdirs, r, hr => by
    rw [walk]
    exact sorted_walks subdirs _ (sorted_walkFiles files r hr)
theorem sorted_walks : ∀ (ds : List Directory) (r : List Int), r.Sorted (· < ·) →
    (walks ds r).Sorted (· < ·)
  | [], r, hr => by rw [walks]; exact hr
  | d :: ds, r, hr => by
    rw [walks]
    exact sorted_walks ds _ (sorted_walk d r hr)
end

end FileSystem

namespace FileSystem

theorem isBlockFree_natCast (bm : BlockManager) (k : Nat) :
    bm.isBlockFree (k : Int) = bm.freeBlockBitmap[k]? := by
  unfold BlockManager.isBlockFree
  rw [if_neg (by omega), Int.toNat_ofNat]

/-- The scan over the block indices `[i, i + n)` returns, and its `orphan` vector lists in
ascending order the indices other than 0 that are marked used and not in `referenced`. -/
theorem scanUsed_spec (bm : BlockManager) (referenced : List Int) :
    ∀ (n i : Nat), i + n ≤ bm.freeBlockBitmap.length →
      ∃ used orphan, scanUsed bm referenced i n = some (used, orphan) ∧
        (∀ x : Int, x ∈ orphan ↔ ∃ k : Nat, x = (k : Int) ∧ i ≤ k ∧ k < i + n ∧ k ≠ 0 ∧
          bm.freeBlockBitmap[k]? = some false ∧ (k : Int) ∉ referenced) ∧
        orphan.Sorted (· < ·) := by
  intro n
  induction n with
  | zero =>
    intro i _
    refine ⟨[], [], rfl, ?_, List.sorted_nil⟩
    intro x
    simp only [List.not_mem_nil, false_iff]
    rintro ⟨k, _, h1, h2, _⟩
    omega
  | succ n ih =>
    intro i hlen
    obtain ⟨used, orphan, hrec, hmem, hsorted⟩ := ih (i + 1) (by omega)
    have hi : i < bm.freeBlockBitmap.length := by omega
    have hfree : bm.isBlockFree (i : Int) = some bm.freeBlockBitmap[i] := by
      rw [isBlockFree_natCast, List.getElem?_eq_getElem hi]
    have hgi : bm.freeBlockBitmap[i]? = some bm.freeBlockBitmap[i] := List.getElem?_eq_getElem hi
    rw [scanUsed, hfree, hrec]
    dsimp only
    -- membership of an index of the tail of the scan
    have htail : ∀ x : Int, x ∈ orphan → ∃ k : Nat, x = (k : Int) ∧ i ≤ k ∧ k < i + (n + 1) ∧
        k ≠ 0 ∧ bm.freeBlockBitmap[k]? = some false ∧ (k : Int) ∉ referenced := by
      intro x hx
      obtain ⟨k, h1, h2, h3, h4⟩ := (hmem x).1 hx
      exact ⟨k, h1, by omega, by omega, h4⟩
    have hkeep : (∀ k : Nat, k = i → ¬ (k ≠ 0 ∧ bm.freeBlockBitmap[k]? = some false ∧
        (k : Int) ∉ referenced)) → ∀ x : Int, x ∈ orphan ↔ ∃ k : Nat, x = (k : Int) ∧ i ≤ k ∧
          k < i + (n + 1) ∧ k ≠ 0 ∧ bm.freeBlockBitmap[k]? = some false ∧
          (k : Int) ∉ referenced := by
      intro hnot x
      refine ⟨htail x, ?_⟩
      rintro ⟨k, h1, h2, h3, h4⟩
      by_cases hk : k = i
      · exact absurd h4 (hnot k hk)
      · exact (hmem x).2 ⟨k, h1, by omega, by omega, h4⟩
    by_cases hf : bm.freeBlockBitmap[i] = true
    · rw [if_pos hf]
      refine ⟨_, _, rfl, hkeep ?_, hsorted⟩
      rintro k rfl ⟨_, h, _⟩
      rw [hgi, hf] at h; cases h
    · rw [if_neg hf]
      by_cases h0 : i = 0
      · rw [if_pos h0]
        refine ⟨_, _, rfl, hkeep ?_, hsorted⟩
        rintro k rfl ⟨h, _⟩
        exact h h0
      · rw [if_neg h0]
        by_cases href : (i : Int) ∈ referenced
        · rw [if_pos href]
          refine ⟨_, _, rfl, hkeep ?_, hsorted⟩
          rintro k rfl ⟨_, _, h⟩
          exact h href
        · rw [if_neg href]
          refine ⟨_, _, rfl, ?_, ?_⟩
          · intro x
            rw [List.mem_cons]
            constructor
            · rintro (rfl | hx)
              · refine ⟨i, rfl, le_refl _, by omega, h0, ?_, href⟩
                rw [hgi]; simpa using hf
              · exact htail x hx
            · rintro ⟨k, h1, h2, h3, h4⟩
              by_cases hk : k = i
              · left; rw [h1, hk]
              · right; exact (hmem x).2 ⟨k, h1, by omega, by omega, h4⟩
          · refine List.sorted_cons.2 ⟨?_, hsorted⟩
            intro y hy
            obtain ⟨k, h1, h2, _⟩ := (hmem y).1 hy
            omega

/-- The scan over the referenced set returns, and its `missing` vector is the sublist of the
referenced blocks in `[0, totalBlocks)` that the allocator reports free. -/
theorem scanMissing_spec (bm : BlockManager)
    (hlen : bm.totalBlocks ≤ bm.freeBlockBitmap.length) :
    ∀ referenced : List Int, ∃ missing, scanMissing bm referenced = some missing ∧
      missing.Sublist referenced ∧
      ∀ x : Int, x ∈ missing ↔ x ∈ referenced ∧ 0 ≤ x ∧ x < (bm.totalBlocks : Int) ∧
        bm.isBlockFree x = some true := by
  intro referenced
  induction referenced with
  | nil => exact ⟨[], rfl, List.Sublist.refl _, by simp⟩
  | cons r rest ih =>
    obtain ⟨missing, hrec, hsub, hmem⟩ := ih
    rw [scanMissing, hrec]
    by_cases hr : r < 0 ∨ r ≥ (bm.totalBlocks : Int)
    · rw [if_pos hr]
      refine ⟨missing, rfl, hsub.cons _, ?_⟩
      intro x
      rw [hmem, List.mem_cons]
      constructor
      · rintro ⟨h1, h2⟩; exact ⟨Or.inr h1, h2⟩
      · rintro ⟨(rfl | h1), h2⟩
        · omega
        · exact ⟨h1, h2⟩
    · rw [if_neg hr]
      have hlt : r.toNat < bm.freeBlockBitmap.length := by omega
      have hfree : bm.isBlockFree r = some bm.freeBlockBitmap[r.toNat] := by
        unfold BlockManager.isBlockFree
        rw [if_neg (by omega), List.getElem?_eq_getElem hlt]
      rw [hfree]
      dsimp only
      by_cases hf : bm.freeBlockBitmap[r.toNat] = true
      · rw [if_pos hf]
        refine ⟨_, rfl, hsub.cons₂ _, ?_⟩
        intro x
        rw [List.mem_cons, List.mem_cons, hmem]
        constructor
        · rintro (rfl | ⟨h1, h2⟩)
          · exact ⟨Or.inl rfl, by omega, by omega, by rw [hfree, hf]⟩
          · exact ⟨Or.inr h1, h2⟩
        · rintro ⟨(rfl | h1), h2⟩
          · exact Or.inl rfl
          · exact Or.inr ⟨h1, h2⟩
      · rw [if_neg hf]
        refine ⟨_, rfl, hsub.cons _, ?_⟩
        intro x
        rw [hmem, List.mem_cons]
        constructor
        · rintro ⟨h1, h2⟩; exact ⟨Or.inr h1, h2⟩
        · rintro ⟨(rfl | h1), h2⟩
          · rw [hfree] at h2
            exact absurd (Option.some.inj h2.2.2) hf
          · exact ⟨h1, h2⟩

end FileSystem

theorem mem_refBlocks_iff (d : Directory) (x : Int) :
    x ∈ d.refBlocks ↔ ∃ fm ∈ d.allFiles, x = fm.indexBlock ∨ x ∈ fm.blocks := by
  unfold Directory.refBlocks FileMeta.refs
  simp only [List.mem_flatMap, List.mem_cons]

namespace FileSystem

/-- A block index that is not negative is in the referenced set of `checkMeta` exactly when
some record of the tree has it as index block or data block. -/
theorem mem_walk_root (d : Directory) (x : Int) (hx : 0 ≤ x) :
    x ∈ walk d [] ↔ x ∈ d.refBlocks := by
  rw [mem_walk, mem_refBlocks_iff]
  simp only [List.not_mem_nil, false_or]
  constructor
  · rintro ⟨fm, hfm, (h | h)⟩
    · exact ⟨fm, hfm, Or.inl h.1⟩
    · exact ⟨fm, hfm, Or.inr h⟩
  · rintro ⟨fm, hfm, (h | h)⟩
    · exact ⟨fm, hfm, Or.inl ⟨h, hx⟩⟩
    · exact ⟨fm, hfm, Or.inr h⟩

theorem checkScan_spec (fs : FileSystem)
    (hlen : fs.bm.freeBlockBitmap.length = fs.bm.totalBlocks) :
    ∃ used orphan missing, checkScan fs = some (used, orphan, missing) ∧
      (∀ i : Int, i ∈ orphan ↔ 1 ≤ i ∧ i < (fs.bm.totalBlocks : Int) ∧
        fs.bm.isBlockFree i = some false ∧ i ∉ fs.root.refBlocks) ∧
      (∀ r : Int, r ∈ missing ↔ 0 ≤ r ∧ r < (fs.bm.totalBlocks : Int) ∧
        r ∈ fs.root.refBlocks ∧ fs.bm.isBlockFree r = some true) ∧
      orphan.Sorted (· < ·) ∧ missing.Sorted (· < ·) := by
  obtain ⟨used, orphan, hu, humem, husorted⟩ :=
    scanUsed_spec fs.bm (walk fs.root []) fs.bm.totalBlocks 0 (by omega)
  obtain ⟨missing, hm, hmsub, hmmem⟩ := scanMissing_spec fs.bm (by omega) (walk fs.root [])
  refine ⟨used, orphan, missing, ?_, ?_, ?_, husorted,
    (sorted_walk fs.root [] List.sorted_nil).sublist hmsub⟩
  · unfold checkScan
    simp only [hu, hm]
  · intro i
    rw [humem]
    constructor
    · rintro ⟨k, rfl, _, h2, h3, h4, h5⟩
      refine ⟨by omega, by omega, by rw [isBlockFree_natCast]; exact h4, ?_⟩
      rw [← mem_walk_root fs.root _ (by omega)]
      exact h5
    · rintro ⟨h1, h2, h3, h4⟩
      refine ⟨i.toNat, (Int.toNat_of_nonneg (by omega)).symm, Nat.zero_le _, by omega, by omega,
        ?_, ?_⟩
      · rw [← isBlockFree_natCast, Int.toNat_of_nonneg (by omega)]; exact h3
      · rw [Int.toNat_of_nonneg (by omega), mem_walk_root fs.root _ (by omega)]
        exact h4
  · intro r
    rw [hmmem]
    constructor
    · rintro ⟨h1, h2, h3, h4⟩
      exact ⟨h2, h3, (mem_walk_root fs.root r h2).1 h1, h4⟩
    · rintro ⟨h1, h2, h3, h4⟩
      exact ⟨(mem_walk_root fs.root r h1).2 h3, h1, h2, h4⟩

/-- The vectors `checkMeta` reports are those of its classification part. -/
theorem checkMeta_report {fs : FileSystem} {repair : Bool}
    {r : List Int × List Int × FileSystem} (h : checkMeta fs repair = some r) :
    ∃ used, checkScan fs = some (used, r.1, r.2.1) := by
  unfold checkMeta at h
  cases hs : checkScan fs with
  | none => rw [hs] at h; cases h
  | some s =>
    obtain ⟨used, orphan, missing⟩ := s
    rw [hs] at h
    dsimp only at h
    refine ⟨used, ?_⟩
    split at h
    · cases h
    · split at h
      · split at h
        · cases h
        · cases h; rfl
      · cases h; rfl

/-- C17. On a bitmap of `totalBlocks` bits the classification of `checkMeta` returns, and:
block `i` is listed as orphan exactly when `1 ≤ i < total`, the allocator reports `i` used
and `i` is neither the index block nor a data block of a record of the tree; block `r` is
listed as missing exactly when `0 ≤ r < total`, `r` is referenced by a record and the
allocator reports `r` free. Both lists are in ascending order, block 0 is never an orphan,
and every call of `checkMeta` that returns reports these two lists. -/
theorem checkMeta_classification (fs : FileSystem)
    (hlen : fs.bm.freeBlockBitmap.length = fs.bm.totalBlocks) :
    ∃ used orphan missing, checkScan fs = some (used, orphan, missing) ∧
      (∀ i : Int, i ∈ orphan ↔ 1 ≤ i ∧ i < (fs.bm.totalBlocks : Int) ∧
        fs.bm.isBlockFree i = some false ∧ i ∉ fs.root.refBlocks) ∧
      (∀ r : Int, r ∈ missing ↔ 0 ≤ r ∧ r < (fs.bm.totalBlocks : Int) ∧
        r ∈ fs.root.refBlocks ∧ fs.bm.isBlockFree r = some true) ∧
      orphan.Sorted (· < ·) ∧ missing.Sorted (· < ·) ∧ (0 : Int) ∉ orphan ∧
      ∀ (repair : Bool) (res : List Int × List Int × FileSystem),
        checkMeta fs repair = some res → res.1 = orphan ∧ res.2.1 = missing := by
  obtain ⟨used, orphan, missing, hs, ho, hm, hso, hsm⟩ := checkScan_spec fs hlen
  refine ⟨used, orphan, missing, hs, ho, hm, hso, hsm, ?_, ?_⟩
  · intro h0
    have := ((ho 0).1 h0).1
    omega
  · intro repair res hres
    obtain ⟨used', hs'⟩ := checkMeta_report hres
    rw [hs] at hs'
    simp only [Option.some.injEq, Prod.mk.injEq] at hs'
    exact ⟨hs'.2.1.symm, hs'.2.2.symm⟩

end FileSystem

namespace FileSystem

set_option synthInstance.maxSize 4096 in
theorem checkMeta_classification_witness :
    ∃ used orphan missing,
      checkScan { exampleState with
        bm := { exampleState.bm with
          freeBlockBitmap := [false, false, true, false, true, true, true, true] } } =
        some (used, orphan, missing) ∧ orphan = [3] ∧ missing = [2] ∧ (0 : Int) ∉ orphan := by
  obtain ⟨used, orphan, missing, hs, _, _, _, _, h0, _⟩ := checkMeta_classification
    { exampleState with
      bm := { exampleState.bm with
        freeBlockBitmap := [false, false, true, false, true, true, true, true] } } (by decide)
  have e : checkScan { exampleState with
      bm := { exampleState.bm with
        freeBlockBitmap := [false, false, true, false, true, true, true, true] } } =
      some ([0, 1, 3], [3], [2]) := by decide
  rw [e] at hs
  simp only [Option.some.injEq, Prod.mk.injEq] at hs
  exact ⟨used, orphan, missing, by rw [e, hs.1, hs.2.1, hs.2.2], hs.2.1.symm, hs.2.2.symm, h0⟩

set_option maxRecDepth 100000 in
set_option synthInstance.maxSize 4096 in
/-- C13 (failing input). Block size 128, 8 blocks: `mkdir d`, `cd d`, `createFile("f", 256)`,
then the shrinking `resizeFile("f", 100)` succeeds. The tree snapshot from the root has 117
bytes and fits in a block, and before the shrink block 0 held the snapshot. After the shrink
block 0 holds the flat listing of the files of `d` alone (one line, without `DIR` or `FILE`
lines): the shrinking branch calls the flat writer `Serializer::saveDirectory(bm, files)`
instead of `Directory::saveDirectory()`. `loadDirectory` read a tree from block 0 before the
shrink and returns `nullptr` after it. -/
theorem resizeFile_shrink_overwrites_snapshot :
    (mkdir (fresh 128 8) "d").bind (fun r1 =>
      (cd r1.2 "d").bind (fun r2 =>
        (createFile r2.2 "f" 256 1).bind (fun r3 =>
          (resizeFile r3.2 "f" 100 2).map (fun r4 =>
            (r1.1, r2.1, r3.1, r4.1,
             decide ((r3.2.bm.readBlock 0 []).2 =
               Serializer.blockOfText 128 (Serializer.writeDir r3.2.root 0)),
             (Serializer.writeDir r4.2.root 0).length,
             decide ((r4.2.bm.readBlock 0 []).2 =
               Serializer.blockOfText 128 (Serializer.writeDir r4.2.root 0)),
             decide ((r4.2.bm.readBlock 0 []).2 = Serializer.blockOfText 128
               "f 100 1 2 | 01-01-1970_00:00:01 01-01-1970_00:00:02 perm 6\n".toList),
             (Serializer.loadDirectory r3.2.bm 3).map (fun l => l.2.isSome),
             (Serializer.loadDirectory r4.2.bm 3).map (fun l => l.2.isSome)))))) =
    some (true, true, true, true, true, 117, false, true, some true, some false) := by
  decide!

set_option synthInstance.maxSize 4096 in
/-- C18 (failing input). Block size 16, 5 blocks: `createFile("f", 32)` gives data blocks
`[2, 3]` and `writeFile("f", "ab")` sets the size to 2. `checkMeta(false)` reports no orphan
and no missing block, yet its per-file pass runs although `repair` is false: it frees block 3
and cuts the record's data-block list to `[2]`. -/
theorem checkMeta_report_only_changes_state :
    (createFile (fresh 16 5) "f" 32 0).bind (fun r1 =>
      (writeFile r1.2 "f" ['a', 'b'] 1).bind (fun r2 =>
        (checkMeta r2.2 false).map (fun r3 =>
          (r1.1, r2.1, (getFile r2.2 [] "f").map (fun fm => (fm.fileSize, fm.blocks)),
           r2.2.bm.freeBlockBitmap,
           r3.1, r3.2.1, (getFile r3.2.2 [] "f").map (fun fm => (fm.fileSize, fm.blocks)),
           r3.2.2.bm.freeBlockBitmap)))) =
    some (true, true, some (2, [2, 3]), [false, false, false, false, true],
      [], [], some (2, [2]), [false, false, false, true, true]) := by
  decide

set_option synthInstance.maxSize 4096 in
/-- C19 (failing input). Block size 16, 4 blocks: after `createFile("f", 16)` and the failed
`appendFile("f", 32 bytes)` the record still lists the freed block 3, and `checkMeta` reports
block 3 as missing. Block size 16, 5 blocks: after `createFile("f", 32)`,
`writeFile("f", "ab")` and the failed `resizeFile("f", 64)` block 4 stays marked used
without an owner, and `checkMeta` reports block 4 as orphan. -/
theorem checkMeta_after_failed_growth :
    (createFile (fresh 16 4) "f" 16 0).bind (fun r1 =>
      (appendFile r1.2 "f" (List.replicate 32 'x') 1).bind (fun r2 =>
        (checkMeta r2.2 false).map (fun r3 => (r1.1, r2.1, r3.1, r3.2.1)))) =
      some (true, false, [], [3]) ∧
    (createFile (fresh 16 5) "f" 32 0).bind (fun r1 =>
      (writeFile r1.2 "f" ['a', 'b'] 1).bind (fun r2 =>
        (resizeFile r2.2 "f" 64 2).bind (fun r3 =>
          (checkMeta r3.2 false).map (fun r4 => (r1.1, r2.1, r3.1, r4.1, r4.2.1))))) =
      some (true, true, false, [4], []) := by
  decide!

end FileSystem

/-! ### The repair pass of `checkMeta` keeps bitmap and references in agreement -/

theorem BlocksInv.perm {bm : BlockManager} {R R' : List Int} (h : BlocksInv bm R)
    (hp : List.Perm R R') : BlocksInv bm R' :=
  ⟨h.bitmap_len, hp.nodup_iff.1 h.nodup, fun b hb => h.range b (hp.mem_iff.2 hb),
    fun i h1 h2 => (h.used_iff i h1 h2).trans hp.mem_iff⟩

theorem BlocksInv.congrBitmap {bm bm' : BlockManager} {R : List Int} (h : BlocksInv bm R)
    (hb : bm'.freeBlockBitmap = bm.freeBlockBitmap) (ht : bm'.totalBlocks = bm.totalBlocks) :
    BlocksInv bm' R :=
  ⟨by rw [hb, ht]; exact h.bitmap_len, h.nodup, fun b hb' => by rw [ht]; exact h.range b hb',
    fun i h1 h2 => by rw [hb]; exact h.used_iff i h1 (by rw [← ht]; exact h2)⟩

theorem BlocksInv.frame {W : Nat → Prop} {bm bm' : BlockManager} {R : List Int}
    (h : BlocksInv bm R) (f : DiskFrame W bm bm') : BlocksInv bm' R :=
  h.congrBitmap f.bitmap_eq f.totalBlocks_eq

theorem BlocksInv.freeLast {bm : BlockManager} {C : List Int} {b : Int}
    (h : BlocksInv bm (C ++ [b])) : BlocksInv (bm.freeBlock b) C := by
  have hb := h.range b (by simp)
  have hnd := h.nodup
  rw [List.nodup_append] at hnd
  have hbC : b ∉ C := fun hc => hnd.2.2 hc (List.mem_singleton_self b)
  refine ⟨by simp [h.bitmap_len], hnd.1, fun c hc => by
    rw [BlockManager.freeBlock_totalBlocks]; exact h.range c (List.mem_append_left _ hc), ?_⟩
  intro i h1 h2
  rw [BlockManager.freeBlock_totalBlocks] at h2
  rw [BlockManager.freeBlock_getElem?]
  by_cases hi : (i : Int) = b
  · have hc : 0 ≤ b ∧ b < (bm.totalBlocks : Int) ∧ b.toNat = i ∧
        i < bm.freeBlockBitmap.length := ⟨by omega, hb.2, by omega, by rw [h.bitmap_len]; exact h2⟩
    rw [if_pos hc]
    constructor
    · intro hc'; cases hc'
    · intro hc'; rw [hi] at hc'; exact absurd hc' hbC
  · have hc : ¬ (0 ≤ b ∧ b < (bm.totalBlocks : Int) ∧ b.toNat = i ∧
        i < bm.freeBlockBitmap.length) := by omega
    rw [if_neg hc, h.used_iff i h1 h2, List.mem_append, List.mem_singleton]
    constructor
    · rintro (hc' | hc')
      · exact hc'
      · exact absurd hc' hi
    · intro hc'; exact Or.inl hc'

theorem BlocksInv.freeBlocks_inv {L : List Int} :
    ∀ {bm : BlockManager} {C : List Int}, BlocksInv bm (C ++ L) →
      BlocksInv (bm.freeBlocks L) C := by
  induction L with
  | nil => intro bm C h; simpa [BlockManager.freeBlocks] using h
  | cons b L ih =>
    intro bm C h
    rw [BlockManager.freeBlocks]
    apply ih
    apply BlocksInv.freeLast
    refine h.perm ?_
    rw [List.append_assoc]
    exact List.Perm.append_left C (List.perm_append_singleton b L).symm

theorem BlockManager.allocateBlock_cases (bm : BlockManager) :
    (bm.allocateBlock.1 = -1 ∧ bm.allocateBlock.2 = bm) ∨
    ∃ i : Nat, 1 ≤ i ∧ i < bm.totalBlocks ∧ bm.freeBlockBitmap[i]? = some true ∧
      bm.allocateBlock.1 = (i : Int) ∧
      bm.allocateBlock.2.freeBlockBitmap = bm.freeBlockBitmap.set i false ∧
      bm.allocateBlock.2.totalBlocks = bm.totalBlocks ∧
      bm.allocateBlock.2.blockSize = bm.blockSize ∧ bm.allocateBlock.2.disk = bm.disk := by
  unfold BlockManager.allocateBlock
  cases h : BlockManager.allocScan bm.freeBlockBitmap 1 (bm.totalBlocks - 1) with
  | none => exact Or.inl ⟨rfl, rfl⟩
  | some i =>
    obtain ⟨h1, h2, h3, _⟩ := BlockManager.allocScan_some h
    exact Or.inr ⟨i, h1, by omega, h3, rfl, rfl, rfl, rfl, rfl⟩

theorem BlocksInv.alloc {bm : BlockManager} {R : List Int} (h : BlocksInv bm R)
    (hne : bm.allocateBlock.1 ≠ -1) :
    BlocksInv bm.allocateBlock.2 (R ++ [bm.allocateBlock.1]) := by
  rcases bm.allocateBlock_cases with ⟨h1, _⟩ | ⟨i, h1, h2, h3, h4, h5, h6, _⟩
  · exact absurd h1 hne
  · have hiR : (i : Int) ∉ R := by
      intro hc
      have := (h.used_iff i h1 h2).2 hc
      rw [h3] at this; cases this
    rw [h4]
    refine ⟨by rw [h5, h6, List.length_set]; exact h.bitmap_len, ?_, ?_, ?_⟩
    · rw [List.nodup_append]
      refine ⟨h.nodup, List.nodup_singleton _, ?_⟩
      intro a ha hb
      rw [List.mem_singleton] at hb
      exact hiR (hb ▸ ha)
    · intro b hb
      rw [h6]
      rcases List.mem_append.1 hb with hb | hb
      · exact h.range b hb
      · rw [List.mem_singleton] at hb; omega
    · intro j hj1 hj2
      rw [h6] at hj2
      rw [h5, List.getElem?_set, List.mem_append, List.mem_singleton]
      by_cases hij : i = j
      · subst hij
        have hlt : i < bm.freeBlockBitmap.length := by rw [h.bitmap_len]; exact h2
        simp [hlt]
      · rw [if_neg hij, h.used_iff j hj1 hj2]
        constructor
        · intro hc; exact Or.inl hc
        · rintro (hc | hc)
          · exact hc
          · exact absurd (by exact_mod_cast hc.symm) hij

theorem BlocksInv.repairAlloc_inv (blockSize : Nat) :
    ∀ (n : Nat) (bm : BlockManager) (blocks : List Int) (size : Int) (C : List Int),
      BlocksInv bm (C ++ blocks) →
      BlocksInv (FileSystem.repairAlloc blockSize n bm blocks size).1
          (C ++ (FileSystem.repairAlloc blockSize n bm blocks size).2.1) ∧
        (FileSystem.repairAlloc blockSize n bm blocks size).1.totalBlocks = bm.totalBlocks ∧
        (FileSystem.repairAlloc blockSize n bm blocks size).1.blockSize = bm.blockSize := by
  intro n
  induction n with
  | zero => intro bm blocks size C h; exact ⟨h, rfl, rfl⟩
  | succ n ih =>
    intro bm blocks size C h
    rw [FileSystem.repairAlloc]
    by_cases hf : bm.allocateBlock.1 = -1
    · rw [if_pos hf]
      rcases bm.allocateBlock_cases with ⟨_, h2⟩ | ⟨i, _, _, _, h4, _⟩
      · rw [h2]; exact ⟨h, rfl, rfl⟩
      · rw [h4] at hf; omega
    · rw [if_neg hf]
      have h1 := h.alloc hf
      rw [List.append_assoc] at h1
      obtain ⟨k1, k2, k3⟩ := ih bm.allocateBlock.2 (blocks ++ [bm.allocateBlock.1]) size C h1
      refine ⟨k1, ?_, ?_⟩
      · rw [k2]
        rcases bm.allocateBlock_cases with ⟨_, h2⟩ | ⟨i, _, _, _, _, _, h6, _⟩
        · rw [h2]
        · exact h6
      · rw [k3]
        rcases bm.allocateBlock_cases with ⟨_, h2⟩ | ⟨i, _, _, _, _, _, _, h7, _⟩
        · rw [h2]
        · exact h7

theorem BlocksInv.repairBlocks_inv {blockSize : Nat} {bm bm1 : BlockManager}
    {blocks blocks1 C : List Int} {size size1 : Int} (h : BlocksInv bm (C ++ blocks))
    (hr : FileSystem.repairBlocks blockSize bm blocks size = some (bm1, blocks1, size1)) :
    BlocksInv bm1 (C ++ blocks1) ∧ bm1.totalBlocks = bm.totalBlocks ∧
      bm1.blockSize = bm.blockSize := by
  unfold FileSystem.repairBlocks at hr
  dsimp only at hr
  generalize (if size = 0 then (0 : Int) else ceilDiv size blockSize) = req at hr
  split at hr
  · rename_i hgt
    cases hv : vecEraseFrom blocks req with
    | none =>
      rw [hv] at hr
      split at hr <;> simp_all
    | some blocks' =>
      unfold vecEraseFrom at hv
      split at hv
      · rename_i hreq
        simp only [Option.some.injEq] at hv
        have hsplit : blocks = blocks.take req.toNat ++ blocks.drop req.toNat :=
          (List.take_append_drop _ _).symm
        have hlt : req.toNat ≤ blocks.length := by omega
        have hfree := Directory.shrinkFree_eq [] (blocks.drop req.toNat)
          (blocks.take req.toNat) bm
        simp only [List.nil_append, List.take_append_drop, List.length_drop, List.length_take,
          min_eq_left hlt] at hfree
        have e1 : ((blocks.length : Int) - req).toNat = blocks.length - req.toNat := by omega
        have e2 : ((req.toNat : Nat) : Int) = req := Int.toNat_of_nonneg hreq.1
        rw [e2] at hfree
        rw [e1, hfree] at hr
        unfold vecEraseFrom at hr
        rw [if_pos hreq] at hr
        simp only [Option.some.injEq, Prod.mk.injEq] at hr
        obtain ⟨rfl, rfl, rfl⟩ := hr
        refine ⟨?_, by simp, by simp⟩
        apply BlocksInv.freeBlocks_inv (L := blocks.drop req.toNat)
        rw [List.append_assoc, List.take_append_drop]
        exact h
      · cases hv
  · split at hr
    · simp only [Option.some.injEq] at hr
      have := BlocksInv.repairAlloc_inv blockSize (req - (blocks.length : Int)).toNat bm blocks size C h
      rw [hr] at this
      exact this
    · simp only [Option.some.injEq, Prod.mk.injEq] at hr
      obtain ⟨rfl, rfl, rfl⟩ := hr
      exact ⟨h, rfl, rfl⟩

theorem BlocksInv.repairIndex_inv {bm1 bm2 : BlockManager} {fm1 fm2 : FileMeta} {C : List Int}
    (h : BlocksInv bm1 (C ++ fm1.refs))
    (hr : FileSystem.repairIndex bm1 fm1 = some (bm2, fm2)) :
    BlocksInv bm2 (C ++ fm2.refs) ∧ bm2.totalBlocks = bm1.totalBlocks ∧ fm2 = fm1 := by
  have hidx : fm1.indexBlock ≥ 0 := by
    have := (h.range fm1.indexBlock (by simp [FileMeta.refs])).1
    omega
  unfold FileSystem.repairIndex at hr
  rw [if_pos hidx] at hr
  dsimp only at hr
  split at hr
  · split at hr
    · split at hr
      · cases hr
      · split at hr
        · split at hr
          · cases hr
          · rename_i bmw hw
            simp only [Option.some.injEq, Prod.mk.injEq] at hr
            obtain ⟨rfl, rfl⟩ := hr
            have f := Serializer.writeIndexBlock_frame hw
            exact ⟨h.frame f, f.totalBlocks_eq, rfl⟩
        · simp only [Option.some.injEq, Prod.mk.injEq] at hr
          obtain ⟨rfl, rfl⟩ := hr
          exact ⟨h, rfl, rfl⟩
    · simp only [Option.some.injEq, Prod.mk.injEq] at hr
      obtain ⟨rfl, rfl⟩ := hr
      exact ⟨h, rfl, rfl⟩
  · simp only [Option.some.injEq, Prod.mk.injEq] at hr
    obtain ⟨rfl, rfl⟩ := hr
    exact ⟨h, rfl, rfl⟩

theorem BlocksInv.repairFile_inv {blockSize : Nat} {bm bm' : BlockManager} {fm fm' : FileMeta}
    {C : List Int} (h : BlocksInv bm (C ++ fm.refs))
    (hr : FileSystem.repairFile bm.totalBlocks blockSize bm fm = some (bm', fm')) :
    BlocksInv bm' (C ++ fm'.refs) ∧ bm'.totalBlocks = bm.totalBlocks := by
  unfold FileSystem.repairFile at hr
  dsimp only at hr
  have hfilter : fm.blocks.filter (fun b => decide (0 ≤ b ∧ b < (bm.totalBlocks : Int))) =
      fm.blocks := by
    rw [List.filter_eq_self]
    intro b hb
    have := h.range b (by simp [FileMeta.refs, hb])
    simp only [decide_eq_true_eq]
    omega
  rw [hfilter] at hr
  cases hb : FileSystem.repairBlocks blockSize bm fm.blocks fm.fileSize with
  | none => rw [hb] at hr; cases hr
  | some res =>
    obtain ⟨bm1, blocks1, size1⟩ := res
    rw [hb] at hr
    dsimp only at hr
    have h' : BlocksInv bm ((C ++ [fm.indexBlock]) ++ fm.blocks) := by
      rw [List.append_assoc]; exact h
    obtain ⟨k1, k2, _⟩ := h'.repairBlocks_inv hb
    have k1' : BlocksInv bm1 (C ++ ({ fm with blocks := blocks1, fileSize := size1 } :
        FileMeta).refs) := by
      rw [List.append_assoc] at k1; exact k1
    obtain ⟨j1, j2, _⟩ := k1'.repairIndex_inv hr
    exact ⟨j1, by rw [j2, k2]⟩

/-- The blocks referenced by the records of a `files` map. -/
theorem refs_files_cons (k : String) (fm : FileMeta) (rest : List (String × FileMeta)) :
    (((k, fm) :: rest).map (fun p => p.2)).flatMap FileMeta.refs =
      fm.refs ++ (rest.map (fun p => p.2)).flatMap FileMeta.refs := by
  simp [List.flatMap_cons]

theorem BlocksInv.repairFiles_inv {blockSize : Nat} (files : List (String × FileMeta)) :
    ∀ {bm bm' : BlockManager} {files' : List (String × FileMeta)} {C : List Int},
      BlocksInv bm (C ++ (files.map (fun p => p.2)).flatMap FileMeta.refs) →
      FileSystem.repairFiles bm.totalBlocks blockSize bm files = some (bm', files') →
      BlocksInv bm' (C ++ (files'.map (fun p => p.2)).flatMap FileMeta.refs) ∧
        bm'.totalBlocks = bm.totalBlocks := by
  induction files with
  | nil =>
    intro bm bm' files' C h hr
    simp only [FileSystem.repairFiles, Option.some.injEq, Prod.mk.injEq] at hr
    obtain ⟨rfl, rfl⟩ := hr
    exact ⟨h, rfl⟩
  | cons p rest ih =>
    intro bm bm' files' C h hr
    obtain ⟨k, fm⟩ := p
    rw [FileSystem.repairFiles] at hr
    cases h1 : FileSystem.repairFile bm.totalBlocks blockSize bm fm with
    | none => rw [h1] at hr; cases hr
    | some r1 =>
      obtain ⟨bm1, fm1⟩ := r1
      rw [h1] at hr
      dsimp only at hr
      rw [refs_files_cons] at h
      have hA : BlocksInv bm ((C ++ (rest.map (fun p => p.2)).flatMap FileMeta.refs) ++ fm.refs) :=
        h.perm (by
          rw [List.append_assoc]
          exact List.Perm.append_left C List.perm_append_comm)
      obtain ⟨k1, k2⟩ := hA.repairFile_inv h1
      have hB : BlocksInv bm1 ((C ++ fm1.refs) ++ (rest.map (fun p => p.2)).flatMap FileMeta.refs) :=
        k1.perm (by
          rw [List.append_assoc, List.append_assoc]
          exact List.Perm.append_left C List.perm_append_comm)
      rw [← k2] at hr
      cases h2 : FileSystem.repairFiles bm1.totalBlocks blockSize bm1 rest with
      | none => rw [h2] at hr; cases hr
      | some r2 =>
        obtain ⟨bm2, rest1⟩ := r2
        rw [h2] at hr
        simp only [Option.some.injEq, Prod.mk.injEq] at hr
        obtain ⟨rfl, rfl⟩ := hr
        obtain ⟨j1, j2⟩ := ih hB h2
        rw [refs_files_cons]
        refine ⟨?_, by rw [j2, k2]⟩
        rw [List.append_assoc] at j1
        exact j1

theorem refBlocks_mk (n : String) (pm : Int) (files : List (String × FileMeta))
    (subdirs : List Directory) :
    (Directory.mk n pm files subdirs).refBlocks =
      (allFilesList subdirs).flatMap FileMeta.refs ++
        (files.map (fun p => p.2)).flatMap FileMeta.refs := by
  unfold Directory.refBlocks
  rw [Directory.allFiles, List.flatMap_append]

theorem refs_allFilesList_cons (d : Directory) (ds : List Directory) :
    (allFilesList (d :: ds)).flatMap FileMeta.refs =
      d.refBlocks ++ (allFilesList ds).flatMap FileMeta.refs := by
  rw [allFilesList, List.flatMap_append]
  rfl

mutual
theorem BlocksInv.repairWalk_inv (blockSize : Nat) :
    ∀ (d : Directory) (bm bm' : BlockManager) (d' : Directory) (C : List Int),
      BlocksInv bm (C ++ d.refBlocks) →
      FileSystem.repairWalk bm.totalBlocks blockSize bm d = some (bm', d') →
      BlocksInv bm' (C ++ d'.refBlocks) ∧ bm'.totalBlocks = bm.totalBlocks
  | .mk n pm files subdirs, bm, bm', d', C, h, hr => by
    rw [FileSystem.repairWalk] at hr
    cases h1 : FileSystem.repairFiles bm.totalBlocks blockSize bm files with
    | none => rw [h1] at hr; cases hr
    | some r1 =>
      obtain ⟨bm1, files1⟩ := r1
      rw [h1] at hr
      dsimp only at hr
      rw [refBlocks_mk, ← List.append_assoc] at h
      obtain ⟨k1, k2⟩ := BlocksInv.repairFiles_inv files h h1
      have hB : BlocksInv bm1 ((C ++ (files1.map (fun p => p.2)).flatMap FileMeta.refs) ++
          (allFilesList subdirs).flatMap FileMeta.refs) :=
        k1.perm (by
          rw [List.append_assoc, List.append_assoc]
          exact List.Perm.append_left C List.perm_append_comm)
      rw [← k2] at hr
      cases h2 : FileSystem.repairWalks bm1.totalBlocks blockSize bm1 subdirs with
      | none => rw [h2] at hr; cases hr
      | some r2 =>
        obtain ⟨bm2, subdirs1⟩ := r2
        rw [h2] at hr
        simp only [Option.some.injEq, Prod.mk.injEq] at hr
        obtain ⟨rfl, rfl⟩ := hr
        obtain ⟨j1, j2⟩ := BlocksInv.repairWalks_inv blockSize subdirs bm1 _ _ _ hB h2
        rw [refBlocks_mk]
        refine ⟨j1.perm ?_, by rw [j2, k2]⟩
        rw [List.append_assoc]
        exact List.Perm.append_left C List.perm_append_comm
theorem BlocksInv.repairWalks_inv (blockSize : Nat) :
    ∀ (ds : List Directory) (bm bm' : BlockManager) (ds' : List Directory) (C : List Int),
      BlocksInv bm (C ++ (allFilesList ds).flatMap FileMeta.refs) →
      FileSystem.repairWalks bm.totalBlocks blockSize bm ds = some (bm', ds') →
      BlocksInv bm' (C ++ (allFilesList ds').flatMap FileMeta.refs) ∧
        bm'.totalBlocks = bm.totalBlocks
  | [], bm, bm', ds', C, h, hr => by
    simp only [FileSystem.repairWalks, Option.some.injEq, Prod.mk.injEq] at hr
    obtain ⟨rfl, rfl⟩ := hr
    exact ⟨h, rfl⟩
  | d :: ds, bm, bm', ds', C, h, hr => by
    rw [FileSystem.repairWalks] at hr
    cases h1 : FileSystem.repairWalk bm.totalBlocks blockSize bm d with
    | none => rw [h1] at hr; cases hr
    | some r1 =>
      obtain ⟨bm1, d1⟩ := r1
      rw [h1] at hr
      dsimp only at hr
      rw [refs_allFilesList_cons] at h
      have hA : BlocksInv bm ((C ++ (allFilesList ds).flatMap FileMeta.refs) ++ d.refBlocks) :=
        h.perm (by
          rw [List.append_assoc]
          exact List.Perm.append_left C List.perm_append_comm)
      obtain ⟨k1, k2⟩ := BlocksInv.repairWalk_inv blockSize d bm _ _ _ hA h1
      have hB : BlocksInv bm1 ((C ++ d1.refBlocks) ++ (allFilesList ds).flatMap FileMeta.refs) :=
        k1.perm (by
          rw [List.append_assoc, List.append_assoc]
          exact List.Perm.append_left C List.perm_append_comm)
      rw [← k2] at hr
      cases h2 : FileSystem.repairWalks bm1.totalBlocks blockSize bm1 ds with
      | none => rw [h2] at hr; cases hr
      | some r2 =>
        obtain ⟨bm2, ds1⟩ := r2
        rw [h2] at hr
        simp only [Option.some.injEq, Prod.mk.injEq] at hr
        obtain ⟨rfl, rfl⟩ := hr
        obtain ⟨j1, j2⟩ := BlocksInv.repairWalks_inv blockSize ds bm1 _ _ _ hB h2
        rw [refs_allFilesList_cons]
        refine ⟨?_, by rw [j2, k2]⟩
        rw [List.append_assoc] at j1
        exact j1
end

namespace BlockManager

@[simp] theorem markUsedList_totalBlocks (l : List Int) :
    ∀ bm : BlockManager, (l.foldl markBlockUsed bm).totalBlocks = bm.totalBlocks := by
  induction l with
  | nil => intro bm; rfl
  | cons a l ih => intro bm; rw [List.foldl_cons, ih, markBlockUsed_totalBlocks]

@[simp] theorem markUsedList_length (l : List Int) :
    ∀ bm : BlockManager,
      (l.foldl markBlockUsed bm).freeBlockBitmap.length = bm.freeBlockBitmap.length := by
  induction l with
  | nil => intro bm; rfl
  | cons a l ih => intro bm; rw [List.foldl_cons, ih, markBlockUsed_length]

/-- Bit `j` after a list of blocks was marked used. -/
theorem markUsedList_getElem? (l : List Int) :
    ∀ (bm : BlockManager) (j : Nat), (l.foldl markBlockUsed bm).freeBlockBitmap[j]? =
      if (j : Int) ∈ l ∧ j < bm.totalBlocks ∧ j < bm.freeBlockBitmap.length
      then some false else bm.freeBlockBitmap[j]? := by
  induction l with
  | nil => intro bm j; simp
  | cons a l ih =>
    intro bm j
    rw [List.foldl_cons, ih, markBlockUsed_getElem?]
    simp only [markBlockUsed_totalBlocks, markBlockUsed_length, List.mem_cons]
    by_cases hj : j < bm.totalBlocks ∧ j < bm.freeBlockBitmap.length
    · by_cases hl : (j : Int) ∈ l
      · simp [hl, hj]
      · by_cases ha : (j : Int) = a
        · subst ha; simp [hj]
        · have : ¬ (a.toNat = j ∧ 0 ≤ a) := by omega
          have h1 : ¬ (0 ≤ a ∧ a < (bm.totalBlocks : Int) ∧ a.toNat = j ∧
              j < bm.freeBlockBitmap.length) := fun hc => this ⟨hc.2.2.1, hc.1⟩
          simp [hl, ha, h1]
    · have h1 : ¬ (0 ≤ a ∧ a < (bm.totalBlocks : Int) ∧ a.toNat = j ∧
          j < bm.freeBlockBitmap.length) := by omega
      have h2 : ¬ ((j : Int) ∈ l ∧ j < bm.totalBlocks ∧ j < bm.freeBlockBitmap.length) :=
        fun hc => hj hc.2
      have h3 : ¬ (((j : Int) = a ∨ (j : Int) ∈ l) ∧ j < bm.totalBlocks ∧
          j < bm.freeBlockBitmap.length) := fun hc => hj hc.2
      rw [if_neg h2, if_neg h1, if_neg h3]

end BlockManager

namespace FileSystem

/-- After the orphan blocks were freed and the missing blocks marked used, a block other than
block 0 is marked used exactly when the tree references it. -/
theorem fixups_inv {fs : FileSystem} {orphan missing : List Int}
    (hlen : fs.bm.freeBlockBitmap.length = fs.bm.totalBlocks)
    (hnd : fs.root.refBlocks.Nodup)
    (hrange : ∀ b ∈ fs.root.refBlocks, 1 ≤ b ∧ b < (fs.bm.totalBlocks : Int))
    (ho : ∀ i : Int, i ∈ orphan ↔ 1 ≤ i ∧ i < (fs.bm.totalBlocks : Int) ∧
      fs.bm.isBlockFree i = some false ∧ i ∉ fs.root.refBlocks)
    (hm : ∀ r : Int, r ∈ missing ↔ 0 ≤ r ∧ r < (fs.bm.totalBlocks : Int) ∧
      r ∈ fs.root.refBlocks ∧ fs.bm.isBlockFree r = some true) :
    BlocksInv (missing.foldl BlockManager.markBlockUsed (fs.bm.freeBlocks orphan))
      fs.root.refBlocks := by
  refine ⟨by simp [hlen], hnd, fun b hb => by simpa using hrange b hb, ?_⟩
  intro i h1 h2
  simp only [BlockManager.markUsedList_totalBlocks, BlockManager.freeBlocks_totalBlocks] at h2
  have hi : i < fs.bm.freeBlockBitmap.length := by rw [hlen]; exact h2
  rw [BlockManager.markUsedList_getElem?, BlockManager.freeBlocks_getElem?]
  simp only [BlockManager.freeBlocks_totalBlocks, BlockManager.freeBlocks_length, h2, hi,
    and_true]
  have hmi := hm (i : Int)
  have hoi := ho (i : Int)
  rw [isBlockFree_natCast] at hmi hoi
  have hget : fs.bm.freeBlockBitmap[i]? = some fs.bm.freeBlockBitmap[i] :=
    List.getElem?_eq_getElem hi
  by_cases hmem : (i : Int) ∈ missing
  · rw [if_pos hmem]
    simp [(hmi.1 hmem).2.2.1]
  · rw [if_neg hmem]
    by_cases hoem : (i : Int) ∈ orphan
    · rw [if_pos hoem]
      simp [(hoi.1 hoem).2.2.2]
    · rw [if_neg hoem]
      constructor
      · intro hv
        by_contra hR
        exact hoem (hoi.2 ⟨by omega, by omega, hv, hR⟩)
      · intro hR
        cases hv : fs.bm.freeBlockBitmap[i] with
        | true =>
          rw [hv] at hget
          exact absurd (hmi.2 ⟨by omega, by omega, hR, hget⟩) hmem
        | false => rw [hget, hv]

theorem checkMeta_repair_inv {fs fs' : FileSystem} {orphan missing : List Int}
    (hlen : fs.bm.freeBlockBitmap.length = fs.bm.totalBlocks)
    (hnd : fs.root.refBlocks.Nodup)
    (hrange : ∀ b ∈ fs.root.refBlocks, 1 ≤ b ∧ b < (fs.bm.totalBlocks : Int))
    (h : checkMeta fs true = some (orphan, missing, fs')) :
    BlocksInv fs'.bm fs'.root.refBlocks := by
  obtain ⟨used, hs⟩ := checkMeta_report h
  obtain ⟨used', orphan', missing', hs', ho, hm, _, _⟩ := checkScan_spec fs hlen
  rw [hs] at hs'
  simp only [Option.some.injEq, Prod.mk.injEq] at hs'
  obtain ⟨_, rfl, rfl⟩ := hs'
  have hfix := fixups_inv hlen hnd hrange ho hm
  unfold checkMeta at h
  rw [hs] at h
  dsimp only at h
  have e1 : (if (true = true) ∧ orphan ≠ [] then fs.bm.freeBlocks orphan else fs.bm) =
      fs.bm.freeBlocks orphan := by
    by_cases hoe : orphan = []
    · subst hoe; simp [BlockManager.freeBlocks]
    · simp [hoe]
  rw [e1] at h
  have e2 : (if (true = true) ∧ missing ≠ [] then
        missing.foldl BlockManager.markBlockUsed (fs.bm.freeBlocks orphan)
      else fs.bm.freeBlocks orphan) =
      missing.foldl BlockManager.markBlockUsed (fs.bm.freeBlocks orphan) := by
    by_cases hme : missing = []
    · subst hme; simp
    · simp [hme]
  rw [e2] at h
  have ht : (missing.foldl BlockManager.markBlockUsed (fs.bm.freeBlocks orphan)).totalBlocks =
      fs.bm.totalBlocks := by simp
  rw [← ht] at h
  cases hw : repairWalk (missing.foldl BlockManager.markBlockUsed
      (fs.bm.freeBlocks orphan)).totalBlocks fs.bm.blockSize
      (missing.foldl BlockManager.markBlockUsed (fs.bm.freeBlocks orphan)) fs.root with
  | none => rw [hw] at h; cases h
  | some r =>
    obtain ⟨bm3, root1⟩ := r
    rw [hw] at h
    simp only [if_true] at h
    have hinv := (BlocksInv.repairWalk_inv fs.bm.blockSize fs.root _ _ _ []
      (by simpa using hfix) hw).1
    rw [List.nil_append] at hinv
    cases hsave : Directory.saveDirectory { fs with bm := bm3, root := root1 } with
    | none => rw [hsave] at h; cases h
    | some fs1 =>
      rw [hsave] at h
      simp only [Option.some.injEq, Prod.mk.injEq] at h
      obtain ⟨_, _, rfl⟩ := h
      unfold Directory.saveDirectory at hsave
      cases hser : Serializer.saveDirectory bm3 root1 with
      | none => rw [show ({ fs with bm := bm3, root := root1 } : FileSystem).bm = bm3 from rfl,
          show ({ fs with bm := bm3, root := root1 } : FileSystem).root = root1 from rfl,
          hser] at hsave; cases hsave
      | some bm4 =>
        rw [show ({ fs with bm := bm3, root := root1 } : FileSystem).bm = bm3 from rfl,
          show ({ fs with bm := bm3, root := root1 } : FileSystem).root = root1 from rfl,
          hser] at hsave
        simp only [Option.some.injEq] at hsave
        rw [← hsave]
        exact hinv.frame (Serializer.saveDirectory_frame hser)

end FileSystem

namespace FileSystem

/-- A call of `checkMeta` whose report evaluates to `(orphan, missing)` returned that report
and the state it computed. -/
theorem eq_some_of_map_report (o : Option (List Int × List Int × FileSystem))
    (orphan missing : List Int) (dflt : FileSystem)
    (h : o.map (fun r => (r.1, r.2.1)) = some (orphan, missing)) :
    o = some (orphan, missing, (o.map (fun r => r.2.2)).getD dflt) := by
  cases o with
  | none => cases h
  | some r =>
    obtain ⟨a, b, c⟩ := r
    simp only [Option.map_some', Option.some.injEq, Prod.mk.injEq] at h
    obtain ⟨rfl, rfl⟩ := h
    rfl

/-- C20. In a state whose bitmap has `totalBlocks` bits and in which every block referenced
by a record (index block or data block) lies in `[1, total)` and is referenced exactly once:
if `checkMeta(repair = true)` returns, then afterwards a block other than block 0 is marked
used exactly when the tree references it, the classification of the new state has no orphan
and no missing block, and so every following `checkMeta` that returns reports none. -/
theorem checkMeta_repair_restores_agreement (fs fs' : FileSystem) (orphan missing : List Int)
    (hlen : fs.bm.freeBlockBitmap.length = fs.bm.totalBlocks)
    (hnd : fs.root.refBlocks.Nodup)
    (hrange : ∀ b ∈ fs.root.refBlocks, 1 ≤ b ∧ b < (fs.bm.totalBlocks : Int))
    (h : checkMeta fs true = some (orphan, missing, fs')) :
    (∀ i : Int, 1 ≤ i → (fs'.bm.isUsed i ↔ i ∈ fs'.root.refBlocks)) ∧
    (∃ used, checkScan fs' = some (used, [], [])) ∧
    ∀ (repair : Bool) (res : List Int × List Int × FileSystem),
      checkMeta fs' repair = some res → res.1 = [] ∧ res.2.1 = [] := by
  have hinv := checkMeta_repair_inv hlen hnd hrange h
  have hused : ∀ i : Int, 1 ≤ i → (fs'.bm.isUsed i ↔ i ∈ fs'.root.refBlocks) := by
    intro i hi
    rw [BlockManager.isUsed_iff]
    by_cases hlt : i < (fs'.bm.totalBlocks : Int)
    · have := hinv.used_iff i.toNat (by omega) (by omega)
      rw [Int.toNat_of_nonneg (by omega)] at this
      rw [← this]
      constructor
      · intro hc; exact hc.2.2
      · intro hc; exact ⟨by omega, hlt, hc⟩
    · constructor
      · intro hc; exact absurd hc.2.1 hlt
      · intro hc; exact absurd (hinv.range i hc).2 hlt
  obtain ⟨used, orphan', missing', hs, ho, hm, _, _⟩ := checkScan_spec fs' hinv.bitmap_len
  have hoe : orphan' = [] := by
    apply List.eq_nil_iff_forall_not_mem.2
    intro i hi
    obtain ⟨h1, h2, h3, h4⟩ := (ho i).1 hi
    exact h4 ((hused i h1).1 ⟨h2, h3⟩)
  have hme : missing' = [] := by
    apply List.eq_nil_iff_forall_not_mem.2
    intro r hr
    obtain ⟨h1, h2, h3, h4⟩ := (hm r).1 hr
    have h5 := ((hused r (hinv.range r h3).1).2 h3).2
    rw [h4] at h5
    cases h5
  subst hoe hme
  refine ⟨hused, ⟨used, hs⟩, ?_⟩
  intro repair res hres
  obtain ⟨used', hs'⟩ := checkMeta_report hres
  rw [hs] at hs'
  simp only [Option.some.injEq, Prod.mk.injEq] at hs'
  exact ⟨hs'.2.1.symm, hs'.2.2.symm⟩

set_option maxRecDepth 100000 in
set_option synthInstance.maxSize 4096 in
theorem checkMeta_repair_restores_agreement_witness :
    (getFile tamperedState [] "a.txt").map (fun fm => (fm.indexBlock, fm.blocks)) =
      some (1, [2]) ∧
    tamperedState.bm.isBlockFree 2 = some true ∧
    (checkMeta tamperedState false).map (fun r => (r.1, r.2.1)) = some ([], [2]) ∧
    ∃ fs', checkMeta tamperedState true = some ([], [2], fs') ∧
      fs'.bm.isBlockFree 2 = some false ∧
      (∀ i : Int, 1 ≤ i → (fs'.bm.isUsed i ↔ i ∈ fs'.root.refBlocks)) ∧
      ∃ used, checkScan fs' = some (used, [], []) := by
  have h := eq_some_of_map_report (checkMeta tamperedState true) [] [2] tamperedState
    (by decide!)
  have hthm := checkMeta_repair_restores_agreement tamperedState _ [] [2] (by decide!)
    (by decide!) (by decide!) h
  exact ⟨by decide!, by decide!, by decide!, _, h, by decide!, hthm.1, hthm.2.1⟩

end FileSystem

/-! ### Decimal numerals: printing and reading back -/

namespace Serializer

theorem digitChar_spec (d : Nat) (h : d < 10) :
    (Nat.digitChar d).isDigit = true ∧ (Nat.digitChar d).toNat - 48 = d := by
  interval_cases d <;> decide

theorem digitsValue_append (acc : Nat) (l1 l2 : List Char) :
    digitsValue acc (l1 ++ l2) = digitsValue (digitsValue acc l1) l2 := by
  unfold digitsValue
  rw [List.foldl_append]

/-- The digits `Nat.toDigitsCore` puts in front of `ds` are decimal digits whose value is `n`. -/
theorem toDigitsCore_spec : ∀ (fuel n : Nat) (ds : List Char), n < fuel →
    ∃ l, Nat.toDigitsCore 10 fuel n ds = l ++ ds ∧ l ≠ [] ∧ (∀ c ∈ l, c.isDigit = true) ∧
      ∀ acc, digitsValue acc l = acc * 10 ^ l.length + n := by
  intro fuel
  induction fuel with
  | zero => intro n ds h; omega
  | succ fuel ih =>
    intro n ds h
    rw [Nat.toDigitsCore]
    obtain ⟨hd1, hd2⟩ := digitChar_spec (n % 10) (Nat.mod_lt _ (by decide))
    by_cases h0 : n / 10 = 0
    · simp only [h0, if_true]
      refine ⟨[Nat.digitChar (n % 10)], rfl, by simp, ?_, ?_⟩
      · intro c hc; rw [List.mem_singleton] at hc; rw [hc]; exact hd1
      · intro acc
        simp only [digitsValue, List.foldl_cons, List.foldl_nil, hd2, List.length_singleton]
        omega
    · simp only [h0, if_false]
      obtain ⟨l, hl1, hl2, hl3, hl4⟩ := ih (n / 10) (Nat.digitChar (n % 10) :: ds) (by omega)
      refine ⟨l ++ [Nat.digitChar (n % 10)], by rw [hl1]; simp, by simp, ?_, ?_⟩
      · intro c hc
        rcases List.mem_append.1 hc with hc | hc
        · exact hl3 c hc
        · rw [List.mem_singleton] at hc; rw [hc]; exact hd1
      · intro acc
        rw [digitsValue_append, hl4]
        simp only [digitsValue, List.foldl_cons, List.foldl_nil, hd2, List.length_append,
          List.length_singleton, pow_succ]
        have := Nat.div_add_mod n 10
        ring_nf
        ring_nf at this
        omega

theorem toDigits_spec (n : Nat) :
    Nat.toDigits 10 n ≠ [] ∧ (∀ c ∈ Nat.toDigits 10 n, c.isDigit = true) ∧
      digitsValue 0 (Nat.toDigits 10 n) = n := by
  obtain ⟨l, h1, h2, h3, h4⟩ := toDigitsCore_spec (n + 1) n [] (by omega)
  unfold Nat.toDigits
  rw [h1, List.append_nil]
  exact ⟨h2, h3, by rw [h4]; simp⟩

theorem toString_nat_toList (n : Nat) : (toString n).toList = Nat.toDigits 10 n := rfl

theorem toString_int_toList (n : Int) :
    (toString n).toList =
      if 0 ≤ n then Nat.toDigits 10 n.toNat else '-' :: Nat.toDigits 10 (-n).toNat := by
  cases n with
  | ofNat m => simp [toString_nat_toList]; rfl
  | negSucc m =>
    have : ¬ (0 ≤ Int.negSucc m) := by simp [Int.negSucc_lt_zero]
    rw [if_neg this]
    rfl

end Serializer

namespace Serializer

theorem isSpace_eq_false_of_isDigit {c : Char} (h : c.isDigit = true) : isSpace c = false := by
  cases hs : isSpace c with
  | false => rfl
  | true =>
    exfalso
    unfold isSpace at hs
    simp only [Bool.or_eq_true, decide_eq_true_eq] at hs
    rcases hs with ((((hs | hs) | hs) | hs) | hs) | hs <;> (subst hs; revert h; decide)

theorem isDigit_ne_sign {c : Char} (h : c.isDigit = true) : c ≠ '-' ∧ c ≠ '+' := by
  constructor <;> (intro hc; subst hc; revert h; decide)

theorem takeWhile_append_stop (p : Char → Bool) (l rest : List Char)
    (hl : ∀ c ∈ l, p c = true) (hr : ∀ c, rest.head? = some c → p c = false) :
    (l ++ rest).takeWhile p = l ∧ (l ++ rest).dropWhile p = rest := by
  induction l with
  | nil =>
    cases rest with
    | nil => simp
    | cons c rest' =>
      have := hr c rfl
      simp [List.takeWhile, List.dropWhile, this]
  | cons a l ih =>
    have ha := hl a (List.mem_cons_self _ _)
    obtain ⟨h1, h2⟩ := ih (fun c hc => hl c (List.mem_cons_of_mem _ hc))
    simp [List.takeWhile, List.dropWhile, ha, h1, h2]

theorem dropWhile_isSpace_of_head (s : List Char)
    (h : ∀ c, s.head? = some c → isSpace c = false) : s.dropWhile isSpace = s := by
  cases s with
  | nil => rfl
  | cons c s' => simp [List.dropWhile, h c rfl]

theorem parseIntPrefix_digits (ds rest : List Char) (hne : ds ≠ [])
    (hd : ∀ c ∈ ds, c.isDigit = true) (hr : ∀ c, rest.head? = some c → c.isDigit = false) :
    parseIntPrefix (ds ++ rest) = some (((digitsValue 0 ds : Nat) : Int), rest) := by
  obtain ⟨a, ds', rfl⟩ := List.exists_cons_of_ne_nil hne
  have ha := hd a (List.mem_cons_self _ _)
  obtain ⟨h1, h2⟩ := takeWhile_append_stop Char.isDigit (a :: ds') rest hd hr
  unfold parseIntPrefix
  have hsp : ((a :: ds') ++ rest).dropWhile isSpace = (a :: ds') ++ rest :=
    dropWhile_isSpace_of_head _ (fun c hc => by
      simp only [List.cons_append, List.head?_cons, Option.some.injEq] at hc
      rw [← hc]; exact isSpace_eq_false_of_isDigit ha)
  rw [hsp]
  obtain ⟨n1, n2⟩ := isDigit_ne_sign ha
  have hh : ((a :: ds') ++ rest).head? = some a := rfl
  simp only [hh, Option.some.injEq, n1, n2, or_self, if_false, decide_False, h1, h2]
  simp

theorem parseIntPrefix_neg (ds rest : List Char) (hne : ds ≠ [])
    (hd : ∀ c ∈ ds, c.isDigit = true) (hr : ∀ c, rest.head? = some c → c.isDigit = false) :
    parseIntPrefix ('-' :: (ds ++ rest)) = some (-((digitsValue 0 ds : Nat) : Int), rest) := by
  obtain ⟨h1, h2⟩ := takeWhile_append_stop Char.isDigit ds rest hd hr
  unfold parseIntPrefix
  have hsp : ('-' :: (ds ++ rest)).dropWhile isSpace = '-' :: (ds ++ rest) :=
    dropWhile_isSpace_of_head _ (fun c hc => by
      simp only [List.head?_cons, Option.some.injEq] at hc
      rw [← hc]; decide)
  rw [hsp]
  simp only [List.head?_cons, true_or, if_true, List.tail_cons, h1, h2, decide_True]
  simp [hne]

/-- Reading back a printed `int` gives the value and stops at the text that follows. -/
theorem parseIntPrefix_toString (n : Int) (rest : List Char)
    (hr : ∀ c, rest.head? = some c → c.isDigit = false) :
    parseIntPrefix ((toString n).toList ++ rest) = some (n, rest) := by
  rw [toString_int_toList]
  by_cases hn : 0 ≤ n
  · rw [if_pos hn]
    obtain ⟨h1, h2, h3⟩ := toDigits_spec n.toNat
    rw [parseIntPrefix_digits _ rest h1 h2 hr, h3, Int.toNat_of_nonneg hn]
  · rw [if_neg hn]
    obtain ⟨h1, h2, h3⟩ := toDigits_spec (-n).toNat
    rw [List.cons_append, parseIntPrefix_neg _ rest h1 h2 hr, h3,
      Int.toNat_of_nonneg (by omega)]
    simp

theorem parseIntPrefix_space (s : List Char) : parseIntPrefix (' ' :: s) = parseIntPrefix s := by
  unfold parseIntPrefix
  have : (' ' :: s).dropWhile isSpace = s.dropWhile isSpace := by
    simp [List.dropWhile, isSpace]
  rw [this]

end Serializer

namespace Serializer

/-- The date `formatTimestampToString` prints for day number `z`, read back by
`daysFromCivil`, is day `z` again; the month lies in `1..12` and the day is positive. -/
theorem daysFromCivil_civil (z : Int) :
    let era := (z + 719468) / 146097
    let doe := (z + 719468) - era * 146097
    let yoe := (doe - doe / 1460 + doe / 36524 - doe / 146096) / 365
    let doy := doe - (365 * yoe + yoe / 4 - yoe / 100)
    let mp := (5 * doy + 2) / 153
    let d := doy - (153 * mp + 2) / 5 + 1
    let m := if mp < 10 then mp + 3 else mp - 9
    let y := yoe + era * 400 + (if m ≤ 2 then 1 else 0)
    daysFromCivil y m d = z ∧ 1 ≤ m ∧ m ≤ 12 ∧ 1 ≤ d ∧ d ≤ 31 := by
  intro era doe yoe doy mp d m y
  have hdoe : 0 ≤ doe ∧ doe ≤ 146096 := by
    show 0 ≤ (z + 719468) - (z + 719468) / 146097 * 146097 ∧
      (z + 719468) - (z + 719468) / 146097 * 146097 ≤ 146096
    omega
  have hyoe : 0 ≤ yoe ∧ yoe ≤ 399 := by
    show 0 ≤ (doe - doe / 1460 + doe / 36524 - doe / 146096) / 365 ∧
      (doe - doe / 1460 + doe / 36524 - doe / 146096) / 365 ≤ 399
    omega
  have hdoy : 0 ≤ doy ∧ doy ≤ 365 := by
    show 0 ≤ doe - (365 * yoe + yoe / 4 - yoe / 100) ∧
      doe - (365 * yoe + yoe / 4 - yoe / 100) ≤ 365
    have hy : yoe = (doe - doe / 1460 + doe / 36524 - doe / 146096) / 365 := rfl
    have hf : doe / 36524 = 0 ∨ doe / 36524 = 1 ∨ doe / 36524 = 2 ∨ doe / 36524 = 3 ∨
        doe / 36524 = 4 := by omega
    have hd : yoe / 100 = 0 ∨ yoe / 100 = 1 ∨ yoe / 100 = 2 ∨ yoe / 100 = 3 := by omega
    generalize yoe = yy at hy hd hyoe ⊢
    rcases hf with hf | hf | hf | hf | hf <;> rcases hd with hd | hd | hd | hd <;> omega
  have hmp : 0 ≤ mp ∧ mp ≤ 11 := by
    show 0 ≤ (5 * doy + 2) / 153 ∧ (5 * doy + 2) / 153 ≤ 11
    omega
  have hm : m = if mp < 10 then mp + 3 else mp - 9 := rfl
  have hd : d = doy - (153 * mp + 2) / 5 + 1 := rfl
  have hmpdef : mp = (5 * doy + 2) / 153 := rfl
  have hy : y = yoe + era * 400 + (if m ≤ 2 then 1 else 0) := rfl
  have hdoydef : doy = doe - (365 * yoe + yoe / 4 - yoe / 100) := rfl
  have hdoedef : doe = (z + 719468) - era * 146097 := rfl
  generalize era = era' at *
  generalize doe = doe' at *
  generalize yoe = yoe' at *
  generalize doy = doy' at *
  generalize mp = mp' at *
  generalize d = d' at *
  generalize m = m' at *
  generalize y = y' at *
  have hmr : 1 ≤ m' ∧ m' ≤ 12 := by
    rw [hm]; split <;> omega
  have hdr : 1 ≤ d' ∧ d' ≤ 31 := by
    rw [hd, hmpdef]
    omega
  refine ⟨?_, hmr.1, hmr.2, hdr.1, hdr.2⟩
  unfold daysFromCivil
  dsimp only
  by_cases hlt : mp' < 10
  · rw [if_pos hlt] at hm
    have hm2 : ¬ (m' ≤ 2) := by omega
    have hm3 : m' > 2 := by omega
    rw [if_neg hm2] at hy
    rw [if_neg hm2, if_pos hm3]
    have e1 : y' / 400 = era' := by omega
    rw [e1]
    have e2 : y' - era' * 400 = yoe' := by omega
    rw [e2]
    have e3 : m' - 3 = mp' := by omega
    rw [e3]
    omega
  · rw [if_neg hlt] at hm
    have hm2 : m' ≤ 2 := by omega
    have hm3 : ¬ (m' > 2) := by omega
    rw [if_pos hm2] at hy
    rw [if_pos hm2, if_neg hm3]
    have e1 : (y' - 1) / 400 = era' := by omega
    rw [e1]
    have e2 : y' - 1 - era' * 400 = yoe' := by omega
    rw [e2]
    have e3 : m' + 9 = mp' := by omega
    rw [e3]
    omega

end Serializer

namespace Serializer

/-! ### Tokens -/

theorem toString_int_chars (n : Int) :
    (toString n).toList ≠ [] ∧ ∀ c ∈ (toString n).toList, c.isDigit = true ∨ c = '-' := by
  rw [toString_int_toList]
  by_cases hn : 0 ≤ n
  · rw [if_pos hn]
    obtain ⟨h1, h2, _⟩ := toDigits_spec n.toNat
    exact ⟨h1, fun c hc => Or.inl (h2 c hc)⟩
  · rw [if_neg hn]
    obtain ⟨_, h2, _⟩ := toDigits_spec (-n).toNat
    refine ⟨by simp, fun c hc => ?_⟩
    rcases List.mem_cons.1 hc with h | h
    · exact Or.inr h
    · exact Or.inl (h2 c h)

theorem toString_int_noSpace (n : Int) : ∀ c ∈ (toString n).toList, isSpace c = false := by
  intro c hc
  rcases (toString_int_chars n).2 c hc with h | h
  · exact isSpace_eq_false_of_isDigit h
  · subst h; decide

theorem toString_int_head (n : Int) :
    ∃ c l, (toString n).toList = c :: l ∧ (c.isDigit = true ∨ c = '-') := by
  obtain ⟨h1, h2⟩ := toString_int_chars n
  obtain ⟨c, l, h⟩ := List.exists_cons_of_ne_nil h1
  exact ⟨c, l, h, h2 c (by rw [h]; exact List.mem_cons_self _ _)⟩

/-- A token followed by whitespace or by the end of the text is read as it stands. -/
theorem readToken_append (tok rest : List Char) (hne : tok ≠ [])
    (ht : ∀ c ∈ tok, isSpace c = false) (hr : ∀ c, rest.head? = some c → isSpace c = true) :
    readToken (tok ++ rest) = some (tok, rest) := by
  obtain ⟨a, tok', rfl⟩ := List.exists_cons_of_ne_nil hne
  have ha := ht a (List.mem_cons_self _ _)
  obtain ⟨h1, h2⟩ := takeWhile_append_stop (fun c => !isSpace c) (a :: tok') rest
    (fun c hc => by simp [ht c hc]) (fun c hc => by simp [hr c hc])
  unfold readToken
  have hsp : ((a :: tok') ++ rest).dropWhile isSpace = (a :: tok') ++ rest :=
    dropWhile_isSpace_of_head _ (fun c hc => by
      simp only [List.cons_append, List.head?_cons, Option.some.injEq] at hc
      rw [← hc]; exact ha)
  simp only [hsp, h1, h2]
  simp

theorem readToken_space (s : List Char) : readToken (' ' :: s) = readToken s := by
  unfold readToken
  have : (' ' :: s).dropWhile isSpace = s.dropWhile isSpace := by
    simp [List.dropWhile, isSpace]
  rw [this]

/-- A token after one blank, followed by a blank. -/
theorem readToken_word (tok rest : List Char) (hne : tok ≠ [])
    (ht : ∀ c ∈ tok, isSpace c = false) :
    readToken (' ' :: (tok ++ ' ' :: rest)) = some (tok, ' ' :: rest) := by
  rw [readToken_space]
  exact readToken_append tok _ hne ht (fun c hc => by
    simp only [List.head?_cons, Option.some.injEq] at hc
    rw [← hc]; decide)

/-! ### Timestamps -/

theorem pad2_chars (n : Int) (h : 0 ≤ n) :
    pad2 n ≠ [] ∧ (∀ c ∈ pad2 n, c.isDigit = true) ∧ digitsValue 0 (pad2 n) = n.toNat := by
  obtain ⟨h1, h2, h3⟩ := toDigits_spec n.toNat
  unfold pad2
  rw [toString_int_toList, if_pos h]
  by_cases h10 : n < 10
  · rw [if_pos h10]
    refine ⟨by simp, ?_, ?_⟩
    · intro c hc
      rcases List.mem_append.1 hc with hc | hc
      · simp only [List.mem_singleton] at hc; subst hc; decide
      · exact h2 c hc
    · rw [digitsValue_append]
      exact h3
  · rw [if_neg h10]
    exact ⟨by simpa using h1, by simpa using h2, by simpa using h3⟩

theorem parseIntPrefix_pad2 (n : Int) (h : 0 ≤ n) (rest : List Char)
    (hr : ∀ c, rest.head? = some c → c.isDigit = false) :
    parseIntPrefix (pad2 n ++ rest) = some (n, rest) := by
  obtain ⟨h1, h2, h3⟩ := pad2_chars n h
  rw [parseIntPrefix_digits _ rest h1 h2 hr, h3, Int.toNat_of_nonneg h]

theorem scanField_pad2 (n : Int) (h : 0 ≤ n) (sep : Char) (hsep : sep.isDigit = false)
    (rest : List Char) : scanField (pad2 n ++ sep :: rest) (some sep) = some (n, rest) := by
  unfold scanField
  rw [parseIntPrefix_pad2 n h _ (fun c hc => by
    simp only [List.head?_cons, Option.some.injEq] at hc
    rw [← hc]; exact hsep)]
  simp

theorem scanField_toString (n : Int) (sep : Char) (hsep : sep.isDigit = false)
    (rest : List Char) :
    scanField ((toString n).toList ++ sep :: rest) (some sep) = some (n, rest) := by
  unfold scanField
  rw [parseIntPrefix_toString n _ (fun c hc => by
    simp only [List.head?_cons, Option.some.injEq] at hc
    rw [← hc]; exact hsep)]
  simp

theorem scanField_pad2_end (n : Int) (h : 0 ≤ n) : scanField (pad2 n) none = some (n, []) := by
  unfold scanField
  have := parseIntPrefix_pad2 n h [] (fun c hc => by simp at hc)
  rw [List.append_nil] at this
  rw [this]

/-- The shape of a printed timestamp: day, month, year, hour, minute and second, the date
being the one of day number `t / 86400`. -/
theorem formatTimestampToString_eq (t : Int) (ht : t ≠ 0) :
    ∃ d m y : Int, formatTimestampToString t =
        pad2 d ++ '-' :: (pad2 m ++ '-' :: ((toString y).toList ++ '_' ::
          (pad2 (t % 86400 / 3600) ++ ':' :: (pad2 (t % 86400 % 3600 / 60) ++ ':' ::
            pad2 (t % 86400 % 60))))) ∧
      daysFromCivil y m d = t / 86400 ∧ 1 ≤ m ∧ m ≤ 12 ∧ 1 ≤ d := by
  have h := daysFromCivil_civil (t / 86400)
  dsimp only at h
  refine ⟨_, _, _, ?_, h.1, h.2.1, h.2.2.1, h.2.2.2.1⟩
  unfold formatTimestampToString
  rw [if_neg ht]
  simp only [List.append_assoc, List.singleton_append, List.cons_append, List.nil_append]

/-- Reading a printed timestamp back gives the timestamp. -/
theorem parseTimestampFromString_format (t now : Int) :
    parseTimestampFromString (formatTimestampToString t) now = t := by
  by_cases ht : t = 0
  · subst ht
    rfl
  · obtain ⟨d, m, y, hf, hday, hm1, hm2, hd1⟩ := formatTimestampToString_eq t ht
    have hH : 0 ≤ t % 86400 / 3600 := by omega
    have hM : 0 ≤ t % 86400 % 3600 / 60 := by omega
    have hS : 0 ≤ t % 86400 % 60 := by omega
    have hne : formatTimestampToString t ≠ "Not-set".toList := by
      rw [hf]
      obtain ⟨h1, h2, _⟩ := pad2_chars d (by omega)
      obtain ⟨a, l, hl⟩ := List.exists_cons_of_ne_nil h1
      have ha := h2 a (by rw [hl]; exact List.mem_cons_self _ _)
      rw [hl]
      intro hc
      have : a = 'N' := by
        have := congrArg List.head? hc
        simpa using this
      subst this
      revert ha; decide
    unfold parseTimestampFromString
    rw [if_neg hne, hf]
    rw [scanField_pad2 d (by omega) '-' (by decide)]
    dsimp only
    rw [scanField_pad2 m (by omega) '-' (by decide)]
    dsimp only
    rw [scanField_toString y '_' (by decide)]
    dsimp only
    rw [scanField_pad2 _ hH ':' (by decide)]
    dsimp only
    rw [scanField_pad2 _ hM ':' (by decide)]
    dsimp only
    rw [scanField_pad2_end _ hS]
    dsimp only
    unfold mktime
    dsimp only
    have e1 : (m - 1) / 12 = 0 := by omega
    have e2 : (m - 1) % 12 + 1 = m := by omega
    rw [e1, e2, add_zero, hday]
    omega

/-- A printed timestamp is one token. -/
theorem formatTimestampToString_token (t : Int) :
    formatTimestampToString t ≠ [] ∧ ∀ c ∈ formatTimestampToString t, isSpace c = false := by
  by_cases ht : t = 0
  · subst ht
    exact ⟨by decide, by decide⟩
  · obtain ⟨d, m, y, hf, hday, hm1, hm2, hd1⟩ := formatTimestampToString_eq t ht
    have hp : ∀ n : Int, 0 ≤ n → ∀ c ∈ pad2 n, isSpace c = false := fun n hn c hc =>
      isSpace_eq_false_of_isDigit ((pad2_chars n hn).2.1 c hc)
    rw [hf]
    refine ⟨?_, ?_⟩
    · have := (pad2_chars d (by omega)).1
      simp [this]
    · intro c hc
      simp only [List.mem_append, List.mem_cons] at hc
      rcases hc with h | h | h | h | h | h | h | h | h | h | h
      · exact hp _ (by omega) c h
      · subst h; decide
      · exact hp _ (by omega) c h
      · subst h; decide
      · exact toString_int_noSpace y c h
      · subst h; decide
      · exact hp _ (by omega) c h
      · subst h; decide
      · exact hp _ (by omega) c h
      · subst h; decide
      · exact hp _ (by omega) c h

end Serializer

namespace Directory

/-! ### Paths into a tree -/

theorem getDir_setSubdirs :
    ∀ (p : List Nat) (root d : Directory) (sds' : List Directory),
      root.getDir p = some d →
      (root.setSubdirs p sds').getDir p = some (.mk d.name d.permissions d.files sds') := by
  intro p
  induction p with
  | nil =>
    intro root d sds' h
    obtain ⟨n, pm, f, sds⟩ := root
    simp only [getDir, Option.some.injEq] at h
    subst h
    simp [setSubdirs, getDir, name, permissions, files]
  | cons i p ih =>
    intro root d sds' h
    obtain ⟨n, pm, f, sds⟩ := root
    rw [getDir] at h
    cases hc : sds[i]? with
    | none => rw [hc] at h; cases h
    | some c =>
      rw [hc] at h
      obtain ⟨hlt, _⟩ := List.getElem?_eq_some_iff.1 hc
      simp only [setSubdirs, hc, getDir]
      rw [List.getElem?_set_self hlt]
      exact ih c d sds' h

theorem getDir_append :
    ∀ (p q : List Nat) (root : Directory),
      root.getDir (p ++ q) = (root.getDir p).bind (fun d => d.getDir q) := by
  intro p
  induction p with
  | nil => intro q root; cases root; simp [getDir]
  | cons i p ih =>
    intro q root
    obtain ⟨n, pm, f, sds⟩ := root
    simp only [List.cons_append, getDir]
    cases hc : sds[i]? with
    | none => simp
    | some c => exact ih q c

theorem setSubdirs_setSubdirs :
    ∀ (p : List Nat) (root : Directory) (A B : List Directory),
      (root.setSubdirs p A).setSubdirs p B = root.setSubdirs p B := by
  intro p
  induction p with
  | nil => intro root A B; cases root; simp [setSubdirs]
  | cons i p ih =>
    intro root A B
    obtain ⟨n, pm, f, sds⟩ := root
    cases hc : sds[i]? with
    | none => simp [setSubdirs, hc]
    | some c =>
      obtain ⟨hlt, _⟩ := List.getElem?_eq_some_iff.1 hc
      simp only [setSubdirs, hc]
      rw [List.getElem?_set_self hlt]
      simp only [List.set_set, ih]

theorem setFiles_setFiles :
    ∀ (p : List Nat) (root : Directory) (A B : List (String × FileMeta)),
      (root.setFiles p A).setFiles p B = root.setFiles p B := by
  intro p
  induction p with
  | nil => intro root A B; cases root; simp [setFiles]
  | cons i p ih =>
    intro root A B
    obtain ⟨n, pm, f, sds⟩ := root
    cases hc : sds[i]? with
    | none => simp [setFiles, hc]
    | some c =>
      obtain ⟨hlt, _⟩ := List.getElem?_eq_some_iff.1 hc
      simp only [setFiles, hc]
      rw [List.getElem?_set_self hlt]
      simp only [List.set_set, ih]

theorem set_append_last {α : Type} (A : List α) (c c' : α) :
    (A ++ [c]).set A.length c' = A ++ [c'] := by
  induction A with
  | nil => rfl
  | cons a A ih => simp [List.set, ih]

theorem getElem?_append_last {α : Type} (A : List α) (c : α) :
    (A ++ [c])[A.length]? = some c := by
  simp

/-- The child appended to the node at `p` is the node at `p ++ [k]`, `k` the number of
children before. -/
theorem getDir_setSubdirs_child (p : List Nat) (root par c : Directory)
    (h : root.getDir p = some par) :
    (root.setSubdirs p (par.subdirs ++ [c])).getDir (p ++ [par.subdirs.length]) = some c := by
  rw [getDir_append, getDir_setSubdirs p root par _ h]
  simp only [Option.bind, getDir]
  rw [getElem?_append_last]

theorem setSubdirs_child :
    ∀ (p : List Nat) (root : Directory) (A : List Directory) (c : Directory)
      (X : List Directory),
      (root.setSubdirs p (A ++ [c])).setSubdirs (p ++ [A.length]) X =
        root.setSubdirs p (A ++ [c.setSubdirs [] X]) := by
  intro p
  induction p with
  | nil =>
    intro root A c X
    obtain ⟨n, pm, f, sds⟩ := root
    simp only [setSubdirs, List.nil_append]
    rw [getElem?_append_last]
    dsimp only
    rw [set_append_last]
  | cons i p ih =>
    intro root A c X
    obtain ⟨n, pm, f, sds⟩ := root
    cases hc : sds[i]? with
    | none => simp [setSubdirs, hc]
    | some ch =>
      obtain ⟨hlt, _⟩ := List.getElem?_eq_some_iff.1 hc
      simp only [setSubdirs, hc, List.cons_append]
      rw [List.getElem?_set_self hlt]
      simp only [List.set_set, ih]

theorem setFiles_child :
    ∀ (p : List Nat) (root : Directory) (A : List Directory) (c : Directory)
      (Y : List (String × FileMeta)),
      (root.setSubdirs p (A ++ [c])).setFiles (p ++ [A.length]) Y =
        root.setSubdirs p (A ++ [c.setFiles [] Y]) := by
  intro p
  induction p with
  | nil =>
    intro root A c Y
    obtain ⟨n, pm, f, sds⟩ := root
    simp only [setSubdirs, setFiles, List.nil_append]
    rw [getElem?_append_last]
    dsimp only
    rw [set_append_last]
  | cons i p ih =>
    intro root A c Y
    obtain ⟨n, pm, f, sds⟩ := root
    cases hc : sds[i]? with
    | none => simp [setSubdirs, setFiles, hc]
    | some ch =>
      obtain ⟨hlt, _⟩ := List.getElem?_eq_some_iff.1 hc
      simp only [setSubdirs, setFiles, hc, List.cons_append]
      rw [List.getElem?_set_self hlt]
      simp only [List.set_set, ih]

end Directory

/-! ### Rebuilding a `files` map by insertion -/

theorem mapInsert_last (m : List (String × FileMeta)) (k : String) (v : FileMeta)
    (h : ∀ e ∈ m, e.1.data < k.data) : mapInsert m k v = m ++ [(k, v)] := by
  induction m with
  | nil => rfl
  | cons a m ih =>
    obtain ⟨k', v'⟩ := a
    have hlt : k'.data < k.data := h (k', v') (List.mem_cons_self _ _)
    have hne : k' ≠ k := by
      intro e; subst e; exact lt_irrefl _ hlt
    have hnl : ¬ k.data < k'.data := fun h' => lt_asymm hlt h'
    simp only [mapInsert, if_neg hne, if_neg hnl, List.cons_append]
    rw [ih (fun e he => h e (List.mem_cons_of_mem _ he))]

/-- Inserting the entries of a key-ordered map one after the other, each under the name it
carries, rebuilds the map. -/
theorem foldl_mapInsert (l m : List (String × FileMeta))
    (hkey : ∀ e ∈ l, e.1 = e.2.filename)
    (hsorted : (m ++ l).Pairwise (fun a b => a.1.data < b.1.data)) :
    l.foldl (fun acc e => mapInsert acc e.2.filename e.2) m = m ++ l := by
  induction l generalizing m with
  | nil => simp
  | cons e l ih =>
    have hk : e.1 = e.2.filename := hkey e (List.mem_cons_self _ _)
    have hlast : mapInsert m e.2.filename e.2 = m ++ [e] := by
      rw [mapInsert_last m _ _ (fun x hx => by
        rw [← hk]
        exact (List.pairwise_append.1 hsorted).2.2 x hx e (List.mem_cons_self _ _))]
      rw [← hk]
    rw [List.foldl_cons, hlast, ih (m ++ [e]) (fun x hx => hkey x (List.mem_cons_of_mem _ hx))
      (by simpa using hsorted)]
    simp

namespace Serializer

/-! ### The lines of a snapshot -/

theorem getLines_line (l rest : List Char) (hl : ∀ c ∈ l, c ≠ '\n') :
    ∀ cur, getLines (l ++ '\n' :: rest) cur = (cur ++ l) :: getLines rest [] := by
  induction l with
  | nil => intro cur; simp [getLines]
  | cons a l ih =>
    intro cur
    have ha : a ≠ '\n' := hl a (List.mem_cons_self _ _)
    rw [List.cons_append, getLines, if_neg ha, ih (fun c hc => hl c (List.mem_cons_of_mem _ hc))]
    simp

theorem loadLines_line (now : Int) (l rest : List Char) (hl : ∀ c ∈ l, c ≠ '\n')
    (st : LoadState) :
    loadLines now (getLines (l ++ '\n' :: rest) []) st =
      (loadLine st l now).bind (fun st1 => loadLines now (getLines rest []) st1) := by
  rw [getLines_line l rest hl, List.nil_append, loadLines]
  cases loadLine st l now <;> rfl

theorem dropWhile_indent (n : Nat) (c : Char) (s : List Char) (hc : c ≠ ' ') :
    (List.replicate n ' ' ++ c :: s).dropWhile (fun c => decide (c = ' ')) = c :: s := by
  induction n with
  | zero => simp [List.dropWhile, hc]
  | succ n ih => simp [List.replicate_succ, List.dropWhile, ih]

theorem ne_newline_of_noSpace {c : Char} (h : isSpace c = false) : c ≠ '\n' := by
  intro hc; subst hc; revert h; decide

theorem stoi_toString (n : Int) (h : isInt32 n) : stoi (toString n).toList = some n := by
  unfold stoi
  have := parseIntPrefix_toString n [] (fun c hc => by simp at hc)
  rw [List.append_nil] at this
  rw [this]
  have h1 : ¬ (n > 2147483647 ∨ n < -2147483648) := by unfold isInt32 at h; omega
  simp only [if_neg h1]

theorem readInt_toString (n : Int) (h : isInt32 n) (rest : List Char)
    (hr : ∀ c, rest.head? = some c → c.isDigit = false) (old : Int) :
    readInt (some (' ' :: ((toString n).toList ++ rest))) old = (n, some rest) := by
  unfold readInt
  simp only [parseIntPrefix_space, parseIntPrefix_toString n rest hr]
  have h1 : ¬ n > 2147483647 := by unfold isInt32 at h; omega
  have h2 : ¬ n < -2147483648 := by unfold isInt32 at h; omega
  simp only [if_neg h1, if_neg h2]

theorem readInt_toString_end (n : Int) (h : isInt32 n) (old : Int) :
    readInt (some (' ' :: (toString n).toList)) old = (n, some []) := by
  have := readInt_toString n h [] (fun c hc => by simp at hc) old
  rwa [List.append_nil] at this

theorem parseDirLine_written (name : String) (perm : Int) (hname : validName name)
    (hperm : isInt32 perm) :
    parseDirLine (' ' :: (name.toList ++ ' ' :: 'p' :: 'e' :: 'r' :: 'm' :: ' ' ::
      (toString perm).toList)) = (name.toList, perm) := by
  unfold parseDirLine
  rw [readToken_word name.toList _ hname.1 hname.2]
  have h2 : readToken (' ' :: 'p' :: 'e' :: 'r' :: 'm' :: ' ' :: (toString perm).toList) =
      some ("perm".toList, ' ' :: (toString perm).toList) :=
    readToken_word ['p', 'e', 'r', 'm'] _ (by decide) (by decide)
  simp only [h2]
  rw [if_pos trivial, readInt_toString_end perm hperm]

/-- The `DIR` line of a node creates the node (under the top of the stack, or as the root)
and pushes it. -/
theorem loadLine_dir (st : LoadState) (name : String) (perm : Int) (indent : Nat) (now : Int)
    (hname : validName name) (hperm : isInt32 perm) :
    loadLine st (List.replicate indent ' ' ++ "DIR ".toList ++ name.toList ++ " perm ".toList ++
        (toString perm).toList) now =
      match st.stack.getLast?, st.root with
      | some p, some root =>
        match root.getDir p with
        | none => none
        | some parent =>
          some { st with
            root := some (root.setSubdirs p (parent.subdirs ++ [.mk name perm [] []]))
            stack := st.stack ++ [p ++ [parent.subdirs.length]] }
      | some _, none => none
      | none, _ => some { st with root := some (.mk name perm [] []), stack := st.stack ++ [[]] } := by
  have hline : List.replicate indent ' ' ++ "DIR ".toList ++ name.toList ++ " perm ".toList ++
      (toString perm).toList = List.replicate indent ' ' ++ 'D' :: ('I' :: 'R' :: ' ' ::
        (name.toList ++ ' ' :: 'p' :: 'e' :: 'r' :: 'm' :: ' ' :: (toString perm).toList)) := by
    simp only [List.append_assoc]
    rfl
  rw [hline]
  unfold loadLine
  have hne : List.replicate indent ' ' ++ 'D' :: ('I' :: 'R' :: ' ' ::
        (name.toList ++ ' ' :: 'p' :: 'e' :: 'r' :: 'm' :: ' ' :: (toString perm).toList)) ≠ [] := by
    simp
  rw [if_neg hne, dropWhile_indent _ _ _ (by decide)]
  have htok : readToken ('D' :: ('I' :: 'R' :: ' ' ::
        (name.toList ++ ' ' :: 'p' :: 'e' :: 'r' :: 'm' :: ' ' :: (toString perm).toList))) =
      some ("DIR".toList, ' ' :: (name.toList ++ ' ' :: 'p' :: 'e' :: 'r' :: 'm' :: ' ' ::
        (toString perm).toList)) :=
    readToken_append ['D', 'I', 'R'] _ (by decide) (by decide) (fun c hc => by
      simp only [List.head?_cons, Option.some.injEq] at hc
      rw [← hc]; decide)
  simp only [htok]
  rw [if_pos trivial, parseDirLine_written name perm hname hperm]
  rfl

theorem dirLine_noNewline (name : String) (perm : Int) (indent : Nat) (hname : validName name) :
    ∀ c ∈ List.replicate indent ' ' ++ "DIR ".toList ++ name.toList ++ " perm ".toList ++
        (toString perm).toList, c ≠ '\n' := by
  intro c hc
  simp only [List.mem_append] at hc
  rcases hc with (((hc | hc) | hc) | hc) | hc
  · rw [(List.mem_replicate.1 hc).2]; decide
  · revert c; decide
  · exact ne_newline_of_noSpace (hname.2 c hc)
  · revert c; decide
  · exact ne_newline_of_noSpace (toString_int_noSpace perm c hc)

/-- The `END_DIR` line pops the stack. -/
theorem loadLine_endDir (st : LoadState) (indent : Nat) (now : Int) :
    loadLine st (List.replicate indent ' ' ++ "END_DIR".toList) now =
      some { st with stack := st.stack.dropLast } := by
  have hline : List.replicate indent ' ' ++ "END_DIR".toList =
      List.replicate indent ' ' ++ 'E' :: ['N', 'D', '_', 'D', 'I', 'R'] := rfl
  rw [hline]
  unfold loadLine
  have hne : List.replicate indent ' ' ++ 'E' :: ['N', 'D', '_', 'D', 'I', 'R'] ≠ [] := by simp
  rw [if_neg hne, dropWhile_indent _ _ _ (by decide)]
  have htok : readToken ('E' :: ['N', 'D', '_', 'D', 'I', 'R']) = some ("END_DIR".toList, []) := by
    decide
  simp only [htok]
  rw [if_neg (by decide), if_pos trivial]

theorem endDir_noNewline (indent : Nat) :
    ∀ c ∈ List.replicate indent ' ' ++ "END_DIR".toList, c ≠ '\n' := by
  intro c hc
  simp only [List.mem_append] at hc
  rcases hc with hc | hc
  · rw [(List.mem_replicate.1 hc).2]; decide
  · revert c; decide

end Serializer

namespace Serializer

theorem length_le_flatMap {α β : Type} (l : List α) (f : α → List β) (h : ∀ a ∈ l, f a ≠ []) :
    l.length ≤ (l.flatMap f).length := by
  induction l with
  | nil => simp
  | cons a l ih =>
    have h1 : 0 < (f a).length := List.length_pos.2 (h a (List.mem_cons_self _ _))
    have h2 := ih (fun x hx => h x (List.mem_cons_of_mem _ hx))
    simp only [List.flatMap_cons, List.length_append, List.length_cons]
    omega

/-- The loop over the block tokens of a `FILE` line reads the printed blocks up to `|`. -/
theorem readBlocks_written (rest : List Char) :
    ∀ (blocks : List Int), (∀ b ∈ blocks, isInt32 b) → ∀ fuel, blocks.length < fuel →
      readBlocks fuel (' ' :: (blocks.flatMap (fun blk => (toString blk).toList ++ [' ']) ++
        '|' :: ' ' :: rest)) = some (blocks, some (' ' :: rest)) := by
  intro blocks
  induction blocks with
  | nil =>
    intro _ fuel hf
    obtain ⟨f, rfl⟩ : ∃ f, fuel = f + 1 := ⟨fuel - 1, by simp at hf; omega⟩
    have htok : readToken (' ' :: '|' :: ' ' :: rest) = some (['|'], ' ' :: rest) :=
      readToken_word ['|'] rest (by decide) (by decide)
    simp only [List.flatMap_nil, List.nil_append, readBlocks, htok]
    rfl
  | cons b bs ih =>
    intro hb fuel hf
    obtain ⟨f, rfl⟩ : ∃ f, fuel = f + 1 := ⟨fuel - 1, by simp at hf; omega⟩
    have hb1 := hb b (List.mem_cons_self _ _)
    obtain ⟨h1, _⟩ := toString_int_chars b
    have htok : readToken (' ' :: ((b :: bs).flatMap (fun blk => (toString blk).toList ++ [' ']) ++
        '|' :: ' ' :: rest)) = some ((toString b).toList,
          ' ' :: (bs.flatMap (fun blk => (toString blk).toList ++ [' ']) ++ '|' :: ' ' :: rest)) := by
      have := readToken_word (toString b).toList
        (bs.flatMap (fun blk => (toString blk).toList ++ [' ']) ++ '|' :: ' ' :: rest) h1
        (toString_int_noSpace b)
      simpa [List.flatMap_cons, List.append_assoc] using this
    have hne : (toString b).toList ≠ ['|'] := by
      obtain ⟨c, l, hc, hd⟩ := toString_int_head b
      rw [hc]
      intro e
      have : c = '|' := by
        have := congrArg List.head? e
        simpa using this
      subst this
      rcases hd with hd | hd <;> revert hd <;> decide
    rw [readBlocks, htok]
    simp only [if_neg hne, stoi_toString b hb1,
      ih (fun x hx => hb x (List.mem_cons_of_mem _ hx)) f (by simp at hf; omega)]

theorem fileLine_dropLast (fm : FileMeta) (indent : Nat) :
    fileLine fm indent = (List.replicate indent ' ' ++ 'F' :: ('I' :: 'L' :: 'E' :: ' ' ::
      (fm.filename.toList ++ ' ' :: ((toString fm.fileSize).toList ++ ' ' ::
        ((toString fm.indexBlock).toList ++ ' ' ::
          (fm.blocks.flatMap (fun blk => (toString blk).toList ++ [' ']) ++ '|' :: ' ' ::
            (formatTimestampToString fm.createdAt ++ ' ' ::
              (formatTimestampToString fm.modifiedAt ++ ' ' :: 'p' :: 'e' :: 'r' :: 'm' :: ' ' ::
                (toString fm.permissions).toList)))))))) ++ ['\n'] := by
  have e1 : "FILE ".toList = ['F', 'I', 'L', 'E', ' '] := rfl
  have e2 : "| ".toList = ['|', ' '] := rfl
  have e3 : " perm ".toList = [' ', 'p', 'e', 'r', 'm', ' '] := rfl
  unfold fileLine fileFields
  simp only [e1, e2, e3, List.append_assoc, List.cons_append, List.nil_append,
    List.singleton_append]

/-- The text of a `FILE` line after the token `FILE` describes the record it was printed
from. -/
theorem parseFileLine_written (fm : FileMeta) (now : Int) (hok : FileOk (fm.filename, fm)) :
    parseFileLine (' ' ::
      (fm.filename.toList ++ ' ' :: ((toString fm.fileSize).toList ++ ' ' ::
        ((toString fm.indexBlock).toList ++ ' ' ::
          (fm.blocks.flatMap (fun blk => (toString blk).toList ++ [' ']) ++ '|' :: ' ' ::
            (formatTimestampToString fm.createdAt ++ ' ' ::
              (formatTimestampToString fm.modifiedAt ++ ' ' :: 'p' :: 'e' :: 'r' :: 'm' :: ' ' ::
                (toString fm.permissions).toList))))))) now = some fm := by
  obtain ⟨_, hname, hsize, hidx, hblocks, hperm, _, _⟩ := hok
  dsimp only at hname hsize hidx hblocks hperm
  have hsp : ∀ (s : List Char) (c : Char), (' ' :: s).head? = some c → c.isDigit = false := by
    intro s c hc
    simp only [List.head?_cons, Option.some.injEq] at hc
    rw [← hc]; decide
  unfold parseFileLine
  rw [readToken_word fm.filename.toList _ hname.1 hname.2]
  simp only [readInt_toString fm.fileSize hsize _ (hsp _),
    readInt_toString fm.indexBlock hidx _ (hsp _)]
  have hlen : fm.blocks.length < (' ' :: (fm.blocks.flatMap
      (fun blk => (toString blk).toList ++ [' ']) ++ '|' :: ' ' ::
        (formatTimestampToString fm.createdAt ++ ' ' ::
          (formatTimestampToString fm.modifiedAt ++ ' ' :: 'p' :: 'e' :: 'r' :: 'm' :: ' ' ::
            (toString fm.permissions).toList)))).length + 1 := by
    have := length_le_flatMap fm.blocks (fun blk => (toString blk).toList ++ [' '])
      (fun a _ => by simp)
    simp only [List.length_cons, List.length_append]
    omega
  rw [readBlocks_written _ fm.blocks hblocks _ hlen]
  obtain ⟨hc1, hc2⟩ := formatTimestampToString_token fm.createdAt
  obtain ⟨hm1, hm2⟩ := formatTimestampToString_token fm.modifiedAt
  have hperm' : readToken (' ' :: 'p' :: 'e' :: 'r' :: 'm' :: ' ' ::
      (toString fm.permissions).toList) = some ("perm".toList, ' ' :: (toString fm.permissions).toList) :=
    readToken_word ['p', 'e', 'r', 'm'] _ (by decide) (by decide)
  simp only [Option.bind, readToken_word _ _ hc1 hc2, readToken_word _ _ hm1 hm2, hperm',
    parseTimestampFromString_format]
  rw [if_pos trivial, readInt_toString_end fm.permissions ⟨by omega, by omega⟩]
  have e : fm.permissions % 8 = fm.permissions := by omega
  simp only [e]
  rfl

theorem fileLine_noNewline (fm : FileMeta) (indent : Nat) (hok : FileOk (fm.filename, fm)) :
    ∀ c ∈ (List.replicate indent ' ' ++ 'F' :: ('I' :: 'L' :: 'E' :: ' ' ::
      (fm.filename.toList ++ ' ' :: ((toString fm.fileSize).toList ++ ' ' ::
        ((toString fm.indexBlock).toList ++ ' ' ::
          (fm.blocks.flatMap (fun blk => (toString blk).toList ++ [' ']) ++ '|' :: ' ' ::
            (formatTimestampToString fm.createdAt ++ ' ' ::
              (formatTimestampToString fm.modifiedAt ++ ' ' :: 'p' :: 'e' :: 'r' :: 'm' :: ' ' ::
                (toString fm.permissions).toList)))))))), c ≠ '\n' := by
  obtain ⟨_, hname, _⟩ := hok
  dsimp only at hname
  have hi := fun n : Int => toString_int_noSpace n
  simp only [List.forall_mem_append, List.forall_mem_cons]
  and_intros
  all_goals first
    | decide
    | exact fun c h => by rw [(List.mem_replicate.1 h).2]; decide
    | exact fun c h => ne_newline_of_noSpace (hname.2 c h)
    | exact fun c h => ne_newline_of_noSpace (hi _ c h)
    | exact fun c h => ne_newline_of_noSpace ((formatTimestampToString_token _).2 c h)
    | (intro c h
       obtain ⟨b, _, h⟩ := List.mem_flatMap.1 h
       rcases List.mem_append.1 h with h | h
       · exact ne_newline_of_noSpace (hi _ c h)
       · rw [List.mem_singleton.1 h]; decide)

end Serializer

namespace Directory

theorem set_getElem?_self {α : Type} (l : List α) (i : Nat) (c : α) (h : l[i]? = some c) :
    l.set i c = l := by
  apply List.ext_getElem?
  intro j
  by_cases hj : i = j
  · subst hj
    obtain ⟨hlt, _⟩ := List.getElem?_eq_some_iff.1 h
    rw [List.getElem?_set_self hlt, h]
  · rw [List.getElem?_set_ne hj]

theorem setFiles_self :
    ∀ (p : List Nat) (root d : Directory), root.getDir p = some d →
      root.setFiles p d.files = root := by
  intro p
  induction p with
  | nil =>
    intro root d h
    obtain ⟨n, pm, f, sds⟩ := root
    simp only [getDir, Option.some.injEq] at h
    subst h
    rfl
  | cons i p ih =>
    intro root d h
    obtain ⟨n, pm, f, sds⟩ := root
    rw [getDir] at h
    cases hc : sds[i]? with
    | none => rw [hc] at h; cases h
    | some c =>
      rw [hc] at h
      simp only [setFiles, hc]
      rw [ih c d h, set_getElem?_self sds i c hc]

theorem setSubdirs_self :
    ∀ (p : List Nat) (root d : Directory), root.getDir p = some d →
      root.setSubdirs p d.subdirs = root := by
  intro p
  induction p with
  | nil =>
    intro root d h
    obtain ⟨n, pm, f, sds⟩ := root
    simp only [getDir, Option.some.injEq] at h
    subst h
    rfl
  | cons i p ih =>
    intro root d h
    obtain ⟨n, pm, f, sds⟩ := root
    rw [getDir] at h
    cases hc : sds[i]? with
    | none => rw [hc] at h; cases h
    | some c =>
      rw [hc] at h
      simp only [setSubdirs, hc]
      rw [ih c d h, set_getElem?_self sds i c hc]

end Directory

namespace Serializer

theorem writeIndexBlock_blockSize {bm bm' : BlockManager} {fm : FileMeta}
    (h : writeIndexBlock bm fm = some bm') : bm'.blockSize = bm.blockSize :=
  (writeIndexBlock_frame h).blockSize_eq

/-- A `FILE` line stores the record it was printed from in the directory on top of the
stack and rewrites the record's index block. -/
theorem loadLine_file (st : LoadState) (fm : FileMeta) (indent : Nat) (now : Int)
    (hok : FileOk (fm.filename, fm)) (l : List Char) (hl : fileLine fm indent = l ++ ['\n']) :
    (∀ c ∈ l, c ≠ '\n') ∧
    loadLine st l now =
      match st.stack.getLast?, st.root with
      | some p, some root =>
        match root.getDir p with
        | none => none
        | some cur =>
          match writeIndexBlock st.bm fm with
          | none => none
          | some bm1 =>
            some { st with
              bm := bm1
              root := some (root.setFiles p (mapInsert cur.files fm.filename fm)) }
      | some _, none => none
      | none, _ => some st := by
  rw [fileLine_dropLast] at hl
  have hl' := List.append_cancel_right hl
  subst hl'
  refine ⟨fileLine_noNewline fm indent hok, ?_⟩
  unfold loadLine
  rw [if_neg (by simp), dropWhile_indent _ _ _ (by decide)]
  have htok : ∀ s : List Char, readToken ('F' :: ('I' :: 'L' :: 'E' :: ' ' :: s)) =
      some ("FILE".toList, ' ' :: s) := fun s =>
    readToken_append ['F', 'I', 'L', 'E'] _ (by decide) (by decide) (fun c hc => by
      simp only [List.head?_cons, Option.some.injEq] at hc
      rw [← hc]; decide)
  simp only [htok]
  have hp := parseFileLine_written fm now hok
  rw [if_neg (by decide), if_neg (by decide), if_pos trivial]
  simp only [hp]

/-- The `FILE` lines of a `files` map, read in order, insert every record into the directory
on top of the stack. -/
theorem loadLines_files (now : Int) (indent : Nat) (rest : List Char) (stk : List (List Nat))
    (q : List Nat) :
    ∀ (fl : List (String × FileMeta)), (∀ e ∈ fl, FileOk e) →
      ∀ (bm : BlockManager) (R cur : Directory), R.getDir q = some cur →
        (∀ e ∈ fl, 4 + 4 * e.2.blocks.length ≤ bm.blockSize) →
        ∃ bm', bm'.blockSize = bm.blockSize ∧
          loadLines now (getLines (fl.flatMap (fun p => fileLine p.2 indent) ++ rest) [])
              { bm := bm, root := some R, stack := stk ++ [q] } =
            loadLines now (getLines rest [])
              { bm := bm', root := some (R.setFiles q
                  (fl.foldl (fun acc e => mapInsert acc e.2.filename e.2) cur.files)),
                stack := stk ++ [q] } := by
  intro fl
  induction fl with
  | nil =>
    intro _ bm R cur hget _
    refine ⟨bm, rfl, ?_⟩
    simp only [List.flatMap_nil, List.nil_append, List.foldl_nil]
    rw [Directory.setFiles_self q R cur hget]
  | cons e fl ih =>
    intro hok bm R cur hget hcap
    have hok1 := hok e (List.mem_cons_self _ _)
    have hok1' : FileOk (e.2.filename, e.2) := by
      have hk : e.1 = e.2.filename := hok1.1
      have : e = (e.2.filename, e.2) := by rw [← hk]
      rw [← this]; exact hok1
    have hcap1 := hcap e (List.mem_cons_self _ _)
    obtain ⟨l, hl⟩ : ∃ l, fileLine e.2 indent = l ++ ['\n'] := ⟨_, fileLine_dropLast e.2 indent⟩
    obtain ⟨hnl, hline⟩ := loadLine_file { bm := bm, root := some R, stack := stk ++ [q] } e.2
      indent now hok1' l hl
    obtain ⟨bm1, hbm1⟩ : ∃ bm1, writeIndexBlock bm e.2 = some bm1 := by
      have := writeIndexBlock_isSome bm e.2
      rw [decide_eq_true hcap1] at this
      exact Option.isSome_iff_exists.1 this
    have hbs1 := writeIndexBlock_blockSize hbm1
    have hlast : (stk ++ [q]).getLast? = some q := by simp
    simp only [hlast, hget, hbm1] at hline
    have hget1 := Directory.getDir_setFiles q R cur (mapInsert cur.files e.2.filename e.2) hget
    obtain ⟨bm', hbs, h⟩ := ih (fun x hx => hok x (List.mem_cons_of_mem _ hx)) bm1
      (R.setFiles q (mapInsert cur.files e.2.filename e.2)) _ hget1
      (fun x hx => by rw [hbs1]; exact hcap x (List.mem_cons_of_mem _ hx))
    refine ⟨bm', by rw [hbs, hbs1], ?_⟩
    rw [List.flatMap_cons, hl, List.append_assoc, List.append_assoc, List.singleton_append,
      loadLines_line now l _ hnl, hline]
    simp only [Option.bind]
    rw [h, Directory.setFiles_setFiles, List.foldl_cons]
    rfl

end Serializer

namespace Serializer

/-! ### Reading a printed tree -/

theorem writeDir_append (name : String) (perm : Int) (files : List (String × FileMeta))
    (subdirs : List Directory) (indent : Nat) (rest : List Char) :
    writeDir (.mk name perm files subdirs) indent ++ rest =
      (List.replicate indent ' ' ++ "DIR ".toList ++ name.toList ++ " perm ".toList ++
          (toString perm).toList) ++ '\n' ::
        (writeDirs subdirs (indent + 2) ++
          (files.flatMap (fun p => fileLine p.2 (indent + 2)) ++
            ((List.replicate indent ' ' ++ "END_DIR".toList) ++ '\n' :: rest))) := by
  have e : "END_DIR\n".toList = "END_DIR".toList ++ ['\n'] := rfl
  rw [writeDir, e]
  simp only [List.append_assoc, List.singleton_append, List.cons_append, List.nil_append]

/-- The lines of a node after its `DIR` line: the children are appended, the files
inserted, and `END_DIR` pops the node. -/
theorem loadLines_body (now : Int) (name : String) (perm : Int)
    (files : List (String × FileMeta)) (subdirs : List Directory) (indent : Nat)
    (rest : List Char) (bm : BlockManager) (R : Directory) (stk : List (List Nat)) (q : List Nat)
    (hfiles : ∀ e ∈ files, FileOk e) (hsorted : keysAscending files)
    (hcap : ∀ e ∈ files, 4 + 4 * e.2.blocks.length ≤ bm.blockSize)
    (hget : R.getDir q = some (.mk name perm [] []))
    (hdirs : ∀ (rest1 : List Char) (R1 cur : Directory), R1.getDir q = some cur →
      ∃ bm1, bm1.blockSize = bm.blockSize ∧
        loadLines now (getLines (writeDirs subdirs (indent + 2) ++ rest1) [])
            { bm := bm, root := some R1, stack := stk ++ [q] } =
          loadLines now (getLines rest1 [])
            { bm := bm1, root := some (R1.setSubdirs q (cur.subdirs ++ subdirs)),
              stack := stk ++ [q] }) :
    ∃ bm1, bm1.blockSize = bm.blockSize ∧
      loadLines now (getLines (writeDirs subdirs (indent + 2) ++
          (files.flatMap (fun p => fileLine p.2 (indent + 2)) ++
            ((List.replicate indent ' ' ++ "END_DIR".toList) ++ '\n' :: rest))) [])
          { bm := bm, root := some R, stack := stk ++ [q] } =
        loadLines now (getLines rest [])
          { bm := bm1, root := some ((R.setSubdirs q subdirs).setFiles q files), stack := stk } := by
  obtain ⟨bm1, hbs1, h1⟩ := hdirs _ R _ hget
  have hget2 := Directory.getDir_setSubdirs q R _ subdirs hget
  obtain ⟨bm2, hbs2, h2⟩ := loadLines_files now (indent + 2)
    ((List.replicate indent ' ' ++ "END_DIR".toList) ++ '\n' :: rest) stk q files hfiles bm1
    (R.setSubdirs q subdirs) _ hget2 (fun e he => by rw [hbs1]; exact hcap e he)
  refine ⟨bm2, by rw [hbs2, hbs1], ?_⟩
  rw [h1]
  simp only [Directory.subdirs, List.nil_append]
  rw [h2, loadLines_line now _ rest (endDir_noNewline indent), loadLine_endDir]
  simp only [Option.bind, Directory.files, Directory.name, Directory.permissions]
  rw [foldl_mapInsert files [] (fun e he => (hfiles e he).1) (by simpa using hsorted)]
  simp

mutual
/-- The printed text of a directory, read under a parent, appends the directory to the
parent's children. -/
theorem loadLines_writeDir (now : Int) :
    ∀ (d : Directory) (indent : Nat) (rest : List Char) (bm : BlockManager) (R : Directory)
      (stk : List (List Nat)) (p : List Nat) (par : Directory),
      d.SnapshotOk → (∀ fm ∈ d.allFiles, 4 + 4 * fm.blocks.length ≤ bm.blockSize) →
      R.getDir p = some par →
      ∃ bm1, bm1.blockSize = bm.blockSize ∧
        loadLines now (getLines (writeDir d indent ++ rest) [])
            { bm := bm, root := some R, stack := stk ++ [p] } =
          loadLines now (getLines rest [])
            { bm := bm1, root := some (R.setSubdirs p (par.subdirs ++ [d])),
              stack := stk ++ [p] }
  | .mk name perm files subdirs, indent, rest, bm, R, stk, p, par, hok, hcap, hget => by
    rw [Directory.SnapshotOk] at hok
    obtain ⟨hname, hperm, hfiles, hsorted, hsub⟩ := hok
    rw [allFiles_mk] at hcap
    have hcapf : ∀ e ∈ files, 4 + 4 * e.2.blocks.length ≤ bm.blockSize := fun e he =>
      hcap e.2 (List.mem_append_right _ (List.mem_map_of_mem _ he))
    have hcaps : ∀ fm ∈ allFilesList subdirs, 4 + 4 * fm.blocks.length ≤ bm.blockSize :=
      fun fm hfm => hcap fm (List.mem_append_left _ (by rwa [← allFilesList_eq_flatMap]))
    have hlast : (stk ++ [p]).getLast? = some p := by simp
    have hline := loadLine_dir { bm := bm, root := some R, stack := stk ++ [p] } name perm indent
      now hname ⟨by omega, by omega⟩
    simp only [hlast, hget] at hline
    obtain ⟨bm1, hbs1, h1⟩ := loadLines_body now name perm files subdirs indent rest bm
      (R.setSubdirs p (par.subdirs ++ [.mk name perm [] []])) (stk ++ [p])
      (p ++ [par.subdirs.length]) hfiles hsorted hcapf
      (Directory.getDir_setSubdirs_child p R par _ hget)
      (fun rest1 R1 cur hg => loadLines_writeDirs now subdirs (indent + 2) rest1 bm R1
        (stk ++ [p]) (p ++ [par.subdirs.length]) cur hsub hcaps hg)
    refine ⟨bm1, hbs1, ?_⟩
    rw [writeDir_append, loadLines_line now _ _ (dirLine_noNewline name perm indent hname), hline]
    simp only [Option.bind]
    rw [h1, Directory.setSubdirs_child, Directory.setFiles_child]
    rfl
/-- The printed text of a list of directories, read under a node, appends them to the
node's children in order. -/
theorem loadLines_writeDirs (now : Int) :
    ∀ (ds : List Directory) (indent : Nat) (rest : List Char) (bm : BlockManager)
      (R : Directory) (stk : List (List Nat)) (q : List Nat) (cur : Directory),
      snapshotsOk ds → (∀ fm ∈ allFilesList ds, 4 + 4 * fm.blocks.length ≤ bm.blockSize) →
      R.getDir q = some cur →
      ∃ bm1, bm1.blockSize = bm.blockSize ∧
        loadLines now (getLines (writeDirs ds indent ++ rest) [])
            { bm := bm, root := some R, stack := stk ++ [q] } =
          loadLines now (getLines rest [])
            { bm := bm1, root := some (R.setSubdirs q (cur.subdirs ++ ds)), stack := stk ++ [q] }
  | [], indent, rest, bm, R, stk, q, cur, _, _, hget => by
    refine ⟨bm, rfl, ?_⟩
    rw [writeDirs, List.nil_append, List.append_nil, Directory.setSubdirs_self q R cur hget]
  | d :: ds, indent, rest, bm, R, stk, q, cur, hok, hcap, hget => by
    rw [snapshotsOk] at hok
    rw [allFilesList] at hcap
    obtain ⟨bm1, hbs1, h1⟩ := loadLines_writeDir now d indent (writeDirs ds indent ++ rest) bm R
      stk q cur hok.1 (fun fm hfm => hcap fm (List.mem_append_left _ hfm)) hget
    have hget1 := Directory.getDir_setSubdirs q R cur (cur.subdirs ++ [d]) hget
    obtain ⟨bm2, hbs2, h2⟩ := loadLines_writeDirs now ds indent rest bm1
      (R.setSubdirs q (cur.subdirs ++ [d])) stk q _ hok.2
      (fun fm hfm => by rw [hbs1]; exact hcap fm (List.mem_append_right _ hfm)) hget1
    refine ⟨bm2, by rw [hbs2, hbs1], ?_⟩
    rw [writeDirs, List.append_assoc, h1, h2, Directory.setSubdirs_setSubdirs]
    simp [Directory.subdirs]
end

/-- The printed text of a whole tree, read from the start, rebuilds the tree. -/
theorem loadLines_tree (now : Int) (root : Directory) (bm : BlockManager)
    (hok : root.SnapshotOk)
    (hcap : ∀ fm ∈ root.allFiles, 4 + 4 * fm.blocks.length ≤ bm.blockSize) :
    ∃ bm1, loadLines now (getLines (writeDir root 0) []) { bm := bm, root := none, stack := [] } =
      some { bm := bm1, root := some root, stack := [] } := by
  obtain ⟨name, perm, files, subdirs⟩ := root
  rw [Directory.SnapshotOk] at hok
  obtain ⟨hname, hperm, hfiles, hsorted, hsub⟩ := hok
  rw [allFiles_mk] at hcap
  have hcapf : ∀ e ∈ files, 4 + 4 * e.2.blocks.length ≤ bm.blockSize := fun e he =>
    hcap e.2 (List.mem_append_right _ (List.mem_map_of_mem _ he))
  have hcaps : ∀ fm ∈ allFilesList subdirs, 4 + 4 * fm.blocks.length ≤ bm.blockSize :=
    fun fm hfm => hcap fm (List.mem_append_left _ (by rwa [← allFilesList_eq_flatMap]))
  have hline := loadLine_dir { bm := bm, root := none, stack := [] } name perm 0
    now hname ⟨by omega, by omega⟩
  simp only [List.getLast?_nil] at hline
  obtain ⟨bm1, _, h1⟩ := loadLines_body now name perm files subdirs 0 [] bm
    (.mk name perm [] []) [] [] hfiles hsorted hcapf rfl
    (fun rest1 R1 cur hg => loadLines_writeDirs now subdirs 2 rest1 bm R1 [] [] cur hsub hcaps hg)
  refine ⟨bm1, ?_⟩
  have e := writeDir_append name perm files subdirs 0 []
  rw [List.append_nil] at e
  rw [e, loadLines_line now _ _ (dirLine_noNewline name perm 0 hname), hline]
  simp only [Option.bind, List.nil_append]
  simp only [List.nil_append, Nat.zero_add] at h1
  rw [h1]
  rfl

end Serializer

namespace Serializer

/-! ### Block 0 after a save -/

theorem writeIndexBlocks_some :
    ∀ (l : List FileMeta) (bm : BlockManager),
      (∀ fm ∈ l, 4 + 4 * fm.blocks.length ≤ bm.blockSize) →
      ∃ bm1, writeIndexBlocks bm l = some bm1 := by
  intro l
  induction l with
  | nil => intro bm _; exact ⟨bm, rfl⟩
  | cons fm l ih =>
    intro bm h
    obtain ⟨bm1, hbm1⟩ : ∃ bm1, writeIndexBlock bm fm = some bm1 := by
      have := writeIndexBlock_isSome bm fm
      rw [decide_eq_true (h fm (List.mem_cons_self _ _))] at this
      exact Option.isSome_iff_exists.1 this
    obtain ⟨bm2, hbm2⟩ := ih bm1 (fun x hx => by
      rw [writeIndexBlock_blockSize hbm1]; exact h x (List.mem_cons_of_mem _ hx))
    exact ⟨bm2, by rw [writeIndexBlocks, hbm1]; exact hbm2⟩

theorem writeDir_last (d : Directory) (indent : Nat) :
    ∃ Y, writeDir d indent = Y ++ ['\n'] := by
  obtain ⟨name, perm, files, subdirs⟩ := d
  have e : "END_DIR\n".toList = "END_DIR".toList ++ ['\n'] := rfl
  refine ⟨List.replicate indent ' ' ++ "DIR ".toList ++ name.toList ++ " perm ".toList ++
      (toString perm).toList ++ ['\n'] ++ writeDirs subdirs (indent + 2) ++
      files.flatMap (fun p => fileLine p.2 (indent + 2)) ++ List.replicate indent ' ' ++
      "END_DIR".toList, ?_⟩
  rw [writeDir, e]
  simp only [List.append_assoc]

theorem dataEnd_text (Y : List Char) (k : Nat) :
    dataEnd ((Y ++ ['\n']) ++ zeros k) = (Y ++ ['\n']).length := by
  unfold dataEnd zeros
  rw [List.reverse_append, List.reverse_replicate, List.reverse_append]
  have : ∀ (n : Nat) (s : List Char),
      (List.replicate n zeroByte ++ '\n' :: s).dropWhile (fun c => decide (c = zeroByte)) =
        '\n' :: s := by
    intro n s
    induction n with
    | zero =>
      have : ¬ ('\n' = zeroByte) := by decide
      simp [List.dropWhile, this]
    | succ n ih => simp [List.replicate_succ, List.dropWhile, ih]
  simp only [List.reverse_singleton, List.singleton_append]
  rw [this]
  simp

theorem all_zero_text (Y : List Char) (k : Nat) :
    ((Y ++ ['\n']) ++ zeros k).all (fun c => decide (c = zeroByte)) = false := by
  have : ¬ ('\n' = zeroByte) := by decide
  simp [List.all_append, this]

theorem blockOfText_fit (blockSize : Nat) (data : List Char) (h : data.length ≤ blockSize) :
    blockOfText blockSize data = data ++ zeros (blockSize - data.length) ∧
      (blockOfText blockSize data).length = blockSize := by
  unfold blockOfText
  rw [List.take_of_length_le h]
  refine ⟨rfl, ?_⟩
  simp only [List.length_append, zeros, List.length_replicate]
  omega

/-- Saving a tree and loading block 0 again gives the tree back. -/
theorem saveDirectory_loadDirectory_aux (bm : BlockManager) (root : Directory) (now : Int)
    (hok : root.SnapshotOk) (hfit : (writeDir root 0).length ≤ bm.blockSize)
    (hcap : ∀ fm ∈ root.allFiles, 4 + 4 * fm.blocks.length ≤ bm.blockSize)
    (htotal : 0 < bm.totalBlocks) (hdisk : bm.disk.length = bm.totalBlocks) :
    ∃ bm1 bm2, saveDirectory bm root = some bm1 ∧
      loadDirectory bm1 now = some (bm2, some root) := by
  obtain ⟨bmi, hbmi⟩ := writeIndexBlocks_some root.allFiles bm hcap
  have hfr := writeIndexBlocks_frame hbmi
  have hfit' : (writeDir root 0).length ≤ bmi.blockSize := by rw [hfr.blockSize_eq]; exact hfit
  obtain ⟨hb1, hb2⟩ := blockOfText_fit bmi.blockSize (writeDir root 0) hfit'
  have hread := BlockManager.writeBlock_then_readBlock bmi 0
    (blockOfText bmi.blockSize (writeDir root 0))
    (by rw [hfr.disk_len, hfr.totalBlocks_eq]; exact hdisk)
    ⟨le_refl _, by rw [hfr.totalBlocks_eq]; exact_mod_cast htotal⟩ hb2 []
  have hbs : (bmi.writeBlock 0 (blockOfText bmi.blockSize (writeDir root 0))).2.blockSize =
      bm.blockSize := by
    rw [BlockManager.writeBlock_eq]; exact hfr.blockSize_eq
  obtain ⟨bm2, hload⟩ := loadLines_tree now root
    (bmi.writeBlock 0 (blockOfText bmi.blockSize (writeDir root 0))).2 hok
    (fun fm hfm => by rw [hbs]; exact hcap fm hfm)
  refine ⟨_, bm2, by rw [saveDirectory, hbmi], ?_⟩
  obtain ⟨Y, hY⟩ := writeDir_last root 0
  generalize (bmi.writeBlock 0 (blockOfText bmi.blockSize (writeDir root 0))).2 = bm1
    at hread hbs hload ⊢
  unfold loadDirectory
  simp only [hread]
  rw [if_neg (by simp), hb1]
  generalize bmi.blockSize - (writeDir root 0).length = k
  rw [hY, all_zero_text, if_neg (by simp), dataEnd_text, List.take_left' rfl, ← hY, hload]

end Serializer

/-- C12. Snapshot round trip. Let `root` be a tree in which every directory and file name is
not empty and free of whitespace, all permissions lie in `0..7`, every `files` map is a
key-ordered map whose entries are stored under their own names with `int` fields and valid
timestamps, every record's block list fits its index block, and the snapshot text is at most
`blockSize` bytes long. Then `saveDirectory(bm, root)` returns, and `loadDirectory` on the
result returns a tree equal to `root`: the same directory names, child order, parent links
and directory permissions, and for every file the same name, size, index block, ordered
block list, permissions and timestamps (to the second, local time being UTC). -/
theorem saveDirectory_loadDirectory_roundtrip (bm : BlockManager) (root : Directory)
    (now : Int) (hok : root.SnapshotOk)
    (hfit : (Serializer.writeDir root 0).length ≤ bm.blockSize)
    (hcap : ∀ fm ∈ root.allFiles, 4 + 4 * fm.blocks.length ≤ bm.blockSize)
    (htotal : 0 < bm.totalBlocks) (hdisk : bm.disk.length = bm.totalBlocks) :
    ∃ bm1 bm2, Serializer.saveDirectory bm root = some bm1 ∧
      Serializer.loadDirectory bm1 now = some (bm2, some root) :=
  Serializer.saveDirectory_loadDirectory_aux bm root now hok hfit hcap htotal hdisk

set_option maxRecDepth 100000 in
set_option synthInstance.maxSize 4096 in
/-- C12, worked example: on a fresh disk of 100 blocks of 512 bytes, the tree `exampleTree`
(two files, three directories) is saved and read back unchanged. -/
theorem saveDirectory_loadDirectory_roundtrip_witness :
    ∃ bm1 bm2, Serializer.saveDirectory (FileSystem.fresh 512 100).bm exampleTree = some bm1 ∧
      Serializer.loadDirectory bm1 1700000100 = some (bm2, some exampleTree) :=
  saveDirectory_loadDirectory_roundtrip (FileSystem.fresh 512 100).bm exampleTree 1700000100
    (by
      unfold exampleTree
      simp only [Directory.SnapshotOk, snapshotsOk, FileOk, validName, isInt32, isTimestamp,
        keysAscending]
      decide)
    (by decide) (by decide) (by decide) (by decide)

namespace FileSystem

theorem length_le_of_mem_ancestors {p q : List Nat} (h : q ∈ ancestors p) :
    q.length ≤ p.length := by
  unfold ancestors at h
  obtain ⟨k, _, rfl⟩ := List.mem_map.1 h
  rw [List.length_take]
  omega

theorem child_not_mem_ancestors (p : List Nat) (i : Nat) : (p ++ [i]) ∉ ancestors p := by
  intro h
  have := length_le_of_mem_ancestors h
  simp at this

/-- The ancestor test of `FileSystem::removeDirectory` never fires: the target is looked up
among the children of the current directory, so the line "Cannot remove current or parent
directory" is never printed. -/
theorem removeDirectoryErrors_not_current (fs : FileSystem) (name : String) :
    "[ERROR] Cannot remove current or parent directory" ∉ fs.removeDirectoryErrors name := by
  have hnf : "[ERROR] Cannot remove current or parent directory" ≠
      "[ERROR] Directory not found: " ++ name := by
    intro h
    have := congrArg (fun s : String => s.data.take 9) h
    simp [String.data_append, List.take_append_eq_append_take] at this
  have hfl : "[ERROR] Cannot remove current or parent directory" ≠
      "[ERROR] Failed to remove directory: " ++ name := by
    intro h
    have := congrArg (fun s : String => s.data.take 9) h
    simp [String.data_append, List.take_append_eq_append_take] at this
  unfold removeDirectoryErrors
  split
  · simp
  split
  · decide
  split
  · simp
  split
  · simp [hnf]
  · rw [if_neg (child_not_mem_ancestors _ _)]
    split
    · simp only [List.mem_cons, List.mem_singleton, List.not_mem_nil, or_false, not_or]
      exact ⟨by decide, hfl⟩
    · simp

end FileSystem

namespace FileSystem

set_option maxRecDepth 100000 in
set_option synthInstance.maxSize 4096 in
/-- C21 (failing input). On a fresh filesystem of 8 blocks of 128 bytes, `mkdir("d")` and
`cd("d")` succeed and make `d` current. `removeDirectory("d")` issued from inside `d` then
fails and leaves the bitmap, the disk and the tree as they were, but the line it prints is
"Directory not found: d", not "Cannot remove current or parent directory": the target is
looked up among the children of the current directory, so the ancestor test is never
reached with a match. -/
theorem removeDirectory_inside_reports_not_found :
    (mkdir (fresh 128 8) "d").bind (fun r1 =>
      (cd r1.2 "d").bind (fun r2 =>
        (removeDirectory r2.2 "d").map (fun r3 =>
          (r1.1, r2.1, r2.2.currentDir, r3.1, removeDirectoryErrors r2.2 "d",
            decide (r3.2.bm = r2.2.bm),
            decide (Serializer.writeDir r3.2.root 0 = Serializer.writeDir r2.2.root 0),
            r3.2.currentDir)))) =
    some (true, true, [0], false, ["[ERROR] Directory not found: d"], true, true, [0]) := by
  decide!

/-- C22. For every tree and every current directory, `removeDirectory(name)` with `name` the
name of the root fails and returns the state as it was (tree, bitmap and disk), whatever the
children of the current directory are called. -/
theorem removeDirectory_root_name (fs : FileSystem) :
    fs.removeDirectory fs.root.name = some (false, fs) := by
  unfold removeDirectory
  split
  · rfl
  · rw [if_pos rfl]

/-- C22, worked example: in `permState` with a child called `root` added to the root, the
call `removeDirectory("root")` from the root fails and changes nothing, although the current
directory has a child of that name. -/
theorem removeDirectory_root_name_witness :
    ((({ permState with
          root := permState.root.setSubdirs [] (permState.root.subdirs ++ [Directory.new "root"])
        } : FileSystem).root.findSubdir "root") = some 3) ∧
    ({ permState with
        root := permState.root.setSubdirs [] (permState.root.subdirs ++ [Directory.new "root"])
      } : FileSystem).removeDirectory "root" =
      some (false, { permState with
        root := permState.root.setSubdirs [] (permState.root.subdirs ++ [Directory.new "root"]) }) :=
  ⟨by decide, removeDirectory_root_name
    { permState with
      root := permState.root.setSubdirs [] (permState.root.subdirs ++ [Directory.new "root"]) }⟩

end FileSystem

namespace Directory

/-- C23. For every directory, name and size: when the directory's write bit (2) is unset,
`createFile` fails with "Permission denied", whether or not the name exists; when the bit is
set and a file of that name exists, it fails with "File already exists!". In both cases the
call returns the state as it was: no block is allocated, and the bitmap, the tree with its
file maps and the disk are unchanged. -/
theorem createFile_refused (fs : FileSystem) (self : List Nat) (d : Directory)
    (filename : String) (size now : Int) (hd : fs.root.getDir self = some d) :
    (testMask d.permissions 1 = false →
      createFile fs self filename size now = some (false, fs) ∧
      createFileError fs self filename size =
        some "[ERROR] Permission denied: cannot create file in this directory") ∧
    (testMask d.permissions 1 = true → (mapFind d.files filename).isSome = true →
      createFile fs self filename size now = some (false, fs) ∧
      createFileError fs self filename size = some "[ERROR] File already exists!") := by
  constructor
  · intro hp
    constructor <;> simp [createFile, createFileError, hd, hp]
  · intro hp hf
    constructor <;> simp [createFile, createFileError, hd, hp, hf]

/-- C23, worked example: in `permState` the directory `bin` (permissions 5) refuses to
create `b.txt` and `new.txt` alike with "Permission denied", and the root (permissions 7)
refuses `a.txt`, which exists, with "File already exists!". -/
theorem createFile_refused_witness :
    (createFile permState [1] "b.txt" 10 5 = some (false, permState) ∧
      createFileError permState [1] "b.txt" 10 =
        some "[ERROR] Permission denied: cannot create file in this directory") ∧
    (createFile permState [1] "new.txt" 10 5 = some (false, permState) ∧
      createFileError permState [1] "new.txt" 10 =
        some "[ERROR] Permission denied: cannot create file in this directory") ∧
    (createFile permState [] "a.txt" 10 5 = some (false, permState) ∧
      createFileError permState [] "a.txt" 10 = some "[ERROR] File already exists!") :=
  ⟨(createFile_refused permState [1] _ "b.txt" 10 5 rfl).1 (by decide),
   (createFile_refused permState [1] _ "new.txt" 10 5 rfl).1 (by decide),
   (createFile_refused permState [] _ "a.txt" 10 5 rfl).2 (by decide) (by decide)⟩

end Directory

namespace Directory

/-! ### `findSubdir` -/

theorem findSubdirFrom_some (name : String) :
    ∀ (ds : List Directory) (k i : Nat), findSubdirFrom name ds k = some i →
      k ≤ i ∧ ∃ c, ds[i - k]? = some c ∧ c.name = name ∧
        ∀ j, j < i - k → ∀ e, ds[j]? = some e → e.name ≠ name := by
  intro ds
  induction ds with
  | nil => intro k i h; simp [findSubdirFrom] at h
  | cons d ds ih =>
    intro k i h
    rw [findSubdirFrom] at h
    by_cases hn : d.name = name
    · rw [if_pos hn] at h
      simp only [Option.some.injEq] at h
      subst h
      refine ⟨le_refl _, d, by simp, hn, ?_⟩
      intro j hj
      omega
    · rw [if_neg hn] at h
      obtain ⟨hk, c, hc, hcn, hfirst⟩ := ih (k + 1) i h
      refine ⟨by omega, c, ?_, hcn, ?_⟩
      · have : i - k = (i - (k + 1)) + 1 := by omega
        rw [this, List.getElem?_cons_succ]
        exact hc
      · intro j hj e he
        cases j with
        | zero =>
          simp only [List.getElem?_cons_zero, Option.some.injEq] at he
          subst he
          exact hn
        | succ j =>
          rw [List.getElem?_cons_succ] at he
          exact hfirst j (by omega) e he

theorem findSubdirFrom_none (name : String) :
    ∀ (ds : List Directory) (k : Nat),
      findSubdirFrom name ds k = none ↔ ∀ c ∈ ds, c.name ≠ name := by
  intro ds
  induction ds with
  | nil => intro k; simp [findSubdirFrom]
  | cons d ds ih =>
    intro k
    rw [findSubdirFrom]
    by_cases hn : d.name = name
    · simp [hn]
    · simp [hn, ih (k + 1)]

/-- `findSubdir` returns the position of the first child called `name`. -/
theorem findSubdir_some {d : Directory} {name : String} {i : Nat}
    (h : d.findSubdir name = some i) :
    ∃ c, d.subdirs[i]? = some c ∧ c.name = name ∧
      ∀ j, j < i → ∀ e, d.subdirs[j]? = some e → e.name ≠ name := by
  obtain ⟨_, c, hc, hcn, hfirst⟩ := findSubdirFrom_some name d.subdirs 0 i h
  exact ⟨c, hc, hcn, hfirst⟩

/-- `findSubdir` returns `nullptr` exactly when no child is called `name`. -/
theorem findSubdir_none (d : Directory) (name : String) :
    d.findSubdir name = none ↔ ∀ c ∈ d.subdirs, c.name ≠ name :=
  findSubdirFrom_none name d.subdirs 0

/-- Where the children's names are distinct, `findSubdir` finds any child by its name. -/
theorem findSubdir_of_mem {d c : Directory} (hnd : (d.subdirs.map Directory.name).Nodup)
    (hc : c ∈ d.subdirs) :
    ∃ i, d.findSubdir c.name = some i ∧ d.subdirs[i]? = some c := by
  cases hf : d.findSubdir c.name with
  | none => exact absurd rfl ((findSubdir_none d c.name).1 hf c hc)
  | some i =>
    obtain ⟨c', hc', hn', _⟩ := findSubdir_some hf
    refine ⟨i, rfl, ?_⟩
    obtain ⟨j, hj, hjc⟩ := List.getElem_of_mem hc
    obtain ⟨hi, hic⟩ := List.getElem?_eq_some_iff.1 hc'
    have hij : i = j := by
      have h1 : i < (d.subdirs.map Directory.name).length := by simpa using hi
      have h2 : j < (d.subdirs.map Directory.name).length := by simpa using hj
      have e : (d.subdirs.map Directory.name)[i] = (d.subdirs.map Directory.name)[j] := by
        simp only [List.getElem_map]
        rw [hic, hjc, hn']
      exact hnd.getElem_inj_iff.1 e
    subst hij
    rw [hc', ← hic, hjc]

end Directory

namespace FileSystem

/-- C24. Let `cur` be the current directory. `cd("..")` succeeds exactly when the current
directory is not the root, and then makes its parent current. For any other name, `cd(name)`
makes current the first child called `name` when that child's execute bit (1) is set, and
fails otherwise; where the children's names are distinct, it succeeds exactly when there is a
child called `name` whose execute bit is set. Every failure returns the state as it was. -/
theorem cd_spec (fs : FileSystem) (cur : Directory) (name : String)
    (hcur : fs.root.getDir fs.currentDir = some cur) :
    (∃ ok fs1, cd fs ".." = some (ok, fs1) ∧ (ok = true ↔ fs.currentDir ≠ []) ∧
      (ok = true → fs1 = { fs with currentDir := fs.currentDir.dropLast }) ∧
      (ok = false → fs1 = fs)) ∧
    (name ≠ ".." →
      ∃ ok fs1, cd fs name = some (ok, fs1) ∧
        (ok = true ↔ ∃ i d, cur.findSubdir name = some i ∧ cur.subdirs[i]? = some d ∧
          testMask d.permissions 0 = true) ∧
        ((cur.subdirs.map Directory.name).Nodup →
          (ok = true ↔ ∃ d ∈ cur.subdirs, d.name = name ∧ testMask d.permissions 0 = true)) ∧
        (ok = true → ∃ i d, fs1 = { fs with currentDir := fs.currentDir ++ [i] } ∧
          fs.root.getDir (fs.currentDir ++ [i]) = some d ∧ d.name = name) ∧
        (ok = false → fs1 = fs)) := by
  constructor
  · unfold cd
    rw [if_pos rfl]
    by_cases h : fs.currentDir ≠ []
    · rw [if_pos h]
      exact ⟨true, _, rfl, by simp [h], fun _ => rfl, by simp⟩
    · rw [if_neg h]
      exact ⟨false, _, rfl, by simp [h], by simp, fun _ => rfl⟩
  · intro hname
    have key : ∃ ok fs1, cd fs name = some (ok, fs1) ∧
        (ok = true ↔ ∃ i d, cur.findSubdir name = some i ∧ cur.subdirs[i]? = some d ∧
          testMask d.permissions 0 = true) ∧
        (ok = true → ∃ i d, fs1 = { fs with currentDir := fs.currentDir ++ [i] } ∧
          fs.root.getDir (fs.currentDir ++ [i]) = some d ∧ d.name = name) ∧
        (ok = false → fs1 = fs) := by
      unfold cd
      rw [if_neg hname]
      simp only [hcur]
      cases hf : cur.findSubdir name with
      | none => exact ⟨false, fs, rfl, by simp, by simp, fun _ => rfl⟩
      | some i =>
        obtain ⟨d, hd, hdn, _⟩ := Directory.findSubdir_some hf
        simp only [hd]
        by_cases hx : testMask d.permissions 0 = false
        · rw [if_pos hx]
          refine ⟨false, fs, rfl, ?_, by simp, fun _ => rfl⟩
          simp only [Bool.false_eq_true, false_iff, not_exists, not_and]
          intro i' d' hi' hd'
          simp only [Option.some.injEq] at hi'
          subst hi'
          rw [hd] at hd'
          simp only [Option.some.injEq] at hd'
          subst hd'
          simp [hx]
        · rw [if_neg hx]
          have hx' : testMask d.permissions 0 = true := by simpa using hx
          refine ⟨true, _, rfl, ?_, ?_, by simp⟩
          · simp only [true_iff]
            exact ⟨i, d, rfl, hd, hx'⟩
          · intro _
            refine ⟨i, d, rfl, ?_, hdn⟩
            rw [Directory.getDir_append, hcur]
            obtain ⟨n, pm, f, sds⟩ := cur
            simp only [Option.bind, Directory.getDir]
            simp only [Directory.subdirs] at hd
            rw [hd]
    obtain ⟨ok, fs1, h1, h2, h3, h4⟩ := key
    refine ⟨ok, fs1, h1, h2, ?_, h3, h4⟩
    intro hnd
    rw [h2]
    constructor
    · rintro ⟨i, d, hi, hd, hx⟩
      obtain ⟨c, hc, hcn, _⟩ := Directory.findSubdir_some hi
      rw [hd] at hc
      simp only [Option.some.injEq] at hc
      subst hc
      exact ⟨d, List.getElem?_mem hd, hcn, hx⟩
    · rintro ⟨d, hd, hdn, hx⟩
      obtain ⟨i, hi, hic⟩ := Directory.findSubdir_of_mem hnd hd
      exact ⟨i, d, by rw [← hdn]; exact hi, hic, hx⟩

/-- C24, worked example: in `permState`, `cd("ro")` (permissions 4) fails, `cd("bin")`
(permissions 5) makes `bin` current, `cd("nowhere")` fails, `cd("..")` fails at the root and
leads back to the root from `bin`. -/
theorem cd_spec_witness :
    cd permState "ro" = some (false, permState) ∧
    cd permState "bin" = some (true, { permState with currentDir := [1] }) ∧
    cd permState "nowhere" = some (false, permState) ∧
    cd permState ".." = some (false, permState) ∧
    cd { permState with currentDir := [1] } ".." = some (true, permState) := by
  have h := cd_spec permState permState.root "ro" rfl
  obtain ⟨ok, fs1, h1, h2, _, _, h5⟩ := h.2 (by decide)
  have hok : ok = false := by
    cases ok with
    | false => rfl
    | true =>
      obtain ⟨i, d, hi, hd, hx⟩ := h2.1 rfl
      have hi' : permState.root.findSubdir "ro" = some 0 := by decide
      rw [hi'] at hi
      simp only [Option.some.injEq] at hi
      subst hi
      have hd' : permState.root.subdirs[0]? = some (.mk "ro" 4 [] []) := rfl
      rw [hd'] at hd
      simp only [Option.some.injEq] at hd
      subst hd
      revert hx
      decide
  subst hok
  rw [h5 rfl] at h1
  exact ⟨h1, by rfl, by rfl, by rfl, by rfl⟩

end FileSystem

namespace Directory

/-! ### `writeFile` -/

theorem writeLoop_bitmap (content : List Char) :
    ∀ (blocks : List Int) (bm : BlockManager) (bytesLeft offset : Int),
      (writeLoop content blocks bm bytesLeft offset).freeBlockBitmap = bm.freeBlockBitmap ∧
      (writeLoop content blocks bm bytesLeft offset).blockSize = bm.blockSize := by
  intro blocks
  induction blocks with
  | nil => intro bm _ _; exact ⟨rfl, rfl⟩
  | cons blk rest ih =>
    intro bm bytesLeft offset
    rw [writeLoop]
    split
    · rw [BlockManager.writeBlock_eq]
      exact ⟨rfl, rfl⟩
    · obtain ⟨h1, h2⟩ := ih (bm.writeBlock blk
        (if offset < (content.length : Int) then
          memcpy (zeros bm.blockSize) 0 (content.drop offset.toNat)
            (min (min bytesLeft (bm.blockSize : Int)) ((content.length : Int) - offset)).toNat
        else zeros bm.blockSize)).2 (bytesLeft - min bytesLeft (bm.blockSize : Int))
        (offset + min bytesLeft (bm.blockSize : Int))
      rw [h1, h2, BlockManager.writeBlock_eq]
      exact ⟨rfl, rfl⟩

/-- `Directory::saveDirectory` returns when every block list fits an index block; it changes
neither the bitmap nor the tree. -/
theorem saveDirectory_some (fs : FileSystem) (h : indexBlocksFit fs.bm.blockSize fs.root) :
    ∃ bm1, saveDirectory fs = some { fs with bm := bm1 } ∧
      bm1.freeBlockBitmap = fs.bm.freeBlockBitmap ∧ bm1.blockSize = fs.bm.blockSize ∧
      bm1.totalBlocks = fs.bm.totalBlocks := by
  obtain ⟨bmi, hbmi⟩ := Serializer.writeIndexBlocks_some fs.root.allFiles fs.bm h
  have hs : Serializer.saveDirectory fs.bm fs.root =
      some (bmi.writeBlock 0 (Serializer.blockOfText bmi.blockSize
        (Serializer.writeDir fs.root 0))).2 := by
    rw [Serializer.saveDirectory, hbmi]
  have hfr := Serializer.saveDirectory_frame hs
  exact ⟨_, by rw [saveDirectory, hs], hfr.bitmap_eq, hfr.blockSize_eq, hfr.totalBlocks_eq⟩

end Directory

namespace Directory

/-- C25. For every existing file and every content: when the file's own write bit (2) is
set, whatever the permissions of the containing directory, `writeFile` succeeds, the record
afterwards has size `len(content)` and the new modification time and is otherwise the record
as before (same index block, same ordered list of data blocks), and the bitmap is
unchanged; when the write bit is unset, `writeFile` fails and returns the state as it was. -/
theorem writeFile_spec (fs : FileSystem) (self : List Nat) (d : Directory) (filename : String)
    (fm : FileMeta) (content : List Char) (now : Int)
    (hd : fs.root.getDir self = some d) (hf : mapFind d.files filename = some fm)
    (hfit : indexBlocksFit fs.bm.blockSize fs.root) :
    (testMask fm.permissions 1 = true →
      ∃ fs1, writeFile fs self filename content now = some (true, fs1) ∧
        getFile fs1 self filename =
          some { fm with fileSize := (content.length : Int), modifiedAt := now } ∧
        fs1.bm.freeBlockBitmap = fs.bm.freeBlockBitmap) ∧
    (testMask fm.permissions 1 = false →
      writeFile fs self filename content now = some (false, fs)) := by
  constructor
  · intro hp
    obtain ⟨hb1, hb2⟩ := writeLoop_bitmap content fm.blocks fs.bm (content.length : Int) 0
    obtain ⟨X, Y, hX, hY, _⟩ := file_ctx hd hf
    have hfm : 4 + 4 * fm.blocks.length ≤ fs.bm.blockSize :=
      hfit fm (by rw [hX]; simp)
    obtain ⟨bm2, hbm2⟩ : ∃ bm2, Serializer.writeIndexBlock
        (writeLoop content fm.blocks fs.bm (content.length : Int) 0)
        { fm with fileSize := (content.length : Int), modifiedAt := now } = some bm2 := by
      have := Serializer.writeIndexBlock_isSome
        (writeLoop content fm.blocks fs.bm (content.length : Int) 0)
        { fm with fileSize := (content.length : Int), modifiedAt := now }
      rw [hb2, decide_eq_true hfm] at this
      exact Option.isSome_iff_exists.1 this
    have hfr := Serializer.writeIndexBlock_frame hbm2
    have hfit2 : indexBlocksFit bm2.blockSize (fs.root.setFiles self (mapAssign d.files filename
        { fm with fileSize := (content.length : Int), modifiedAt := now })) := by
      intro x hx
      rw [hfr.blockSize_eq, hb2]
      rw [hY] at hx
      rcases List.mem_append.1 hx with hx | hx
      · exact hfit x (by rw [hX]; exact List.mem_append_left _ hx)
      · rcases List.mem_cons.1 hx with hx | hx
        · subst hx; exact hfm
        · exact hfit x (by rw [hX]; exact List.mem_append_right _ (List.mem_cons_of_mem _ hx))
    obtain ⟨bm3, hs, hbit, _, _⟩ := saveDirectory_some
      { fs with bm := bm2, root := fs.root.setFiles self (mapAssign d.files filename
        { fm with fileSize := (content.length : Int), modifiedAt := now }) } hfit2
    refine ⟨{ fs with
      bm := bm3
      root := fs.root.setFiles self (mapAssign d.files filename
        { fm with fileSize := (content.length : Int), modifiedAt := now }) }, ?_, ?_, ?_⟩
    · unfold writeFile
      simp only [hd, hf, hp, hbm2, hs]
      rfl
    · exact getFile_setFiles_mapAssign _ hd hf rfl
    · show bm3.freeBlockBitmap = fs.bm.freeBlockBitmap
      rw [hbit]
      show bm2.freeBlockBitmap = fs.bm.freeBlockBitmap
      rw [hfr.bitmap_eq, hb1]
  · intro hp
    unfold writeFile
    simp only [hd, hf, hp, if_true]

theorem permState_fit : indexBlocksFit permState.bm.blockSize permState.root := by
  unfold indexBlocksFit
  decide

set_option maxRecDepth 100000 in
/-- C25, worked example: in `permState` the directory `bin` has no write bit. Writing the 2
bytes "hi" to its file `w.txt` (write bit set, 200 bytes in the data blocks 7 and 8)
succeeds: the size becomes 2, the record keeps both data blocks although one would do, and
the bitmap is unchanged. Writing to `b.txt` (write bit unset) fails and changes nothing. -/
theorem writeFile_spec_witness :
    (∃ fs1, writeFile permState [1] "w.txt" ['h', 'i'] 1700000100 = some (true, fs1) ∧
      getFile fs1 [1] "w.txt" =
        some { filename := "w.txt", fileSize := 2, indexBlock := 6, blocks := [7, 8],
               createdAt := 1700000000, modifiedAt := 1700000100, permissions := 6 } ∧
      fs1.bm.freeBlockBitmap = permState.bm.freeBlockBitmap) ∧
    writeFile permState [1] "b.txt" ['h', 'i'] 1700000100 = some (false, permState) :=
  ⟨(writeFile_spec permState [1] _ "w.txt" _ ['h', 'i'] 1700000100 rfl rfl permState_fit).1
      (by decide),
   (writeFile_spec permState [1] _ "b.txt" _ ['h', 'i'] 1700000100 rfl rfl permState_fit).2
      (by decide)⟩

end Directory

namespace Directory

/-! ### Replacing the children of a node -/

/-- The records of the tree around those below the children of one node. -/
theorem getDir_setSubdirs_ctx :
    ∀ (p : List Nat) (root d : Directory), root.getDir p = some d →
      ∃ X Y, root.allFiles = X ++ d.subdirs.flatMap Directory.allFiles ++ Y ∧
        ∀ sds', (root.setSubdirs p sds').allFiles = X ++ sds'.flatMap Directory.allFiles ++ Y := by
  intro p
  induction p with
  | nil =>
    intro root d h
    obtain ⟨n, pm, f, sds⟩ := root
    simp only [getDir, Option.some.injEq] at h
    subst h
    exact ⟨[], f.map (fun q => q.2), by simp [allFiles_mk, subdirs],
      fun sds' => by simp [setSubdirs, allFiles_mk]⟩
  | cons i p ih =>
    intro root d h
    obtain ⟨n, pm, f, sds⟩ := root
    rw [getDir] at h
    cases hc : sds[i]? with
    | none => rw [hc] at h; cases h
    | some c =>
      rw [hc] at h
      obtain ⟨X, Y, h1, h2⟩ := ih c d h
      obtain ⟨hlt, hget⟩ := List.getElem?_eq_some_iff.1 hc
      have hsplit : sds = sds.take i ++ c :: sds.drop (i + 1) := by
        rw [← hget]; simp
      refine ⟨(sds.take i).flatMap Directory.allFiles ++ X,
        Y ++ (sds.drop (i + 1)).flatMap Directory.allFiles ++ f.map (fun q => q.2), ?_, ?_⟩
      · rw [allFiles_mk]
        conv_lhs => rw [hsplit]
        simp [h1]
      · intro sds'
        simp only [setSubdirs, hc, allFiles_mk]
        rw [List.set_eq_take_append_cons_drop, if_pos hlt]
        simp [h2 sds']

/-- Replacing the children of a node by children that hold no new record keeps every block
list within the index block size. -/
theorem indexBlocksFit_setSubdirs {bs : Nat} {root d : Directory} {p : List Nat}
    (hd : root.getDir p = some d) (hfit : indexBlocksFit bs root) (sds' : List Directory)
    (hsub : ∀ fm ∈ sds'.flatMap Directory.allFiles, fm ∈ d.subdirs.flatMap Directory.allFiles) :
    indexBlocksFit bs (root.setSubdirs p sds') := by
  obtain ⟨X, Y, h1, h2⟩ := getDir_setSubdirs_ctx p root d hd
  intro fm hfm
  rw [h2] at hfm
  apply hfit
  rw [h1]
  simp only [List.mem_append] at hfm ⊢
  rcases hfm with (h | h) | h
  · exact Or.inl (Or.inl h)
  · exact Or.inl (Or.inr (hsub fm h))
  · exact Or.inr h

theorem flatMap_allFiles_eraseIdx (sds : List Directory) (i : Nat) :
    ∀ fm ∈ (sds.eraseIdx i).flatMap Directory.allFiles, fm ∈ sds.flatMap Directory.allFiles := by
  intro fm h
  obtain ⟨c, hc, hfm⟩ := List.mem_flatMap.1 h
  exact List.mem_flatMap.2 ⟨c, List.mem_of_mem_eraseIdx hc, hfm⟩

theorem name_setSubdirs (d : Directory) (p : List Nat) (X : List Directory) :
    (d.setSubdirs p X).name = d.name := by
  cases p with
  | nil => cases d; rfl
  | cons i p =>
    obtain ⟨n, pm, f, sds⟩ := d
    rw [setSubdirs]
    split <;> rfl

/-! ### Distinct names among siblings -/

theorem uniqueNamesList_iff (ds : List Directory) :
    uniqueNamesList ds ↔ ∀ c ∈ ds, c.UniqueNames := by
  induction ds with
  | nil => simp [uniqueNamesList]
  | cons d ds ih => simp [uniqueNamesList, ih]

theorem uniqueNames_mk (n : String) (pm : Int) (f : List (String × FileMeta))
    (sds : List Directory) :
    (Directory.mk n pm f sds).UniqueNames ↔
      (sds.map Directory.name).Nodup ∧ ∀ c ∈ sds, c.UniqueNames := by
  rw [UniqueNames, uniqueNamesList_iff]

theorem UniqueNames.getDir_inv :
    ∀ (p : List Nat) (root d : Directory), root.UniqueNames → root.getDir p = some d →
      d.UniqueNames := by
  intro p
  induction p with
  | nil =>
    intro root d hu h
    cases root
    simp only [Directory.getDir, Option.some.injEq] at h
    subst h
    exact hu
  | cons i p ih =>
    intro root d hu h
    obtain ⟨n, pm, f, sds⟩ := root
    rw [Directory.getDir] at h
    cases hc : sds[i]? with
    | none => rw [hc] at h; cases h
    | some c =>
      rw [hc] at h
      exact ih c d (((uniqueNames_mk n pm f sds).1 hu).2 c (List.getElem?_mem hc)) h

/-- Replacing the children of a node by children with distinct names, each satisfying the
invariant, keeps the invariant of the tree. -/
theorem UniqueNames.setSubdirs_inv :
    ∀ (p : List Nat) (root : Directory) (X : List Directory), root.UniqueNames →
      (X.map Directory.name).Nodup → (∀ c ∈ X, c.UniqueNames) →
      (root.setSubdirs p X).UniqueNames := by
  intro p
  induction p with
  | nil =>
    intro root X _ hX1 hX2
    obtain ⟨n, pm, f, sds⟩ := root
    rw [Directory.setSubdirs]
    exact (uniqueNames_mk n pm f X).2 ⟨hX1, hX2⟩
  | cons i p ih =>
    intro root X hu hX1 hX2
    obtain ⟨n, pm, f, sds⟩ := root
    rw [Directory.setSubdirs]
    cases hc : sds[i]? with
    | none => exact hu
    | some c =>
      obtain ⟨hnd, hch⟩ := (uniqueNames_mk n pm f sds).1 hu
      obtain ⟨hlt, hget⟩ := List.getElem?_eq_some_iff.1 hc
      refine (uniqueNames_mk n pm f _).2 ⟨?_, ?_⟩
      · have : (sds.set i (c.setSubdirs p X)).map Directory.name = sds.map Directory.name := by
          rw [List.map_set, name_setSubdirs]
          apply set_getElem?_self
          rw [List.getElem?_map, hc]
          rfl
        rw [this]
        exact hnd
      · intro e he
        rcases List.mem_or_eq_of_mem_set he with he | he
        · exact hch e he
        · rw [he]
          exact ih c X (hch c (List.getElem?_mem hc)) hX1 hX2

end Directory

namespace Directory

theorem saveDirectory_eq {fs fs1 : FileSystem} (h : saveDirectory fs = some fs1) :
    fs1.root = fs.root ∧ fs1.currentDir = fs.currentDir ∧
      fs1.bm.freeBlockBitmap = fs.bm.freeBlockBitmap := by
  unfold saveDirectory at h
  cases hs : Serializer.saveDirectory fs.bm fs.root with
  | none => rw [hs] at h; cases h
  | some bm1 =>
    rw [hs] at h
    simp only [Option.some.injEq] at h
    subst h
    exact ⟨rfl, rfl, (Serializer.saveDirectory_frame hs).bitmap_eq⟩

/-! ### `removeSubdir` -/

theorem removeSubdir_aux (fs : FileSystem) (self : List Nat) (d : Directory) (name : String)
    (hd : fs.root.getDir self = some d) (hfit : indexBlocksFit fs.bm.blockSize fs.root) :
    ∃ ok fs1, removeSubdir fs self name = some (ok, fs1) ∧
      (ok = true ↔ testMask d.permissions 1 = true ∧
        ∃ i c, d.findSubdir name = some i ∧ d.subdirs[i]? = some c ∧ c.files = [] ∧
          c.subdirs = []) ∧
      (ok = true → ∃ i, d.findSubdir name = some i ∧
        fs1.root = fs.root.setSubdirs self (d.subdirs.eraseIdx i) ∧
        fs1.bm.freeBlockBitmap = fs.bm.freeBlockBitmap ∧ fs1.currentDir = fs.currentDir) ∧
      (ok = false → fs1 = fs) := by
  unfold removeSubdir
  simp only [hd]
  by_cases hp : testMask d.permissions 1 = false
  · rw [if_pos hp]
    exact ⟨false, fs, rfl, by simp [hp], by simp, fun _ => rfl⟩
  · rw [if_neg hp]
    have hp' : testMask d.permissions 1 = true := by simpa using hp
    cases hf : d.findSubdir name with
    | none => exact ⟨false, fs, rfl, by simp, by simp, fun _ => rfl⟩
    | some i =>
      obtain ⟨c, hc, _, _⟩ := findSubdir_some hf
      simp only [hc]
      by_cases he : ¬ c.files.isEmpty ∨ ¬ c.subdirs.isEmpty
      · rw [if_pos he]
        refine ⟨false, fs, rfl, ?_, by simp, fun _ => rfl⟩
        simp only [Bool.false_eq_true, false_iff, not_and, not_exists]
        intro _ i' c' hi' hc' hfe hse
        simp only [Option.some.injEq] at hi'
        subst hi'
        rw [hc] at hc'
        simp only [Option.some.injEq] at hc'
        subst hc'
        rw [hfe, hse] at he
        simp at he
      · rw [if_neg he]
        have hfe : c.files = [] := by
          have : c.files.isEmpty = true := by
            by_contra hx; exact he (Or.inl hx)
          simpa using this
        have hse : c.subdirs = [] := by
          have : c.subdirs.isEmpty = true := by
            by_contra hx; exact he (Or.inr hx)
          simpa using this
        obtain ⟨bm1, hs, hbit, _, _⟩ := saveDirectory_some
          { fs with root := fs.root.setSubdirs self (d.subdirs.eraseIdx i) }
          (indexBlocksFit_setSubdirs hd hfit _ (flatMap_allFiles_eraseIdx d.subdirs i))
        simp only [hs]
        exact ⟨true, _, rfl, by simp only [true_iff]; exact ⟨hp', i, c, rfl, hc, hfe, hse⟩,
          fun _ => ⟨i, rfl, rfl, hbit, rfl⟩, by simp⟩

end Directory

/-- C26. For every directory `d` and name, `removeSubdir(name)` returns, and it succeeds if
and only if the write bit (2) of `d` is set and the first child called `name` has neither
files nor subdirectories; where the children's names are distinct this says: some child is
called `name` and that child has zero files and zero subdirectories. On success the children
of `d` are the former children without that child, in the former order, and the rest of the
tree, the bitmap and the current directory are as before; on failure the state is returned
as it was. -/
theorem removeSubdir_spec (fs : FileSystem) (self : List Nat) (d : Directory) (name : String)
    (hd : fs.root.getDir self = some d) (hfit : indexBlocksFit fs.bm.blockSize fs.root) :
    ∃ ok fs1, Directory.removeSubdir fs self name = some (ok, fs1) ∧
      (ok = true ↔ testMask d.permissions 1 = true ∧
        ∃ i c, d.findSubdir name = some i ∧ d.subdirs[i]? = some c ∧ c.files = [] ∧
          c.subdirs = []) ∧
      ((d.subdirs.map Directory.name).Nodup →
        (ok = true ↔ testMask d.permissions 1 = true ∧
          ∃ c ∈ d.subdirs, c.name = name ∧ c.files = [] ∧ c.subdirs = [])) ∧
      (ok = true → ∃ i, d.findSubdir name = some i ∧
        fs1.root = fs.root.setSubdirs self (d.subdirs.eraseIdx i) ∧
        fs1.root.getDir self =
          some (.mk d.name d.permissions d.files (d.subdirs.eraseIdx i)) ∧
        fs1.bm.freeBlockBitmap = fs.bm.freeBlockBitmap ∧ fs1.currentDir = fs.currentDir) ∧
      (ok = false → fs1 = fs) := by
  obtain ⟨ok, fs1, h1, h2, h3, h4⟩ := Directory.removeSubdir_aux fs self d name hd hfit
  refine ⟨ok, fs1, h1, h2, ?_, ?_, h4⟩
  · intro hnd
    rw [h2]
    constructor
    · rintro ⟨hp, i, c, hi, hc, hfe, hse⟩
      obtain ⟨c', hc', hcn, _⟩ := Directory.findSubdir_some hi
      rw [hc] at hc'
      simp only [Option.some.injEq] at hc'
      subst hc'
      exact ⟨hp, c, List.getElem?_mem hc, hcn, hfe, hse⟩
    · rintro ⟨hp, c, hc, hcn, hfe, hse⟩
      obtain ⟨i, hi, hic⟩ := Directory.findSubdir_of_mem hnd hc
      exact ⟨hp, i, c, by rw [← hcn]; exact hi, hic, hfe, hse⟩
  · intro hok
    obtain ⟨i, hi, hr, hb, hc⟩ := h3 hok
    exact ⟨i, hi, hr, by rw [hr]; exact Directory.getDir_setSubdirs self fs.root d _ hd, hb, hc⟩

set_option maxRecDepth 100000 in
/-- C26, worked example: in `permState`, `removeSubdir("tmp")` on the root succeeds and
leaves the children `ro` and `bin` in that order; `removeSubdir("bin")` fails because `bin`
holds files, and `removeSubdir("x")` fails because no child is called `x`. -/
theorem removeSubdir_spec_witness :
    (∃ fs1, Directory.removeSubdir permState [] "tmp" = some (true, fs1) ∧
      (fs1.root.subdirs.map Directory.name) = ["ro", "bin"]) ∧
    Directory.removeSubdir permState [] "bin" = some (false, permState) ∧
    Directory.removeSubdir permState [] "x" = some (false, permState) := by
  refine ⟨?_, ?_, ?_⟩
  · obtain ⟨ok, fs1, h1, h2, _, h4, _⟩ :=
      removeSubdir_spec permState [] permState.root "tmp" rfl Directory.permState_fit
    have hok : ok = true := h2.2 ⟨by decide, 2, _, by decide, rfl, rfl, rfl⟩
    subst hok
    obtain ⟨i, hi, hr, _⟩ := h4 rfl
    have hi' : permState.root.findSubdir "tmp" = some 2 := by decide
    rw [hi'] at hi
    simp only [Option.some.injEq] at hi
    subst hi
    exact ⟨fs1, h1, by rw [hr]; decide⟩
  · obtain ⟨ok, fs1, h1, h2, _, _, h5⟩ :=
      removeSubdir_spec permState [] permState.root "bin" rfl Directory.permState_fit
    have hok : ok = false := by
      cases ok with
      | false => rfl
      | true =>
        obtain ⟨_, i, c, hi, hc, hfe, _⟩ := h2.1 rfl
        have hi' : permState.root.findSubdir "bin" = some 1 := by decide
        rw [hi'] at hi
        simp only [Option.some.injEq] at hi
        subst hi
        have hc' : permState.root.subdirs[1]? = some (permState.root.subdirs.getD 1 permState.root) :=
          rfl
        rw [hc'] at hc
        simp only [Option.some.injEq] at hc
        subst hc
        revert hfe
        decide
    subst hok
    rw [h5 rfl] at h1
    exact h1
  · obtain ⟨ok, fs1, h1, h2, _, _, h5⟩ :=
      removeSubdir_spec permState [] permState.root "x" rfl Directory.permState_fit
    have hok : ok = false := by
      cases ok with
      | false => rfl
      | true =>
        obtain ⟨_, i, c, hi, _⟩ := h2.1 rfl
        have hi' : permState.root.findSubdir "x" = none := by decide
        rw [hi'] at hi
        cases hi
    subst hok
    rw [h5 rfl] at h1
    exact h1

namespace Directory

/-! ### `addSubdir` and the three calls on the children of a node -/

theorem addSubdir_aux (fs : FileSystem) (self : List Nat) (d : Directory) (name : String)
    (hd : fs.root.getDir self = some d) (hfit : indexBlocksFit fs.bm.blockSize fs.root) :
    ∃ ok fs1, addSubdir fs self name = some (ok, fs1) ∧
      (ok = true ↔ testMask d.permissions 1 = true ∧ ∀ c ∈ d.subdirs, c.name ≠ name) ∧
      (ok = true →
        fs1.root = fs.root.setSubdirs self (d.subdirs ++ [.mk name 7 [] []]) ∧
        fs1.bm.freeBlockBitmap = fs.bm.freeBlockBitmap ∧ fs1.currentDir = fs.currentDir) ∧
      (ok = false → fs1 = fs) := by
  unfold addSubdir
  simp only [hd]
  by_cases hp : testMask d.permissions 1 = false
  · rw [if_pos hp]
    exact ⟨false, fs, rfl, by simp [hp], by simp, fun _ => rfl⟩
  · rw [if_neg hp]
    have hp' : testMask d.permissions 1 = true := by simpa using hp
    cases hf : d.findSubdir name with
    | some i =>
      obtain ⟨c, hc, hcn, _⟩ := findSubdir_some hf
      refine ⟨false, fs, rfl, ?_, by simp, fun _ => rfl⟩
      simp only [Bool.false_eq_true, false_iff, not_and]
      intro _ hall
      exact hall c (List.getElem?_mem hc) hcn
    | none =>
      have hfit1 : indexBlocksFit fs.bm.blockSize
          (fs.root.setSubdirs self (d.subdirs ++ [Directory.new name])) :=
        indexBlocksFit_setSubdirs hd hfit _ (fun fm hfm => by
          simpa [Directory.new, allFiles_mk] using hfm)
      obtain ⟨bm1, hs, hbit, _, _⟩ := saveDirectory_some
        { fs with root := fs.root.setSubdirs self (d.subdirs ++ [Directory.new name]) } hfit1
      simp only [Option.isSome_none, Bool.false_eq_true, if_false, hs]
      exact ⟨true, _, rfl, by simp only [true_iff]; exact ⟨hp', (findSubdir_none d name).1 hf⟩,
        fun _ => ⟨rfl, hbit, rfl⟩, by simp⟩

/-- A returning call of `addSubdir` leaves the tree or appends a child with a new name. -/
theorem addSubdir_tree {fs : FileSystem} {self : List Nat} {name : String}
    {r : Bool × FileSystem} (h : addSubdir fs self name = some r) :
    r.2.root = fs.root ∨ ∃ d, fs.root.getDir self = some d ∧
      (∀ c ∈ d.subdirs, c.name ≠ name) ∧
      r.2.root = fs.root.setSubdirs self (d.subdirs ++ [.mk name 7 [] []]) := by
  unfold addSubdir at h
  cases hd : fs.root.getDir self with
  | none => rw [hd] at h; cases h
  | some d =>
    simp only [hd] at h
    split at h
    · simp only [Option.some.injEq] at h
      exact Or.inl (by rw [← h])
    · split at h
      · simp only [Option.some.injEq] at h
        exact Or.inl (by rw [← h])
      · rename_i hnf
        have hnone : d.findSubdir name = none := by
          cases hx : d.findSubdir name with
          | none => rfl
          | some i => rw [hx] at hnf; simp at hnf
        cases hs : saveDirectory
            { fs with root := fs.root.setSubdirs self (d.subdirs ++ [Directory.new name]) } with
        | none => rw [hs] at h; cases h
        | some fs2 =>
          rw [hs] at h
          simp only [Option.some.injEq] at h
          obtain ⟨hr, _, _⟩ := saveDirectory_eq hs
          refine Or.inr ⟨d, rfl, (findSubdir_none d name).1 hnone, ?_⟩
          rw [← h]
          exact hr

/-- A returning call of `removeSubdir` leaves the tree or erases one child of a node. -/
theorem removeSubdir_tree {fs : FileSystem} {self : List Nat} {name : String}
    {r : Bool × FileSystem} (h : removeSubdir fs self name = some r) :
    r.2.root = fs.root ∨ ∃ d i, fs.root.getDir self = some d ∧
      r.2.root = fs.root.setSubdirs self (d.subdirs.eraseIdx i) := by
  unfold removeSubdir at h
  cases hd : fs.root.getDir self with
  | none => rw [hd] at h; cases h
  | some d =>
    simp only [hd] at h
    split at h
    · simp only [Option.some.injEq] at h
      exact Or.inl (by rw [← h])
    · cases hf : d.findSubdir name with
      | none =>
        simp only [hf, Option.some.injEq] at h
        exact Or.inl (by rw [← h])
      | some i =>
        simp only [hf] at h
        cases hc : d.subdirs[i]? with
        | none => simp only [hc] at h; cases h
        | some c =>
          simp only [hc] at h
          split at h
          · simp only [Option.some.injEq] at h
            exact Or.inl (by rw [← h])
          · cases hs : saveDirectory
                { fs with root := fs.root.setSubdirs self (d.subdirs.eraseIdx i) } with
            | none => rw [hs] at h; cases h
            | some fs2 =>
              rw [hs] at h
              simp only [Option.some.injEq] at h
              obtain ⟨hr, _, _⟩ := saveDirectory_eq hs
              exact Or.inr ⟨d, i, rfl, by rw [← h]; exact hr⟩

/-- A returning call of `removeDirectory` leaves the tree or erases one child of a node. -/
theorem removeDirectory_tree {fs : FileSystem} {self : List Nat} {name : String}
    {r : Bool × FileSystem} (h : removeDirectory fs self name = some r) :
    r.2.root = fs.root ∨ ∃ d i, fs.root.getDir self = some d ∧
      r.2.root = fs.root.setSubdirs self (d.subdirs.eraseIdx i) := by
  unfold removeDirectory at h
  cases hd : fs.root.getDir self with
  | none => rw [hd] at h; cases h
  | some d =>
    simp only [hd] at h
    split at h
    · simp only [Option.some.injEq] at h
      exact Or.inl (by rw [← h])
    · cases hf : d.findSubdir name with
      | none =>
        simp only [hf, Option.some.injEq] at h
        exact Or.inl (by rw [← h])
      | some i =>
        simp only [hf] at h
        cases hc : d.subdirs[i]? with
        | none => simp only [hc] at h; cases h
        | some c =>
          simp only [hc] at h
          cases hs : saveDirectory
              { fs with
                bm := removeDirectoryRecursive c fs.bm
                root := fs.root.setSubdirs self (d.subdirs.eraseIdx i) } with
          | none => rw [hs] at h; cases h
          | some fs2 =>
            rw [hs] at h
            simp only [Option.some.injEq] at h
            obtain ⟨hr, _, _⟩ := saveDirectory_eq hs
            exact Or.inr ⟨d, i, rfl, by rw [← h]; exact hr⟩

theorem UniqueNames.append_new {root d : Directory} {self : List Nat} {name : String}
    (hu : root.UniqueNames) (hd : root.getDir self = some d)
    (hnew : ∀ c ∈ d.subdirs, c.name ≠ name) :
    (root.setSubdirs self (d.subdirs ++ [.mk name 7 [] []])).UniqueNames := by
  have hdu := UniqueNames.getDir_inv self root d hu hd
  obtain ⟨n, pm, f, sds⟩ := d
  obtain ⟨hnd, hch⟩ := (uniqueNames_mk n pm f sds).1 hdu
  apply UniqueNames.setSubdirs_inv self root _ hu
  · simp only [Directory.subdirs, List.map_append, List.map_cons, List.map_nil, Directory.name]
    rw [List.nodup_append]
    refine ⟨hnd, by simp, ?_⟩
    intro a ha hb
    simp only [List.mem_singleton] at hb
    subst hb
    obtain ⟨c, hc, hcn⟩ := List.mem_map.1 ha
    exact hnew c hc hcn
  · intro c hc
    simp only [Directory.subdirs, List.mem_append, List.mem_singleton] at hc
    rcases hc with hc | hc
    · exact hch c hc
    · subst hc
      exact (uniqueNames_mk name 7 [] []).2 ⟨by simp, by simp⟩

theorem UniqueNames.eraseIdx_inv {root d : Directory} {self : List Nat} (i : Nat)
    (hu : root.UniqueNames) (hd : root.getDir self = some d) :
    (root.setSubdirs self (d.subdirs.eraseIdx i)).UniqueNames := by
  have hdu := UniqueNames.getDir_inv self root d hu hd
  obtain ⟨n, pm, f, sds⟩ := d
  obtain ⟨hnd, hch⟩ := (uniqueNames_mk n pm f sds).1 hdu
  apply UniqueNames.setSubdirs_inv self root _ hu
  · exact hnd.sublist ((List.eraseIdx_sublist sds i).map _)
  · intro c hc
    exact hch c (List.mem_of_mem_eraseIdx hc)

end Directory

/-- Sequences of `addSubdir`, `removeSubdir` and `removeDirectory` keep sibling names
distinct. -/
theorem runDirOps_uniqueNames :
    ∀ (ops : List DirOp) (fs fs1 : FileSystem), fs.root.UniqueNames →
      runDirOps ops fs = some fs1 → fs1.root.UniqueNames := by
  intro ops
  induction ops with
  | nil =>
    intro fs fs1 hu h
    simp only [runDirOps, Option.some.injEq] at h
    subst h
    exact hu
  | cons op ops ih =>
    intro fs fs1 hu h
    cases op with
    | addSubdir self name =>
      rw [runDirOps] at h
      cases hr : Directory.addSubdir fs self name with
      | none => rw [hr] at h; cases h
      | some r =>
        rw [hr] at h
        refine ih r.2 fs1 ?_ h
        rcases Directory.addSubdir_tree hr with h1 | ⟨d, hd, hnew, h1⟩
        · rw [h1]; exact hu
        · rw [h1]; exact Directory.UniqueNames.append_new hu hd hnew
    | removeSubdir self name =>
      rw [runDirOps] at h
      cases hr : Directory.removeSubdir fs self name with
      | none => rw [hr] at h; cases h
      | some r =>
        rw [hr] at h
        refine ih r.2 fs1 ?_ h
        rcases Directory.removeSubdir_tree hr with h1 | ⟨d, i, hd, h1⟩
        · rw [h1]; exact hu
        · rw [h1]; exact Directory.UniqueNames.eraseIdx_inv i hu hd
    | removeDirectory self name =>
      rw [runDirOps] at h
      cases hr : Directory.removeDirectory fs self name with
      | none => rw [hr] at h; cases h
      | some r =>
        rw [hr] at h
        refine ih r.2 fs1 ?_ h
        rcases Directory.removeDirectory_tree hr with
          h1 | ⟨d, i, hd, h1⟩
        · rw [h1]; exact hu
        · rw [h1]; exact Directory.UniqueNames.eraseIdx_inv i hu hd

theorem eq_some_getD_of_isSome {α : Type} {o : Option α} (dflt : α) (h : o.isSome = true) :
    o = some (o.getD dflt) := by
  cases o with
  | none => cases h
  | some x => rfl

theorem permState_uniqueNames : permState.root.UniqueNames := by
  unfold permState
  simp only [Directory.UniqueNames, uniqueNamesList]
  decide

/-- C27. (1) Starting from a tree in which no directory has two children with the same name,
after every sequence of `addSubdir`, `removeSubdir` and `removeDirectory` calls on any
directories of the tree that runs without undefined behaviour, still no directory has two
children with the same name. (2) `addSubdir(name)` on a directory `d` returns; it succeeds
exactly when the write bit (2) of `d` is set and no child of `d` is called `name`; on
success the children of `d` are the former children followed by one new directory called
`name` with permissions 7, no files and no children, found at the path of `d` extended by
its position (so its parent is `d`), and the rest of the tree is as before; on failure the
state is returned as it was. -/
theorem addSubdir_keeps_names_unique :
    (∀ (ops : List DirOp) (fs fs1 : FileSystem), fs.root.UniqueNames →
      runDirOps ops fs = some fs1 → fs1.root.UniqueNames) ∧
    (∀ (fs : FileSystem) (self : List Nat) (d : Directory) (name : String),
      fs.root.getDir self = some d → indexBlocksFit fs.bm.blockSize fs.root →
      ∃ ok fs1, Directory.addSubdir fs self name = some (ok, fs1) ∧
        (ok = true ↔ testMask d.permissions 1 = true ∧ ∀ c ∈ d.subdirs, c.name ≠ name) ∧
        (ok = true →
          fs1.root = fs.root.setSubdirs self (d.subdirs ++ [.mk name 7 [] []]) ∧
          fs1.root.getDir self =
            some (.mk d.name d.permissions d.files (d.subdirs ++ [.mk name 7 [] []])) ∧
          fs1.root.getDir (self ++ [d.subdirs.length]) = some (.mk name 7 [] [])) ∧
        (ok = false → fs1 = fs)) := by
  refine ⟨runDirOps_uniqueNames, ?_⟩
  intro fs self d name hd hfit
  obtain ⟨ok, fs1, h1, h2, h3, h4⟩ := Directory.addSubdir_aux fs self d name hd hfit
  refine ⟨ok, fs1, h1, h2, ?_, h4⟩
  intro hok
  obtain ⟨hr, _, _⟩ := h3 hok
  refine ⟨hr, ?_, ?_⟩
  · rw [hr]; exact Directory.getDir_setSubdirs self fs.root d _ hd
  · rw [hr]; exact Directory.getDir_setSubdirs_child self fs.root d _ hd

set_option maxRecDepth 100000 in
/-- C27, worked example: from `permState`, the calls `addSubdir("new")`, `addSubdir("ro")`
(refused: the name exists), `removeSubdir("tmp")`, `removeDirectory("bin")` on the root and
`addSubdir("x")` on `ro` (refused: no write bit) leave the root with the children `ro` and
`new`, and no directory has two children with the same name; `addSubdir("tmp")` on the root
of `permState` is refused and `addSubdir("new")` succeeds. -/
theorem addSubdir_keeps_names_unique_witness :
    ((runDirOps [.addSubdir [] "new", .addSubdir [] "ro", .removeSubdir [] "tmp",
        .removeDirectory [] "bin", .addSubdir [0] "x"] permState).map
        (fun fs => fs.root.subdirs.map Directory.name) = some ["ro", "new"]) ∧
    ((runDirOps [.addSubdir [] "new", .addSubdir [] "ro", .removeSubdir [] "tmp",
        .removeDirectory [] "bin", .addSubdir [0] "x"] permState).getD permState).root.UniqueNames ∧
    (∃ ok fs1, Directory.addSubdir permState [] "tmp" = some (ok, fs1) ∧
      (ok = true ↔ testMask permState.root.permissions 1 = true ∧
        ∀ c ∈ permState.root.subdirs, c.name ≠ "tmp")) :=
  ⟨by decide!,
   addSubdir_keeps_names_unique.1 _ permState _ permState_uniqueNames
     (eq_some_getD_of_isSome permState (by decide!)),
   by
     obtain ⟨ok, fs1, h1, h2, _⟩ := addSubdir_keeps_names_unique.2 permState [] permState.root
       "tmp" rfl Directory.permState_fit
     exact ⟨ok, fs1, h1, h2⟩⟩

namespace Directory

/-! ### `chmodEntry` -/

theorem getDir_withPermissions_cons (sd : Directory) (pm : Int) (k : Nat) (q : List Nat) :
    (sd.withPermissions pm).getDir (k :: q) = sd.getDir (k :: q) := by
  cases sd
  rfl

/-- Changing the permissions of the child at position `i` of the node at `self` changes the
permissions of the node at `self ++ [i]` and no name, permission or `files` map elsewhere. -/
theorem nodeAt_set_withPermissions (pm : Int) (i : Nat) :
    ∀ (self : List Nat) (root d sd : Directory), root.getDir self = some d →
      d.subdirs[i]? = some sd → ∀ q : List Nat,
      (root.setSubdirs self (d.subdirs.set i (sd.withPermissions pm))).nodeAt q =
        if q = self ++ [i] then some (sd.name, pm, sd.files) else root.nodeAt q := by
  intro self
  induction self with
  | nil =>
    intro root d sd hd hsd q
    obtain ⟨n, p, f, sds⟩ := root
    simp only [getDir, Option.some.injEq] at hd
    subst hd
    simp only [subdirs] at hsd
    obtain ⟨hlt, _⟩ := List.getElem?_eq_some_iff.1 hsd
    simp only [setSubdirs, subdirs, List.nil_append]
    cases q with
    | nil => simp [nodeAt, getDir, name, permissions, files]
    | cons j q' =>
      simp only [nodeAt, getDir]
      by_cases hj : j = i
      · subst hj
        rw [List.getElem?_set_self hlt, hsd]
        cases q' with
        | nil =>
          obtain ⟨n1, p1, f1, s1⟩ := sd
          simp [getDir, withPermissions, name, permissions, files]
        | cons k q'' =>
          simp only [getDir_withPermissions_cons]
          simp
      · rw [List.getElem?_set_ne (fun h => hj h.symm)]
        have : ¬ (j :: q' = [i]) := by
          intro h; simp only [List.cons.injEq] at h; exact hj h.1
        rw [if_neg this]
  | cons j self ih =>
    intro root d sd hd hsd q
    obtain ⟨n, p, f, sds⟩ := root
    rw [getDir] at hd
    cases hc : sds[j]? with
    | none => rw [hc] at hd; cases hd
    | some c =>
      rw [hc] at hd
      obtain ⟨hlt, _⟩ := List.getElem?_eq_some_iff.1 hc
      simp only [setSubdirs, hc, List.cons_append]
      cases q with
      | nil => simp [nodeAt, getDir, name, permissions, files]
      | cons k q' =>
        have ih' := ih c d sd hd hsd q'
        simp only [nodeAt] at ih'
        simp only [nodeAt, getDir]
        by_cases hk : k = j
        · subst hk
          rw [List.getElem?_set_self hlt, hc]
          simp only [List.cons.injEq, true_and]
          exact ih'
        · rw [List.getElem?_set_ne (fun h => hk h.symm)]
          have : ¬ (k :: q' = j :: (self ++ [i])) := by
            intro h; simp only [List.cons.injEq] at h; exact hk h.1
          rw [if_neg this]

/-- Replacing the `files` map of the node at `self` changes that map and no name,
permission or `files` map elsewhere. -/
theorem nodeAt_setFiles (F : List (String × FileMeta)) :
    ∀ (self : List Nat) (root d : Directory), root.getDir self = some d → ∀ q : List Nat,
      (root.setFiles self F).nodeAt q =
        if q = self then some (d.name, d.permissions, F) else root.nodeAt q := by
  intro self
  induction self with
  | nil =>
    intro root d hd q
    obtain ⟨n, p, f, sds⟩ := root
    simp only [getDir, Option.some.injEq] at hd
    subst hd
    cases q with
    | nil => simp [nodeAt, getDir, setFiles, name, permissions, files]
    | cons j q' => simp [nodeAt, getDir, setFiles]
  | cons j self ih =>
    intro root d hd q
    obtain ⟨n, p, f, sds⟩ := root
    rw [getDir] at hd
    cases hc : sds[j]? with
    | none => rw [hc] at hd; cases hd
    | some c =>
      rw [hc] at hd
      obtain ⟨hlt, _⟩ := List.getElem?_eq_some_iff.1 hc
      simp only [setFiles, hc]
      cases q with
      | nil => simp [nodeAt, getDir, name, permissions, files]
      | cons k q' =>
        have ih' := ih c d hd q'
        simp only [nodeAt] at ih'
        simp only [nodeAt, getDir]
        by_cases hk : k = j
        · subst hk
          rw [List.getElem?_set_self hlt, hc]
          simp only [List.cons.injEq, true_and]
          exact ih'
        · rw [List.getElem?_set_ne (fun h => hk h.symm)]
          have : ¬ (k :: q' = j :: self) := by
            intro h; simp only [List.cons.injEq] at h; exact hk h.1
          rw [if_neg this]

theorem allFiles_withPermissions (sd : Directory) (pm : Int) :
    (sd.withPermissions pm).allFiles = sd.allFiles := by
  obtain ⟨n, p, f, s⟩ := sd
  rw [withPermissions, allFiles_mk, allFiles_mk]

theorem flatMap_allFiles_set (sds : List Directory) (i : Nat) (sd sd1 : Directory)
    (h : sds[i]? = some sd) (hall : sd1.allFiles = sd.allFiles) :
    (sds.set i sd1).flatMap Directory.allFiles = sds.flatMap Directory.allFiles := by
  have : (sds.set i sd1).map Directory.allFiles = sds.map Directory.allFiles := by
    rw [List.map_set, hall]
    apply set_getElem?_self
    rw [List.getElem?_map, h]
    rfl
  rw [List.flatMap_def, List.flatMap_def, this]

theorem mapFind_mapAssign_ne {m : List (String × FileMeta)} {k k1 : String} (v : FileMeta)
    (h : k1 ≠ k) : mapFind (mapAssign m k v) k1 = mapFind m k1 := by
  induction m with
  | nil => rfl
  | cons a m ih =>
    obtain ⟨k0, v0⟩ := a
    by_cases h0 : k0 = k
    · subst h0
      have : ¬ (k0 = k1) := fun e => h e.symm
      simp [mapAssign, mapFind, this]
    · by_cases h1 : k0 = k1
      · subst h1
        simp [mapAssign, mapFind, h0]
      · simp [mapAssign, mapFind, h0, h1, ih]

end Directory

/-- C28. For every directory `d`, name and integer mode, `chmodEntry(name, mode)` returns.
(1) If a child directory called `name` exists, the call succeeds and the first such child
gets the permissions `mode mod 8` (`mode & 7`); every other directory keeps its permissions,
and every directory keeps its name and its `files` map, so a file called `name` is
unchanged. (2) Otherwise, if a file called `name` exists in `d`, the call succeeds and that
record gets the permissions `mode mod 8`; every other record of `d` and every other
directory's name, permissions and files are unchanged. (3) Otherwise the call fails and
returns the state as it was. The bitmap is unchanged in every case. -/
theorem chmodEntry_spec (fs : FileSystem) (self : List Nat) (d : Directory) (name : String)
    (mode : Int) (hd : fs.root.getDir self = some d)
    (hfit : indexBlocksFit fs.bm.blockSize fs.root) :
    (∀ i sd, d.findSubdir name = some i → d.subdirs[i]? = some sd →
      ∃ fs1, Directory.chmodEntry fs self name mode = some (true, fs1) ∧
        (∀ q, fs1.root.nodeAt q =
          if q = self ++ [i] then some (sd.name, mode % 8, sd.files) else fs.root.nodeAt q) ∧
        fs1.bm.freeBlockBitmap = fs.bm.freeBlockBitmap) ∧
    (∀ fm, d.findSubdir name = none → mapFind d.files name = some fm →
      ∃ fs1, Directory.chmodEntry fs self name mode = some (true, fs1) ∧
        (∀ q, fs1.root.nodeAt q =
          if q = self then
            some (d.name, d.permissions,
              mapAssign d.files name { fm with permissions := mode % 8 })
          else fs.root.nodeAt q) ∧
        getFile fs1 self name = some { fm with permissions := mode % 8 } ∧
        (∀ k, k ≠ name → getFile fs1 self k = getFile fs self k) ∧
        fs1.bm.freeBlockBitmap = fs.bm.freeBlockBitmap) ∧
    (d.findSubdir name = none → mapFind d.files name = none →
      Directory.chmodEntry fs self name mode = some (false, fs)) := by
  refine ⟨?_, ?_, ?_⟩
  · intro i sd hi hsd
    have hfit1 : indexBlocksFit fs.bm.blockSize
        (fs.root.setSubdirs self (d.subdirs.set i (sd.withPermissions (mode % 8)))) :=
      Directory.indexBlocksFit_setSubdirs hd hfit _ (fun x hx => by
        rwa [Directory.flatMap_allFiles_set d.subdirs i sd _ hsd
          (Directory.allFiles_withPermissions sd _)] at hx)
    obtain ⟨bm1, hs, hbit, _, _⟩ := Directory.saveDirectory_some
      { fs with
        root := fs.root.setSubdirs self (d.subdirs.set i (sd.withPermissions (mode % 8))) }
      hfit1
    refine ⟨{ fs with
      bm := bm1
      root := fs.root.setSubdirs self (d.subdirs.set i (sd.withPermissions (mode % 8))) },
      ?_, ?_, hbit⟩
    · unfold Directory.chmodEntry
      simp only [hd, hi, hsd, hs]
    · intro q
      exact Directory.nodeAt_set_withPermissions (mode % 8) i self fs.root d sd hd hsd q
  · intro fm hi hf
    obtain ⟨X, Y, hX, hY, _⟩ := Directory.file_ctx hd hf
    have hfit1 : indexBlocksFit fs.bm.blockSize
        (fs.root.setFiles self (mapAssign d.files name { fm with permissions := mode % 8 })) := by
      intro x hx
      rw [hY] at hx
      rcases List.mem_append.1 hx with hx | hx
      · exact hfit x (by rw [hX]; exact List.mem_append_left _ hx)
      · rcases List.mem_cons.1 hx with hx | hx
        · subst hx; exact hfit fm (by rw [hX]; simp)
        · exact hfit x (by rw [hX]; exact List.mem_append_right _ (List.mem_cons_of_mem _ hx))
    obtain ⟨bm1, hs, hbit, _, _⟩ := Directory.saveDirectory_some
      { fs with
        root := fs.root.setFiles self
          (mapAssign d.files name { fm with permissions := mode % 8 }) } hfit1
    refine ⟨{ fs with
      bm := bm1
      root := fs.root.setFiles self
        (mapAssign d.files name { fm with permissions := mode % 8 }) }, ?_, ?_, ?_, ?_, hbit⟩
    · unfold Directory.chmodEntry
      simp only [hd, hi, hf, hs]
    · intro q
      exact Directory.nodeAt_setFiles _ self fs.root d hd q
    · exact Directory.getFile_setFiles_mapAssign _ hd hf rfl
    · intro k hk
      unfold getFile
      show ((fs.root.setFiles self _).getDir self).bind _ = _
      rw [Directory.getDir_setFiles self fs.root d _ hd, hd]
      simp only [Option.bind, Directory.files]
      exact Directory.mapFind_mapAssign_ne _ hk
  · intro hi hf
    unfold Directory.chmodEntry
    simp only [hd, hi, hf]

set_option maxRecDepth 100000 in
/-- C28, worked example: in `permState`, `chmodEntry("bin", 15)` on the root gives the
directory `bin` the permissions 7 and leaves its file `b.txt` with permissions 4;
`chmodEntry("b.txt", -1)` on `bin` gives the record the permissions 7 and leaves `w.txt`
alone; `chmodEntry("none", 7)` fails. -/
theorem chmodEntry_spec_witness :
    (∃ fs1, Directory.chmodEntry permState [] "bin" 15 = some (true, fs1) ∧
      (fs1.root.nodeAt [1]).map (fun x => (x.1, x.2.1)) = some ("bin", 7) ∧
      fs1.root.nodeAt [0] = permState.root.nodeAt [0] ∧
      (getFile fs1 [1] "b.txt").map (fun fm => fm.permissions) = some 4) ∧
    (∃ fs1, Directory.chmodEntry permState [1] "b.txt" (-1) = some (true, fs1) ∧
      (getFile fs1 [1] "b.txt").map (fun fm => fm.permissions) = some 7 ∧
      getFile fs1 [1] "w.txt" = getFile permState [1] "w.txt") ∧
    Directory.chmodEntry permState [] "none" 7 = some (false, permState) := by
  refine ⟨?_, ?_, ?_⟩
  · obtain ⟨fs1, h1, h2, _⟩ := (chmodEntry_spec permState [] permState.root "bin" 15 rfl
      Directory.permState_fit).1 1 _ (by decide) rfl
    refine ⟨fs1, h1, ?_, ?_, ?_⟩
    · rw [h2 [1]]; rfl
    · rw [h2 [0]]; rfl
    · have := h2 [1]
      unfold getFile
      unfold Directory.nodeAt at this
      cases hg : fs1.root.getDir [1] with
      | none => rw [hg] at this; simp at this
      | some x =>
        rw [hg] at this
        simp only [Option.map_some', List.nil_append, if_true, Option.some.injEq,
          Prod.mk.injEq] at this
        simp only [Option.bind, this.2.2]
        decide
  · obtain ⟨fs1, h1, _, h3, h4, _⟩ := (chmodEntry_spec permState [1]
      (permState.root.subdirs.getD 1 permState.root) "b.txt" (-1) rfl
      Directory.permState_fit).2.1 _ (by decide) rfl
    exact ⟨fs1, h1, by rw [h3]; rfl, h4 "w.txt" (by decide)⟩
  · exact (chmodEntry_spec permState [] permState.root "none" 7 rfl
      Directory.permState_fit).2.2 (by decide) (by decide)

namespace Freed

theorem rfl_nil (bm : BlockManager) : Freed [] bm bm :=
  ⟨rfl, rfl, rfl, fun j => by simp⟩

theorem of_freeBlocks (bm : BlockManager) (l : List Int) : Freed l bm (bm.freeBlocks l) :=
  ⟨by simp, by simp, by simp, fun j => BlockManager.freeBlocks_getElem? bm l j⟩

theorem append {L1 L2 : List Int} {a b c : BlockManager} (h1 : Freed L1 a b)
    (h2 : Freed L2 b c) : Freed (L1 ++ L2) a c := by
  refine ⟨h2.totalBlocks_eq.trans h1.totalBlocks_eq, h2.blockSize_eq.trans h1.blockSize_eq,
    h2.length_eq.trans h1.length_eq, fun j => ?_⟩
  rw [h2.bit, h1.bit, h1.totalBlocks_eq, h1.length_eq]
  by_cases m1 : (j : Int) ∈ L1 <;> by_cases m2 : (j : Int) ∈ L2 <;>
    by_cases r : j < a.totalBlocks ∧ j < a.freeBlockBitmap.length <;>
    simp [m1, m2, r]

/-- Only the blocks with a natural number matter in the list of freed blocks. -/
theorem congr_mem {L L1 : List Int} {a b : BlockManager} (h : Freed L a b)
    (hm : ∀ j : Nat, (j : Int) ∈ L ↔ (j : Int) ∈ L1) : Freed L1 a b :=
  ⟨h.totalBlocks_eq, h.blockSize_eq, h.length_eq, fun j => by
    rw [h.bit]
    by_cases m : (j : Int) ∈ L
    · simp [m, (hm j).1 m]
    · have m1 : (j : Int) ∉ L1 := fun x => m ((hm j).2 x)
      simp [m, m1]⟩

end Freed

namespace Directory

/-- The file loop of `removeDirectoryRecursive` frees the blocks of its records. -/
theorem freeFiles_freed :
    ∀ (files : List (String × FileMeta)) (bm : BlockManager),
      Freed (files.flatMap (fun p => p.2.refs)) bm (freeFiles files bm) := by
  intro files
  induction files with
  | nil => intro bm; exact Freed.rfl_nil bm
  | cons a files ih =>
    intro bm
    obtain ⟨k, fm⟩ := a
    rw [freeFiles]
    have h1 : Freed fm.refs bm
        (if fm.indexBlock ≠ -1 then (bm.freeBlocks fm.blocks).freeBlock fm.indexBlock
          else bm.freeBlocks fm.blocks) := by
      by_cases hx : fm.indexBlock ≠ -1
      · rw [if_pos hx]
        have := Freed.of_freeBlocks bm (fm.blocks ++ [fm.indexBlock])
        rw [BlockManager.freeBlocks_append] at this
        refine this.congr_mem (fun j => ?_)
        simp only [FileMeta.refs, List.mem_append, List.mem_singleton, List.mem_cons,
          List.not_mem_nil, or_false]
        exact Or.comm
      · rw [if_neg hx]
        have hx' : fm.indexBlock = -1 := by
          by_contra h; exact hx h
        refine (Freed.of_freeBlocks bm fm.blocks).congr_mem (fun j => ?_)
        simp only [FileMeta.refs, List.mem_cons, hx']
        constructor
        · exact Or.inr
        · rintro (h | h)
          · omega
          · exact h
    have := h1.append (ih _)
    simpa [List.flatMap_cons] using this

mutual
/-- The helper `removeDirectoryRecursive` frees the blocks of every record below the
directory. -/
theorem removeDirectoryRecursive_freed :
    ∀ (d : Directory) (bm : BlockManager), Freed d.refBlocks bm (removeDirectoryRecursive d bm)
  | .mk n pm files subdirs, bm => by
    rw [removeDirectoryRecursive]
    have h1 := freeFiles_freed files bm
    have h2 := removeDirectoriesRecursive_freed subdirs (freeFiles files bm)
    refine (h1.append h2).congr_mem (fun j => ?_)
    simp only [refBlocks, allFiles_mk, List.flatMap_append, List.mem_append, List.flatMap_map,
      allFilesList_eq_flatMap]
    exact Or.comm
/-- The helper run over a list of directories frees the blocks of every record below
them. -/
theorem removeDirectoriesRecursive_freed :
    ∀ (ds : List Directory) (bm : BlockManager),
      Freed ((allFilesList ds).flatMap FileMeta.refs) bm (removeDirectoriesRecursive ds bm)
  | [], bm => by
    rw [removeDirectoriesRecursive]
    exact Freed.rfl_nil bm
  | d :: ds, bm => by
    rw [removeDirectoriesRecursive]
    have h1 := removeDirectoryRecursive_freed d bm
    have h2 := removeDirectoriesRecursive_freed ds (removeDirectoryRecursive d bm)
    refine (h1.append h2).congr_mem (fun j => ?_)
    simp only [refBlocks, allFilesList, List.flatMap_append]
end

end Directory

namespace Directory

theorem removeDirectory_aux (fs : FileSystem) (self : List Nat) (d target : Directory)
    (name : String) (i : Nat) (hd : fs.root.getDir self = some d)
    (hp : testMask d.permissions 1 = true) (hi : d.findSubdir name = some i)
    (ht : d.subdirs[i]? = some target) (hfit : indexBlocksFit fs.bm.blockSize fs.root) :
    ∃ fs1, removeDirectory fs self name = some (true, fs1) ∧
      fs1.root = fs.root.setSubdirs self (d.subdirs.eraseIdx i) ∧
      fs1.currentDir = fs.currentDir ∧ Freed target.refBlocks fs.bm fs1.bm := by
  have hfr := removeDirectoryRecursive_freed target fs.bm
  have hfit1 : indexBlocksFit (removeDirectoryRecursive target fs.bm).blockSize
      (fs.root.setSubdirs self (d.subdirs.eraseIdx i)) := by
    rw [hfr.blockSize_eq]
    exact indexBlocksFit_setSubdirs hd hfit _ (flatMap_allFiles_eraseIdx d.subdirs i)
  obtain ⟨bm1, hs, hbit, hbs, htot⟩ := saveDirectory_some
    { fs with
      bm := removeDirectoryRecursive target fs.bm
      root := fs.root.setSubdirs self (d.subdirs.eraseIdx i) } hfit1
  refine ⟨{ fs with
    bm := bm1
    root := fs.root.setSubdirs self (d.subdirs.eraseIdx i) }, ?_, rfl, rfl, ?_⟩
  · unfold removeDirectory
    simp only [hd, hp, hi, ht, hs]
    rfl
  · dsimp only at hbit hbs htot ⊢
    refine ⟨htot.trans hfr.totalBlocks_eq, hbs.trans hfr.blockSize_eq, ?_, ?_⟩
    · rw [hbit]; exact hfr.length_eq
    · intro j
      rw [hbit]; exact hfr.bit j

theorem not_mem_eraseIdx_of_nodup {sds : List Directory} {i : Nat} {c : Directory}
    (hnd : (sds.map Directory.name).Nodup) (hc : sds[i]? = some c) :
    ∀ e ∈ sds.eraseIdx i, e.name ≠ c.name := by
  intro e he hname
  obtain ⟨j, hji, hj⟩ := List.mem_eraseIdx_iff_getElem?.1 he
  obtain ⟨hi1, hi2⟩ := List.getElem?_eq_some_iff.1 hc
  obtain ⟨hj1, hj2⟩ := List.getElem?_eq_some_iff.1 hj
  have h1 : i < (sds.map Directory.name).length := by simpa using hi1
  have h2 : j < (sds.map Directory.name).length := by simpa using hj1
  have e : (sds.map Directory.name)[j] = (sds.map Directory.name)[i] := by
    simp only [List.getElem_map]
    rw [hi2, hj2, hname]
  exact hji (hnd.getElem_inj_iff.1 e)

end Directory

/-- C29. For every directory `d` whose write bit (2) is set and every name of a child of `d`,
recursive `removeDirectory(name)` succeeds, whatever the permissions of the directories of
the removed subtree are. Afterwards the children of `d` are the former children without the
first child called `name` (where names are distinct, no child is called `name` any more);
every index block and data block of every file anywhere in the removed subtree that lies
inside the bitmap is marked free; and no other bit of the bitmap has changed. -/
theorem removeDirectory_spec (fs : FileSystem) (self : List Nat) (d target : Directory)
    (name : String) (i : Nat) (hd : fs.root.getDir self = some d)
    (hp : testMask d.permissions 1 = true) (hi : d.findSubdir name = some i)
    (ht : d.subdirs[i]? = some target) (hfit : indexBlocksFit fs.bm.blockSize fs.root)
    (hlen : fs.bm.freeBlockBitmap.length = fs.bm.totalBlocks) :
    ∃ fs1, Directory.removeDirectory fs self name = some (true, fs1) ∧
      fs1.root.getDir self =
        some (.mk d.name d.permissions d.files (d.subdirs.eraseIdx i)) ∧
      ((d.subdirs.map Directory.name).Nodup → ∀ c ∈ d.subdirs.eraseIdx i, c.name ≠ name) ∧
      (∀ fm ∈ target.allFiles, ∀ b ∈ fm.indexBlock :: fm.blocks,
        0 ≤ b → b < (fs.bm.totalBlocks : Int) →
        fs1.bm.freeBlockBitmap[b.toNat]? = some true) ∧
      (∀ j : Nat, (¬ ∃ fm ∈ target.allFiles, (j : Int) ∈ fm.indexBlock :: fm.blocks) →
        fs1.bm.freeBlockBitmap[j]? = fs.bm.freeBlockBitmap[j]?) ∧
      fs1.bm.freeBlockBitmap.length = fs.bm.freeBlockBitmap.length := by
  obtain ⟨fs1, h1, hr, _, hfr⟩ := Directory.removeDirectory_aux fs self d target name i hd hp hi
    ht hfit
  obtain ⟨c, hc, hcn, _⟩ := Directory.findSubdir_some hi
  refine ⟨fs1, h1, ?_, ?_, ?_, ?_, hfr.length_eq⟩
  · rw [hr]; exact Directory.getDir_setSubdirs self fs.root d _ hd
  · intro hnd e he
    rw [← hcn]
    exact Directory.not_mem_eraseIdx_of_nodup hnd hc e he
  · intro fm hfm b hb h0 h1
    have hb' : ((b.toNat : Nat) : Int) ∈ target.refBlocks := by
      rw [Int.toNat_of_nonneg h0]
      exact List.mem_flatMap.2 ⟨fm, hfm, hb⟩
    rw [hfr.bit, if_pos ⟨hb', by omega, by omega⟩]
  · intro j hj
    have hj' : (j : Int) ∉ target.refBlocks := by
      intro hx
      obtain ⟨fm, hfm, hb⟩ := List.mem_flatMap.1 hx
      exact hj ⟨fm, hfm, hb⟩
    rw [hfr.bit]
    simp [hj']

set_option maxRecDepth 100000 in
/-- C29, worked example: in `permState`, `removeDirectory("bin")` on the root succeeds
although `bin` has no write bit; the blocks 3 to 8 of its files `b.txt` and `w.txt` are free
afterwards, the blocks 0, 1 and 2 are still used, and the children left are `ro` and
`tmp`. -/
theorem removeDirectory_spec_witness :
    ∃ fs1, Directory.removeDirectory permState [] "bin" = some (true, fs1) ∧
      (fs1.root.getDir []).map (fun r => r.subdirs.map Directory.name) = some ["ro", "tmp"] ∧
      (∀ b ∈ [3, 4, 5, 6, 7, 8], fs1.bm.freeBlockBitmap[b]? = some true) ∧
      (∀ j ∈ [0, 1, 2], fs1.bm.freeBlockBitmap[j]? = some false) := by
  obtain ⟨fs1, h1, h2, _, h4, h5, _⟩ := removeDirectory_spec permState [] permState.root
    (permState.root.subdirs.getD 1 permState.root) "bin" 1 rfl (by decide) (by decide) rfl
    Directory.permState_fit (by decide)
  refine ⟨fs1, h1, by rw [h2]; decide, ?_, ?_⟩
  · have hb := h4 _ (show ((permState.root.subdirs.getD 1 permState.root).files.getD 0
      ("", FileMeta.new 0)).2 ∈ _ by
      decide)
    have hw := h4 _ (show ((permState.root.subdirs.getD 1 permState.root).files.getD 1
      ("", FileMeta.new 0)).2 ∈ _ by decide)
    intro b hbm
    simp only [List.mem_cons, List.mem_singleton, List.not_mem_nil, or_false] at hbm
    rcases hbm with rfl | rfl | rfl | rfl | rfl | rfl
    · exact hb 3 (by decide) (by decide) (by decide)
    · exact hb 4 (by decide) (by decide) (by decide)
    · exact hb 5 (by decide) (by decide) (by decide)
    · exact hw 6 (by decide) (by decide) (by decide)
    · exact hw 7 (by decide) (by decide) (by decide)
    · exact hw 8 (by decide) (by decide) (by decide)
  · intro j hj
    simp only [List.mem_cons, List.mem_singleton, List.not_mem_nil, or_false] at hj
    rcases hj with rfl | rfl | rfl
    · rw [h5 0 (by decide)]; rfl
    · rw [h5 1 (by decide)]; rfl
    · rw [h5 2 (by decide)]; rfl

set_option maxRecDepth 100000 in
set_option synthInstance.maxSize 4096 in
/-- C30 (counterexample). On a fresh filesystem of 100 blocks of 512 bytes, nine calls
`createFile("f1", 0)` ... `createFile("f9", 0)` all succeed and give a tree whose snapshot
text is 591 bytes long, more than one block: block 0 holds its first 512 bytes only, the
line of `f8` is cut off, and `loadDirectory` reads back eight of the nine files. -/
theorem snapshot_exceeds_block :
    (runOps [.create "f1" 0 1700000000, .create "f2" 0 1700000000, .create "f3" 0 1700000000,
        .create "f4" 0 1700000000, .create "f5" 0 1700000000, .create "f6" 0 1700000000,
        .create "f7" 0 1700000000, .create "f8" 0 1700000000, .create "f9" 0 1700000000]
        (FileSystem.fresh 512 100)).map
      (fun fs => (fs.root.files.map (fun p => p.1), (Serializer.writeDir fs.root 0).length,
        fs.bm.blockSize,
        decide ((Serializer.writeDir fs.root 0).length ≤ fs.bm.blockSize),
        decide ((fs.bm.readBlock 0 []).2 = (Serializer.writeDir fs.root 0).take 512),
        (Serializer.loadDirectory fs.bm 1700000001).map
          (fun r => r.2.map (fun t => t.files.map (fun p => p.1))))) =
    some (["f1", "f2", "f3", "f4", "f5", "f6", "f7", "f8", "f9"], 591, 512, false, true,
      some (some ["f1", "f2", "f3", "f4", "f5", "f6", "f7", "f8"])) := by
  decide!

/-- C30 (amended). For every tree whose block lists fit their index blocks,
`saveDirectory(root)` returns and block 0 then holds the first `blockSize` bytes of the
snapshot text, padded with zero bytes when the text is shorter. So the bytes written are the
complete snapshot when the text is at most `blockSize` bytes long, and a longer text is cut
off after `blockSize` bytes. -/
theorem saveDirectory_writes_prefix (bm : BlockManager) (root : Directory)
    (hfit : indexBlocksFit bm.blockSize root) (htotal : 0 < bm.totalBlocks)
    (hdisk : bm.disk.length = bm.totalBlocks) :
    ∃ bm1, Serializer.saveDirectory bm root = some bm1 ∧
      bm1.readBlock 0 [] = (true, (Serializer.writeDir root 0).take bm.blockSize ++
        zeros (bm.blockSize - (Serializer.writeDir root 0).length)) ∧
      ((Serializer.writeDir root 0).length ≤ bm.blockSize →
        (bm1.readBlock 0 []).2.take (Serializer.writeDir root 0).length =
          Serializer.writeDir root 0) ∧
      (bm.blockSize < (Serializer.writeDir root 0).length →
        (bm1.readBlock 0 []).2 = (Serializer.writeDir root 0).take bm.blockSize) := by
  obtain ⟨bmi, hbmi⟩ := Serializer.writeIndexBlocks_some root.allFiles bm hfit
  have hfr := Serializer.writeIndexBlocks_frame hbmi
  have hread := BlockManager.writeBlock_then_readBlock bmi 0
    (Serializer.blockOfText bmi.blockSize (Serializer.writeDir root 0))
    (by rw [hfr.disk_len, hfr.totalBlocks_eq]; exact hdisk)
    ⟨le_refl _, by rw [hfr.totalBlocks_eq]; exact_mod_cast htotal⟩
    (Serializer.length_blockOfText _ _) []
  rw [hfr.blockSize_eq] at hread
  have hsave : Serializer.saveDirectory bm root = some (bmi.writeBlock 0
      (Serializer.blockOfText bm.blockSize (Serializer.writeDir root 0))).2 := by
    rw [Serializer.saveDirectory, hbmi]
    simp only [hfr.blockSize_eq]
  refine ⟨_, hsave, ?_, ?_, ?_⟩
  · rw [hread]; rfl
  · intro hle
    rw [hread]
    show (Serializer.blockOfText bm.blockSize (Serializer.writeDir root 0)).take _ = _
    rw [(Serializer.blockOfText_fit _ _ hle).1, List.take_left' rfl]
  · intro hlt
    rw [hread]
    show Serializer.blockOfText bm.blockSize (Serializer.writeDir root 0) = _
    unfold Serializer.blockOfText
    have : bm.blockSize - (Serializer.writeDir root 0).length = 0 := by omega
    rw [this]
    simp [zeros]

set_option maxRecDepth 100000 in
/-- C30 (amended), worked example: the snapshot text of `permState` has 322 bytes, and after
`saveDirectory` block 0 holds its first 128 bytes. -/
theorem saveDirectory_writes_prefix_witness :
    (Serializer.writeDir permState.root 0).length = 322 ∧
    ∃ bm1, Serializer.saveDirectory permState.bm permState.root = some bm1 ∧
      (bm1.readBlock 0 []).2 = (Serializer.writeDir permState.root 0).take 128 := by
  obtain ⟨bm1, h1, _, _, h4⟩ := saveDirectory_writes_prefix permState.bm permState.root
    Directory.permState_fit (by decide) (by decide)
  exact ⟨by decide, bm1, h1, h4 (by decide)⟩

namespace Directory

/-! ### The number of data blocks after a successful call -/

theorem createFile_blockCount {fs fs1 : FileSystem} {self : List Nat} {filename : String}
    {size now : Int} {d : Directory} (hd : fs.root.getDir self = some d) (hs : 0 ≤ size)
    (h : createFile fs self filename size now = some (true, fs1)) :
    ∃ fm, getFile fs1 self filename = some fm ∧ fm.fileSize = size ∧
      (fm.blocks.length : Int) = ceilDiv size fs.bm.blockSize := by
  obtain ⟨i0, rest, mf, bm3, _, _, _, hn, _, _, hroot, _⟩ := createFile_true hd h
  refine ⟨_, getFile_setFiles_mapInsert filename _ hd hroot, rfl, ?_⟩
  have h0 := ceilDiv_nonneg fs.bm.blockSize hs
  simp only [newFileMeta, List.length_map, List.length_take]
  omega

theorem appendFile_blockCount {fs fs1 : FileSystem} {self : List Nat} {filename : String}
    {data : List Char} {now : Int} {fm : FileMeta} (hbs : 0 < fs.bm.blockSize)
    (hg : getFile fs self filename = some fm)
    (hB : (fm.blocks.length : Int) = ceilDiv fm.fileSize fs.bm.blockSize)
    (h : appendFile fs self filename data now = some (true, fs1)) :
    ∃ fm1, getFile fs1 self filename = some fm1 ∧
      fm1.fileSize = fm.fileSize + (data.length : Int) ∧
      (fm1.blocks.length : Int) = ceilDiv (fm.fileSize + (data.length : Int)) fs.bm.blockSize := by
  obtain ⟨d, hd, hf⟩ := getFile_eq_some hg
  obtain ⟨hne, hw, hsp⟩ := appendFile_true_pre hd hf h
  obtain ⟨mf, hu⟩ := appendFile_unfold now hd hf hne hw hsp
  rw [hu] at h
  split at h
  · cases h
  · split at h
    · cases h
    · split at h
      · cases h
      · simp only [Option.some.injEq, Prod.mk.injEq, true_and] at h
        refine ⟨_, getFile_setFiles_mapAssign _ hd hf (by rw [← h]), rfl, ?_⟩
        have hmono := ceilDiv_mono hbs
          (show fm.fileSize ≤ fm.fileSize + (data.length : Int) by omega)
        simp only [appendedMeta, List.length_append, List.length_map, List.length_take]
        push_cast
        omega

theorem length_shrinkBlocks {blockSize : Nat} {bm bm1 : BlockManager} {blocks blocks1 : List Int}
    {currentSize newSize : Int} (hbs : 0 < blockSize) (h0 : 0 ≤ newSize)
    (hlt : newSize < currentSize)
    (hB : (blocks.length : Int) = ceilDiv currentSize blockSize)
    (h : shrinkBlocks blockSize bm blocks currentSize newSize = some (bm1, blocks1)) :
    blocks1 = blocks.take (ceilDiv newSize blockSize).toNat ∧
      (blocks1.length : Int) = ceilDiv newSize blockSize := by
  have hmono := ceilDiv_mono hbs (le_of_lt hlt)
  have hnn := ceilDiv_nonneg blockSize h0
  unfold shrinkBlocks at h
  dsimp only at h
  by_cases hz : newSize = 0
  · rw [if_pos hz] at h
    simp only [Option.some.injEq, Prod.mk.injEq] at h
    subst hz
    have : ceilDiv 0 blockSize = 0 := by simp [ceilDiv]
    rw [← h.2, this]
    simp
  · rw [if_neg hz] at h
    have he : vecEraseFrom blocks (ceilDiv newSize blockSize) =
        some (blocks.take (ceilDiv newSize blockSize).toNat) := by
      unfold vecEraseFrom
      rw [if_pos ⟨hnn, by omega⟩]
    rw [he] at h
    have hlen : ((blocks.take (ceilDiv newSize blockSize).toNat).length : Int) =
        ceilDiv newSize blockSize := by
      rw [List.length_take]
      omega
    cases hsf : shrinkFree blocks (ceilDiv currentSize blockSize - ceilDiv newSize blockSize).toNat
        (ceilDiv newSize blockSize) bm with
    | none => rw [hsf] at h; cases h
    | some bm2 =>
      rw [hsf] at h
      dsimp only at h
      split at h
      · split at h
        · cases h
        · simp only [Option.some.injEq, Prod.mk.injEq] at h
          rw [← h.2]
          exact ⟨rfl, hlen⟩
      · simp only [Option.some.injEq, Prod.mk.injEq] at h
        rw [← h.2]
        exact ⟨rfl, hlen⟩

theorem resizeFile_blockCount {fs fs1 : FileSystem} {self : List Nat} {filename : String}
    {newSize now : Int} {fm : FileMeta} (hbs : 0 < fs.bm.blockSize)
    (hg : getFile fs self filename = some fm)
    (hB : (fm.blocks.length : Int) = ceilDiv fm.fileSize fs.bm.blockSize)
    (h : resizeFile fs self filename newSize now = some (true, fs1)) :
    ∃ fm1, getFile fs1 self filename = some fm1 ∧ fm1.fileSize = newSize ∧
      (fm1.blocks.length : Int) = ceilDiv newSize fs.bm.blockSize := by
  obtain ⟨d, hd, hf⟩ := getFile_eq_some hg
  rcases lt_trichotomy newSize fm.fileSize with hlt | heq | hgt
  · -- shrinking
    unfold resizeFile at h
    simp only [hd, hf] at h
    split at h
    · cases h
    · split at h
      · cases h
      · rename_i hneg
        have h0 : 0 ≤ newSize := by omega
        rw [if_neg (by omega), if_neg (by omega)] at h
        cases hsh : shrinkBlocks fs.bm.blockSize fs.bm fm.blocks fm.fileSize newSize with
        | none => rw [hsh] at h; cases h
        | some r =>
          obtain ⟨bm1, blocks⟩ := r
          rw [hsh] at h
          dsimp only at h
          split at h
          · cases h
          · simp only [Option.some.injEq, Prod.mk.injEq, true_and] at h
            obtain ⟨_, hlen⟩ := length_shrinkBlocks hbs h0 hlt hB hsh
            exact ⟨_, getFile_setFiles_mapAssign _ hd hf (by rw [← h]), rfl, hlen⟩
  · -- unchanged
    unfold resizeFile at h
    simp only [hd, hf] at h
    split at h
    · cases h
    · split at h
      · cases h
      · simp only [Option.some.injEq, Prod.mk.injEq, true_and] at h
        subst h
        exact ⟨fm, hg, heq.symm, by rw [heq]; exact hB⟩
  · -- growing
    obtain ⟨mf, bm2, bm3, _, hsp, _, _, _, hroot, _⟩ := resizeFile_grow_true hd hf hgt h
    refine ⟨_, getFile_setFiles_mapAssign _ hd hf hroot, rfl, ?_⟩
    have hmono := ceilDiv_mono hbs (le_of_lt hgt)
    simp only [resizedMeta, List.length_append, List.length_map, List.length_take]
    push_cast
    omega

end Directory

/-- C31. (1) Every record produced by a successful `createFile(name, size)` with
`size >= 0` has size `size` and `ceil(size/blockSize)` data blocks, none when the size is 0.
(2) For every record with `len(dataBlocks) = ceil(size/blockSize)`, a successful
`appendFile` leaves the record with the size `size + len(data)` and
`ceil(newSize/blockSize)` data blocks. (3) For every such record, a successful
`resizeFile` (growing, shrinking, to 0 or to the same size) leaves the record with the size
`newSize` and `ceil(newSize/blockSize)` data blocks. -/
theorem blockCount_after_success :
    (∀ (fs fs1 : FileSystem) (self : List Nat) (filename : String) (size now : Int)
      (d : Directory), fs.root.getDir self = some d → 0 ≤ size →
      Directory.createFile fs self filename size now = some (true, fs1) →
      ∃ fm, getFile fs1 self filename = some fm ∧ fm.fileSize = size ∧
        (fm.blocks.length : Int) = ceilDiv size fs.bm.blockSize ∧
        (size = 0 → fm.blocks = [])) ∧
    (∀ (fs fs1 : FileSystem) (self : List Nat) (filename : String) (data : List Char)
      (now : Int) (fm : FileMeta), 0 < fs.bm.blockSize → getFile fs self filename = some fm →
      (fm.blocks.length : Int) = ceilDiv fm.fileSize fs.bm.blockSize →
      Directory.appendFile fs self filename data now = some (true, fs1) →
      ∃ fm1, getFile fs1 self filename = some fm1 ∧
        fm1.fileSize = fm.fileSize + (data.length : Int) ∧
        (fm1.blocks.length : Int) =
          ceilDiv (fm.fileSize + (data.length : Int)) fs.bm.blockSize) ∧
    (∀ (fs fs1 : FileSystem) (self : List Nat) (filename : String) (newSize now : Int)
      (fm : FileMeta), 0 < fs.bm.blockSize → getFile fs self filename = some fm →
      (fm.blocks.length : Int) = ceilDiv fm.fileSize fs.bm.blockSize →
      Directory.resizeFile fs self filename newSize now = some (true, fs1) →
      ∃ fm1, getFile fs1 self filename = some fm1 ∧ fm1.fileSize = newSize ∧
        (fm1.blocks.length : Int) = ceilDiv newSize fs.bm.blockSize) := by
  refine ⟨?_, ?_, ?_⟩
  · intro fs fs1 self filename size now d hd hs h
    obtain ⟨fm, h1, h2, h3⟩ := Directory.createFile_blockCount hd hs h
    refine ⟨fm, h1, h2, h3, ?_⟩
    intro hz
    subst hz
    have : ceilDiv 0 fs.bm.blockSize = 0 := by simp [ceilDiv]
    rw [this] at h3
    exact List.length_eq_zero.1 (by exact_mod_cast h3)
  · intro fs fs1 self filename data now fm hbs hg hB h
    exact Directory.appendFile_blockCount hbs hg hB h
  · intro fs fs1 self filename newSize now fm hbs hg hB h
    exact Directory.resizeFile_blockCount hbs hg hB h

set_option maxRecDepth 100000 in
set_option synthInstance.maxSize 4096 in
/-- C31, worked example (16-byte blocks): `createFile("a", 20)` on a fresh disk gives a
record with 2 data blocks and `createFile("e", 0)` one with none; in `exampleState` (file
`f` of 5 bytes in 1 block) appending 18 bytes gives 2 blocks, growing to 40 bytes gives 3,
shrinking to 3 bytes gives 1 and resizing to 0 gives none. -/
theorem blockCount_after_success_witness :
    (∃ fs1 fm, Directory.createFile (FileSystem.fresh 16 8) [] "a" 20 0 = some (true, fs1) ∧
      getFile fs1 [] "a" = some fm ∧ (fm.blocks.length : Int) = 2) ∧
    (∃ fs1 fm, Directory.createFile (FileSystem.fresh 16 8) [] "e" 0 0 = some (true, fs1) ∧
      getFile fs1 [] "e" = some fm ∧ fm.blocks = []) ∧
    (∃ fs1 fm, Directory.appendFile exampleState [] "f" "abcdefghijklmnopqr".toList 2 =
        some (true, fs1) ∧
      getFile fs1 [] "f" = some fm ∧ fm.fileSize = 23 ∧ (fm.blocks.length : Int) = 2) ∧
    (∃ fs1 fm, Directory.resizeFile exampleState [] "f" 40 2 = some (true, fs1) ∧
      getFile fs1 [] "f" = some fm ∧ (fm.blocks.length : Int) = 3) ∧
    (∃ fs1 fm, Directory.resizeFile exampleState [] "f" 3 2 = some (true, fs1) ∧
      getFile fs1 [] "f" = some fm ∧ (fm.blocks.length : Int) = 1) ∧
    (∃ fs1 fm, Directory.resizeFile exampleState [] "f" 0 2 = some (true, fs1) ∧
      getFile fs1 [] "f" = some fm ∧ (fm.blocks.length : Int) = 0) := by
  have c1 := eq_some_of_map_fst
    (o := Directory.createFile (FileSystem.fresh 16 8) [] "a" 20 0) (b := true) exampleState
    (by decide)
  have c2 := eq_some_of_map_fst
    (o := Directory.createFile (FileSystem.fresh 16 8) [] "e" 0 0) (b := true) exampleState
    (by decide)
  have a1 := eq_some_of_map_fst
    (o := Directory.appendFile exampleState [] "f" "abcdefghijklmnopqr".toList 2) (b := true)
    exampleState (by decide)
  have r1 := eq_some_of_map_fst
    (o := Directory.resizeFile exampleState [] "f" 40 2) (b := true) exampleState (by decide)
  have r2 := eq_some_of_map_fst
    (o := Directory.resizeFile exampleState [] "f" 3 2) (b := true) exampleState (by decide)
  have r3 := eq_some_of_map_fst
    (o := Directory.resizeFile exampleState [] "f" 0 2) (b := true) exampleState (by decide)
  refine ⟨?_, ?_, ?_, ?_, ?_, ?_⟩
  · obtain ⟨fm, h1, _, h3, _⟩ := blockCount_after_success.1 (FileSystem.fresh 16 8) _ [] "a" 20 0
      (FileSystem.fresh 16 8).root rfl (by decide) c1
    exact ⟨_, fm, c1, h1, by rw [h3]; decide⟩
  · obtain ⟨fm, h1, _, _, h4⟩ := blockCount_after_success.1 (FileSystem.fresh 16 8) _ [] "e" 0 0
      (FileSystem.fresh 16 8).root rfl (by decide) c2
    exact ⟨_, fm, c2, h1, h4 rfl⟩
  · obtain ⟨fm, h1, h2, h3⟩ := blockCount_after_success.2.1 exampleState _ [] "f" _ 2 _
      (by decide) exampleState_file (by decide) a1
    exact ⟨_, fm, a1, h1, by rw [h2]; decide, by rw [h3]; decide⟩
  · obtain ⟨fm, h1, _, h3⟩ := blockCount_after_success.2.2 exampleState _ [] "f" 40 2 _
      (by decide) exampleState_file (by decide) r1
    exact ⟨_, fm, r1, h1, by rw [h3]; decide⟩
  · obtain ⟨fm, h1, _, h3⟩ := blockCount_after_success.2.2 exampleState _ [] "f" 3 2 _
      (by decide) exampleState_file (by decide) r2
    exact ⟨_, fm, r2, h1, by rw [h3]; decide⟩
  · obtain ⟨fm, h1, _, h3⟩ := blockCount_after_success.2.2 exampleState _ [] "f" 0 2 _
      (by decide) exampleState_file (by decide) r3
    exact ⟨_, fm, r3, h1, by rw [h3]; decide⟩

namespace FileSystem

set_option maxRecDepth 100000 in
set_option synthInstance.maxSize 4096 in
/-- C32 (failing input). Block size 16, 4 blocks: `createFile("f", 16)` gives `f` the index
block 1 and the data block 2; `appendFile("f", 32 bytes)` fails but leaves the freed block 3
in the data-block list of `f`; `createFile("g", 0)` then takes block 3 as the index block of
`g`. Block 3 is now referenced twice: as a data block of `f` and as the index block of
`g`. -/
theorem failed_append_then_create_shares_block :
    (createFile (fresh 16 4) "f" 16 0).bind (fun r1 =>
      (appendFile r1.2 "f" (List.replicate 32 'x') 1).bind (fun r2 =>
        (createFile r2.2 "g" 0 2).map (fun r3 =>
          (r1.1, r2.1, r3.1,
           (getFile r3.2 [] "f").map (fun fm => (fm.indexBlock, fm.blocks)),
           (getFile r3.2 [] "g").map (fun fm => (fm.indexBlock, fm.blocks)),
           r3.2.root.refBlocks, decide r3.2.root.refBlocks.Nodup)))) =
    some (true, false, true, some (1, [2, 3]), some (3, []), [1, 2, 3, 3], false) := by
  decide!

end FileSystem
namespace Directory
open BlockManager

/-! ### Shrinking a file -/

/-- The block handling of the shrinking branch returns: it keeps the first
`ceil(newSize / blockSize)` blocks, frees the others, and rewrites the new last block with a
zeroed tail when the new size is not a multiple of the block size. -/
theorem shrinkBlocks_spec {bm : BlockManager} (hd : DiskOk bm) {blocks : List Int}
    {s newSize : Int} (h0 : 0 ≤ newSize) (hlt : newSize < s)
    (hB : (blocks.length : Int) = ceilDiv s bm.blockSize)
    (hv : validBlocks bm blocks) :
    ∃ bmS, shrinkBlocks bm.blockSize bm blocks s newSize =
        some (bmS, blocks.take (ceilDiv newSize bm.blockSize).toNat) ∧
      bmS.freeBlockBitmap =
        (bm.freeBlocks (blocks.drop (ceilDiv newSize bm.blockSize).toNat)).freeBlockBitmap ∧
      bmS.blockSize = bm.blockSize ∧ bmS.totalBlocks = bm.totalBlocks ∧
      bmS.disk.length = bm.disk.length ∧
      (Int.tmod newSize (bm.blockSize : Int) ≠ 0 →
        ∃ blk, (blocks.take (ceilDiv newSize bm.blockSize).toNat).getLast? = some blk ∧
          (bmS.readBlock blk []).2 =
            ((bm.readBlock blk []).2).take (Int.tmod newSize (bm.blockSize : Int)).toNat ++
              zeros (bm.blockSize - (Int.tmod newSize (bm.blockSize : Int)).toNat)) := by
  have hpos := hd.blockSize_pos
  have hmono := ceilDiv_mono hpos (le_of_lt hlt)
  have hnn := ceilDiv_nonneg bm.blockSize h0
  unfold shrinkBlocks
  dsimp only
  by_cases hz : newSize = 0
  · subst hz
    rw [if_pos rfl]
    have hc : ceilDiv 0 bm.blockSize = 0 := by simp [ceilDiv]
    rw [hc]
    refine ⟨_, rfl, rfl, by simp, by simp, by simp, fun h => absurd (by simp) h⟩
  · rw [if_neg hz]
    obtain ⟨r, hr⟩ : ∃ r : Nat, ceilDiv newSize bm.blockSize = (r : Int) :=
      ⟨(ceilDiv newSize bm.blockSize).toNat, (Int.toNat_of_nonneg hnn).symm⟩
    rw [hr] at hmono ⊢
    simp only [Int.toNat_ofNat]
    have hrl : r ≤ blocks.length := by omega
    have hsplit : blocks = [] ++ blocks.take r ++ blocks.drop r := by simp
    have htl : (blocks.take r).length = r := by rw [List.length_take]; omega
    have hdl : (blocks.drop r).length = blocks.length - r := List.length_drop _ _
    have e1 : shrinkFree blocks (ceilDiv s bm.blockSize - (r : Int)).toNat (r : Int) bm =
        some (bm.freeBlocks (blocks.drop r)) := by
      have := shrinkFree_eq [] (blocks.drop r) (blocks.take r) bm
      rw [← hsplit, List.nil_append, htl, hdl] at this
      rw [← hB]
      have e : ((blocks.length : Int) - (r : Int)).toNat = blocks.length - r := by omega
      rw [e]
      exact this
    have e2 : vecEraseFrom blocks (r : Int) = some (blocks.take r) := by
      unfold vecEraseFrom
      rw [if_pos ⟨by omega, by omega⟩, Int.toNat_ofNat]
    rw [e1, e2]
    dsimp only
    by_cases hoff : Int.tmod newSize (bm.blockSize : Int) = 0
    · rw [if_neg (not_not.2 hoff)]
      exact ⟨_, rfl, rfl, by simp, by simp, by simp, fun h => absurd hoff h⟩
    · rw [if_pos hoff]
      have hr1 : 1 ≤ r := by
        by_contra hc
        have hr0 : r = 0 := by omega
        have := (ceilDiv_spec newSize hpos).2
        rw [hr, hr0] at this
        simp at this
        omega
      rcases List.eq_nil_or_concat (blocks.take r) with hnil | ⟨B0, blk, hcat⟩
      · rw [hnil] at htl; simp at htl; omega
      · rw [List.concat_eq_append] at hcat
        have hB0 : B0.length = r - 1 := by
          have := congrArg List.length hcat
          rw [htl, List.length_append, List.length_singleton] at this
          omega
        have hvg : vecGet (blocks.take r) ((r : Int) - 1) = some blk := by
          have e : (r : Int) - 1 = (B0.length : Int) := by rw [hB0]; omega
          rw [e, hcat]
          exact vecGet_append_cons B0 [] blk
        rw [hvg]
        dsimp only
        have hmem : blk ∈ blocks := List.mem_of_mem_take (by rw [hcat]; simp)
        have hblk : 0 ≤ blk ∧ blk < (bm.totalBlocks : Int) := hv blk hmem
        have hblkF : 0 ≤ blk ∧ blk < ((bm.freeBlocks (blocks.drop r)).totalBlocks : Int) := by
          rw [freeBlocks_totalBlocks]; exact hblk
        have hdF := diskOk_freeBlocks hd (blocks.drop r)
        have hRlen := length_readBlock hdF hblkF (zeros bm.blockSize)
        rw [freeBlocks_blockSize] at hRlen
        have hlt' : (Int.tmod newSize (bm.blockSize : Int)).toNat < bm.blockSize := by
          have := Int.tmod_lt_of_pos newSize (show (0 : Int) < (bm.blockSize : Int) by omega)
          omega
        have hlen : (List.take (Int.tmod newSize (bm.blockSize : Int)).toNat
            ((bm.freeBlocks (blocks.drop r)).readBlock blk (zeros bm.blockSize)).2 ++
            zeros (bm.blockSize - (Int.tmod newSize (bm.blockSize : Int)).toNat)).length =
              bm.blockSize := by
          rw [List.length_append, List.length_take, hRlen]
          simp only [zeros, List.length_replicate]
          omega
        have hfr := writeBlock_frame (bm.freeBlocks (blocks.drop r)) blk _
          (by rw [hlen, freeBlocks_blockSize])
        refine ⟨_, rfl, hfr.bitmap_eq, ?_, ?_, ?_, fun _ => ⟨blk, ?_, ?_⟩⟩
        · rw [hfr.blockSize_eq, freeBlocks_blockSize]
        · rw [hfr.totalBlocks_eq, freeBlocks_totalBlocks]
        · rw [hfr.disk_len, freeBlocks_disk]
        · rw [hcat]; simp
        · rw [readBlock_writeBlock hdF hblkF _ (by rw [hlen, freeBlocks_blockSize])]
          congr 2
          rw [readBlock_buffer_irrelevant _ hblkF (zeros bm.blockSize) []]
          unfold readBlock
          simp only [freeBlocks_disk, freeBlocks_blockSize, freeBlocks_totalBlocks]

end Directory
set_option synthInstance.maxSize 4096 in
theorem permState_refsOk : RefsOk permState :=
  ⟨by decide, by decide, by unfold BlockManager.isUsed; decide⟩

theorem permState_diskOk : DiskOk permState.bm :=
  ⟨by decide, by decide, by
    intro blk hb
    rw [show permState.bm.disk = List.replicate 10 (zeros 128) from rfl] at hb
    rw [List.eq_of_mem_replicate hb]
    rfl⟩

/-- C33. Shrinking a writable file. In a well-formed state, for a writable file of size
`s` with `ceil(s / blockSize)` data blocks and a new size `0 ≤ newSize < s` (so `s > 0`; the
shorter block list fitting the index block), `resizeFile` returns `true`; the record keeps the first
`ceil(newSize / blockSize)` data blocks in order, its index block and every other field but
the size and the modification time; every dropped data block is marked free and no other bit
of the bitmap changes; and when `newSize` is not a multiple of the block size, the new last
block holds its old bytes before the offset `newSize % blockSize` and zeros from there on. -/
theorem resizeFile_shrink_spec (fs : FileSystem) (self : List Nat) (filename : String)
    (fm : FileMeta) (newSize now : Int) (hrefs : RefsOk fs) (hdisk : DiskOk fs.bm)
    (hg : getFile fs self filename = some fm) (hw : testMask fm.permissions 1 = true)
    (hB : (fm.blocks.length : Int) = ceilDiv fm.fileSize fs.bm.blockSize)
    (h0 : 0 ≤ newSize) (hlt : newSize < fm.fileSize)
    (hcap : 4 + 4 * (ceilDiv newSize fs.bm.blockSize).toNat ≤ fs.bm.blockSize) :
    ∃ fs1, Directory.resizeFile fs self filename newSize now = some (true, fs1) ∧
      getFile fs1 self filename =
        some { fm with
          blocks := fm.blocks.take (ceilDiv newSize fs.bm.blockSize).toNat
          fileSize := newSize
          modifiedAt := now } ∧
      (∀ b ∈ fm.blocks.drop (ceilDiv newSize fs.bm.blockSize).toNat,
        fs1.bm.isBlockFree b = some true) ∧
      (∀ j : Nat, (j : Int) ∉ fm.blocks.drop (ceilDiv newSize fs.bm.blockSize).toNat →
        fs1.bm.freeBlockBitmap[j]? = fs.bm.freeBlockBitmap[j]?) ∧
      fs1.bm.freeBlockBitmap.length = fs.bm.freeBlockBitmap.length ∧
      (Int.tmod newSize (fs.bm.blockSize : Int) ≠ 0 →
        ∃ blk, (fm.blocks.take (ceilDiv newSize fs.bm.blockSize).toNat).getLast? = some blk ∧
          (fs1.bm.readBlock blk []).2 =
            ((fs.bm.readBlock blk []).2).take (Int.tmod newSize (fs.bm.blockSize : Int)).toNat ++
              zeros (fs.bm.blockSize - (Int.tmod newSize (fs.bm.blockSize : Int)).toNat)) := by
  obtain ⟨d, hd, hf⟩ := getFile_eq_some hg
  obtain ⟨X, Y, hX, _, _⟩ := Directory.file_ctx hd hf
  have hmem : fm ∈ fs.root.allFiles := by rw [hX]; simp
  obtain ⟨hnd, hv, hblocks⟩ := hrefs.data_blocks hmem
  obtain ⟨bmS, hsh, hbit, hbs, htot, hdl, hcont⟩ :=
    Directory.shrinkBlocks_spec hdisk h0 hlt hB hv
  have hnn := ceilDiv_nonneg fs.bm.blockSize h0
  have hmono := ceilDiv_mono hdisk.blockSize_pos (le_of_lt hlt)
  have htl : (fm.blocks.take (ceilDiv newSize fs.bm.blockSize).toNat).length =
      (ceilDiv newSize fs.bm.blockSize).toNat := by
    rw [List.length_take]; omega
  have hwi : (Serializer.writeIndexBlock bmS (Directory.resizedMeta fm
      (fm.blocks.take (ceilDiv newSize fs.bm.blockSize).toNat) newSize now)).isSome = true := by
    rw [Serializer.writeIndexBlock_isSome, hbs]
    simp only [Directory.resizedMeta, htl]
    exact decide_eq_true hcap
  obtain ⟨bm2, hbm2⟩ := Option.isSome_iff_exists.1 hwi
  have hfr2 := Serializer.writeIndexBlock_frame hbm2
  have hfr3 := Serializer.saveDirectoryFlat_frame bm2 (mapAssign d.files filename
    (Directory.resizedMeta fm (fm.blocks.take (ceilDiv newSize fs.bm.blockSize).toNat)
      newSize now))
  have hfinal : ∀ j : Nat, (Serializer.saveDirectoryFlat bm2 (mapAssign d.files filename
      (Directory.resizedMeta fm (fm.blocks.take (ceilDiv newSize fs.bm.blockSize).toNat)
        newSize now))).freeBlockBitmap[j]? =
      if (j : Int) ∈ fm.blocks.drop (ceilDiv newSize fs.bm.blockSize).toNat ∧
          j < fs.bm.totalBlocks ∧ j < fs.bm.freeBlockBitmap.length then some true
      else fs.bm.freeBlockBitmap[j]? := by
    intro j
    rw [hfr3.bitmap_eq, hfr2.bitmap_eq, hbit]
    exact BlockManager.freeBlocks_getElem? _ _ _
  refine ⟨_, Directory.resizeFile_shrink_eq now hd hf hw h0 hlt hsh hbm2, ?_, ?_, ?_, ?_, ?_⟩
  · exact Directory.getFile_setFiles_mapAssign _ hd hf rfl
  · intro b hb
    have hbv := hv b (List.mem_of_mem_drop hb)
    unfold BlockManager.isBlockFree
    rw [if_neg (by omega)]
    dsimp only
    rw [hfinal, if_pos]
    refine ⟨by rw [Int.toNat_of_nonneg hbv.1]; exact hb, by omega, ?_⟩
    rw [hrefs.bitmap_len]; omega
  · intro j hj
    dsimp only
    rw [hfinal, if_neg (fun h => hj h.1)]
  · dsimp only
    rw [hfr3.bitmap_eq, hfr2.bitmap_eq, hbit, BlockManager.freeBlocks_length]
  · intro hoff
    obtain ⟨blk, hlast, hread⟩ := hcont hoff
    refine ⟨blk, hlast, ?_⟩
    have hbm : blk ∈ fm.blocks := List.mem_of_mem_take (List.mem_of_mem_getLast? hlast)
    obtain ⟨h1, _, hidx⟩ := hblocks blk hbm
    dsimp only
    rw [BlockManager.readBlock_congr hfr3 blk (fun _ hc => by omega),
      BlockManager.readBlock_congr hfr2 blk (fun hb hc => hidx fm hmem (by
        have hc' : ((blk.toNat : Nat) : Int) = fm.indexBlock := hc
        rw [← hc']; exact (Int.toNat_of_nonneg hb).symm))]
    exact hread

set_option maxRecDepth 100000 in
set_option synthInstance.maxSize 4096 in
/-- C33, worked example: in `permState` (block size 128) the file `w.txt` of the directory
`bin` has 200 bytes in the blocks 7 and 8. Shrinking it to 100 bytes keeps block 7, frees
block 8 and leaves every other bit of the bitmap as it was. -/
theorem resizeFile_shrink_spec_witness :
    ∃ fs1, Directory.resizeFile permState [1] "w.txt" 100 1700000200 = some (true, fs1) ∧
      getFile fs1 [1] "w.txt" =
        some { filename := "w.txt", fileSize := 100, indexBlock := 6, blocks := [7],
               createdAt := 1700000000, modifiedAt := 1700000200, permissions := 6 } ∧
      fs1.bm.isBlockFree 8 = some true ∧
      (∀ j : Nat, (j : Int) ∉ [(8 : Int)] →
        fs1.bm.freeBlockBitmap[j]? = permState.bm.freeBlockBitmap[j]?) := by
  obtain ⟨fs1, h1, h2, h3, h4, _, _⟩ :=
    resizeFile_shrink_spec permState [1] "w.txt"
      { filename := "w.txt", fileSize := 200, indexBlock := 6, blocks := [7, 8],
        createdAt := 1700000000, modifiedAt := 1700000000, permissions := 6 }
      100 1700000200 permState_refsOk permState_diskOk (by decide) (by decide) (by decide)
      (by decide) (by decide) (by decide)
  exact ⟨fs1, h1, h2, h3 8 (by decide), h4⟩
namespace Directory
open BlockManager

/-! ### What `writeFile` leaves in the data blocks -/

/-- The buffer `writeFile` writes to the block reached at offset `off`: the next bytes of
the content, padded with zeros to a block. -/
theorem writeBuffer_eq (content : List Char) (bs off : Nat) (bytesLeft offset : Int)
    (hb : bytesLeft = (content.length : Int) - (off : Int)) (ho : offset = (off : Int))
    (hle : off ≤ content.length) :
    (if offset < (content.length : Int) then
        memcpy (zeros bs) 0 (content.drop offset.toNat)
          (min (min bytesLeft (bs : Int)) ((content.length : Int) - offset)).toNat
      else zeros bs) = (content.drop off ++ zeros bs).take bs := by
  subst hb ho
  have e1 : (min (min ((content.length : Int) - (off : Int)) (bs : Int))
      ((content.length : Int) - (off : Int))).toNat = min (content.length - off) bs := by omega
  rw [e1, Int.toNat_ofNat]
  by_cases h : (off : Int) < content.length
  · rw [if_pos h]
    unfold memcpy zeros
    rw [List.take_append_eq_append_take, List.length_drop]
    simp only [List.take_zero, List.nil_append, Nat.zero_add, List.take_replicate,
      List.drop_replicate, Nat.zero_min, List.replicate_zero]
    congr 1
    · rcases Nat.le_total (content.length - off) bs with h1 | h1
      · rw [Nat.min_eq_left h1, List.take_of_length_le (by rw [List.length_drop]),
          List.take_of_length_le (by rw [List.length_drop]; exact h1)]
      · rw [Nat.min_eq_right h1]
    · congr 1
      omega
  · rw [if_neg h]
    have : content.drop off = [] := List.drop_eq_nil_of_le (by omega)
    rw [this]
    simp [zeros]

end Directory
namespace Directory
open BlockManager

/-- The block loop of `writeFile` from offset `off` on: it writes only blocks of the list;
reading the blocks back gives the content from `off` on, as far as the blocks reach; and
every block touched (the first one, and the `i`-th one when `i * blockSize` bytes do not
take all that is left) holds the next bytes of the content padded with zeros. -/
theorem writeLoop_content (content : List Char) :
    ∀ (blocks : List Int) (bm : BlockManager) (off : Nat) (bytesLeft offset : Int),
      bytesLeft = (content.length : Int) - (off : Int) → offset = (off : Int) →
      DiskOk bm → blocks.Nodup → validBlocks bm blocks → off ≤ content.length →
      DiskFrame (fun j => (j : Int) ∈ blocks) bm (writeLoop content blocks bm bytesLeft offset) ∧
      (blocksContent (writeLoop content blocks bm bytesLeft offset) blocks).take
          (content.length - off) = (content.drop off).take (blocks.length * bm.blockSize) ∧
      ∀ (i : Nat) (b : Int), blocks[i]? = some b →
        (i = 0 ∨ i * bm.blockSize < content.length - off) →
        ((writeLoop content blocks bm bytesLeft offset).readBlock b []).2 =
          (content.drop (off + i * bm.blockSize) ++ zeros bm.blockSize).take bm.blockSize := by
  intro blocks
  induction blocks with
  | nil =>
    intro bm off bytesLeft offset _ _ _ _ _ _
    refine ⟨DiskFrame.refl _ _, by simp [writeLoop, blocksContent], ?_⟩
    intro i b hi
    simp at hi
  | cons blk rest ih =>
    intro bm off bytesLeft offset hb ho hd hnd hv hle
    have hpos := hd.blockSize_pos
    have hblk := hv blk (List.mem_cons_self _ _)
    have hnd' := List.nodup_cons.1 hnd
    rw [writeLoop]
    rw [writeBuffer_eq content bm.blockSize off bytesLeft offset hb ho hle]
    have hbl : ((content.drop off ++ zeros bm.blockSize).take bm.blockSize).length =
        bm.blockSize := by
      simp [zeros]
    have hfr1 := writeBlock_frame bm blk
      ((content.drop off ++ zeros bm.blockSize).take bm.blockSize) (by omega)
    have hd1 := hfr1.diskOk hd
    have hread1 := readBlock_writeBlock hd hblk _ hbl
    by_cases hlast : bytesLeft - min bytesLeft (bm.blockSize : Int) ≤ 0
    · rw [if_pos hlast]
      have hn : content.length - off ≤ bm.blockSize := by omega
      refine ⟨hfr1.mono _ (fun j hj => by simp [hj]), ?_, ?_⟩
      · rw [blocksContent_cons, hread1, List.take_append_of_le_length (by rw [hbl]; exact hn),
          List.take_take, Nat.min_eq_left hn,
          List.take_append_of_le_length (by rw [List.length_drop]),
          List.take_of_length_le (by rw [List.length_drop]),
          List.take_of_length_le]
        rw [List.length_drop, List.length_cons]
        calc content.length - off ≤ bm.blockSize := hn
          _ ≤ (rest.length + 1) * bm.blockSize := Nat.le_mul_of_pos_left _ (by omega)
      · intro i b hi hcase
        have hi0 : i = 0 := by
          rcases hcase with h | h
          · exact h
          · by_contra hne
            have : 1 * bm.blockSize ≤ i * bm.blockSize :=
              Nat.mul_le_mul_right _ (by omega)
            omega
        subst hi0
        simp only [List.getElem?_cons_zero, Option.some.injEq] at hi
        subst hi
        rw [hread1]
        simp
    · rw [if_neg hlast]
      have hn : bm.blockSize < content.length - off := by omega
      have hv1 : validBlocks (bm.writeBlock blk
          ((content.drop off ++ zeros bm.blockSize).take bm.blockSize)).2 rest :=
        validBlocks_congr hfr1.totalBlocks_eq (fun c hc => hv c (List.mem_cons_of_mem _ hc))
      obtain ⟨f2, c2, r2⟩ := ih (bm.writeBlock blk
          ((content.drop off ++ zeros bm.blockSize).take bm.blockSize)).2
        (off + bm.blockSize) (bytesLeft - min bytesLeft (bm.blockSize : Int))
        (offset + min bytesLeft (bm.blockSize : Int)) (by omega) (by omega) hd1 hnd'.2 hv1
        (by omega)
      rw [hfr1.blockSize_eq] at c2 r2
      have hkeep : ((writeLoop content rest (bm.writeBlock blk
          ((content.drop off ++ zeros bm.blockSize).take bm.blockSize)).2
          (bytesLeft - min bytesLeft (bm.blockSize : Int))
          (offset + min bytesLeft (bm.blockSize : Int))).readBlock blk []).2 =
          (content.drop off ++ zeros bm.blockSize).take bm.blockSize := by
        rw [readBlock_congr f2 blk (fun h0 hc => hnd'.1 (by
          have hc' : ((blk.toNat : Nat) : Int) ∈ rest := hc
          rwa [Int.toNat_of_nonneg h0] at hc')), hread1]
      refine ⟨(hfr1.mono _ (fun j hj => by simp [hj])).trans
        (f2.mono _ (fun j hj => List.mem_cons_of_mem _ hj)), ?_, ?_⟩
      · rw [blocksContent_cons, hkeep, List.take_append_eq_append_take, hbl,
          List.take_of_length_le (by rw [hbl]; omega),
          show content.length - off - bm.blockSize = content.length - (off + bm.blockSize) by
            omega, c2,
          List.take_append_of_le_length (by rw [List.length_drop]; omega), List.length_cons,
          show (rest.length + 1) * bm.blockSize = bm.blockSize + rest.length * bm.blockSize by
            ring, List.take_add, List.drop_drop]
      · intro i b hi hcase
        cases i with
        | zero =>
          simp only [List.getElem?_cons_zero, Option.some.injEq] at hi
          subst hi
          rw [hkeep]
          simp
        | succ i =>
          simp only [List.getElem?_cons_succ] at hi
          rw [r2 i b hi (by
            rcases hcase with h | h
            · omega
            · rcases Nat.eq_zero_or_pos i with h0 | h0
              · exact Or.inl h0
              · right
                have : (i + 1) * bm.blockSize = i * bm.blockSize + bm.blockSize := by ring
                omega)]
          have : off + bm.blockSize + i * bm.blockSize = off + (i + 1) * bm.blockSize := by ring
          rw [this]

end Directory
namespace Directory
open BlockManager

/-- Everything `writeFile` does to a writable file in a well-formed state: it returns
`true`, the record gets the length of the content as its size, the bitmap is unchanged, a
following `readFile` returns the content as far as the data blocks of the record reach, and
every block touched holds its part of the content padded with zeros. -/
theorem writeFile_readback {fs : FileSystem} {self : List Nat} {filename : String}
    {fm : FileMeta} (content : List Char) (now : Int) (hrefs : RefsOk fs)
    (hdisk : DiskOk fs.bm) (hfit : indexBlocksFit fs.bm.blockSize fs.root)
    (hg : getFile fs self filename = some fm) (hw : testMask fm.permissions 1 = true) :
    ∃ fs1, writeFile fs self filename content now = some (true, fs1) ∧
      getFile fs1 self filename =
        some { fm with fileSize := (content.length : Int), modifiedAt := now } ∧
      fs1.bm.freeBlockBitmap = fs.bm.freeBlockBitmap ∧
      readFile fs1 self filename =
        some (if testMask fm.permissions 2 = false then []
          else content.take (fm.blocks.length * fs.bm.blockSize)) ∧
      ∀ (i : Nat) (b : Int), fm.blocks[i]? = some b →
        (i = 0 ∨ i * fs.bm.blockSize < content.length) →
        (fs1.bm.readBlock b []).2 =
          (content.drop (i * fs.bm.blockSize) ++ zeros fs.bm.blockSize).take fs.bm.blockSize := by
  obtain ⟨d, hd, hf⟩ := getFile_eq_some hg
  obtain ⟨X, Y, hX, hY, _⟩ := file_ctx hd hf
  have hmem : fm ∈ fs.root.allFiles := by rw [hX]; simp
  obtain ⟨hnd, hv, hblocks⟩ := hrefs.data_blocks hmem
  obtain ⟨f1, c1, r1⟩ := writeLoop_content content fm.blocks fs.bm 0 (content.length : Int) 0
    (by simp) rfl hdisk hnd hv (Nat.zero_le _)
  have hfm : 4 + 4 * fm.blocks.length ≤ fs.bm.blockSize := hfit fm hmem
  obtain ⟨bm2, hbm2⟩ : ∃ bm2, Serializer.writeIndexBlock
      (writeLoop content fm.blocks fs.bm (content.length : Int) 0)
      { fm with fileSize := (content.length : Int), modifiedAt := now } = some bm2 := by
    have := Serializer.writeIndexBlock_isSome
      (writeLoop content fm.blocks fs.bm (content.length : Int) 0)
      { fm with fileSize := (content.length : Int), modifiedAt := now }
    rw [f1.blockSize_eq, decide_eq_true hfm] at this
    exact Option.isSome_iff_exists.1 this
  have f2 := Serializer.writeIndexBlock_frame hbm2
  have hfit2 : indexBlocksFit bm2.blockSize (fs.root.setFiles self (mapAssign d.files filename
      { fm with fileSize := (content.length : Int), modifiedAt := now })) := by
    intro x hx
    rw [f2.blockSize_eq, f1.blockSize_eq]
    rw [hY] at hx
    rcases List.mem_append.1 hx with hx | hx
    · exact hfit x (by rw [hX]; exact List.mem_append_left _ hx)
    · rcases List.mem_cons.1 hx with hx | hx
      · subst hx; exact hfm
      · exact hfit x (by rw [hX]; exact List.mem_append_right _ (List.mem_cons_of_mem _ hx))
  obtain ⟨bmi, hbmi⟩ := Serializer.writeIndexBlocks_some _ bm2 hfit2
  have hs : Serializer.saveDirectory bm2 (fs.root.setFiles self (mapAssign d.files filename
      { fm with fileSize := (content.length : Int), modifiedAt := now })) =
      some (bmi.writeBlock 0 (Serializer.blockOfText bmi.blockSize
        (Serializer.writeDir (fs.root.setFiles self (mapAssign d.files filename
          { fm with fileSize := (content.length : Int), modifiedAt := now })) 0))).2 := by
    rw [Serializer.saveDirectory, hbmi]
  have f3 := Serializer.saveDirectory_frame hs
  have hg1 : getFile { fs with
      bm := (bmi.writeBlock 0 (Serializer.blockOfText bmi.blockSize
        (Serializer.writeDir (fs.root.setFiles self (mapAssign d.files filename
          { fm with fileSize := (content.length : Int), modifiedAt := now })) 0))).2
      root := fs.root.setFiles self (mapAssign d.files filename
        { fm with fileSize := (content.length : Int), modifiedAt := now }) } self filename =
      some { fm with fileSize := (content.length : Int), modifiedAt := now } :=
    getFile_setFiles_mapAssign _ hd hf rfl
  -- the blocks of the record are neither block 0 nor an index block
  have hout3 : ∀ b ∈ fm.blocks, 0 ≤ b → ¬ (b.toNat = 0 ∨ ∃ g ∈ (fs.root.setFiles self
      (mapAssign d.files filename
        { fm with fileSize := (content.length : Int), modifiedAt := now })).allFiles,
      (b.toNat : Int) = g.indexBlock) := by
    intro b hb h0 hc
    obtain ⟨h1, _, hidx⟩ := hblocks b hb
    rcases hc with hc | ⟨g, hgm, hc⟩
    · omega
    · rw [Int.toNat_of_nonneg h0] at hc
      rw [hY] at hgm
      rcases List.mem_append.1 hgm with hx | hx
      · exact hidx g (by rw [hX]; exact List.mem_append_left _ hx) hc
      · rcases List.mem_cons.1 hx with hx | hx
        · subst hx; exact hidx fm hmem hc
        · exact hidx g (by rw [hX]; exact List.mem_append_right _ (List.mem_cons_of_mem _ hx)) hc
  have hout2 : ∀ b ∈ fm.blocks, 0 ≤ b → ¬ ((b.toNat : Int) =
      ({ fm with fileSize := (content.length : Int), modifiedAt := now } : FileMeta).indexBlock) := by
    intro b hb h0 hc
    rw [Int.toNat_of_nonneg h0] at hc
    exact (hblocks b hb).2.2 fm hmem hc
  refine ⟨_, ?_, hg1, ?_, ?_, ?_⟩
  · unfold writeFile
    simp only [hd, hf, hw, hbm2, saveDirectory, hs]
    rfl
  · show (bmi.writeBlock 0 _).2.freeBlockBitmap = fs.bm.freeBlockBitmap
    rw [f3.bitmap_eq, f2.bitmap_eq, f1.bitmap_eq]
  · rw [readFile_of_getFile hg1]
    congr 1
    by_cases hr : testMask fm.permissions 2 = false
    · simp only [hr, if_true]
    · simp only [hr, if_false]
      have hd3 : DiskOk (bmi.writeBlock 0 (Serializer.blockOfText bmi.blockSize
          (Serializer.writeDir (fs.root.setFiles self (mapAssign d.files filename
            { fm with fileSize := (content.length : Int), modifiedAt := now })) 0))).2 :=
        f3.diskOk (f2.diskOk (f1.diskOk hdisk))
      have hv3 : validBlocks (bmi.writeBlock 0 (Serializer.blockOfText bmi.blockSize
          (Serializer.writeDir (fs.root.setFiles self (mapAssign d.files filename
            { fm with fileSize := (content.length : Int), modifiedAt := now })) 0))).2
          fm.blocks :=
        validBlocks_congr (by rw [f3.totalBlocks_eq, f2.totalBlocks_eq, f1.totalBlocks_eq]) hv
      rw [readLoop_eq_take hd3 fm.blocks (content.length : Int) hv3 (by omega),
        blocksContent_congr f3 fm.blocks hout3, blocksContent_congr f2 fm.blocks hout2,
        Int.toNat_ofNat]
      simpa using c1
  · intro i b hi hcase
    have hb : b ∈ fm.blocks := List.getElem?_mem hi
    show ((bmi.writeBlock 0 _).2.readBlock b []).2 = _
    rw [readBlock_congr f3 b (hout3 b hb), readBlock_congr f2 b (hout2 b hb),
      r1 i b hi (by simpa using hcase)]
    simp

end Directory
theorem exampleState_fit : indexBlocksFit exampleState.bm.blockSize exampleState.root := by
  unfold indexBlocksFit
  decide

/-- C35. Writing and reading back. In a well-formed state (which makes the data blocks of
every record valid and distinct), for a readable and writable file with `k` data blocks and
a content of at most `k * blockSize` bytes, `writeFile` returns `true` and a following
`readFile` returns exactly the content; and the last touched block (the one at position
`(len - 1) / blockSize` of the block list, the first block for the empty content) holds the
rest of the content followed by zeros only. -/
theorem writeFile_then_readFile (fs : FileSystem) (self : List Nat) (filename : String)
    (fm : FileMeta) (content : List Char) (now : Int) (hrefs : RefsOk fs)
    (hdisk : DiskOk fs.bm) (hfit : indexBlocksFit fs.bm.blockSize fs.root)
    (hg : getFile fs self filename = some fm) (hw : testMask fm.permissions 1 = true)
    (hr : testMask fm.permissions 2 = true)
    (hlen : content.length ≤ fm.blocks.length * fs.bm.blockSize) :
    ∃ fs1, Directory.writeFile fs self filename content now = some (true, fs1) ∧
      Directory.readFile fs1 self filename = some content ∧
      ∀ b, fm.blocks[(content.length - 1) / fs.bm.blockSize]? = some b →
        (fs1.bm.readBlock b []).2 =
          content.drop ((content.length - 1) / fs.bm.blockSize * fs.bm.blockSize) ++
            zeros (fs.bm.blockSize -
              (content.length - (content.length - 1) / fs.bm.blockSize * fs.bm.blockSize)) := by
  have hpos := hdisk.blockSize_pos
  obtain ⟨fs1, h1, _, _, h4, h5⟩ :=
    Directory.writeFile_readback content now hrefs hdisk hfit hg hw
  refine ⟨fs1, h1, ?_, ?_⟩
  · rw [h4, if_neg (by rw [hr]; decide), List.take_of_length_le hlen]
  · intro b hb
    have hdm := Nat.div_add_mod (content.length - 1) fs.bm.blockSize
    have hml := Nat.mod_lt (content.length - 1) hpos
    have hmul : (content.length - 1) / fs.bm.blockSize * fs.bm.blockSize =
        fs.bm.blockSize * ((content.length - 1) / fs.bm.blockSize) := Nat.mul_comm _ _
    have hcase : (content.length - 1) / fs.bm.blockSize = 0 ∨
        (content.length - 1) / fs.bm.blockSize * fs.bm.blockSize < content.length := by
      rcases Nat.eq_zero_or_pos content.length with h0 | h0
      · left; rw [h0]; simp
      · right; omega
    rw [h5 _ b hb hcase, List.take_append_eq_append_take, List.length_drop,
      List.take_of_length_le (by rw [List.length_drop]; omega)]
    simp only [zeros, List.take_replicate]
    congr 2
    omega

set_option maxRecDepth 100000 in
/-- C35, worked example: in `exampleState` (block size 16) the file `f` has the single data
block 2. Writing the 3 bytes "abc" and reading the file back gives "abc", and block 2 then
holds "abc" followed by 13 zero bytes. -/
theorem writeFile_then_readFile_witness :
    ∃ fs1, Directory.writeFile exampleState [] "f" ['a', 'b', 'c'] 7 = some (true, fs1) ∧
      Directory.readFile fs1 [] "f" = some ['a', 'b', 'c'] ∧
      (fs1.bm.readBlock 2 []).2 = ['a', 'b', 'c'] ++ zeros 13 := by
  obtain ⟨fs1, h1, h2, h3⟩ := writeFile_then_readFile exampleState [] "f" _ ['a', 'b', 'c'] 7
    exampleState_refsOk exampleState_diskOk exampleState_fit exampleState_file (by decide)
    (by decide) (by decide)
  exact ⟨fs1, h1, h2, h3 2 (by decide)⟩

/-- C36. Writing more than the blocks hold. In a well-formed state, for a readable and
writable file with `k` data blocks and a content of more than `k * blockSize` bytes,
`writeFile` still returns `true` and the record gets the size `len(content)` with its block
list and index block as before; a following `readFile` returns exactly the first
`k * blockSize` bytes of the content, fewer than the recorded size; and the bitmap is
unchanged, so no block was allocated. -/
theorem writeFile_overlong_content (fs : FileSystem) (self : List Nat) (filename : String)
    (fm : FileMeta) (content : List Char) (now : Int) (hrefs : RefsOk fs)
    (hdisk : DiskOk fs.bm) (hfit : indexBlocksFit fs.bm.blockSize fs.root)
    (hg : getFile fs self filename = some fm) (hw : testMask fm.permissions 1 = true)
    (hr : testMask fm.permissions 2 = true)
    (hlen : fm.blocks.length * fs.bm.blockSize < content.length) :
    ∃ fs1 out, Directory.writeFile fs self filename content now = some (true, fs1) ∧
      getFile fs1 self filename =
        some { fm with fileSize := (content.length : Int), modifiedAt := now } ∧
      Directory.readFile fs1 self filename = some out ∧
      out = content.take (fm.blocks.length * fs.bm.blockSize) ∧
      out.length = fm.blocks.length * fs.bm.blockSize ∧
      (out.length : Int) < (content.length : Int) ∧
      fs1.bm.freeBlockBitmap = fs.bm.freeBlockBitmap := by
  obtain ⟨fs1, h1, h2, h3, h4, _⟩ :=
    Directory.writeFile_readback content now hrefs hdisk hfit hg hw
  have hl : (content.take (fm.blocks.length * fs.bm.blockSize)).length =
      fm.blocks.length * fs.bm.blockSize := by
    rw [List.length_take]; omega
  refine ⟨fs1, content.take (fm.blocks.length * fs.bm.blockSize), h1, h2, ?_, rfl, hl, ?_, h3⟩
  · rw [h4, if_neg (by rw [hr]; decide)]
  · rw [hl]; exact_mod_cast hlen

set_option maxRecDepth 100000 in
/-- C36, worked example: in `exampleState` (block size 16) the file `f` has the single data
block 2. Writing 20 bytes succeeds and sets the size to 20, but reading the file back gives
only the first 16 bytes. -/
theorem writeFile_overlong_content_witness :
    ∃ fs1, Directory.writeFile exampleState [] "f" ("0123456789abcdefghij".toList) 7 =
        some (true, fs1) ∧
      (getFile fs1 [] "f").map (fun r => (r.fileSize, r.blocks)) = some (20, [2]) ∧
      Directory.readFile fs1 [] "f" = some ("0123456789abcdef".toList) ∧
      fs1.bm.freeBlockBitmap = exampleState.bm.freeBlockBitmap := by
  obtain ⟨fs1, out, h1, h2, h3, h4, _, _, h7⟩ :=
    writeFile_overlong_content exampleState [] "f" _ ("0123456789abcdefghij".toList) 7
      exampleState_refsOk exampleState_diskOk exampleState_fit exampleState_file (by decide)
      (by decide) (by decide)
  refine ⟨fs1, h1, ?_, ?_, h7⟩
  · rw [h2]; rfl
  · rw [h3, h4]; rfl
namespace FileSystem
open BlockManager

/-! ### The repair pass of `checkMeta`, record by record -/

/-- The allocation loop of the repair pass hands out the first `n` free blocks, as far as
there are any; when they run out, the size becomes the number of blocks times the block
size. -/
theorem repairAlloc_eq (blockSize : Nat) :
    ∀ (n : Nat) (bm : BlockManager) (blocks : List Int) (size : Int),
      ∃ mf, repairAlloc blockSize n bm blocks size =
        (bm.taken (bm.freeList.take n) mf, blocks ++ (bm.freeList.take n).map Nat.cast,
          if n ≤ bm.freeList.length then size
          else ((blocks.length + bm.freeList.length : Nat) : Int) * (blockSize : Int)) := by
  intro n
  induction n with
  | zero =>
    intro bm blocks size
    exact ⟨bm.metaFile, by simp [repairAlloc, BlockManager.taken, markList]⟩
  | succ n ih =>
    intro bm blocks size
    cases hF : bm.freeList with
    | nil =>
      refine ⟨bm.metaFile, ?_⟩
      rw [repairAlloc, allocateBlock_of_freeList_nil hF]
      simp [BlockManager.taken, markList]
    | cons j rest =>
      obtain ⟨mf1, h1⟩ := allocateBlock_of_freeList_cons hF
      have hrest := freeList_set_false mf1 hF
      obtain ⟨mf, h2⟩ := ih { bm with
        freeBlockBitmap := bm.freeBlockBitmap.set j false, metaFile := mf1 }
        (blocks ++ [(j : Int)]) size
      refine ⟨mf, ?_⟩
      rw [repairAlloc, h1]
      have hne : ¬ ((j : Int) = -1) := by omega
      simp only [hne, if_false]
      rw [h2, hrest]
      simp only [BlockManager.taken, markList, List.take_succ_cons, List.foldl_cons,
        List.map_cons, List.append_assoc, List.singleton_append, List.length_append,
        List.length_singleton, List.length_cons, Nat.add_le_add_iff_right]
      congr 2
      by_cases hle : n ≤ rest.length
      · simp [hle]
      · simp only [hle, if_false]
        congr 2
        simp only [List.length_nil]
        omega

theorem requiredBlocks_eq (size : Int) (blockSize : Nat) :
    (if size = 0 then (0 : Int) else ceilDiv size blockSize) = ceilDiv size blockSize := by
  by_cases h : size = 0
  · subst h; simp [ceilDiv]
  · rw [if_neg h]

theorem ceilDiv_mul (k b : Nat) (hb : 0 < b) : ceilDiv ((k : Int) * (b : Int)) b = (k : Int) :=
  ceilDiv_unique hb (by
    have : (0 : Int) < (b : Int) := by exact_mod_cast hb
    nlinarith) (le_refl _)

/-- The block step of the repair pass for one record, on the valid blocks `vb` of the record
and the manager `bm` the pass has reached: it never fails; with more than
`ceil(size / blockSize)` blocks the first ones are kept and the others freed; with fewer,
the next free blocks are appended, and when they run out the size becomes the number of
blocks times the block size. -/
theorem repairBlocks_spec {blockSize : Nat} (hbs : 0 < blockSize) (bm : BlockManager)
    (vb : List Int) (size : Int) (hsize : 0 ≤ size)
    (hvb : ∀ b ∈ vb, 0 ≤ b ∧ b < (bm.totalBlocks : Int)) :
    ∃ bm1 blocks1 size1, repairBlocks blockSize bm vb size = some (bm1, blocks1, size1) ∧
      bm1.totalBlocks = bm.totalBlocks ∧ bm1.blockSize = bm.blockSize ∧
      (∀ b ∈ blocks1, 0 ≤ b ∧ b < (bm.totalBlocks : Int)) ∧
      (blocks1.length : Int) = ceilDiv size1 blockSize ∧
      (ceilDiv size blockSize < (vb.length : Int) →
        blocks1 = vb.take (ceilDiv size blockSize).toNat ∧ size1 = size ∧
        bm1 = bm.freeBlocks (vb.drop (ceilDiv size blockSize).toNat)) ∧
      ((vb.length : Int) ≤ ceilDiv size blockSize →
        blocks1 = vb ++ (bm.freeList.take
          (ceilDiv size blockSize - (vb.length : Int)).toNat).map Nat.cast ∧
        bm1.freeBlockBitmap = markList bm.freeBlockBitmap (bm.freeList.take
          (ceilDiv size blockSize - (vb.length : Int)).toNat) false ∧
        ((ceilDiv size blockSize - (vb.length : Int)).toNat ≤ bm.freeList.length →
          size1 = size) ∧
        (bm.freeList.length < (ceilDiv size blockSize - (vb.length : Int)).toNat →
          size1 = (blocks1.length : Int) * (blockSize : Int))) := by
  have hnn := ceilDiv_nonneg blockSize hsize
  unfold repairBlocks
  dsimp only
  rw [requiredBlocks_eq]
  obtain ⟨r, hr⟩ : ∃ r : Nat, ceilDiv size blockSize = (r : Int) :=
    ⟨(ceilDiv size blockSize).toNat, (Int.toNat_of_nonneg hnn).symm⟩
  rw [hr]
  simp only [Int.toNat_ofNat]
  by_cases hgt : (vb.length : Int) > (r : Int)
  · rw [if_pos hgt]
    have hrl : r ≤ vb.length := by omega
    have hsplit : vb = [] ++ vb.take r ++ vb.drop r := by simp
    have htl : (vb.take r).length = r := by rw [List.length_take]; omega
    have hdl : (vb.drop r).length = vb.length - r := List.length_drop _ _
    have e1 : Directory.shrinkFree vb ((vb.length : Int) - (r : Int)).toNat (r : Int) bm =
        some (bm.freeBlocks (vb.drop r)) := by
      have := Directory.shrinkFree_eq [] (vb.drop r) (vb.take r) bm
      rw [← hsplit, List.nil_append, htl, hdl] at this
      have e : ((vb.length : Int) - (r : Int)).toNat = vb.length - r := by omega
      rw [e]
      exact this
    have e2 : vecEraseFrom vb (r : Int) = some (vb.take r) := by
      unfold vecEraseFrom
      rw [if_pos ⟨by omega, by omega⟩, Int.toNat_ofNat]
    rw [e1, e2]
    refine ⟨_, _, _, rfl, by simp, by simp,
      fun b hb => hvb b (List.mem_of_mem_take hb), ?_, fun _ => ⟨rfl, rfl, rfl⟩,
      fun hle => absurd hgt (by omega)⟩
    rw [htl, hr]
  · rw [if_neg hgt]
    by_cases hlt : (vb.length : Int) < (r : Int)
    · rw [if_pos hlt]
      obtain ⟨mf, hra⟩ := repairAlloc_eq blockSize ((r : Int) - (vb.length : Int)).toNat bm vb size
      rw [hra]
      have hneed : ((r : Int) - (vb.length : Int)).toNat = r - vb.length := by omega
      rw [hneed]
      refine ⟨_, _, _, rfl, rfl, rfl, ?_, ?_, fun h => absurd h (by omega), fun _ => ⟨rfl, rfl, ?_, ?_⟩⟩
      · intro b hb
        rcases List.mem_append.1 hb with hb | hb
        · exact hvb b hb
        · obtain ⟨j, hj, rfl⟩ := List.mem_map.1 hb
          have := (mem_freeList bm j).1 (List.mem_of_mem_take hj)
          omega
      · rw [List.length_append, List.length_map, List.length_take]
        by_cases hle : r - vb.length ≤ bm.freeList.length
        · rw [if_pos hle, Nat.min_eq_left hle, hr]
          omega
        · rw [if_neg hle, Nat.min_eq_right (by omega), ceilDiv_mul _ _ hbs]
      · intro hle; rw [if_pos hle]
      · intro hl
        rw [if_neg (by omega), List.length_append, List.length_map, List.length_take,
          Nat.min_eq_right (by omega)]
    · rw [if_neg hlt]
      have heq : vb.length = r := by omega
      refine ⟨_, _, _, rfl, rfl, rfl, hvb, by rw [hr, heq], fun h => absurd h (by omega),
        fun _ => ?_⟩
      have hneed : ((r : Int) - (vb.length : Int)).toNat = 0 := by omega
      rw [hneed]
      simp [markList]

end FileSystem

namespace FileSystem
open BlockManager

/-- The index step of the repair pass leaves the block list, the size and the number of
blocks of the disk as they are. -/
theorem repairIndex_keeps {bm1 bm2 : BlockManager} {fm1 fm2 : FileMeta}
    (h : repairIndex bm1 fm1 = some (bm2, fm2)) :
    fm2.blocks = fm1.blocks ∧ fm2.fileSize = fm1.fileSize ∧
      bm2.totalBlocks = bm1.totalBlocks := by
  unfold repairIndex at h
  dsimp only at h
  split at h
  · split at h
    · split at h
      · split at h
        · cases h
        · split at h
          · split at h
            · cases h
            · rename_i bmw hw
              simp only [Option.some.injEq, Prod.mk.injEq] at h
              obtain ⟨rfl, rfl⟩ := h
              exact ⟨rfl, rfl, (Serializer.writeIndexBlock_frame hw).totalBlocks_eq⟩
          · simp only [Option.some.injEq, Prod.mk.injEq] at h
            obtain ⟨rfl, rfl⟩ := h
            exact ⟨rfl, rfl, rfl⟩
      · simp only [Option.some.injEq, Prod.mk.injEq] at h
        obtain ⟨rfl, rfl⟩ := h
        exact ⟨rfl, rfl, rfl⟩
    · simp only [Option.some.injEq, Prod.mk.injEq] at h
      obtain ⟨rfl, rfl⟩ := h
      exact ⟨rfl, rfl, rfl⟩
  · have ha : bm1.allocateBlock.2.totalBlocks = bm1.totalBlocks := by
      rcases BlockManager.allocateBlock_cases bm1 with ⟨_, h2⟩ | ⟨i, _, _, _, _, _, h6, _⟩
      · rw [h2]
      · exact h6
    split at h
    · split at h
      · split at h
        · cases h
        · rename_i bmw hw
          simp only [Option.some.injEq, Prod.mk.injEq] at h
          obtain ⟨rfl, rfl⟩ := h
          exact ⟨rfl, rfl, by rw [(Serializer.writeIndexBlock_frame hw).totalBlocks_eq, ha]⟩
      · simp only [Option.some.injEq, Prod.mk.injEq] at h
        obtain ⟨rfl, rfl⟩ := h
        exact ⟨rfl, rfl, ha⟩
    · simp only [Option.some.injEq, Prod.mk.injEq] at h
      obtain ⟨rfl, rfl⟩ := h
      exact ⟨rfl, rfl, rfl⟩

/-- The body of the file loop of the repair pass for one record. -/
theorem repairFile_repaired {blockSize : Nat} (hbs : 0 < blockSize) {bm bm' : BlockManager}
    {fm fm' : FileMeta} (hsize : 0 ≤ fm.fileSize)
    (h : repairFile bm.totalBlocks blockSize bm fm = some (bm', fm')) :
    bm'.totalBlocks = bm.totalBlocks ∧ RepairedFrom bm.totalBlocks blockSize fm fm' := by
  unfold repairFile at h
  dsimp only at h
  obtain ⟨bm1, blocks1, size1, hrb, ht, _⟩ := repairBlocks_spec hbs bm
    (fm.blocks.filter (fun b => 0 ≤ b ∧ b < (bm.totalBlocks : Int))) fm.fileSize hsize
    (fun b hb => by simpa using (List.mem_filter.1 hb).2)
  rw [hrb] at h
  dsimp only at h
  obtain ⟨k1, k2, k3⟩ := repairIndex_keeps h
  refine ⟨by rw [k3, ht], bm, bm1, rfl, ?_⟩
  rw [hrb, k1, k2]

theorem repairFiles_repaired {blockSize : Nat} (hbs : 0 < blockSize) :
    ∀ (files : List (String × FileMeta)) (bm bm' : BlockManager)
      (files' : List (String × FileMeta)),
      (∀ p ∈ files, 0 ≤ p.2.fileSize) →
      repairFiles bm.totalBlocks blockSize bm files = some (bm', files') →
      bm'.totalBlocks = bm.totalBlocks ∧
        List.Forall₂ (RepairedFrom bm.totalBlocks blockSize)
          (files.map (fun p => p.2)) (files'.map (fun p => p.2)) := by
  intro files
  induction files with
  | nil =>
    intro bm bm' files' _ h
    simp only [repairFiles, Option.some.injEq, Prod.mk.injEq] at h
    obtain ⟨rfl, rfl⟩ := h
    exact ⟨rfl, List.Forall₂.nil⟩
  | cons p rest ih =>
    intro bm bm' files' hs h
    obtain ⟨k, fm⟩ := p
    rw [repairFiles] at h
    cases h1 : repairFile bm.totalBlocks blockSize bm fm with
    | none => rw [h1] at h; cases h
    | some r1 =>
      obtain ⟨bm1, fm1⟩ := r1
      rw [h1] at h
      dsimp only at h
      obtain ⟨t1, r1⟩ := repairFile_repaired hbs (hs (k, fm) (List.mem_cons_self _ _)) h1
      rw [← t1] at h
      cases h2 : repairFiles bm1.totalBlocks blockSize bm1 rest with
      | none => rw [h2] at h; cases h
      | some r2 =>
        obtain ⟨bm2, rest1⟩ := r2
        rw [h2] at h
        simp only [Option.some.injEq, Prod.mk.injEq] at h
        obtain ⟨rfl, rfl⟩ := h
        obtain ⟨t2, r2⟩ := ih bm1 _ _ (fun q hq => hs q (List.mem_cons_of_mem _ hq)) h2
        rw [t1] at r2
        exact ⟨by rw [t2, t1], List.Forall₂.cons r1 r2⟩

mutual
theorem repairWalk_repaired {blockSize : Nat} (hbs : 0 < blockSize) :
    ∀ (d : Directory) (bm bm' : BlockManager) (d' : Directory),
      (∀ fm ∈ d.allFiles, 0 ≤ fm.fileSize) →
      repairWalk bm.totalBlocks blockSize bm d = some (bm', d') →
      bm'.totalBlocks = bm.totalBlocks ∧
        List.Forall₂ (RepairedFrom bm.totalBlocks blockSize) d.allFiles d'.allFiles
  | .mk n pm files subdirs, bm, bm', d', hs, h => by
    rw [repairWalk] at h
    rw [allFiles_mk] at hs
    cases h1 : repairFiles bm.totalBlocks blockSize bm files with
    | none => rw [h1] at h; cases h
    | some r1 =>
      obtain ⟨bm1, files1⟩ := r1
      rw [h1] at h
      dsimp only at h
      obtain ⟨t1, r1⟩ := repairFiles_repaired hbs files bm _ _
        (fun p hp => hs p.2 (List.mem_append_right _ (List.mem_map_of_mem _ hp))) h1
      rw [← t1] at h
      cases h2 : repairWalks bm1.totalBlocks blockSize bm1 subdirs with
      | none => rw [h2] at h; cases h
      | some r2 =>
        obtain ⟨bm2, subdirs1⟩ := r2
        rw [h2] at h
        simp only [Option.some.injEq, Prod.mk.injEq] at h
        obtain ⟨rfl, rfl⟩ := h
        obtain ⟨t2, r2⟩ := repairWalks_repaired hbs subdirs bm1 _ _
          (fun fm hfm => hs fm (List.mem_append_left _ hfm)) h2
        rw [t1] at r2
        rw [allFiles_mk, allFiles_mk]
        exact ⟨by rw [t2, t1], List.rel_append r2 r1⟩
theorem repairWalks_repaired {blockSize : Nat} (hbs : 0 < blockSize) :
    ∀ (ds : List Directory) (bm bm' : BlockManager) (ds' : List Directory),
      (∀ fm ∈ ds.flatMap Directory.allFiles, 0 ≤ fm.fileSize) →
      repairWalks bm.totalBlocks blockSize bm ds = some (bm', ds') →
      bm'.totalBlocks = bm.totalBlocks ∧
        List.Forall₂ (RepairedFrom bm.totalBlocks blockSize)
          (ds.flatMap Directory.allFiles) (ds'.flatMap Directory.allFiles)
  | [], bm, bm', ds', _, h => by
    simp only [repairWalks, Option.some.injEq, Prod.mk.injEq] at h
    obtain ⟨rfl, rfl⟩ := h
    exact ⟨rfl, List.Forall₂.nil⟩
  | d :: ds, bm, bm', ds', hs, h => by
    rw [repairWalks] at h
    rw [List.flatMap_cons] at hs
    cases h1 : repairWalk bm.totalBlocks blockSize bm d with
    | none => rw [h1] at h; cases h
    | some r1 =>
      obtain ⟨bm1, d1⟩ := r1
      rw [h1] at h
      dsimp only at h
      obtain ⟨t1, r1⟩ := repairWalk_repaired hbs d bm _ _
        (fun fm hfm => hs fm (List.mem_append_left _ hfm)) h1
      rw [← t1] at h
      cases h2 : repairWalks bm1.totalBlocks blockSize bm1 ds with
      | none => rw [h2] at h; cases h
      | some r2 =>
        obtain ⟨bm2, ds1⟩ := r2
        rw [h2] at h
        simp only [Option.some.injEq, Prod.mk.injEq] at h
        obtain ⟨rfl, rfl⟩ := h
        obtain ⟨t2, r2⟩ := repairWalks_repaired hbs ds bm1 _ _
          (fun fm hfm => hs fm (List.mem_append_right _ hfm)) h2
        rw [t1] at r2
        rw [List.flatMap_cons, List.flatMap_cons]
        exact ⟨by rw [t2, t1], List.rel_append r1 r2⟩
end

end FileSystem

namespace FileSystem
open BlockManager

/-- A call `checkMeta(true)` that returns ran the repair pass over the tree on a manager with
the same number of blocks, and returns the tree the pass produced. -/
theorem checkMeta_repair_walk {fs fs' : FileSystem} {orphan missing : List Int}
    (h : checkMeta fs true = some (orphan, missing, fs')) :
    ∃ bm2 bm3, bm2.totalBlocks = fs.bm.totalBlocks ∧
      repairWalk bm2.totalBlocks fs.bm.blockSize bm2 fs.root = some (bm3, fs'.root) ∧
      fs'.bm.totalBlocks = bm3.totalBlocks := by
  obtain ⟨used, hs⟩ := checkMeta_report h
  unfold checkMeta at h
  rw [hs] at h
  dsimp only at h
  have e1 : (if (true = true) ∧ orphan ≠ [] then fs.bm.freeBlocks orphan else fs.bm) =
      fs.bm.freeBlocks orphan := by
    by_cases hoe : orphan = []
    · subst hoe; simp [BlockManager.freeBlocks]
    · simp [hoe]
  rw [e1] at h
  have e2 : (if (true = true) ∧ missing ≠ [] then
        missing.foldl BlockManager.markBlockUsed (fs.bm.freeBlocks orphan)
      else fs.bm.freeBlocks orphan) =
      missing.foldl BlockManager.markBlockUsed (fs.bm.freeBlocks orphan) := by
    by_cases hme : missing = []
    · subst hme; simp
    · simp [hme]
  rw [e2] at h
  have ht : (missing.foldl BlockManager.markBlockUsed (fs.bm.freeBlocks orphan)).totalBlocks =
      fs.bm.totalBlocks := by simp
  rw [← ht] at h
  cases hw : repairWalk (missing.foldl BlockManager.markBlockUsed
      (fs.bm.freeBlocks orphan)).totalBlocks fs.bm.blockSize
      (missing.foldl BlockManager.markBlockUsed (fs.bm.freeBlocks orphan)) fs.root with
  | none => rw [hw] at h; cases h
  | some r =>
    obtain ⟨bm3, root1⟩ := r
    rw [hw] at h
    simp only [if_true] at h
    cases hsave : Directory.saveDirectory { fs with bm := bm3, root := root1 } with
    | none => rw [hsave] at h; cases h
    | some fs1 =>
      rw [hsave] at h
      simp only [Option.some.injEq, Prod.mk.injEq] at h
      obtain ⟨_, _, rfl⟩ := h
      unfold Directory.saveDirectory at hsave
      cases hser : Serializer.saveDirectory bm3 root1 with
      | none => rw [show ({ fs with bm := bm3, root := root1 } : FileSystem).bm = bm3 from rfl,
          show ({ fs with bm := bm3, root := root1 } : FileSystem).root = root1 from rfl,
          hser] at hsave; cases hsave
      | some bm4 =>
        rw [show ({ fs with bm := bm3, root := root1 } : FileSystem).bm = bm3 from rfl,
          show ({ fs with bm := bm3, root := root1 } : FileSystem).root = root1 from rfl,
          hser] at hsave
        simp only [Option.some.injEq] at hsave
        rw [← hsave]
        exact ⟨_, bm3, ht, hw, (Serializer.saveDirectory_frame hser).totalBlocks_eq⟩

theorem forall₂_mem_right {α β : Type} {R : α → β → Prop} {l : List α} {l' : List β}
    (h : List.Forall₂ R l l') : ∀ y ∈ l', ∃ x ∈ l, R x y := by
  induction h with
  | nil => intro y hy; cases hy
  | cons hr _ ih =>
    intro y hy
    rcases List.mem_cons.1 hy with rfl | hy
    · exact ⟨_, List.mem_cons_self _ _, hr⟩
    · obtain ⟨x, hx, hxy⟩ := ih y hy
      exact ⟨x, List.mem_cons_of_mem _ hx, hxy⟩

end FileSystem

namespace FileSystem
open BlockManager

/-! ### The repair pass returns -/

theorem repairAlloc_disk (blockSize : Nat) (n : Nat) (bm : BlockManager) (blocks : List Int)
    (size : Int) : (repairAlloc blockSize n bm blocks size).1.disk = bm.disk := by
  obtain ⟨mf, h⟩ := repairAlloc_eq blockSize n bm blocks size
  rw [h]
  rfl

/-- The block step of the repair pass does not write to the disk, and leaves at most
`ceil(size / blockSize)` blocks in the list. -/
theorem repairBlocks_disk {blockSize : Nat} (hbs : 0 < blockSize) {bm bm1 : BlockManager}
    {vb blocks1 : List Int} {size size1 : Int} (hsize : 0 ≤ size)
    (hvb : ∀ b ∈ vb, 0 ≤ b ∧ b < (bm.totalBlocks : Int))
    (h : repairBlocks blockSize bm vb size = some (bm1, blocks1, size1)) :
    bm1.disk = bm.disk ∧ (blocks1.length : Int) ≤ ceilDiv size blockSize := by
  have hnn := ceilDiv_nonneg blockSize hsize
  obtain ⟨bm1', blocks1', size1', hrb, _, _, _, _, hmany, hfew⟩ :=
    repairBlocks_spec hbs bm vb size hsize hvb
  rw [h] at hrb
  simp only [Option.some.injEq, Prod.mk.injEq] at hrb
  obtain ⟨rfl, rfl, rfl⟩ := hrb
  by_cases hgt : ceilDiv size blockSize < (vb.length : Int)
  · obtain ⟨e1, _, e3⟩ := hmany hgt
    rw [e3, e1, List.length_take]
    exact ⟨by simp, by omega⟩
  · obtain ⟨e1, _, _, _⟩ := hfew (by omega)
    constructor
    · unfold repairBlocks at h
      dsimp only at h
      rw [requiredBlocks_eq, if_neg (by omega)] at h
      split at h
      · simp only [Option.some.injEq] at h
        have := congrArg Prod.fst h
        dsimp only at this
        rw [← this]
        exact repairAlloc_disk _ _ _ _ _
      · simp only [Option.some.injEq, Prod.mk.injEq] at h
        rw [← h.1]
    · rw [e1, List.length_append, List.length_map, List.length_take]
      omega

theorem readBlock_of_disk_eq {bm bm1 : BlockManager} (hd : bm1.disk = bm.disk)
    (ht : bm1.totalBlocks = bm.totalBlocks) (hb : bm1.blockSize = bm.blockSize) (b : Int)
    (buf : List Char) : bm1.readBlock b buf = bm.readBlock b buf := by
  unfold readBlock
  rw [hd, ht, hb]

/-- The body of the file loop returns for a record the pass can handle, and writes at most
to the index block of the record. -/
theorem repairFile_total {blockSize : Nat} {bm : BlockManager} {fm : FileMeta}
    (hb : bm.blockSize = blockSize) (hr : Repairable bm blockSize fm) :
    ∃ bm' fm', repairFile bm.totalBlocks blockSize bm fm = some (bm', fm') ∧
      bm'.totalBlocks = bm.totalBlocks ∧ bm'.blockSize = blockSize ∧
      (fm'.blocks.length : Int) ≤ ceilDiv fm.fileSize blockSize ∧
      ∀ b : Int, b ≠ fm.indexBlock → (bm'.readBlock b []).2 = (bm.readBlock b []).2 := by
  obtain ⟨hidx, hsize, hcap, hdec⟩ := hr
  have hbs : 0 < blockSize := by omega
  have hnn := ceilDiv_nonneg blockSize hsize
  have hvb : ∀ b ∈ fm.blocks.filter (fun b => decide (0 ≤ b ∧ b < (bm.totalBlocks : Int))),
      0 ≤ b ∧ b < (bm.totalBlocks : Int) :=
    fun b hb => by simpa using (List.mem_filter.1 hb).2
  obtain ⟨bm1, blocks1, size1, hrb, ht1, hb1, _⟩ := repairBlocks_spec hbs bm
    (fm.blocks.filter (fun b => 0 ≤ b ∧ b < (bm.totalBlocks : Int))) fm.fileSize hsize hvb
  obtain ⟨hd1, hle⟩ := repairBlocks_disk hbs hsize hvb hrb
  have hread : ∀ b, bm1.readBlock b [] = bm.readBlock b [] :=
    fun b => readBlock_of_disk_eq hd1 ht1 hb1 b []
  unfold repairFile
  dsimp only
  rw [hrb]
  dsimp only
  unfold repairIndex
  dsimp only
  rw [if_pos (show fm.indexBlock ≥ 0 from hidx), hread]
  by_cases h1 : (bm.readBlock fm.indexBlock []).1 = true
  · rw [if_pos h1]
    by_cases h2 : (((bm.readBlock fm.indexBlock []).2.length : Nat) : Int) ≥ 4
    · rw [if_pos h2]
      obtain ⟨iblocks, hib⟩ := Option.isSome_iff_exists.1 hdec
      rw [hib]
      dsimp only
      by_cases h3 : iblocks ≠ blocks1
      · rw [if_pos h3]
        have hw : (Serializer.writeIndexBlock bm1
            { fm with blocks := blocks1, fileSize := size1 }).isSome = true := by
          rw [Serializer.writeIndexBlock_isSome, hb1, hb]
          apply decide_eq_true
          show 4 + 4 * blocks1.length ≤ blockSize
          omega
        obtain ⟨bm2, hbm2⟩ := Option.isSome_iff_exists.1 hw
        rw [hbm2]
        have hfr := Serializer.writeIndexBlock_frame hbm2
        refine ⟨_, _, rfl, by rw [hfr.totalBlocks_eq, ht1],
          by rw [hfr.blockSize_eq, hb1, hb], hle, ?_⟩
        intro b hbne
        rw [readBlock_congr hfr b (fun h0 hc => hbne (by
          have hc' : ((b.toNat : Nat) : Int) = fm.indexBlock := hc
          rw [← hc']; exact (Int.toNat_of_nonneg h0).symm)), hread]
      · rw [if_neg h3]
        exact ⟨_, _, rfl, ht1, by rw [hb1, hb], hle, fun b _ => by rw [hread]⟩
    · rw [if_neg h2]
      exact ⟨_, _, rfl, ht1, by rw [hb1, hb], hle, fun b _ => by rw [hread]⟩
  · rw [if_neg h1]
    exact ⟨_, _, rfl, ht1, by rw [hb1, hb], hle, fun b _ => by rw [hread]⟩

end FileSystem

namespace FileSystem
open BlockManager

theorem repairable_congr_read {bm bm' : BlockManager} {blockSize : Nat} {fm : FileMeta}
    (h : Repairable bm blockSize fm)
    (hread : (bm'.readBlock fm.indexBlock []).2 = (bm.readBlock fm.indexBlock []).2) :
    Repairable bm' blockSize fm := by
  obtain ⟨h1, h2, h3, h4⟩ := h
  exact ⟨h1, h2, h3, by rw [hread]; exact h4⟩

theorem repairFiles_total {blockSize : Nat} :
    ∀ (files : List (String × FileMeta)) (bm : BlockManager), bm.blockSize = blockSize →
      (∀ p ∈ files, Repairable bm blockSize p.2) →
      (files.map (fun p => p.2.indexBlock)).Nodup →
      ∃ bm' files', repairFiles bm.totalBlocks blockSize bm files = some (bm', files') ∧
        bm'.totalBlocks = bm.totalBlocks ∧ bm'.blockSize = blockSize ∧
        (∀ p' ∈ files', 4 + 4 * p'.2.blocks.length ≤ blockSize) ∧
        ∀ b : Int, (∀ p ∈ files, b ≠ p.2.indexBlock) →
          (bm'.readBlock b []).2 = (bm.readBlock b []).2 := by
  intro files
  induction files with
  | nil =>
    intro bm hb _ _
    exact ⟨bm, [], rfl, rfl, hb, fun _ h => absurd h (List.not_mem_nil _), fun _ _ => rfl⟩
  | cons p rest ih =>
    intro bm hb hr hnd
    obtain ⟨k, fm⟩ := p
    rw [List.map_cons, List.nodup_cons] at hnd
    have hfm := hr (k, fm) (List.mem_cons_self _ _)
    obtain ⟨bm1, fm1, h1, t1, b1, l1, f1⟩ := repairFile_total hb hfm
    have hne : ∀ q ∈ rest, q.2.indexBlock ≠ fm.indexBlock := fun q hq hc =>
      hnd.1 (List.mem_map.2 ⟨q, hq, hc⟩)
    obtain ⟨bm2, rest1, h2, t2, b2, l2, f2⟩ := ih bm1 b1
      (fun q hq => repairable_congr_read (hr q (List.mem_cons_of_mem _ hq))
        (f1 _ (hne q hq))) hnd.2
    refine ⟨bm2, (k, fm1) :: rest1, ?_, by rw [t2, t1], b2, ?_, ?_⟩
    · rw [repairFiles, h1]
      dsimp only
      rw [← t1, h2]
    · intro p' hp'
      rcases List.mem_cons.1 hp' with rfl | hp'
      · obtain ⟨_, hsz, hcap, _⟩ := hfm
        have hnn := ceilDiv_nonneg blockSize hsz
        show 4 + 4 * fm1.blocks.length ≤ blockSize
        omega
      · exact l2 p' hp'
    · intro b hbn
      rw [f2 b (fun q hq => hbn q (List.mem_cons_of_mem _ hq)),
        f1 b (hbn (k, fm) (List.mem_cons_self _ _))]

mutual
theorem repairWalk_total {blockSize : Nat} :
    ∀ (d : Directory) (bm : BlockManager), bm.blockSize = blockSize →
      (∀ fm ∈ d.allFiles, Repairable bm blockSize fm) →
      (d.allFiles.map (fun fm => fm.indexBlock)).Nodup →
      ∃ bm' d', repairWalk bm.totalBlocks blockSize bm d = some (bm', d') ∧
        bm'.totalBlocks = bm.totalBlocks ∧ bm'.blockSize = blockSize ∧
        (∀ fm' ∈ d'.allFiles, 4 + 4 * fm'.blocks.length ≤ blockSize) ∧
        ∀ b : Int, (∀ fm ∈ d.allFiles, b ≠ fm.indexBlock) →
          (bm'.readBlock b []).2 = (bm.readBlock b []).2
  | .mk n pm files subdirs, bm, hb, hr, hnd => by
    rw [allFiles_mk] at hr hnd
    rw [List.map_append, List.nodup_append] at hnd
    obtain ⟨hnd1, hnd2, hdisj⟩ := hnd
    obtain ⟨bm1, files1, h1, t1, b1, l1, f1⟩ := repairFiles_total files bm hb
      (fun p hp => hr p.2 (List.mem_append_right _ (List.mem_map_of_mem _ hp)))
      (by simpa [List.map_map] using hnd2)
    obtain ⟨bm2, subdirs1, h2, t2, b2, l2, f2⟩ := repairWalks_total subdirs bm1 b1
      (fun fm hfm => repairable_congr_read (hr fm (List.mem_append_left _ hfm))
        (f1 _ (fun p hp hc => hdisj (List.mem_map_of_mem _ hfm)
          (by rw [hc]; exact List.mem_map.2 ⟨p.2, List.mem_map_of_mem _ hp, rfl⟩))))
      hnd1
    refine ⟨bm2, .mk n pm files1 subdirs1, ?_, by rw [t2, t1], b2, ?_, ?_⟩
    · rw [repairWalk, h1]
      dsimp only
      rw [← t1, h2]
    · intro fm' hfm'
      rw [allFiles_mk] at hfm'
      rcases List.mem_append.1 hfm' with h | h
      · exact l2 fm' h
      · obtain ⟨p', hp', rfl⟩ := List.mem_map.1 h
        exact l1 p' hp'
    · intro b hbn
      rw [allFiles_mk] at hbn
      rw [f2 b (fun fm hfm => hbn fm (List.mem_append_left _ hfm)),
        f1 b (fun p hp => hbn p.2 (List.mem_append_right _ (List.mem_map_of_mem _ hp)))]
theorem repairWalks_total {blockSize : Nat} :
    ∀ (ds : List Directory) (bm : BlockManager), bm.blockSize = blockSize →
      (∀ fm ∈ ds.flatMap Directory.allFiles, Repairable bm blockSize fm) →
      ((ds.flatMap Directory.allFiles).map (fun fm => fm.indexBlock)).Nodup →
      ∃ bm' ds', repairWalks bm.totalBlocks blockSize bm ds = some (bm', ds') ∧
        bm'.totalBlocks = bm.totalBlocks ∧ bm'.blockSize = blockSize ∧
        (∀ fm' ∈ ds'.flatMap Directory.allFiles, 4 + 4 * fm'.blocks.length ≤ blockSize) ∧
        ∀ b : Int, (∀ fm ∈ ds.flatMap Directory.allFiles, b ≠ fm.indexBlock) →
          (bm'.readBlock b []).2 = (bm.readBlock b []).2
  | [], bm, hb, _, _ =>
    ⟨bm, [], rfl, rfl, hb, fun _ h => absurd h (List.not_mem_nil _), fun _ _ => rfl⟩
  | d :: ds, bm, hb, hr, hnd => by
    rw [List.flatMap_cons] at hr hnd
    rw [List.map_append, List.nodup_append] at hnd
    obtain ⟨hnd1, hnd2, hdisj⟩ := hnd
    obtain ⟨bm1, d1, h1, t1, b1, l1, f1⟩ := repairWalk_total d bm hb
      (fun fm hfm => hr fm (List.mem_append_left _ hfm)) hnd1
    obtain ⟨bm2, ds1, h2, t2, b2, l2, f2⟩ := repairWalks_total ds bm1 b1
      (fun fm hfm => repairable_congr_read (hr fm (List.mem_append_right _ hfm))
        (f1 _ (fun g hg hc => hdisj (List.mem_map_of_mem _ hg)
          (by rw [← hc]; exact List.mem_map_of_mem _ hfm))))
      hnd2
    refine ⟨bm2, d1 :: ds1, ?_, by rw [t2, t1], b2, ?_, ?_⟩
    · rw [repairWalks, h1]
      dsimp only
      rw [← t1, h2]
    · intro fm' hfm'
      rw [List.flatMap_cons] at hfm'
      rcases List.mem_append.1 hfm' with h | h
      · exact l1 fm' h
      · exact l2 fm' h
    · intro b hbn
      rw [List.flatMap_cons] at hbn
      rw [f2 b (fun fm hfm => hbn fm (List.mem_append_right _ hfm)),
        f1 b (fun fm hfm => hbn fm (List.mem_append_left _ hfm))]
end

end FileSystem
namespace FileSystem
open BlockManager

/-- The call `checkMeta(true)` returns when the bitmap covers the disk, the records have
distinct index blocks and the repair pass can handle every record. -/
theorem checkMeta_repair_returns (fs : FileSystem)
    (hlen : fs.bm.freeBlockBitmap.length = fs.bm.totalBlocks)
    (hrep : ∀ fm ∈ fs.root.allFiles, Repairable fs.bm fs.bm.blockSize fm)
    (hnd : (fs.root.allFiles.map (fun fm => fm.indexBlock)).Nodup) :
    ∃ orphan missing fs', checkMeta fs true = some (orphan, missing, fs') := by
  obtain ⟨used, orphan, missing, hs, _⟩ := checkScan_spec fs hlen
  unfold checkMeta
  rw [hs]
  dsimp only
  have e1 : (if (true = true) ∧ orphan ≠ [] then fs.bm.freeBlocks orphan else fs.bm) =
      fs.bm.freeBlocks orphan := by
    by_cases hoe : orphan = []
    · subst hoe; simp [BlockManager.freeBlocks]
    · simp [hoe]
  rw [e1]
  have e2 : (if (true = true) ∧ missing ≠ [] then
        missing.foldl BlockManager.markBlockUsed (fs.bm.freeBlocks orphan)
      else fs.bm.freeBlocks orphan) =
      missing.foldl BlockManager.markBlockUsed (fs.bm.freeBlocks orphan) := by
    by_cases hme : missing = []
    · subst hme; simp
    · simp [hme]
  rw [e2]
  have ht : (missing.foldl BlockManager.markBlockUsed (fs.bm.freeBlocks orphan)).totalBlocks =
      fs.bm.totalBlocks := by simp
  have hb : (missing.foldl BlockManager.markBlockUsed (fs.bm.freeBlocks orphan)).blockSize =
      fs.bm.blockSize := by
    have : ∀ (l : List Int) (bm : BlockManager),
        (l.foldl BlockManager.markBlockUsed bm).blockSize = bm.blockSize := by
      intro l
      induction l with
      | nil => intro bm; rfl
      | cons a l ih => intro bm; rw [List.foldl_cons, ih, markBlockUsed_blockSize]
    rw [this, freeBlocks_blockSize]
  have hd : (missing.foldl BlockManager.markBlockUsed (fs.bm.freeBlocks orphan)).disk =
      fs.bm.disk := by
    have : ∀ (l : List Int) (bm : BlockManager),
        (l.foldl BlockManager.markBlockUsed bm).disk = bm.disk := by
      intro l
      induction l with
      | nil => intro bm; rfl
      | cons a l ih => intro bm; rw [List.foldl_cons, ih, markBlockUsed_disk]
    rw [this, freeBlocks_disk]
  obtain ⟨bm3, root1, hw, _, b3, l3, _⟩ := repairWalk_total fs.root
    (missing.foldl BlockManager.markBlockUsed (fs.bm.freeBlocks orphan)) hb
    (fun fm hfm => repairable_congr_read (hrep fm hfm)
      (by rw [readBlock_of_disk_eq hd ht hb])) hnd
  rw [ht] at hw
  rw [hw]
  simp only [if_true]
  obtain ⟨bm4, hsave, _⟩ := Directory.saveDirectory_some { fs with bm := bm3, root := root1 }
    (fun fm hfm => by
      show 4 + 4 * fm.blocks.length ≤ bm3.blockSize
      rw [b3]; exact l3 fm hfm)
  rw [hsave]
  exact ⟨_, _, _, rfl⟩

theorem repairState_repairable :
    ∀ fm ∈ repairState.root.allFiles, Repairable repairState.bm repairState.bm.blockSize fm := by
  unfold Repairable
  decide

end FileSystem

/-- C34. The repair pass of `checkMeta`, for a positive block size and a tree whose records
have a size `≥ 0`. (1) When `checkMeta(repair = true)` returns, every record of the new tree
has only block indices in `[0, total)` and `ceil(size / blockSize)` data blocks, and each
record of the new tree comes from the record at the same place of the old tree by the block
step of the pass (`RepairedFrom`). (2) That step, on the valid blocks `vb` of a record and
the manager `bm` the pass has reached, never fails: with too many blocks it keeps the first
`ceil(size / blockSize)` of them and frees the others; with too few it appends the next free
blocks, marking them used; and when the free blocks run out the size becomes the number of
blocks times the block size (the step still returns, so the pass goes on with the next
record). (3) The call does return when the bitmap covers the disk, the records have distinct
index blocks, and for every record `ceil(size / blockSize)` block numbers fit the index
block and the index block holds a count that can be decoded (`Repairable`). -/
theorem checkMeta_repair_records (fs : FileSystem)
    (hbs : 0 < fs.bm.blockSize) (hsize : ∀ fm ∈ fs.root.allFiles, 0 ≤ fm.fileSize) :
    (∀ (orphan missing : List Int) (fs' : FileSystem),
      FileSystem.checkMeta fs true = some (orphan, missing, fs') →
      fs'.bm.totalBlocks = fs.bm.totalBlocks ∧
      (∀ fm' ∈ fs'.root.allFiles,
        (∀ b ∈ fm'.blocks, 0 ≤ b ∧ b < (fs.bm.totalBlocks : Int)) ∧
        (fm'.blocks.length : Int) = ceilDiv fm'.fileSize fs.bm.blockSize) ∧
      List.Forall₂ (RepairedFrom fs.bm.totalBlocks fs.bm.blockSize)
        fs.root.allFiles fs'.root.allFiles) ∧
    (∀ (bm : BlockManager) (vb : List Int) (size : Int), 0 ≤ size →
      (∀ b ∈ vb, 0 ≤ b ∧ b < (bm.totalBlocks : Int)) →
      ∃ bm1 blocks1 size1,
        FileSystem.repairBlocks fs.bm.blockSize bm vb size = some (bm1, blocks1, size1) ∧
        (ceilDiv size fs.bm.blockSize < (vb.length : Int) →
          blocks1 = vb.take (ceilDiv size fs.bm.blockSize).toNat ∧ size1 = size ∧
          bm1 = bm.freeBlocks (vb.drop (ceilDiv size fs.bm.blockSize).toNat)) ∧
        ((vb.length : Int) ≤ ceilDiv size fs.bm.blockSize →
          blocks1 = vb ++ (bm.freeList.take
            (ceilDiv size fs.bm.blockSize - (vb.length : Int)).toNat).map Nat.cast ∧
          bm1.freeBlockBitmap = markList bm.freeBlockBitmap (bm.freeList.take
            (ceilDiv size fs.bm.blockSize - (vb.length : Int)).toNat) false ∧
          ((ceilDiv size fs.bm.blockSize - (vb.length : Int)).toNat ≤ bm.freeList.length →
            size1 = size) ∧
          (bm.freeList.length < (ceilDiv size fs.bm.blockSize - (vb.length : Int)).toNat →
            size1 = (blocks1.length : Int) * (fs.bm.blockSize : Int)))) ∧
    (fs.bm.freeBlockBitmap.length = fs.bm.totalBlocks →
      (fs.root.allFiles.map (fun fm => fm.indexBlock)).Nodup →
      (∀ fm ∈ fs.root.allFiles, Repairable fs.bm fs.bm.blockSize fm) →
      ∃ orphan missing fs', FileSystem.checkMeta fs true = some (orphan, missing, fs')) := by
  refine ⟨?_, ?_, ?_⟩
  · intro orphan missing fs' h
    obtain ⟨bm2, bm3, ht2, hw, ht3⟩ := FileSystem.checkMeta_repair_walk h
    obtain ⟨t3, hrel⟩ := FileSystem.repairWalk_repaired hbs fs.root bm2 bm3 fs'.root hsize hw
    rw [ht2] at hrel
    refine ⟨by rw [ht3, t3, ht2], ?_, hrel⟩
    intro fm' hfm'
    obtain ⟨fm, hfm, bm, bm1, htot, hrb⟩ := FileSystem.forall₂_mem_right hrel fm' hfm'
    obtain ⟨bm1', blocks1, size1, hrb', _, _, hvalid, hcount, _⟩ :=
      FileSystem.repairBlocks_spec hbs bm
        (fm.blocks.filter (fun b => 0 ≤ b ∧ b < (fs.bm.totalBlocks : Int))) fm.fileSize
        (hsize fm hfm) (fun b hb => by
          rw [htot]; simpa using (List.mem_filter.1 hb).2)
    rw [hrb] at hrb'
    simp only [Option.some.injEq, Prod.mk.injEq] at hrb'
    obtain ⟨_, hb, hsz⟩ := hrb'
    rw [hb, hsz]
    exact ⟨fun b hb1 => by rw [← htot]; exact hvalid b hb1, hcount⟩
  · intro bm vb size hs hvb
    obtain ⟨bm1, blocks1, size1, hrb, _, _, _, _, hmany, hfew⟩ :=
      FileSystem.repairBlocks_spec hbs bm vb size hs hvb
    exact ⟨bm1, blocks1, size1, hrb, hmany, hfew⟩
  · intro hlen hnd hrep
    exact FileSystem.checkMeta_repair_returns fs hlen hrep hnd

set_option maxRecDepth 100000 in
set_option synthInstance.maxSize 4096 in
/-- C34, worked example: in `repairState` (7 blocks of 16 bytes, none free) the pass cuts
`a` (10 bytes, valid blocks 2 and 3) to the block 2 and frees block 3; `b` (48 bytes, block
5) needs two more blocks, gets the only free one, 3, and its size becomes `2 * 16 = 32`; the
pass goes on to `c` (16 bytes, no block), for which no block is left, and its size becomes
0. Afterwards every record has `ceil(size / 16)` valid blocks. The state meets the
conditions under which the call is known to return. -/
theorem checkMeta_repair_records_witness :
    ∃ fs', FileSystem.checkMeta repairState true = some ([], [], fs') ∧
      fs'.root.allFiles.map (fun fm => (fm.filename, fm.fileSize, fm.blocks)) =
        [("a", 10, [2]), ("b", 32, [5, 3]), ("c", 0, [])] ∧
      (∀ fm' ∈ fs'.root.allFiles,
        (∀ b ∈ fm'.blocks, 0 ≤ b ∧ b < (repairState.bm.totalBlocks : Int)) ∧
        (fm'.blocks.length : Int) = ceilDiv fm'.fileSize repairState.bm.blockSize) ∧
      ∃ orphan missing fs1, FileSystem.checkMeta repairState true =
        some (orphan, missing, fs1) := by
  have h := FileSystem.eq_some_of_map_report (FileSystem.checkMeta repairState true) [] []
    repairState (by decide!)
  have hthm := checkMeta_repair_records repairState (by decide) (by decide)
  exact ⟨_, h, by decide!, (hthm.1 _ _ _ h).2.1,
    hthm.2.2 (by decide) (by decide) FileSystem.repairState_repairable⟩

end VirtFS
